import Mathlib

/-!
# Verification development for the BuzzDB storage and execution core

Shallow embedding of `external_sort` (hw1), the buffer manager (hw2), the
B+-tree (hw3) and the query operators (hw4) together with the properties
established about them.

Unsigned machine integers are modelled as natural numbers, the `int64_t` values
of the operators as integers.  Files are modelled at the
granularity of 64-bit words: every offset and length that `external_sort`
passes to `read_block`/`write_block` is a multiple of `sizeof(uint64_t) = 8`,
so byte offsets are kept as in the source and divided by 8 inside the file
operations.
-/

set_option autoImplicit false

namespace ExternalSort

/-- File open modes (`File::Mode`). -/
inductive Mode where
  | READ
  | WRITE
  deriving DecidableEq, Repr

/-- Modelled from the spec: the file abstraction (`storage/file.h`) is an
external collaborator that is not part of the sources.  A file is its open
mode and its contents as a sequence of 64-bit words. -/
structure File where
  mode : Mode
  words : List Nat
  deriving Repr

/-- Implementation of `sizeof(uint64_t)`. -/
def wordBytes : Nat := 8

/-- Modelled from the spec: `File::size()` in bytes. -/
def File.size (f : File) : Nat := wordBytes * f.words.length

/-- Modelled from the spec: `File::resize(new_size)` truncates, or extends with
zero bytes. -/
def File.resize (f : File) (new_size : Nat) : File :=
  { f with
    words := List.take (new_size / wordBytes)
      (f.words ++ List.replicate (new_size / wordBytes - f.words.length) 0) }

/-- Modelled from the spec: `File::read_block(offset, size, dst)`, the words
read. -/
def File.read_block (f : File) (offset size : Nat) : List Nat :=
  (f.words.drop (offset / wordBytes)).take (size / wordBytes)

/-- Overwrite the words of `ws` starting at word index `i` with `block`,
growing the sequence (zero filled) when the block reaches past its end. -/
def overwrite (ws : List Nat) (i : Nat) (block : List Nat) : List Nat :=
  List.take i (ws ++ List.replicate (i - ws.length) 0) ++ block ++ ws.drop (i + block.length)

/-- Modelled from the spec: `File::write_block(src, offset, size)`. -/
def File.write_block (f : File) (block : List Nat) (offset size : Nat) : File :=
  { f with words := overwrite f.words (offset / wordBytes) (block.take (size / wordBytes)) }

/-- Modelled from the spec: `File::make_temporary_file()`, an empty writable
file. -/
def make_temporary_file : File := { mode := Mode.WRITE, words := [] }

/-- The heap entry `struct element` of the merge phase. -/
structure element where
  value : Nat
  read_offset : Nat
  eof_offset : Nat
  chunk_id : Nat
  deriving Repr

/-- Removal of the top of the `std::priority_queue` ordered by
`e1.value > e2.value`: an entry of least value together with the remaining
entries.  (Among entries of equal value the first one is taken; the source
leaves that choice to the heap, and only `value` reaches the output.) -/
def extractMin : List element → Option (element × List element)
  | [] => none
  | e :: rest =>
    match extractMin rest with
    | none => some (e, [])
    | some (m, rest') => if e.value ≤ m.value then some (e, rest) else some (m, e :: rest')

/-- The chunk phase (source lines 36-53): chunk `i` is read from the input,
sorted with `std::sort` and written to its own temporary file. -/
def make_chunk (input : File) (mem_size num_chunks chunk_size last_chunk_size overflow i : Nat) :
    File :=
  let this_chunk_size := if i = num_chunks - 1 then last_chunk_size else chunk_size
  let this_mem_size :=
    if overflow = 0 then mem_size else if i = num_chunks - 1 then overflow else mem_size
  let chunk := (input.read_block (i * mem_size) this_mem_size).take this_chunk_size
  let sorted := chunk.insertionSort (· ≤ ·)
  make_temporary_file.write_block sorted 0 this_mem_size

/-- The merge loop (source lines 92-105).  The loop runs while the queue is
not empty and `write_pos < num_values`; `write_pos` grows by one per
iteration, so `fuel = num_values - write_pos` iterations always suffice.
Every entry of the queue has `eof_offset >= 1` (a chunk holds at least one
value), so the unsigned `eof_offset - 1` does not wrap; the read of the next
value stays inside the chunk file, so `value_buffer` is always overwritten. -/
def merge_loop (chunk_file_registry : List File) (num_values : Nat) :
    Nat → List element → Nat → File → File
  | 0, _, _, output => output
  | fuel + 1, pq, write_pos, output =>
    match extractMin pq with
    | none => output
    | some (e_buffer, pq') =>
      if write_pos < num_values then
        let output' := output.write_block [e_buffer.value] (write_pos * wordBytes) wordBytes
        if e_buffer.read_offset < e_buffer.eof_offset - 1 then
          let read_offset := e_buffer.read_offset + 1
          let value_buffer :=
            ((chunk_file_registry.getD e_buffer.chunk_id make_temporary_file).read_block
              (read_offset * wordBytes) wordBytes).headD e_buffer.value
          merge_loop chunk_file_registry num_values fuel
            (pq' ++ [{ e_buffer with read_offset := read_offset, value := value_buffer }])
            (write_pos + 1) output'
        else
          merge_loop chunk_file_registry num_values fuel pq' (write_pos + 1) output'
      else output

/-- Implementation of `external_sort(input, num_values, output, mem_size)`;
the result is the output file after the call. -/
def external_sort (input : File) (num_values : Nat) (output : File) (mem_size : Nat) : File :=
  if input.mode ≠ Mode.READ ∨ output.mode ≠ Mode.WRITE then output
  else
    let mem_size := mem_size - mem_size % wordBytes
    let output := output.resize input.size
    let num_chunks := (num_values * wordBytes + mem_size - 1) / mem_size
    let chunk_size := mem_size / wordBytes
    let overflow := num_values * wordBytes % mem_size
    let last_chunk_size := if overflow ≠ 0 then overflow / wordBytes else chunk_size
    let chunk_file_registry := (List.range num_chunks).map
      (make_chunk input mem_size num_chunks chunk_size last_chunk_size overflow)
    let structs_vector := (List.range num_chunks).map fun i =>
      ({ value := ((chunk_file_registry.getD i make_temporary_file).read_block 0 wordBytes).headD 0
         read_offset := 0
         eof_offset := if i = num_chunks - 1 then last_chunk_size else chunk_size
         chunk_id := i } : element)
    merge_loop chunk_file_registry num_values num_values structs_vector 0 output

/-- The calls that `external_sort` makes on files other than the output, in
program order: the `input.read_block(offset, size, _)` calls of the chunk phase
(source line 46) and the temporary files created by
`File::make_temporary_file()` (line 42) as they are when the chunk phase ends. -/
structure Effects where
  input_reads : List (Nat × Nat)
  temporary_files : List File
  deriving Repr

/-- The effects of `external_sort(input, num_values, output, mem_size)` on its
input and on temporary files: none when the mode check of line 25 returns, and
one read and one temporary file per chunk otherwise. -/
def external_sort_effects (input : File) (num_values : Nat) (output : File) (mem_size : Nat) :
    Effects :=
  if input.mode ≠ Mode.READ ∨ output.mode ≠ Mode.WRITE then
    { input_reads := [], temporary_files := [] }
  else
    let mem_size := mem_size - mem_size % wordBytes
    let num_chunks := (num_values * wordBytes + mem_size - 1) / mem_size
    let chunk_size := mem_size / wordBytes
    let overflow := num_values * wordBytes % mem_size
    let last_chunk_size := if overflow ≠ 0 then overflow / wordBytes else chunk_size
    { input_reads := (List.range num_chunks).map fun i =>
        (i * mem_size,
          if overflow = 0 then mem_size else if i = num_chunks - 1 then overflow else mem_size)
      temporary_files := (List.range num_chunks).map
        (make_chunk input mem_size num_chunks chunk_size last_chunk_size overflow) }

/-- The words of the chunk file of entry `e` that the merge has not yet written. -/
def remaining (reg : List File) (e : element) : List Nat :=
  (reg.getD e.chunk_id make_temporary_file).words.drop e.read_offset

/-- Well-formedness of a heap entry with respect to the chunk files. -/
def ElemOk (reg : List File) (e : element) : Prop :=
  (reg.getD e.chunk_id make_temporary_file).words.Sorted (· ≤ ·) ∧
  e.eof_offset = (reg.getD e.chunk_id make_temporary_file).words.length ∧
  ∃ tl, remaining reg e = e.value :: tl

end ExternalSort

/-!
## Buffer manager (single-threaded histories)

The model follows `buffer_manager.cc` for one thread: the global mutex is
always free when a call starts, so only the frame latches can make a call wait,
and a call that would wait on a latch held by the same thread never returns.
A frame's `data` pointer is modelled by the index of its slot in the pool
`loaded_pages`; the positions `fifo_position`/`lru_position` are modelled by
whether they differ from the `end()` of their list; the lists hold page ids in
place of frame pointers.  The last section of the definitions lets calls of
other threads complete while `evict_page` has released the global latch.
-/

namespace Buffer

/-- Modelled from the spec: the file abstraction (`storage/file.h`) is an
external collaborator that is not part of the sources.  The buffer manager
reads, writes and resizes a segment file only in whole pages at offsets
`segment_page_id * page_size`, so a file is modelled by its sequence of
`page_size`-byte blocks; `resize` extends with zero bytes and a block that was
never written reads as zeros. -/
structure File where
  blocks : List (List Nat)

/-- A page of zero bytes. -/
def zeros (page_size : Nat) : List Nat := List.replicate page_size 0

/-- Modelled from the spec: `File::size()` in bytes. -/
def File.size (page_size : Nat) (f : File) : Nat := f.blocks.length * page_size

/-- Modelled from the spec: `File::resize((n) * page_size)`, growing the file to
`n` pages with zero bytes (the buffer manager only ever grows a file). -/
def File.resize (page_size : Nat) (f : File) (n : Nat) : File :=
  { blocks := f.blocks ++ List.replicate (n - f.blocks.length) (zeros page_size) }

/-- Modelled from the spec: `File::read_block(i * page_size, page_size, dst)`. -/
def File.read_block (page_size : Nat) (f : File) (i : Nat) : List Nat :=
  f.blocks.getD i (zeros page_size)

/-- Modelled from the spec: `File::write_block(src, i * page_size, page_size)`. -/
def File.write_block (page_size : Nat) (f : File) (src : List Nat) (i : Nat) : File :=
  { blocks := (f.blocks ++ List.replicate (i + 1 - f.blocks.length) (zeros page_size)).set i src }

/-- The enum `BufferFrameState`. -/
inductive BufferFrameState where
  | NEW
  | UNMOD
  | MOD
  | EVICT
  | RELOAD
  deriving DecidableEq, Repr

/-- The class `BufferFrame`.  `exclusively_locked` also stands for the
exclusive side of `shared_mutex` (the flag is set exactly while the latch is
held exclusively), `shared_locks` counts the holders of its shared side. -/
structure BufferFrame where
  state : BufferFrameState
  pId : Nat
  data : Option Nat
  num_fixed : Nat
  exclusively_locked : Bool
  shared_locks : Nat
  isDirty : Bool
  fifo_position : Bool
  lru_position : Bool
  deriving DecidableEq, Repr

/-- Implementation of `BufferFrame::lock`; `none` when the latch cannot be
acquired (the calling thread would wait for ever). -/
def BufferFrame.lock (f : BufferFrame) (exclusive_lock : Bool) : Option BufferFrame :=
  if !exclusive_lock then
    if f.exclusively_locked then none else some { f with shared_locks := f.shared_locks + 1 }
  else
    if f.exclusively_locked || f.shared_locks != 0 then none
    else some { f with exclusively_locked := true }

/-- Implementation of `BufferFrame::unlock`; `none` when the latch is not held
(undefined behaviour). -/
def BufferFrame.unlock (f : BufferFrame) : Option BufferFrame :=
  if !f.exclusively_locked then
    if f.shared_locks = 0 then none else some { f with shared_locks := f.shared_locks - 1 }
  else some { f with exclusively_locked := false }

/-- The class `BufferManager`: `loaded_pages` by slot, `segment_files` by
segment id (a segment that was never opened is the file found on disk),
`bufferframes` as the list of its frames. -/
structure BufferManager where
  page_size : Nat
  page_count : Nat
  fifo_list : List Nat
  lru_list : List Nat
  loaded_pages : Nat → List Nat
  segment_files : Nat → File
  bufferframes : List BufferFrame

/-- Implementation of the constructor `BufferManager(page_size, page_count)`,
over the segment files `disk`. -/
def BufferManager.new (page_size page_count : Nat) (disk : Nat → File) : BufferManager :=
  { page_size := page_size, page_count := page_count, fifo_list := [], lru_list := [],
    loaded_pages := fun _ => zeros page_size, segment_files := disk, bufferframes := [] }

/-- Implementation of `get_segment_id`: `page_id >> 48`, which for a 64-bit page
id fits the `uint16_t` result. -/
def get_segment_id (page_id : Nat) : Nat := page_id / 2 ^ 48

/-- Implementation of `get_segment_page_id`: `page_id & ((1ull << 48) - 1)`. -/
def get_segment_page_id (page_id : Nat) : Nat := page_id % 2 ^ 48

/-- Implementation of `bufferframes.find(page_id)`. -/
def BufferManager.find (bm : BufferManager) (page_id : Nat) : Option BufferFrame :=
  bm.bufferframes.find? (fun f => f.pId == page_id)

/-- Assignment to the frame of `page_id` inside `bufferframes`. -/
def BufferManager.setFrame (bm : BufferManager) (page_id : Nat) (g : BufferFrame) :
    BufferManager :=
  { bm with bufferframes := bm.bufferframes.map (fun f => if f.pId == page_id then g else f) }

/-- Implementation of `bufferframes.erase(page_id)`. -/
def BufferManager.eraseFrame (bm : BufferManager) (page_id : Nat) : BufferManager :=
  { bm with bufferframes := bm.bufferframes.filter (fun f => f.pId != page_id) }

/-- Implementation of `get_fifo_list`. -/
def BufferManager.get_fifo_list (bm : BufferManager) : List Nat := bm.fifo_list

/-- Implementation of `get_lru_list`. -/
def BufferManager.get_lru_list (bm : BufferManager) : List Nat := bm.lru_list

/-- The test `page->state == MOD && page->get_num_fixed() == 0` of `evict_page`
on the frame a list entry points to. -/
def BufferManager.evictable (bm : BufferManager) (page_id : Nat) : Bool :=
  match bm.find page_id with
  | some page => page.state == BufferFrameState.MOD && page.num_fixed == 0
  | none => false

/-- The victim chosen by the two `for` loops of `evict_page`. -/
def BufferManager.victim (bm : BufferManager) : Option Nat :=
  match bm.fifo_list.find? bm.evictable with
  | some p => some p
  | none => bm.lru_list.find? bm.evictable

/-- Implementation of `evict_page`: the returned data pointer (`none` for
`nullptr`) and the buffer manager afterwards.  With one thread nobody can set
the victim to `RELOAD` during the write, so the loop body runs once. -/
def evict_page (bm : BufferManager) : Option Nat × BufferManager :=
  match bm.victim with
  | none => (none, bm)
  | some pid =>
    match bm.find pid with
    | none => (none, bm)
    | some page_to_evict =>
      let segment_files :=
        if page_to_evict.isDirty then
          Function.update bm.segment_files (get_segment_id pid)
            ((bm.segment_files (get_segment_id pid)).write_block bm.page_size
              (match page_to_evict.data with
                | some slot => bm.loaded_pages slot
                | none => zeros bm.page_size)
              (get_segment_page_id pid))
        else bm.segment_files
      let fifo_list := if !page_to_evict.lru_position then bm.fifo_list.erase pid else bm.fifo_list
      let lru_list := if !page_to_evict.lru_position then bm.lru_list else bm.lru_list.erase pid
      (page_to_evict.data,
        { bm with
          segment_files := segment_files
          fifo_list := fifo_list
          lru_list := lru_list
          bufferframes := bm.bufferframes.filter (fun f => f.pId != pid) })

/-- Result of a call of `fix_page`: it returns the frame of the page (the
buffer manager afterwards is given), it throws `buffer_full_error`, or it never
returns (it waits for a latch held by the calling thread itself). -/
inductive FixResult where
  | ok (bm : BufferManager)
  | buffer_full_error (bm : BufferManager)
  | never_returns

/-- The frame that `fix_page` emplaces for a page that is not in
`bufferframes` (source lines 102-108): state `NEW`, no data, in neither list,
`num_fixed = 1`, latched exclusively. -/
def transientFrame (page_id : Nat) : BufferFrame :=
  { state := BufferFrameState.NEW, pId := page_id, data := none, num_fixed := 1,
    exclusively_locked := true, shared_locks := 0, isDirty := false,
    fifo_position := false, lru_position := false }

/-- The frame of a page when `fix_page` has loaded it (source lines 124-154):
state `MOD`, not dirty, in the FIFO list, fixed once and latched as requested. -/
def loadedFrame (page_id data : Nat) (exclusive : Bool) : BufferFrame :=
  { state := BufferFrameState.MOD, pId := page_id, data := some data, num_fixed := 1,
    exclusively_locked := exclusive, shared_locks := if exclusive then 0 else 1,
    isDirty := false, fifo_position := true, lru_position := false }

/-- The test `file.size() < (segment_page_id + 1) * page_size` of `fix_page`. -/
def must_grow (bm : BufferManager) (page_id : Nat) : Bool :=
  (bm.segment_files (get_segment_id page_id)).size bm.page_size
    < (get_segment_page_id page_id + 1) * bm.page_size

/-- The bytes `fix_page` puts into the slot of a loaded page: zeros
(`memset`) when the segment file has to grow, else the page read from it. -/
def loaded_bytes (bm : BufferManager) (page_id : Nat) : List Nat :=
  if must_grow bm page_id then zeros bm.page_size
  else (bm.segment_files (get_segment_id page_id)).read_block bm.page_size
    (get_segment_page_id page_id)

/-- The segment files after `fix_page` has loaded a page: the file of the page
is resized when it did not hold the page yet. -/
def grown_files (bm : BufferManager) (page_id : Nat) : Nat → File :=
  if must_grow bm page_id then
    Function.update bm.segment_files (get_segment_id page_id)
      ((bm.segment_files (get_segment_id page_id)).resize bm.page_size
        (get_segment_page_id page_id + 1))
  else bm.segment_files

/-- Source lines 124-154 of `fix_page`: the transient frame of `page_id` gets
the pool slot `data`, is appended to the FIFO list, and the page is read from
its segment file, or zeroed when the file has to grow to hold it. -/
def finish_load (bm : BufferManager) (page_id data : Nat) (exclusive : Bool) : BufferManager :=
  { (bm.setFrame page_id (loadedFrame page_id data exclusive)) with
    fifo_list := bm.fifo_list ++ [page_id]
    loaded_pages := Function.update bm.loaded_pages data (loaded_bytes bm page_id)
    segment_files := grown_files bm page_id }

/-- The part of `fix_page` after the `while (true)` loop (source lines
101-155): the page is not in `bufferframes` and is loaded.  When no slot can be
had, the transient frame (whose `num_fixed` goes back to 0) is erased and
`buffer_full_error` is thrown. -/
def load_page (bm : BufferManager) (page_id : Nat) (exclusive : Bool) : FixResult :=
  let bm := { bm with bufferframes := bm.bufferframes ++ [transientFrame page_id] }
  let evicted : Option Nat × BufferManager :=
    if bm.bufferframes.length - 1 ≥ bm.page_count then evict_page bm
    else (some (bm.bufferframes.length - 1), bm)
  match evicted with
  | (none, bm) => FixResult.buffer_full_error (bm.eraseFrame page_id)
  | (some data, bm) => FixResult.ok (finish_load bm page_id data exclusive)

/-- Implementation of `BufferManager::fix_page(page_id, exclusive)`. -/
def fix_page (bm : BufferManager) (page_id : Nat) (exclusive : Bool) : FixResult :=
  match bm.find page_id with
  | some page =>
    let page := { page with num_fixed := page.num_fixed + 1 }
    if page.state = BufferFrameState.NEW then
      -- `lock(true); unlock();` and the state is still `NEW`
      match page.lock true with
      | none => FixResult.never_returns
      | some _ =>
        let page := { page with num_fixed := page.num_fixed - 1 }
        if page.num_fixed = 0 then load_page (bm.eraseFrame page_id) page_id exclusive
        else FixResult.never_returns
    else
      let page :=
        if page.state = BufferFrameState.EVICT then { page with state := BufferFrameState.RELOAD }
        else page
      let fifo_list := if !page.lru_position then bm.fifo_list.erase page_id else bm.fifo_list
      let lru_list :=
        if !page.lru_position then bm.lru_list ++ [page_id]
        else bm.lru_list.erase page_id ++ [page_id]
      let page :=
        { page with
          fifo_position := if !page.lru_position then false else page.fifo_position
          lru_position := true }
      match page.lock exclusive with
      | none => FixResult.never_returns
      | some page =>
        FixResult.ok
          { (bm.setFrame page_id page) with fifo_list := fifo_list, lru_list := lru_list }
  | none => load_page bm page_id exclusive

/-- Implementation of `BufferManager::unfix_page(page, is_dirty)` on the frame
of `page_id`; `none` when there is no such frame or its latch is not held
(undefined behaviour). -/
def unfix_page (bm : BufferManager) (page_id : Nat) (is_dirty : Bool) : Option BufferManager :=
  match bm.find page_id with
  | none => none
  | some page =>
    match page.unlock with
    | none => none
    | some page =>
      let page := if is_dirty then { page with isDirty := true } else page
      let page := { page with num_fixed := page.num_fixed - 1 }
      some (bm.setFrame page_id page)

/-- The bytes behind `get_data()` of the frame of `page_id`. -/
def BufferManager.get_data (bm : BufferManager) (page_id : Nat) : Option (List Nat) :=
  match bm.find page_id with
  | none => none
  | some page => page.data.map bm.loaded_pages

/-- A client that holds the frame of `page_id` exclusively overwrites the page
bytes behind `get_data()` with `bytes` (`page_size` bytes); `none` when the
page is not held exclusively. -/
def write_data (bm : BufferManager) (page_id : Nat) (bytes : List Nat) : Option BufferManager :=
  match bm.find page_id with
  | none => none
  | some page =>
    if page.exclusively_locked && bytes.length == bm.page_size then
      match page.data with
      | none => none
      | some slot => some { bm with loaded_pages := Function.update bm.loaded_pages slot bytes }
    else none

/-- A call made by the client thread. -/
inductive Call where
  | fix (page_id : Nat) (exclusive : Bool)
  | unfix (page_id : Nat) (is_dirty : Bool)
  | write (page_id : Nat) (bytes : List Nat)
  deriving DecidableEq, Repr

/-- The buffer manager after one call of the client thread (a `fix` that throws
`buffer_full_error` is caught by the client); `none` when the call never
returns or is not permitted. -/
def step (bm : BufferManager) : Call → Option BufferManager
  | Call.fix page_id exclusive =>
    match fix_page bm page_id exclusive with
    | FixResult.ok bm' => some bm'
    | FixResult.buffer_full_error bm' => some bm'
    | FixResult.never_returns => none
  | Call.unfix page_id is_dirty => unfix_page bm page_id is_dirty
  | Call.write page_id bytes => write_data bm page_id bytes

/-- The buffer manager after a history of calls. -/
def run (bm : BufferManager) : List Call → Option BufferManager
  | [] => some bm
  | c :: cs =>
    match step bm c with
    | none => none
    | some bm' => run bm' cs

/-! ### Closed forms of eviction and loading, used to state their effect -/

/-- The frame of a resident page after `fix_page` has pinned it and moved it to
the tail of the LRU list (source lines 66 and 83-93), before the latch is
taken. -/
def promoted (page : BufferFrame) : BufferFrame :=
  { page with
    num_fixed := page.num_fixed + 1
    fifo_position := if !page.lru_position then false else page.fifo_position
    lru_position := true }


/-- The buffer manager after `evict_page` has evicted the frame `victim` of
page `pid`. -/
def after_evict (bm : BufferManager) (pid : Nat) (victim : BufferFrame) : BufferManager :=
  { bm with
    segment_files :=
      if victim.isDirty then
        Function.update bm.segment_files (get_segment_id pid)
          ((bm.segment_files (get_segment_id pid)).write_block bm.page_size
            (match victim.data with
              | some slot => bm.loaded_pages slot
              | none => zeros bm.page_size)
            (get_segment_page_id pid))
      else bm.segment_files
    fifo_list := if !victim.lru_position then bm.fifo_list.erase pid else bm.fifo_list
    lru_list := if !victim.lru_position then bm.lru_list else bm.lru_list.erase pid
    bufferframes := bm.bufferframes.filter (fun f => f.pId != pid) }

/-- The buffer manager after `fix_page` has loaded the non-resident page
`page_id` into the pool slot `data`. -/
def after_load (bm : BufferManager) (page_id data : Nat) (exclusive : Bool) : BufferManager :=
  { bm with
    bufferframes := bm.bufferframes ++ [loadedFrame page_id data exclusive]
    fifo_list := bm.fifo_list ++ [page_id]
    loaded_pages := Function.update bm.loaded_pages data (loaded_bytes bm page_id)
    segment_files := grown_files bm page_id }

/-! ### What a history says about the bytes of a page -/

/-- The bytes of page `page_id` as the buffer manager holds them: the bytes of
its pool slot when the page is resident, else the bytes of its block in the
segment file. -/
def BufferManager.content (bm : BufferManager) (page_id : Nat) : List Nat :=
  match bm.find page_id with
  | some page =>
    match page.data with
    | some slot => bm.loaded_pages slot
    | none => zeros bm.page_size
  | none =>
    (bm.segment_files (get_segment_id page_id)).read_block bm.page_size
      (get_segment_page_id page_id)

/-- Bookkeeping about a history, kept beside the buffer manager: `last p` is
the bytes page `p` held when the most recent exclusive fix of `p` was unfixed
with `dirty = true`; `pending` lists the pages written under an exclusive fix
that has not been unfixed yet; `honest` tells whether every exclusive fix that
wrote to its page was unfixed with `dirty = true`. -/
structure Ghost where
  last : Nat → Option (List Nat)
  pending : List Nat
  honest : Bool

/-- The bookkeeping at the start of a history. -/
def Ghost.init : Ghost := { last := fun _ => none, pending := [], honest := true }

/-- Is the frame of `page_id` latched exclusively? -/
def BufferManager.held_exclusively (bm : BufferManager) (page_id : Nat) : Bool :=
  match bm.find page_id with
  | some page => page.exclusively_locked
  | none => false

/-- The bookkeeping after one call made in buffer manager state `bm`. -/
def Ghost.step (g : Ghost) (bm : BufferManager) : Call → Ghost
  | Call.fix _ _ => g
  | Call.write page_id _ => { g with pending := page_id :: g.pending }
  | Call.unfix page_id is_dirty =>
    if bm.held_exclusively page_id then
      if is_dirty then
        { g with
          last := Function.update g.last page_id (some (bm.content page_id))
          pending := g.pending.filter (fun q => q != page_id) }
      else
        { g with
          pending := g.pending.filter (fun q => q != page_id)
          honest := g.honest && !(g.pending.contains page_id) }
    else g

/-- The buffer manager and the bookkeeping after a history of calls. -/
def track (bm : BufferManager) (g : Ghost) : List Call → Option (BufferManager × Ghost)
  | [] => some (bm, g)
  | c :: cs =>
    match step bm c with
    | none => none
    | some bm' => track bm' (g.step bm c) cs

/-- The buffer manager after a history, or the buffer manager it started from
when the history does not complete. -/
def run_or (bm : BufferManager) (cs : List Call) : BufferManager := (run bm cs).getD bm

/-- The buffer manager and the bookkeeping after a history, or those it started
from when the history does not complete. -/
def track_or (bm : BufferManager) (g : Ghost) (cs : List Call) : BufferManager × Ghost :=
  (track bm g cs).getD (bm, g)

/-- A history in which page 1 is written and unfixed with `dirty = true`, and
then written again under an exclusive fix that is unfixed with `dirty = false`. -/
def unreported_write : List Call :=
  [Call.fix 1 true, Call.write 1 [1, 1, 1, 1], Call.unfix 1 true,
   Call.fix 1 true, Call.write 1 [2, 2, 2, 2], Call.unfix 1 false]

/-- A history with one frame in which page 1 is written, unfixed with
`dirty = true`, and evicted by a fix of page 2. -/
def write_then_evict : List Call :=
  [Call.fix 1 true, Call.write 1 [7, 7, 7, 7], Call.unfix 1 true,
   Call.fix 2 false, Call.unfix 2 false]

/-- The buffer manager after a completed `fix_page`; the buffer manager before
the call when it never returns. -/
def fix_or (bm : BufferManager) (page_id : Nat) (exclusive : Bool) : BufferManager :=
  match fix_page bm page_id exclusive with
  | FixResult.ok bm' => bm'
  | FixResult.buffer_full_error bm' => bm'
  | FixResult.never_returns => bm

/-- Does the call throw `buffer_full_error`? -/
def FixResult.is_buffer_full : FixResult → Bool
  | FixResult.buffer_full_error _ => true
  | _ => false

/-- Does the call return a frame? -/
def FixResult.is_ok : FixResult → Bool
  | FixResult.ok _ => true
  | _ => false

/-- Segment files that are all empty (nothing on disk yet). -/
def empty_disk : Nat → File := fun _ => { blocks := [] }

/-- The history of the hot-promotion scenario: fix and unfix page 1, page 2 and
page 1 again. -/
def hot_promotion : List Call :=
  [Call.fix 1 false, Call.unfix 1 false, Call.fix 2 false, Call.unfix 2 false,
   Call.fix 1 false, Call.unfix 1 false]

/-- The buffer manager as `evict_page` finds it when `fix_page` calls it for
the page `page_id` that is not in `bufferframes` (source lines 102-111): the
frame of the page has been emplaced in state `NEW`. -/
def with_transient (bm : BufferManager) (page_id : Nat) : BufferManager :=
  { bm with bufferframes := bm.bufferframes ++ [transientFrame page_id] }

/-! ### Eviction while other threads run

`evict_page` releases the global latch while it writes a dirty victim back
(source lines 218-220).  Calls of other threads can complete in that window;
they are modelled as a list of calls run against the buffer manager between
the two halves of the round. -/

/-- Where one round of the loop of `evict_page` stands after victim selection
(source lines 186-218). -/
inductive EvictRound where
  /-- No frame can be evicted: `return nullptr` (line 206). -/
  | no_victim
  /-- The victim is not dirty: `break` (line 211). -/
  | clean (page_id : Nat)
  /-- The victim is dirty: its bytes were copied (lines 214-216) and the global
  latch is released for the write (line 218). -/
  | writing (page_id : Nat) (page_copy : List Nat)

/-- Source lines 186-218 of `evict_page`: the victim is selected and its state
is set to `EVICT`. -/
def evict_select (bm : BufferManager) : EvictRound × BufferManager :=
  match bm.victim with
  | none => (EvictRound.no_victim, bm)
  | some pid =>
    match bm.find pid with
    | none => (EvictRound.no_victim, bm)
    | some page_to_evict =>
      let bm' := bm.setFrame pid { page_to_evict with state := BufferFrameState.EVICT }
      if !page_to_evict.isDirty then (EvictRound.clean pid, bm')
      else
        (EvictRound.writing pid
          (match page_to_evict.data with
            | some slot => bm.loaded_pages slot
            | none => zeros bm.page_size),
         bm')

/-- Source line 219 of `evict_page`: the copy of the victim is written to its
segment file. -/
def write_back (bm : BufferManager) (pid : Nat) (page_copy : List Nat) : BufferManager :=
  { bm with
    segment_files := Function.update bm.segment_files (get_segment_id pid)
      ((bm.segment_files (get_segment_id pid)).write_block bm.page_size page_copy
        (get_segment_page_id pid)) }

/-- Source lines 228-236 of `evict_page`: the victim is taken out of its list
and erased from `bufferframes`; its data pointer is returned. -/
def evict_remove (bm : BufferManager) (pid : Nat) : Option Nat × BufferManager :=
  match bm.find pid with
  | none => (none, bm)
  | some page_to_evict =>
    (page_to_evict.data,
      { bm with
        fifo_list := if !page_to_evict.lru_position then bm.fifo_list.erase pid else bm.fifo_list
        lru_list := if !page_to_evict.lru_position then bm.lru_list else bm.lru_list.erase pid
        bufferframes := bm.bufferframes.filter (fun f => f.pId != pid) })

/-- Result of one round of the loop of `evict_page`. -/
inductive RoundResult where
  /-- The function returns (a data pointer, or `nullptr`). -/
  | returned (data : Option Nat) (bm : BufferManager)
  /-- The victim was fixed again during the write: next round (line 226). -/
  | retry (bm : BufferManager)
  /-- A call of another thread does not complete. -/
  | stuck

/-- One round of the loop of `evict_page` (source lines 185-227, and lines
228-236 when the loop is left), with the calls `others` of other threads
completing while the global latch is released. -/
def evict_round (others : List Call) (bm : BufferManager) : RoundResult :=
  match evict_select bm with
  | (EvictRound.no_victim, bm) => RoundResult.returned none bm
  | (EvictRound.clean pid, bm) =>
    RoundResult.returned (evict_remove bm pid).1 (evict_remove bm pid).2
  | (EvictRound.writing pid page_copy, bm) =>
    match run (write_back bm pid page_copy) others with
    | none => RoundResult.stuck
    | some bm =>
      match bm.find pid with
      | none => RoundResult.stuck
      | some page_to_evict =>
        if page_to_evict.state = BufferFrameState.EVICT then
          RoundResult.returned (evict_remove bm pid).1 (evict_remove bm pid).2
        else
          RoundResult.retry
            (bm.setFrame pid { page_to_evict with state := BufferFrameState.MOD })

/-- Implementation of `evict_page` with other threads running: `others` gives,
round by round, the calls that other threads complete while the global latch is
released; when the list is used up no other thread runs any more.  The result
is `none` when a call of another thread does not complete. -/
def evict_page_with : List (List Call) → BufferManager → Option (Option Nat × BufferManager)
  | [], bm =>
    match evict_round [] bm with
    | RoundResult.returned data bm => some (data, bm)
    | RoundResult.retry _ => none
    | RoundResult.stuck => none
  | w :: ws, bm =>
    match evict_round w bm with
    | RoundResult.returned data bm => some (data, bm)
    | RoundResult.retry bm => evict_page_with ws bm
    | RoundResult.stuck => none

/-- A buffer manager with one frame in which page 1 is resident, dirty and
unfixed. -/
def one_dirty_page : BufferManager :=
  run_or (BufferManager.new 4 1 empty_disk)
    [Call.fix 1 true, Call.write 1 [7, 7, 7, 7], Call.unfix 1 true]

/-! ### Invariants of the bookkeeping -/

/-- Well-formedness of one frame at a quiescent point. -/
structure FrameOk (bm : BufferManager) (f : BufferFrame) : Prop where
  state : f.state = BufferFrameState.MOD
  slot : ∃ slot, f.data = some slot ∧ slot < bm.bufferframes.length
  pos : f.fifo_position = !f.lru_position
  in_fifo : f.lru_position = false → f.pId ∈ bm.fifo_list
  in_lru : f.lru_position = true → f.pId ∈ bm.lru_list
  pins : f.num_fixed = f.shared_locks + (if f.exclusively_locked then 1 else 0)
  excl : f.exclusively_locked = true → f.shared_locks = 0

/-- Well-formedness of the buffer manager at a quiescent point. -/
structure Inv (bm : BufferManager) : Prop where
  nodup : (bm.bufferframes.map (fun f => f.pId)).Nodup
  size : bm.bufferframes.length ≤ bm.page_count
  frames : ∀ f ∈ bm.bufferframes, FrameOk bm f
  fifo_nodup : bm.fifo_list.Nodup
  lru_nodup : bm.lru_list.Nodup
  fifo_mem : ∀ p ∈ bm.fifo_list, ∃ f ∈ bm.bufferframes, f.pId = p ∧ f.lru_position = false
  lru_mem : ∀ p ∈ bm.lru_list, ∃ f ∈ bm.bufferframes, f.pId = p ∧ f.lru_position = true
  slots : (bm.bufferframes.map (fun f => f.data)).Nodup

/-- Every clean resident page that is not being written holds the bytes of its
block in the segment file. -/
def DataInv (bm : BufferManager) (pending : List Nat) : Prop :=
  ∀ f ∈ bm.bufferframes, f.isDirty = false → f.pId ∉ pending → ∀ slot, f.data = some slot →
    bm.loaded_pages slot
      = (bm.segment_files (get_segment_id f.pId)).read_block bm.page_size
          (get_segment_page_id f.pId)

/-- The invariant that ties the bookkeeping of a history to the buffer manager. -/
structure GhostInv (bm : BufferManager) (g : Ghost) : Prop where
  inv : Inv bm
  pending_held : ∀ p ∈ g.pending, bm.held_exclusively p = true
  data : g.honest = true → DataInv bm g.pending
  last : g.honest = true → ∀ p b, g.last p = some b → p ∉ g.pending → bm.content p = b

end Buffer

/-!
## B+-tree (`BTree<uint64_t, uint64_t, std::less<uint64_t>, PageSize>`)

Keys, values and page ids are 64-bit words.  A page is the node header
(`level`, `count`, `parentPageId`) followed by the words of the page body.
`keys[i]` is body word `i`, and `children[i]` (inner node) or `values[i]`
(leaf) is body word `kCapacity + i`, exactly as the arrays are laid out in
the page; an access that leaves the page is undefined behaviour and makes the
operation return `none` (`Outcome.undefined` at the level of the tree).  Pages
are reached through `fix_page`/`unfix_page`, which are modelled as plain reads
and writes of the page store; a page that was never written is zero filled.
The `fix_page`/`unfix_page` calls themselves are listed by separate
functions (`lookup_calls`, `erase_calls`, `insert_calls`).
-/

namespace BTree

/-- Size in bytes of `Node` (two `uint16_t` and a `std::optional<uint64_t>`). -/
def nodeHeaderBytes : Nat := 24

/-- Implementation of `kCapacity` (the same expression in `InnerNode` and `LeafNode`). -/
def kCapacity (PageSize : Nat) : Nat := (PageSize - nodeHeaderBytes) / (8 + 8)

/-- Number of 64-bit words of a page after the node header. -/
def bodyWords (PageSize : Nat) : Nat := (PageSize - nodeHeaderBytes) / 8

/-- A page holding a node. -/
structure Page where
  level : Nat
  count : Nat
  parentPageId : Option Nat
  body : List Nat
  deriving DecidableEq, Repr

/-- A freshly created (zero filled) page: a leaf with `count = 0` and no parent. -/
def zeroPage (PageSize : Nat) : Page :=
  { level := 0, count := 0, parentPageId := none, body := List.replicate (bodyWords PageSize) 0 }

/-- Implementation of `Node::is_leaf`. -/
def Page.is_leaf (p : Page) : Bool := p.level == 0

/-- Read of `keys[i]`. -/
def Page.key (p : Page) (i : Nat) : Option Nat := p.body[i]?

/-- Read of `children[i]` / `values[i]`. -/
def Page.slot (PageSize : Nat) (p : Page) (i : Nat) : Option Nat :=
  p.body[kCapacity PageSize + i]?

/-- Write of body word `i`. -/
def Page.setWord (p : Page) (i v : Nat) : Option Page :=
  if i < p.body.length then some { p with body := p.body.set i v } else none

/-- Write of `keys[i]`. -/
def Page.setKey (p : Page) (i v : Nat) : Option Page := p.setWord i v

/-- Write of `children[i]` / `values[i]`. -/
def Page.setSlot (PageSize : Nat) (p : Page) (i v : Nat) : Option Page :=
  p.setWord (kCapacity PageSize + i) v

/-- Decrement of the `uint16_t` field `count`. -/
def decr16 (c : Nat) : Nat := (c + 65535) % 65536

/-- Increment of the `uint16_t` field `count` (by `d`). -/
def incr16 (c d : Nat) : Nat := (c + d) % 65536

/-! ### InnerNode -/

/-- The `while (low <= high)` loop of `InnerNode::lower_bound`. -/
def InnerNode.lower_bound_loop (p : Page) (key : Nat) :
    Nat → Int → Int → Option Nat → Option (Nat × Bool)
  | 0, _, _, _ => none
  | fuel + 1, low, high, index =>
    if low ≤ high then
      let mid := low + (high - low) / 2
      if mid < 0 then none
      else
        match p.key mid.toNat with
        | none => none
        | some k =>
          if key > k then InnerNode.lower_bound_loop p key fuel (mid + 1) high index
          else if key < k then InnerNode.lower_bound_loop p key fuel low (mid - 1) (some mid.toNat)
          else some (mid.toNat, true)
    else
      match index with
      | none => some (0, false)
      | some i => some (i, true)

/-- Implementation of `InnerNode::lower_bound`. -/
def InnerNode.lower_bound (p : Page) (key : Nat) : Option (Nat × Bool) :=
  let high : Int := (p.count : Int) - 1
  match p.key 0 with
  | none => none
  | some k0 =>
    if ¬ (k0 < key) ∧ high = 1 then some (0, true)
    else InnerNode.lower_bound_loop p key (p.count + 1) 0 high none

/-- Write `vals` to consecutive words of the body starting at word `start`. -/
def Page.writeWords (p : Page) (start : Nat) : List Nat → Option Page
  | [] => some p
  | v :: vs =>
    match p.setWord start v with
    | none => none
    | some p' => Page.writeWords p' (start + 1) vs

/-- Implementation of `InnerNode::insert(key, split_page)`. -/
def InnerNode.insert (PageSize : Nat) (p : Page) (key split_page : Nat) : Option Page :=
  if p.count = 0 then none
  else
    let lastElement := p.count - 1
    -- first loop: copy out `children[i]`, `keys[i]` for `i < lastElement` and clear them
    match (List.range lastElement).mapM (fun i => p.key i),
          (List.range p.count).mapM (fun i => p.slot PageSize i) with
    | some tempKeys0, some tempChildren0 =>
      let index := tempKeys0.findIdx? (fun k => ¬ (k < key))
      match p.writeWords 0 (List.replicate lastElement 0) with
      | none => none
      | some p1 =>
        match p1.writeWords (kCapacity PageSize) (List.replicate p.count 0) with
        | none => none
        | some p2 =>
          let tempKeys := match index with
            | some ix => tempKeys0.insertIdx ix key
            | none => tempKeys0.insertIdx (p.count - 1) key
          let tempChildren := match index with
            | some ix => tempChildren0.insertIdx (ix + 1) split_page
            | none => tempChildren0.insertIdx p.count split_page
          let p3 := { p2 with count := incr16 p.count 1 }
          match p3.writeWords (kCapacity PageSize) tempChildren with
          | none => none
          | some p4 => p4.writeWords 0 tempKeys
    | _, _ => none

/-- The separator of `InnerNode::split`:
`static_cast<int>((keys[m + 1] + keys[m]) / 2)` converted back to `KeyT`. -/
def InnerNode.separator (k1 k0 : Nat) : Nat :=
  let avg := (k1 + k0) % 2 ^ 64 / 2
  let asInt := avg % 2 ^ 32
  if asInt < 2 ^ 31 then asInt else asInt + (2 ^ 64 - 2 ^ 32)

/-- The `while` loop of `InnerNode::split`; the state is (this node, new node,
`i`, `startIndex`). -/
def InnerNode.split_loop (PageSize : Nat) : Nat → Page → Page → Nat → Nat → Option (Page × Page × Nat)
  | 0, _, _, _, _ => none
  | fuel + 1, this, new, i, startIndex =>
    if i < kCapacity PageSize + 1 then
      if startIndex ≠ 0 then do
        let k ← this.key (i - 1)
        let new ← new.setKey (startIndex - 1) k
        let this ← this.setKey (i - 1) 0
        let c ← this.slot PageSize i
        let new ← new.setSlot PageSize startIndex c
        let this ← this.setSlot PageSize i 0
        let this := { this with count := decr16 this.count }
        InnerNode.split_loop PageSize fuel this new (i + 1) (startIndex + 1)
      else do
        let k ← this.key i
        let new ← new.setKey startIndex k
        let c ← this.slot PageSize i
        let new ← new.setSlot PageSize startIndex c
        let this ← this.setKey i 0
        let this ← this.setSlot PageSize i 0
        let this := { this with count := decr16 this.count }
        let startIndex := startIndex + 1
        let i := i + 1
        let c ← this.slot PageSize i
        let new ← new.setSlot PageSize startIndex c
        let this ← this.setSlot PageSize i 0
        let this := { this with count := decr16 this.count }
        InnerNode.split_loop PageSize fuel this new (i + 1) (startIndex + 1)
    else some (this, new, startIndex)

/-- Implementation of `InnerNode::split(buffer)`: the node, the new node in
`buffer`, and the separator key. -/
def InnerNode.split (PageSize : Nat) (this buffer : Page) : Option (Page × Page × Nat) := do
  let m := (kCapacity PageSize - 1) / 2
  let k1 ← this.key (m + 1)
  let k0 ← this.key m
  let separatorKey := InnerNode.separator k1 k0
  let (this, new, startIndex) ←
    InnerNode.split_loop PageSize (kCapacity PageSize + 2) this buffer (m + 1) 0
  some (this, { new with count := startIndex % 65536 }, separatorKey)

/-- Implementation of `InnerNode::get_key_vector`: the keys `0 .. count - 2`. -/
def InnerNode.get_key_vector (p : Page) : List Nat := p.body.take (p.count - 1)

/-- Implementation of `InnerNode::get_child_vector`: the children
`0 .. count - 1`. -/
def InnerNode.get_child_vector (PageSize : Nat) (p : Page) : List Nat :=
  (p.body.drop (kCapacity PageSize)).take p.count

/-! ### LeafNode -/

/-- The `while (cnt > 0)` loop of `LeafNode::lower_bound`. -/
def LeafNode.lower_bound_loop (p : Page) (key : Nat) : Nat → Nat → Nat → Option Nat
  | 0, _, _ => none
  | fuel + 1, first, cnt =>
    if cnt > 0 then
      let idx := first + cnt / 2
      match p.key idx with
      | none => none
      | some k =>
        if ¬ (k < key) then LeafNode.lower_bound_loop p key fuel first (cnt / 2)
        else LeafNode.lower_bound_loop p key fuel (idx + 1) (cnt - (cnt / 2 + 1))
    else some first

/-- Implementation of `LeafNode::lower_bound`. -/
def LeafNode.lower_bound (p : Page) (key : Nat) : Option (Nat × Bool) :=
  if p.count = 0 then some (0, false)
  else
    match LeafNode.lower_bound_loop p key (p.count + 1) 0 p.count with
    | none => none
    | some first =>
      match p.key first with
      | none => none
      | some k => some (first, k == key && decide (first < p.count))

/-- Implementation of `LeafNode::insert(key, value)`.  The source evaluates
`lower_bound(key)` anew at every use; so does the model. -/
def LeafNode.insert (PageSize : Nat) (p : Page) (key value : Nat) : Option Page :=
  if p.count = 0 then do
    let p ← p.setKey 0 key
    let p ← p.setSlot PageSize 0 value
    some { p with count := incr16 p.count 1 }
  else do
    let (first, found) ← LeafNode.lower_bound p key
    if found then p.setSlot PageSize first value
    else do
      -- `memmove(&keys[first + 1], &keys[first], sizeof(KeyT) * (count - first))`
      let ks ← (List.range (p.count - first)).mapM (fun j => p.key (first + j))
      let p ← p.writeWords (first + 1) ks
      -- `memmove(&values[first + 1], &values[first], sizeof(ValueT) * (count - first))`
      let (first, _) ← LeafNode.lower_bound p key
      let vs ← (List.range (p.count - first)).mapM (fun j => p.slot PageSize (first + j))
      let p ← p.writeWords (kCapacity PageSize + first + 1) vs
      let (first, _) ← LeafNode.lower_bound p key
      let p ← p.setKey first key
      let (first, _) ← LeafNode.lower_bound p key
      let p ← p.setSlot PageSize first value
      some { p with count := incr16 p.count 1 }

/-- Implementation of `LeafNode::erase(key)`. -/
def LeafNode.erase (PageSize : Nat) (p : Page) (key : Nat) : Option Page :=
  if p.count = 0 then some p
  else do
    let (first, found) ← LeafNode.lower_bound p key
    if !found then some p
    else do
      let num_to_copy := (p.count - 1) - first
      -- `memmove(&values[first], &values[first + 1], sizeof(ValueT) * num_to_copy)`
      let vs ← (List.range num_to_copy).mapM (fun j => p.slot PageSize (first + 1 + j))
      let p ← p.writeWords (kCapacity PageSize + first) vs
      -- `memmove(&keys[first], &keys[first + 1], sizeof(KeyT) * num_to_copy)`
      let (first, _) ← LeafNode.lower_bound p key
      let ks ← (List.range num_to_copy).mapM (fun j => p.key (first + 1 + j))
      let p ← p.writeWords first ks
      some { p with count := decr16 p.count }

/-- The `while` loop of `LeafNode::split`; the state is (this node, new node,
`i`, `startIndex`). -/
def LeafNode.split_loop (PageSize : Nat) : Nat → Page → Page → Nat → Nat → Option (Page × Page × Nat)
  | 0, _, _, _, _ => none
  | fuel + 1, this, new, i, startIndex =>
    if i < kCapacity PageSize then do
      let k ← this.key i
      let new ← new.setKey startIndex k
      let v ← this.slot PageSize i
      let new ← new.setSlot PageSize startIndex v
      let this := { this with count := decr16 this.count }
      let this ← this.setKey i 0
      let this ← this.setSlot PageSize i 0
      LeafNode.split_loop PageSize fuel this new (i + 1) (startIndex + 1)
    else some (this, new, startIndex)

/-- Implementation of `LeafNode::split(buffer)`: the node, the new node in
`buffer`, and the separator key `this->keys[startIndex - 1]`. -/
def LeafNode.split (PageSize : Nat) (this buffer : Page) : Option (Page × Page × Nat) := do
  let (this, new, startIndex) ← LeafNode.split_loop PageSize (kCapacity PageSize + 1) this buffer
    ((kCapacity PageSize - 1) / 2 + 1) 0
  if startIndex = 0 then none
  else do
    let separatorKey ← this.key (startIndex - 1)
    some (this, { new with count := startIndex % 65536 }, separatorKey)

/-- Implementation of `LeafNode::get_key_vector`. -/
def LeafNode.get_key_vector (p : Page) : List Nat := p.body.take p.count

/-- Implementation of `LeafNode::get_value_vector`. -/
def LeafNode.get_value_vector (PageSize : Nat) (p : Page) : List Nat :=
  (p.body.drop (kCapacity PageSize)).take p.count

/-! ### BTree -/

/-- The tree object together with the pages of its segment. -/
structure Tree where
  root : Option Nat
  rootLevel : Nat
  isTreeEmpty : Bool
  deletedKeys : List Nat
  next_page_id : Nat
  pages : List Page
  deriving DecidableEq, Repr

/-- The tree after the constructor `BTree(segment_id, buffer_manager)`, on a
segment without pages. -/
def Tree.empty : Tree :=
  { root := none, rootLevel := 0, isTreeEmpty := true, deletedKeys := [], next_page_id := 0,
    pages := [] }

/-- The page that `fix_page(id)` returns. -/
def getPage (PageSize : Nat) (pages : List Page) (id : Nat) : Page :=
  pages.getD id (zeroPage PageSize)

/-- The page store after page `id` was modified to `p` (and unfixed dirty). -/
def setPage (PageSize : Nat) (pages : List Page) (id : Nat) (p : Page) : List Page :=
  (pages ++ List.replicate (id + 1 - pages.length) (zeroPage PageSize)).set id p

/-- Result of running an operation of the tree: it returns, it performs an
access outside a page (undefined behaviour), or it is still running when the
iteration budget is used up. -/
inductive Outcome (α : Type) where
  | returns (a : α)
  | undefined
  | running
  deriving DecidableEq, Repr

/-- One iteration of a loop: continue with a new state, leave the loop with a
result, or undefined behaviour. -/
inductive Step (σ ρ : Type) where
  | loop (s : σ)
  | done (r : ρ)
  | undefined
  deriving DecidableEq, Repr

/-- Run a loop body for at most `fuel` iterations. -/
def iterate {σ ρ : Type} (step : σ → Step σ ρ) : Nat → σ → Outcome ρ
  | 0, _ => Outcome.running
  | fuel + 1, s =>
    match step s with
    | Step.loop s' => iterate step fuel s'
    | Step.done r => Outcome.returns r
    | Step.undefined => Outcome.undefined

/-- Local variables of the loops of `lookup` and `erase`. -/
structure Cursor where
  currentPageId : Nat
  next : Nat
  previousParentPageId : Nat
  deriving DecidableEq, Repr

/-- The scan `while (i < count) { if (keys[i] == key) ... }` of a leaf: the
index of the first key equal to `key`. -/
def LeafNode.scan (p : Page) (key : Nat) : Nat → Nat → Option (Option Nat)
  | 0, _ => some none
  | n + 1, i =>
    match p.key i with
    | none => none
    | some k => if k == key then some (some i) else LeafNode.scan p key n (i + 1)

/-- One iteration of the `while (!found)` loop of `BTree::lookup`. -/
def lookup_step (PageSize : Nat) (t : Tree) (key : Nat) (s : Cursor) :
    Step Cursor (Option Nat) :=
  let currentNode := getPage PageSize t.pages s.currentPageId
  if !currentNode.is_leaf then
    let previousParentPageId := match currentNode.parentPageId with
      | some p => p
      | none => s.previousParentPageId
    match InnerNode.lower_bound currentNode key with
    | none => Step.undefined
    | some (first, second) =>
      if !second then
        if currentNode.count = 0 then Step.undefined
        else
          match currentNode.slot PageSize (currentNode.count - 1) with
          | none => Step.undefined
          | some c => Step.loop
              { currentPageId := c, next := s.next, previousParentPageId := previousParentPageId }
      else if currentNode.count ≥ s.next then
        match currentNode.slot PageSize (first + s.next) with
        | none => Step.undefined
        | some c => Step.loop
            { currentPageId := c, next := 0, previousParentPageId := previousParentPageId }
      else Step.done none
  else
    match LeafNode.scan currentNode key currentNode.count 0 with
    | none => Step.undefined
    | some (some i) =>
      match currentNode.slot PageSize i with
      | none => Step.undefined
      | some v => Step.done (some v)
    | some none =>
      if s.next = 2 then Step.done none
      else Step.loop
        { currentPageId := s.previousParentPageId, next := s.next + 1,
          previousParentPageId := s.previousParentPageId }

/-- Implementation of `BTree::lookup(key)`, run for at most `fuel` iterations
of its loop. -/
def lookup (PageSize : Nat) (fuel : Nat) (t : Tree) (key : Nat) : Outcome (Option Nat) :=
  match t.root with
  | none => Outcome.returns none
  | some root =>
    if key ∈ t.deletedKeys then Outcome.returns none
    else iterate (lookup_step PageSize t key) fuel
      { currentPageId := root, next := 0, previousParentPageId := root }

/-- One iteration of the `while (!found)` loop of `BTree::erase`; the state is
the tree and the local variables, and the loop is left when `found` is set. -/
def erase_step (PageSize : Nat) (key : Nat) (ts : Tree × Cursor) : Step (Tree × Cursor) Tree :=
  let t := ts.1
  let s := ts.2
  let currentNode := getPage PageSize t.pages s.currentPageId
  if !currentNode.is_leaf then
    let previousParentPageId := match currentNode.parentPageId with
      | some p => p
      | none => s.previousParentPageId
    match InnerNode.lower_bound currentNode key with
    | none => Step.undefined
    | some (first, second) =>
      if !second then
        if currentNode.count = 0 then Step.undefined
        else
          match currentNode.slot PageSize (currentNode.count - 1) with
          | none => Step.undefined
          | some c => Step.loop (t,
              { currentPageId := c, next := s.next, previousParentPageId := previousParentPageId })
      else if currentNode.count ≥ s.next then
        match currentNode.slot PageSize (first + s.next) with
        | none => Step.undefined
        | some c => Step.loop (t,
            { currentPageId := c, next := 0, previousParentPageId := previousParentPageId })
      else Step.done t
  else
    match LeafNode.scan currentNode key currentNode.count 0 with
    | none => Step.undefined
    | some (some _) =>
      match LeafNode.erase PageSize currentNode key with
      | none => Step.undefined
      | some leaf =>
        Step.done { t with
          pages := setPage PageSize t.pages s.currentPageId leaf
          deletedKeys := if key ∈ t.deletedKeys then t.deletedKeys else key :: t.deletedKeys }
    | some none =>
      Step.loop (t,
        { currentPageId := s.previousParentPageId, next := s.next + 1,
          previousParentPageId := s.previousParentPageId })

/-- Implementation of `BTree::erase(key)`, run for at most `fuel` iterations of
its loop. -/
def erase (PageSize : Nat) (fuel : Nat) (t : Tree) (key : Nat) : Outcome Tree :=
  match t.root with
  | none => Outcome.returns t
  | some root =>
    iterate (erase_step PageSize key) fuel
      (t, { currentPageId := root, next := 0, previousParentPageId := root })

/-- The child chosen by the descent of `BTree::insert`:
`children[count - 1]` when `lower_bound(key).second` equals `rhsWhen`,
otherwise `children[lower_bound(key).first]`. -/
def descend (PageSize : Nat) (node : Page) (key : Nat) (rhsWhen : Bool) : Option Nat :=
  match InnerNode.lower_bound node key with
  | none => none
  | some (first, second) =>
    if second == rhsWhen then
      if node.count = 0 then none else node.slot PageSize (node.count - 1)
    else node.slot PageSize first

/-- The loop `while (i < newInnerNode->count)` of `BTree::insert` that sets the
parent page id of the children moved to the new inner node. -/
def set_parents (PageSize : Nat) (newInnerNodePageId : Nat) :
    List Nat → List Page → List Page
  | [], pages => pages
  | c :: cs, pages =>
    set_parents PageSize newInnerNodePageId cs
      (setPage PageSize pages c
        { getPage PageSize pages c with parentPageId := some newInnerNodePageId })

/-- The new root written by `BTree::insert` after a root split. -/
def new_root (PageSize : Nat) (page : Page) (rootLevel separatorKey left right : Nat) :
    Option Page := do
  let p := { page with level := rootLevel }
  let p ← p.setKey 0 separatorKey
  let p ← p.setSlot PageSize 0 left
  let p ← p.setSlot PageSize 1 right
  some { p with count := incr16 p.count 2 }

/-- One iteration of the `while (!KeyInserted)` loop of `BTree::insert`; the
state is the tree and `currentNodePageId`. -/
def insert_step (PageSize : Nat) (key value : Nat) (ts : Tree × Nat) : Step (Tree × Nat) Tree :=
  let t := ts.1
  let currentNodePageId := ts.2
  let currentNode := getPage PageSize t.pages currentNodePageId
  if !currentNode.is_leaf then
    let innerNode := currentNode
    if innerNode.count = kCapacity PageSize + 1 then
      let newInnerNodePageId := t.next_page_id
      let t := { t with next_page_id := t.next_page_id + 1 }
      match InnerNode.split PageSize innerNode (getPage PageSize t.pages newInnerNodePageId) with
      | none => Step.undefined
      | some (innerNode, newInnerNode, separatorKey) =>
        let newInnerNode := { newInnerNode with level := innerNode.level }
        let pages := setPage PageSize t.pages currentNodePageId innerNode
        let pages := setPage PageSize pages newInnerNodePageId newInnerNode
        match (List.range newInnerNode.count).mapM (fun i => newInnerNode.slot PageSize i) with
        | none => Step.undefined
        | some moved =>
          let pages := set_parents PageSize newInnerNodePageId moved pages
          -- the nodes are read again: they may have been written through a child page
          match (getPage PageSize pages currentNodePageId).parentPageId with
          | some parentId =>
            match InnerNode.insert PageSize (getPage PageSize pages parentId) separatorKey
                newInnerNodePageId with
            | none => Step.undefined
            | some parentInnerNode =>
              let pages := setPage PageSize pages parentId parentInnerNode
              let newInnerNode := getPage PageSize pages newInnerNodePageId
              let pages := setPage PageSize pages newInnerNodePageId
                { newInnerNode with parentPageId := some parentId }
              match descend PageSize parentInnerNode key true with
              | none => Step.undefined
              | some c => Step.loop ({ t with pages := pages }, c)
          | none =>
            let root := t.next_page_id
            let t := { t with root := some root, next_page_id := t.next_page_id + 1,
                              rootLevel := incr16 t.rootLevel 1 }
            match new_root PageSize (getPage PageSize pages root) t.rootLevel separatorKey
                currentNodePageId newInnerNodePageId with
            | none => Step.undefined
            | some newRootInnerNode =>
              let pages := setPage PageSize pages root newRootInnerNode
              let innerNode := getPage PageSize pages currentNodePageId
              let pages := setPage PageSize pages currentNodePageId
                { innerNode with parentPageId := some root }
              let newInnerNode := getPage PageSize pages newInnerNodePageId
              let pages := setPage PageSize pages newInnerNodePageId
                { newInnerNode with parentPageId := some root }
              match descend PageSize newRootInnerNode key false with
              | none => Step.undefined
              | some c => Step.loop ({ t with pages := pages }, c)
    else
      match descend PageSize innerNode key false with
      | none => Step.undefined
      | some c => Step.loop (t, c)
  else
    let leafNode := currentNode
    if leafNode.count < kCapacity PageSize then
      match LeafNode.insert PageSize leafNode key value with
      | none => Step.undefined
      | some leafNode =>
        Step.done { t with pages := setPage PageSize t.pages currentNodePageId leafNode }
    else
      let newLeafPageId := t.next_page_id
      let t := { t with next_page_id := t.next_page_id + 1 }
      match LeafNode.split PageSize leafNode (getPage PageSize t.pages newLeafPageId) with
      | none => Step.undefined
      | some (leafNode, newLeafNode, separatorKey) =>
        let halves :=
          if separatorKey < key then
            (LeafNode.insert PageSize newLeafNode key value).map (fun n => (leafNode, n))
          else
            (LeafNode.insert PageSize leafNode key value).map (fun l => (l, newLeafNode))
        match halves with
        | none => Step.undefined
        | some (leafNode, newLeafNode) =>
          match leafNode.parentPageId with
          | some parentId =>
            let pages := setPage PageSize t.pages currentNodePageId leafNode
            let pages := setPage PageSize pages newLeafPageId newLeafNode
            match InnerNode.insert PageSize (getPage PageSize pages parentId) separatorKey
                newLeafPageId with
            | none => Step.undefined
            | some parentInnerNode =>
              let pages := setPage PageSize pages parentId parentInnerNode
              let newLeafNode := getPage PageSize pages newLeafPageId
              let pages := setPage PageSize pages newLeafPageId
                { newLeafNode with parentPageId := some parentId }
              Step.done { t with pages := pages }
          | none =>
            let root := t.next_page_id
            let t := { t with root := some root, next_page_id := t.next_page_id + 1,
                              rootLevel := incr16 t.rootLevel 1 }
            let pages := setPage PageSize t.pages currentNodePageId leafNode
            let pages := setPage PageSize pages newLeafPageId newLeafNode
            match new_root PageSize (getPage PageSize pages root) t.rootLevel separatorKey
                currentNodePageId newLeafPageId with
            | none => Step.undefined
            | some newRootNode =>
              let pages := setPage PageSize pages root newRootNode
              let leafNode := getPage PageSize pages currentNodePageId
              let pages := setPage PageSize pages currentNodePageId
                { leafNode with parentPageId := some root }
              let newLeafNode := getPage PageSize pages newLeafPageId
              let pages := setPage PageSize pages newLeafPageId
                { newLeafNode with parentPageId := some root }
              Step.done { t with pages := pages }

/-- Implementation of `BTree::insert(key, value)`, run for at most `fuel`
iterations of its loop. -/
def insert (PageSize : Nat) (fuel : Nat) (t : Tree) (key value : Nat) : Outcome Tree :=
  let t := if t.isTreeEmpty then
      { t with isTreeEmpty := false, next_page_id := 1, root := some 0 }
    else t
  match t.root with
  | none => Outcome.undefined
  | some root => iterate (insert_step PageSize key value) fuel (t, root)

/-- A sequence of `insert` calls, each run for at most `fuel` iterations. -/
def insertAll (PageSize : Nat) (fuel : Nat) : Tree → List (Nat × Nat) → Outcome Tree
  | t, [] => Outcome.returns t
  | t, (k, v) :: rest =>
    match insert PageSize fuel t k v with
    | Outcome.returns t' => insertAll PageSize fuel t' rest
    | Outcome.undefined => Outcome.undefined
    | Outcome.running => Outcome.running

/-- Keys of the leaves below page `id` in left-to-right order (children
`0 .. count - 1` of every inner node, keys `0 .. count - 1` of every leaf);
`depth` bounds the number of levels followed. -/
def leafKeys (PageSize : Nat) (pages : List Page) : Nat → Nat → List Nat
  | 0, _ => []
  | depth + 1, id =>
    let node := getPage PageSize pages id
    if node.is_leaf then LeafNode.get_key_vector node
    else
      ((node.body.drop (kCapacity PageSize)).take node.count).flatMap
        (fun c => leafKeys PageSize pages depth c)

/-- Keys met by the in-order traversal of the leaves from the root. -/
def Tree.inorderKeys (PageSize : Nat) (t : Tree) : List Nat :=
  match t.root with
  | none => []
  | some root => leafKeys PageSize t.pages (t.rootLevel + 1) root

/-! ### The calls of the tree operations on the buffer manager

Every page access of `lookup`, `erase` and `insert` goes through
`buffer_manager.fix_page(page_id, exclusive)` and
`buffer_manager.unfix_page(page, is_dirty)`.  The functions below list these
calls in program order; the page id is passed to `fix_page` as the tree holds
it (`root`, a child pointer, `next_page_id`). -/

/-- The calls made by a loop: those of every iteration that is started. -/
def iterate_calls {σ ρ : Type} (step : σ → Step σ ρ) (calls : σ → List Buffer.Call) :
    Nat → σ → List Buffer.Call
  | 0, _ => []
  | fuel + 1, s =>
    calls s ++
      match step s with
      | Step.loop s' => iterate_calls step calls fuel s'
      | Step.done _ => []
      | Step.undefined => []

/-- The calls of one iteration of the loop of `BTree::lookup`: `fix_page` in
line 320 and `unfix_page` in line 352, the last statement of the loop body.
The `return` statements of lines 334, 342 and 347 leave the function before
line 352 is reached. -/
def lookup_step_calls (PageSize : Nat) (t : Tree) (key : Nat) (s : Cursor) : List Buffer.Call :=
  match lookup_step PageSize t key s with
  | Step.loop _ =>
    [Buffer.Call.fix s.currentPageId false, Buffer.Call.unfix s.currentPageId false]
  | Step.done _ => [Buffer.Call.fix s.currentPageId false]
  | Step.undefined => [Buffer.Call.fix s.currentPageId false]

/-- The calls of `BTree::lookup(key)` on the buffer manager. -/
def lookup_calls (PageSize : Nat) (fuel : Nat) (t : Tree) (key : Nat) : List Buffer.Call :=
  match t.root with
  | none => []
  | some root =>
    if key ∈ t.deletedKeys then []
    else iterate_calls (lookup_step PageSize t key) (lookup_step_calls PageSize t key) fuel
      { currentPageId := root, next := 0, previousParentPageId := root }

/-- The calls of one iteration of the loop of `BTree::erase`: `fix_page` in
line 369 and `unfix_page` in line 401, which every iteration reaches (the loop
is left through its condition only). -/
def erase_step_calls (ts : Tree × Cursor) : List Buffer.Call :=
  [Buffer.Call.fix ts.2.currentPageId true, Buffer.Call.unfix ts.2.currentPageId true]

/-- The calls of `BTree::erase(key)` on the buffer manager. -/
def erase_calls (PageSize : Nat) (fuel : Nat) (t : Tree) (key : Nat) : List Buffer.Call :=
  match t.root with
  | none => []
  | some root =>
    iterate_calls (erase_step PageSize key) erase_step_calls fuel
      (t, { currentPageId := root, next := 0, previousParentPageId := root })

/-- The calls of one iteration of the loop of `BTree::insert`, up to the first
access outside a page if there is one.  Inner node that is split: `fix_page`
of the node (line 420), of the new page (429), of every child moved to the new
node (437, never unfixed), of the parent (445, unfixed in 458) or of the new
root (463, unfixed in 478), then `unfix_page` of the new page (487) and of the
node (498).  Leaf that is split: `fix_page` of the leaf (420) and of the new
page (510); with a parent, `fix_page` and `unfix_page` of the parent (523,
528); without one, `fix_page` of the new root (533) and `unfix_page` of the new
page and of the new root (548, 549); then `unfix_page` of the leaf (551). -/
def insert_step_calls (PageSize : Nat) (key value : Nat) (ts : Tree × Nat) :
    List Buffer.Call :=
  let t := ts.1
  let currentNodePageId := ts.2
  let currentNode := getPage PageSize t.pages currentNodePageId
  [Buffer.Call.fix currentNodePageId true] ++
  if !currentNode.is_leaf then
    if currentNode.count = kCapacity PageSize + 1 then
      let newInnerNodePageId := t.next_page_id
      [Buffer.Call.fix newInnerNodePageId true] ++
      match InnerNode.split PageSize currentNode (getPage PageSize t.pages newInnerNodePageId) with
      | none => []
      | some (innerNode, newInnerNode, _) =>
        let newInnerNode := { newInnerNode with level := innerNode.level }
        let pages := setPage PageSize t.pages currentNodePageId innerNode
        let pages := setPage PageSize pages newInnerNodePageId newInnerNode
        match (List.range newInnerNode.count).mapM (fun i => newInnerNode.slot PageSize i) with
        | none => []
        | some moved =>
          let pages := set_parents PageSize newInnerNodePageId moved pages
          moved.map (fun c => Buffer.Call.fix c true) ++
          (match (getPage PageSize pages currentNodePageId).parentPageId with
            | some parentId =>
              [Buffer.Call.fix parentId true, Buffer.Call.unfix parentId true]
            | none =>
              [Buffer.Call.fix (t.next_page_id + 1) true,
               Buffer.Call.unfix (t.next_page_id + 1) true]) ++
          [Buffer.Call.unfix newInnerNodePageId true, Buffer.Call.unfix currentNodePageId true]
    else [Buffer.Call.unfix currentNodePageId true]
  else
    if currentNode.count < kCapacity PageSize then [Buffer.Call.unfix currentNodePageId true]
    else
      let newLeafPageId := t.next_page_id
      [Buffer.Call.fix newLeafPageId true] ++
      match LeafNode.split PageSize currentNode (getPage PageSize t.pages newLeafPageId) with
      | none => []
      | some (leafNode, newLeafNode, separatorKey) =>
        let halves :=
          if separatorKey < key then
            (LeafNode.insert PageSize newLeafNode key value).map (fun n => (leafNode, n))
          else
            (LeafNode.insert PageSize leafNode key value).map (fun l => (l, newLeafNode))
        match halves with
        | none => []
        | some (leafNode, _) =>
          match leafNode.parentPageId with
          | some parentId =>
            [Buffer.Call.fix parentId true, Buffer.Call.unfix parentId true,
             Buffer.Call.unfix currentNodePageId true]
          | none =>
            [Buffer.Call.fix (t.next_page_id + 1) true, Buffer.Call.unfix newLeafPageId true,
             Buffer.Call.unfix (t.next_page_id + 1) true,
             Buffer.Call.unfix currentNodePageId true]

/-- The calls of `BTree::insert(key, value)` on the buffer manager. -/
def insert_calls (PageSize : Nat) (fuel : Nat) (t : Tree) (key value : Nat) :
    List Buffer.Call :=
  let t := if t.isTreeEmpty then
      { t with isTreeEmpty := false, next_page_id := 1, root := some 0 }
    else t
  match t.root with
  | none => []
  | some root =>
    iterate_calls (insert_step PageSize key value) (insert_step_calls PageSize key value) fuel
      (t, root)

/-- The page ids passed to `fix_page` by a list of calls. -/
def fixed_page_ids : List Buffer.Call → List Nat
  | [] => []
  | Buffer.Call.fix page_id _ :: cs => page_id :: fixed_page_ids cs
  | _ :: cs => fixed_page_ids cs

/-- How often each frame is fixed after the calls `cs` were made on a new
buffer manager with `page_count` frames: the pairs `(pId, num_fixed)`; `none`
when a call does not return. -/
def pins_after (page_count : Nat) (cs : List Buffer.Call) : Option (List (Nat × Nat)) :=
  (Buffer.run (Buffer.BufferManager.new 64 page_count Buffer.empty_disk) cs).map
    (fun bm => bm.bufferframes.map (fun f => (f.pId, f.num_fixed)))

/-- Modelled from the spec: the base class `Segment` (`storage/segment.h`) is
not part of the sources; it keeps the segment id given to its constructor. -/
structure Segment where
  segment_id : Nat
  deriving DecidableEq, Repr

/-- The `BTree` object: its `Segment` base and its own members. -/
structure Index where
  segment : Segment
  tree : Tree
  deriving DecidableEq, Repr

/-- Implementation of the constructor `BTree(segment_id, buffer_manager)`: the
segment id goes to the `Segment` base, and `isTreeEmpty` is set. -/
def construct (segment_id : Nat) : Index :=
  { segment := { segment_id := segment_id }, tree := Tree.empty }

/-- The calls of `insert(key, value)` on a tree object, and the object
afterwards (unchanged when the insert does not return).  `BTree::insert` never
reads the segment id. -/
def Index.insert (PageSize : Nat) (fuel : Nat) (ix : Index) (key value : Nat) :
    List Buffer.Call × Index :=
  (insert_calls PageSize fuel ix.tree key value,
    match BTree.insert PageSize fuel ix.tree key value with
    | Outcome.returns t => { ix with tree := t }
    | Outcome.undefined => ix
    | Outcome.running => ix)

/-- The calls of a sequence of `insert` calls on a tree object. -/
def Index.insert_all_calls (PageSize : Nat) (fuel : Nat) : Index → List (Nat × Nat) →
    List Buffer.Call
  | _, [] => []
  | ix, (k, v) :: rest =>
    (ix.insert PageSize fuel k v).1 ++
      Index.insert_all_calls PageSize fuel (ix.insert PageSize fuel k v).2 rest

/-- The page with id `id` after a sequence of `insert` calls into an empty
tree; `none` when an insert does not return. -/
def page_after (PageSize : Nat) (fuel : Nat) (kvs : List (Nat × Nat)) (id : Nat) : Option Page :=
  match insertAll PageSize fuel Tree.empty kvs with
  | Outcome.returns t => some (getPage PageSize t.pages id)
  | Outcome.undefined => none
  | Outcome.running => none

/-! ### Trees used in the worked evaluations (leaf capacity 2: `PageSize = 64`) -/

/-- The tree after `insert(30, 300)`, `insert(10, 100)`, `insert(20, 200)`:
root page 2 with separator 10 over the leaves `[10]` (page 0) and `[20, 30]`
(page 1). -/
def tree_three : Tree :=
  { root := some 2
    rootLevel := 1
    isTreeEmpty := false
    deletedKeys := []
    next_page_id := 3
    pages := [{ level := 0, count := 1, parentPageId := some 2, body := [10, 0, 100, 0, 0] },
              { level := 0, count := 2, parentPageId := some 2, body := [20, 30, 200, 300, 0] },
              { level := 1, count := 2, parentPageId := none, body := [10, 0, 0, 1, 0] }] }

/-- The tree after `insert(1, 10)`: the root is the single leaf `[1]`. -/
def tree_one : Tree :=
  { root := some 0
    rootLevel := 0
    isTreeEmpty := false
    deletedKeys := []
    next_page_id := 1
    pages := [{ level := 0, count := 1, parentPageId := none, body := [1, 0, 10, 0, 0] }] }

/-- The tree after inserting the keys 1, 2, 3, 4, 5 (values `10 * key`) in
ascending order. -/
def tree_asc5 : Tree :=
  { root := some 5
    rootLevel := 2
    isTreeEmpty := false
    deletedKeys := []
    next_page_id := 7
    pages := [{ level := 0, count := 1, parentPageId := some 2, body := [1, 0, 10, 0, 0] },
              { level := 0, count := 1, parentPageId := some 4, body := [2, 0, 20, 0, 0] },
              { level := 1, count := 1, parentPageId := some 5, body := [1, 0, 0, 0, 0] },
              { level := 0, count := 1, parentPageId := some 4, body := [3, 0, 30, 0, 0] },
              { level := 1, count := 3, parentPageId := some 5, body := [2, 3, 1, 3, 6] },
              { level := 2, count := 2, parentPageId := none, body := [1, 0, 2, 4, 0] },
              { level := 0, count := 2, parentPageId := some 4, body := [4, 5, 40, 50, 0] }] }

/-- The tree after inserting the keys 1, 2, 3, 4, 5, 6 (values `10 * key`) in
ascending order. -/
def tree_asc6 : Tree :=
  { root := some 5
    rootLevel := 2
    isTreeEmpty := false
    deletedKeys := []
    next_page_id := 8
    pages := [{ level := 0, count := 2, parentPageId := some 2, body := [1, 6, 10, 60, 0] },
              { level := 0, count := 1, parentPageId := some 4, body := [2, 0, 20, 0, 0] },
              { level := 1, count := 1, parentPageId := some 5, body := [1, 0, 0, 0, 0] },
              { level := 0, count := 1, parentPageId := some 7, body := [3, 0, 30, 0, 0] },
              { level := 1, count := 1, parentPageId := some 5, body := [2, 0, 1, 0, 0] },
              { level := 2, count := 3, parentPageId := none, body := [1, 2, 2, 4, 7] },
              { level := 0, count := 2, parentPageId := some 7, body := [4, 5, 40, 50, 0] },
              { level := 1, count := 2, parentPageId := some 5, body := [3, 0, 3, 6, 0] }] }

/-- The tree `tree_one` after `erase(1)`: the leaf is empty and the key is
recorded in `deletedKeys`. -/
def tree_one_erased : Tree :=
  { root := some 0
    rootLevel := 0
    isTreeEmpty := false
    deletedKeys := [1]
    next_page_id := 1
    pages := [{ level := 0, count := 0, parentPageId := none, body := [1, 0, 10, 0, 0] }] }

/-- The tree `tree_one_erased` after `insert(1, 20)`: the leaf holds the entry
`(1, 20)` and the key is still recorded in `deletedKeys`. -/
def tree_one_reinserted : Tree :=
  { root := some 0
    rootLevel := 0
    isTreeEmpty := false
    deletedKeys := [1]
    next_page_id := 1
    pages := [{ level := 0, count := 1, parentPageId := none, body := [1, 0, 20, 0, 0] }] }

/-- A full leaf for leaf capacity 3 (`PageSize = 80`): the entries
`(10, 100)`, `(20, 200)`, `(30, 300)`. -/
def leaf_k3 : Page :=
  { level := 0, count := 3, parentPageId := none, body := [10, 20, 30, 100, 200, 300, 0] }

/-- An inner node for capacity 2 (`PageSize = 64`) with the keys `10, 20` and
the children `7, 8, 9`. -/
def inner_k2 : Page :=
  { level := 1, count := 3, parentPageId := none, body := [10, 20, 7, 8, 9] }

/-- An inner node (`PageSize = 80`, capacity 3) with two children `3, 4` and
the single key `50`; the key slot of index `count - 1 = 1` holds the value
passed as `slot`. -/
def inner_two_children (slot : Nat) : Page :=
  { level := 1, count := 2, parentPageId := some 6, body := [50, slot, 0, 3, 4, 0, 0] }

/-- The tree `tree_three` after `insert(40, 400)`: the right leaf (page 1) was
split into page 1 and the new page 3 under the existing root. -/
def tree_four : Tree :=
  { root := some 2
    rootLevel := 1
    isTreeEmpty := false
    deletedKeys := []
    next_page_id := 4
    pages := [{ level := 0, count := 1, parentPageId := some 2, body := [10, 0, 100, 0, 0] },
              { level := 0, count := 1, parentPageId := some 2, body := [20, 0, 200, 0, 0] },
              { level := 1, count := 3, parentPageId := none, body := [10, 20, 0, 1, 3] },
              { level := 0, count := 2, parentPageId := some 2, body := [30, 40, 300, 400, 0] }] }

/-- The tree for leaf capacity 3 (`PageSize = 80`) after `insert(10, 100)`,
`insert(20, 200)`, `insert(30, 300)`, `insert(15, 150)`: the root (page 2) has
the separator 10 over the leaves `[10, 20]` (page 0) and `[15, 30]` (page 1). -/
def tree_k3 : Tree :=
  { root := some 2
    rootLevel := 1
    isTreeEmpty := false
    deletedKeys := []
    next_page_id := 3
    pages := [{ level := 0, count := 2, parentPageId := some 2,
                body := [10, 20, 0, 100, 200, 0, 0] },
              { level := 0, count := 2, parentPageId := some 2,
                body := [15, 30, 0, 150, 300, 0, 0] },
              { level := 1, count := 2, parentPageId := none, body := [10, 0, 0, 0, 1, 0, 0] }] }

end BTree

/-!
## Operator pipeline (`operators.cc`)

A tuple is the sequence of values of the registers that `get_output()` points
to.  The child of an operator is a source that delivers a finite sequence of
tuples; every operator is a record of its member variables, `next()` is a
function from the record to the new record and the returned flag, and a call
with undefined behaviour (an index outside a vector, a comparison or `as_int`
on the wrong variant) has no result.  The declarations of `operators.h`
(registers, predicates, criteria, aggregate functions, the hash table members)
are not part of the sources and are modelled from the specification.
-/

namespace Operators

/-- Modelled from the spec: `Register` is declared in `operators/operators.h`,
which is not part of the sources; it is a tagged value with two variants, a
64-bit signed integer (variant 0) or a string (variant 1). -/
inductive Register where
  | int (value : Int)
  | str (value : String)
  deriving DecidableEq, Repr

/-- Modelled from the spec: the two values of `Register::Type`. -/
inductive RegisterType where
  | INT64
  | CHAR16
  deriving DecidableEq, Repr

/-- The value of an integer expression stored into an `int64_t`
(`2^63 = 9223372036854775808`).  Signed overflow is undefined in C++; the model
takes the two's complement value that the hardware computes. -/
def int64 (x : Int) : Int :=
  (x + 9223372036854775808) % 18446744073709551616 - 9223372036854775808

/-- Implementation of `Register::from_int`. -/
def Register.from_int (value : Int) : Register := Register.int value

/-- Implementation of `Register::from_string`. -/
def Register.from_string (value : String) : Register := Register.str value

/-- Implementation of `Register::get_type`. -/
def Register.get_type : Register → RegisterType
  | Register.int _ => RegisterType.INT64
  | Register.str _ => RegisterType.CHAR16

/-- Implementation of `Register::as_int`: `std::get<0>` has no result on the
string variant. -/
def Register.as_int : Register → Option Int
  | Register.int value => some value
  | Register.str _ => none

/-- Implementation of `Register::as_string`: `std::get<1>` has no result on the
integer variant. -/
def Register.as_string : Register → Option String
  | Register.int _ => none
  | Register.str value => some value

/-- Implementation of `operator==` on registers (equality of the variants). -/
def Register.eq (r1 r2 : Register) : Bool := decide (r1 = r2)

/-- Implementation of `operator!=` on registers. -/
def Register.ne (r1 r2 : Register) : Bool := !decide (r1 = r2)

/-- Implementation of `operator<` on registers; `std::string::compare` orders
strings lexicographically. -/
def Register.lt (r1 r2 : Register) : Option Bool :=
  if r1.get_type ≠ r2.get_type then none
  else if r1.get_type = RegisterType.INT64 then do
    let a ← r1.as_int
    let b ← r2.as_int
    some (decide (a < b))
  else do
    let a ← r1.as_string
    let b ← r2.as_string
    some (decide (a < b))

/-- Implementation of `operator<=` on registers. -/
def Register.le (r1 r2 : Register) : Option Bool :=
  if r1.get_type ≠ r2.get_type then none
  else do
    let less ← Register.lt r1 r2
    some (less || Register.eq r1 r2)

/-- Implementation of `operator>` on registers. -/
def Register.gt (r1 r2 : Register) : Option Bool :=
  if r1.get_type ≠ r2.get_type then none
  else if r1.get_type = RegisterType.INT64 then do
    let a ← r1.as_int
    let b ← r2.as_int
    some (decide (a > b))
  else do
    let a ← r1.as_string
    let b ← r2.as_string
    some (decide (a > b))

/-- Implementation of `operator>=` on registers. -/
def Register.ge (r1 r2 : Register) : Option Bool :=
  if r1.get_type ≠ r2.get_type then none
  else do
    let greater ← Register.gt r1 r2
    some (greater || Register.eq r1 r2)

/-- Result of `std::min(a, b)` on registers: `b` if `b < a`, else `a`. -/
def Register.min (a b : Register) : Option Register := do
  if (← Register.lt b a) then some b else some a

/-- Result of `std::max(a, b)` on registers: `b` if `a < b`, else `a`. -/
def Register.max (a b : Register) : Option Register := do
  if (← Register.lt a b) then some b else some a

/-- A tuple: the values of a vector of registers. -/
abbrev Tuple := List Register

/-- Modelled from the spec: the child operator, a scan over a materialised
sequence of tuples.  `regs` are the registers its `get_output()` points to and
`rest` the tuples it has not delivered yet. -/
structure Source where
  regs : Tuple
  rest : List Tuple
  deriving DecidableEq, Repr

/-- Modelled from the spec: a scan of `tuples` after `open()`, with `width`
default-constructed registers. -/
def Source.scan (width : Nat) (tuples : List Tuple) : Source :=
  { regs := List.replicate width (Register.int 0), rest := tuples }

/-- Modelled from the spec: `next()` of the child loads the next tuple into the
registers, and returns false (again and again) once there is none. -/
def Source.next (s : Source) : Source × Bool :=
  match s.rest with
  | [] => (s, false)
  | t :: rest => ({ regs := t, rest := rest }, true)

/-- Modelled from the spec: `get_output()` of the child. -/
def Source.get_output (s : Source) : Tuple := s.regs

/-- The loop `while (input->next()) { body }` over local state `σ`.  The body
sees the registers of the child; its flag tells whether it left the function
with `return true`.  The result is the child, the state, and whether the
function returned from inside the loop.  The child delivers
`input.rest.length` tuples, so that many iterations and one more call of
`next()` always suffice. -/
def while_next {σ : Type} (body : σ → Tuple → Option (σ × Bool)) :
    Nat → Source → σ → Option (Source × σ × Bool)
  | 0, _, _ => none
  | fuel + 1, input, s =>
    match input.next with
    | (input, false) => some (input, s, false)
    | (input, true) =>
      match body s input.get_output with
      | none => none
      | some (s, true) => some (input, s, true)
      | some (s, false) => while_next body fuel input s

/-- The loop `while (i < n) { output_regs[offset + i] = src[i]; i++; }`. -/
def copy_regs (n offset : Nat) (src : Tuple) (output_regs : Tuple) : Option Tuple :=
  (List.range n).foldlM (fun out i =>
    match src[i]? with
    | none => none
    | some r => if offset + i < out.length then some (out.set (offset + i) r) else none)
    output_regs

/-- The tuples an operator produces: `get_output()` after every call of
`next()` that returns true, until the first call that returns false; at most
`fuel` calls. -/
def produce {σ : Type} (next : σ → Option (σ × Bool)) (get_output : σ → Tuple) :
    Nat → σ → Option (List Tuple)
  | 0, _ => none
  | fuel + 1, op =>
    match next op with
    | none => none
    | some (_, false) => some []
    | some (op, true) =>
      match produce next get_output fuel op with
      | none => none
      | some out => some (get_output op :: out)

/-- Modelled from the spec: `find` on a hash table (`std::unordered_map`,
declared in `operators/operators.h`), the value mapped to `key`. -/
def ht_find {κ ν : Type} [DecidableEq κ] (ht : List (κ × ν)) (key : κ) : Option ν :=
  match ht with
  | [] => none
  | (k, v) :: ht => if k = key then some v else ht_find ht key

/-- Modelled from the spec: assignment through `ht[key]`, which inserts the key
when it is absent. -/
def ht_set {κ ν : Type} [DecidableEq κ] (ht : List (κ × ν)) (key : κ) (value : ν) :
    List (κ × ν) :=
  match ht with
  | [] => [(key, value)]
  | (k, v) :: ht => if k = key then (k, value) :: ht else (k, v) :: ht_set ht key value

/-- Modelled from the spec: `emplace` on a hash table keeps the entry of a key
that is already present. -/
def ht_emplace {κ ν : Type} [DecidableEq κ] (ht : List (κ × ν)) (key : κ) (value : ν) :
    List (κ × ν) :=
  match ht_find ht key with
  | some _ => ht
  | none => ht ++ [(key, value)]

/-! ### Projection -/

/-- Member variables of `Projection`. -/
structure Projection where
  input : Source
  attr_indexes : List Nat
  deriving DecidableEq, Repr

/-- Implementation of `Projection::next`. -/
def Projection.next (p : Projection) : Projection × Bool :=
  ({ p with input := p.input.next.1 }, p.input.next.2)

/-- Implementation of `Projection::get_output`: the loop pushes `src_regs[i]`
for `i = 0, ..., attr_indexes.size() - 1`. -/
def Projection.get_output (p : Projection) : Option Tuple :=
  (List.range p.attr_indexes.length).foldlM (fun output i =>
    match p.input.get_output[i]? with
    | none => none
    | some r => some (output ++ [r])) []

/-! ### Select -/

/-- Modelled from the spec: the comparators of a predicate. -/
inductive PredicateType where
  | EQ
  | NE
  | LT
  | LE
  | GT
  | GE
  deriving DecidableEq, Repr

/-- Member variables of `Select`; `right_operand` is a constant register
(variant 0) or an attribute index (variant 1). -/
structure Select where
  input : Source
  attr_index : Nat
  right_operand : Register ⊕ Nat
  predicate_type : PredicateType

/-- The lambda in `Select::next`: the predicate on the registers of the child. -/
def Select.result (s : Select) (input_regs : Tuple) : Option Bool :=
  match input_regs[s.attr_index]?,
    (match s.right_operand with
      | Sum.inl constant => some constant
      | Sum.inr index => input_regs[index]?) with
  | some reg_left, some reg_right =>
    match s.predicate_type with
    | PredicateType.EQ => some (Register.eq reg_left reg_right)
    | PredicateType.NE => some (Register.ne reg_left reg_right)
    | PredicateType.LT => Register.lt reg_left reg_right
    | PredicateType.LE => Register.le reg_left reg_right
    | PredicateType.GT => Register.gt reg_left reg_right
    | PredicateType.GE => Register.ge reg_left reg_right
  | _, _ => none

/-- Implementation of `Select::next`. -/
def Select.next (s : Select) : Option (Select × Bool) :=
  match while_next (fun (_ : Unit) input_regs =>
      match s.result input_regs with
      | none => none
      | some result => some ((), result)) (s.input.rest.length + 1) s.input () with
  | none => none
  | some (input, _, found) => some ({ s with input := input }, found)

/-- Implementation of `Select::get_output`. -/
def Select.get_output (s : Select) : Tuple := s.input.get_output

/-! ### Sort -/

/-- Modelled from the spec: a sort criterion `(attr_index, desc)`. -/
structure Criterion where
  attr_index : Nat
  desc : Bool
  deriving DecidableEq, Repr

/-- Member variables of the operator `Sort`. -/
structure SortOperator where
  input : Source
  criteria : List Criterion
  sorted : List Tuple
  next_output_offset : Nat
  output_regs : Tuple
  deriving DecidableEq, Repr

/-- The operator after construction and `Sort::open`. -/
def SortOperator.open (input : Source) (criteria : List Criterion) : SortOperator :=
  { input := input, criteria := criteria, sorted := [], next_output_offset := 0,
    output_regs := List.replicate input.get_output.length (Register.int 0) }

/-- The comparison lambda passed to `std::stable_sort` in `Sort::next`. -/
def SortOperator.comp (criterion : Criterion) (a b : Tuple) : Option Bool :=
  match a[criterion.attr_index]?, b[criterion.attr_index]? with
  | some x, some y => if !criterion.desc then Register.lt x y else Register.gt x y
  | _, _ => none

/-- Insertion of `a` into a sorted sequence, behind the elements that compare
less than `a` and before every other element. -/
def ordered_insert {α : Type} (comp : α → α → Option Bool) (a : α) : List α → Option (List α)
  | [] => some [a]
  | b :: l =>
    match comp b a with
    | none => none
    | some true =>
      match ordered_insert comp a l with
      | none => none
      | some l => some (b :: l)
    | some false => some (a :: b :: l)

/-- Result of `std::stable_sort(first, last, comp)`: the sorted sequence in
which elements that compare equivalent keep their order.  The library routine
is modelled by a stable insertion sort; it has no result when a call of the
comparison has none. -/
def stable_sort {α : Type} (comp : α → α → Option Bool) : List α → Option (List α)
  | [] => some []
  | a :: l =>
    match stable_sort comp l with
    | none => none
    | some sorted => ordered_insert comp a sorted

/-- Implementation of `Sort::next`. -/
def SortOperator.next (s : SortOperator) : Option (SortOperator × Bool) := do
  let s ← if s.next_output_offset = 0 then do
      let (input, sorted, _) ← while_next (fun sorted input_regs =>
        some (sorted ++ [input_regs], false)) (s.input.rest.length + 1) s.input s.sorted
      let sorted ← s.criteria.reverse.foldlM (fun sorted criterion =>
        stable_sort (SortOperator.comp criterion) sorted) sorted
      some { s with input := input, sorted := sorted }
    else some s
  if s.next_output_offset ≠ s.sorted.length then do
    let output_regs ← s.sorted[s.next_output_offset]?
    some ({ s with output_regs := output_regs,
                   next_output_offset := s.next_output_offset + 1 }, true)
  else some (s, false)

/-- Implementation of `Sort::get_output`. -/
def SortOperator.get_output (s : SortOperator) : Tuple := s.output_regs

/-! ### HashJoin -/

/-- Member variables of `HashJoin`. -/
structure HashJoin where
  input_left : Source
  input_right : Source
  attr_index_left : Nat
  attr_index_right : Nat
  ht : List (Register × Tuple)
  ht_build : Bool
  output_regs : Tuple
  deriving DecidableEq, Repr

/-- The operator after construction and `HashJoin::open`. -/
def HashJoin.open (input_left input_right : Source) (attr_index_left attr_index_right : Nat) :
    HashJoin :=
  { input_left := input_left, input_right := input_right,
    attr_index_left := attr_index_left, attr_index_right := attr_index_right,
    ht := [], ht_build := false,
    output_regs := List.replicate
      (input_left.get_output.length + input_right.get_output.length) (Register.int 0) }

/-- Body of the build loop of `HashJoin::next`. -/
def HashJoin.build (attr_index_left : Nat) (ht : List (Register × Tuple)) (input_tuple : Tuple) :
    Option (List (Register × Tuple) × Bool) :=
  match input_tuple[attr_index_left]? with
  | none => none
  | some key => some (ht_emplace ht key input_tuple, false)

/-- Body of the probe loop of `HashJoin::next`. -/
def HashJoin.probe (attr_index_right : Nat) (ht : List (Register × Tuple))
    (output_regs : Tuple) (input_regs_right : Tuple) : Option (Tuple × Bool) :=
  match input_regs_right[attr_index_right]? with
  | none => none
  | some key =>
    match ht_find ht key with
    | none => some (output_regs, false)
    | some second =>
      match copy_regs second.length 0 second output_regs with
      | none => none
      | some output_regs =>
        match copy_regs input_regs_right.length second.length input_regs_right output_regs with
        | none => none
        | some output_regs => some (output_regs, true)

/-- Implementation of `HashJoin::next`; `ht_build` is never set, so every call
runs the build loop, which ends at once when the left child is exhausted. -/
def HashJoin.next (j : HashJoin) : Option (HashJoin × Bool) := do
  let j ← if !j.ht_build then do
      let (input_left, ht, _) ← while_next (HashJoin.build j.attr_index_left)
        (j.input_left.rest.length + 1) j.input_left j.ht
      some { j with input_left := input_left, ht := ht }
    else some j
  let (input_right, output_regs, found) ← while_next (HashJoin.probe j.attr_index_right j.ht)
    (j.input_right.rest.length + 1) j.input_right j.output_regs
  some ({ j with input_right := input_right, output_regs := output_regs }, found)

/-- Implementation of `HashJoin::get_output`. -/
def HashJoin.get_output (j : HashJoin) : Tuple := j.output_regs

/-! ### HashAggregation -/

/-- Modelled from the spec: the aggregate functions `AggrFunc::Func`. -/
inductive Func where
  | MIN
  | MAX
  | SUM
  | COUNT
  deriving DecidableEq, Repr

/-- Modelled from the spec: an aggregate `(func, attr_index)`. -/
structure AggrFunc where
  func : Func
  attr_index : Nat
  deriving DecidableEq, Repr

/-- Member variables of `HashAggregation`.  The iterator `output_iterator` is
modelled by the entries from its position to `ht.end()`. -/
structure HashAggregation where
  input : Source
  group_by_attrs : List Nat
  aggr_funcs : List AggrFunc
  ht : List (Tuple × Tuple)
  seen_input : Bool
  output_iterator : List (Tuple × Tuple)
  output_regs : Tuple
  deriving DecidableEq, Repr

/-- The operator after construction and `HashAggregation::open`. -/
def HashAggregation.open (input : Source) (group_by_attrs : List Nat)
    (aggr_funcs : List AggrFunc) : HashAggregation :=
  { input := input, group_by_attrs := group_by_attrs, aggr_funcs := aggr_funcs,
    ht := [], seen_input := false, output_iterator := [],
    output_regs := List.replicate (aggr_funcs.length + group_by_attrs.length) (Register.int 0) }

/-- The loop that collects `*input_regs[index]` for the group-by attributes. -/
def HashAggregation.group_by_regs (input_regs : Tuple) : List Nat → Option Tuple
  | [] => some []
  | index :: rest =>
    match input_regs[index]?, HashAggregation.group_by_regs input_regs rest with
    | some r, some regs => some (r :: regs)
    | _, _ => none

/-- The loop that fills an empty vector of aggregates. -/
def HashAggregation.init (input_regs : Tuple) : List AggrFunc → Option Tuple
  | [] => some []
  | aggr_func :: rest =>
    match (match aggr_func.func with
      | Func.MIN => input_regs[aggr_func.attr_index]?
      | Func.MAX => input_regs[aggr_func.attr_index]?
      | Func.SUM => some (Register.from_int 0)
      | Func.COUNT => some (Register.from_int 0)),
      HashAggregation.init input_regs rest with
    | some r, some regs => some (r :: regs)
    | _, _ => none

/-- One assignment `agggregates[i] = ...` of the update loop; the `int64_t`
additions of SUM and COUNT wrap. -/
def HashAggregation.apply (input_regs : Tuple) (aggr_func : AggrFunc) (aggregate : Register) :
    Option Register :=
  match aggr_func.func with
  | Func.MIN =>
    match input_regs[aggr_func.attr_index]? with
    | none => none
    | some r => Register.min aggregate r
  | Func.MAX =>
    match input_regs[aggr_func.attr_index]? with
    | none => none
    | some r => Register.max aggregate r
  | Func.SUM =>
    match aggregate.as_int, input_regs[aggr_func.attr_index]? with
    | some a, some r =>
      match r.as_int with
      | none => none
      | some b => some (Register.from_int (int64 (a + b)))
    | _, _ => none
  | Func.COUNT =>
    match aggregate.as_int with
    | none => none
    | some a => some (Register.from_int (int64 (a + 1)))

/-- The update loop `while (i < aggr_funcs.size())` over the aggregates. -/
def HashAggregation.update (input_regs : Tuple) : List AggrFunc → Tuple → Option Tuple
  | [], agggregates => some agggregates
  | _ :: _, [] => none
  | aggr_func :: funcs, aggregate :: rest =>
    match HashAggregation.apply input_regs aggr_func aggregate,
      HashAggregation.update input_regs funcs rest with
    | some r, some regs => some (r :: regs)
    | _, _ => none

/-- Body of the loop over the input of `HashAggregation::next`. -/
def HashAggregation.consume (group_by_attrs : List Nat) (aggr_funcs : List AggrFunc)
    (ht : List (Tuple × Tuple)) (input_regs : Tuple) : Option (List (Tuple × Tuple) × Bool) :=
  match HashAggregation.group_by_regs input_regs group_by_attrs with
  | none => none
  | some group_by_regs =>
    let agggregates := (ht_find ht group_by_regs).getD []
    match (if agggregates.isEmpty then HashAggregation.init input_regs aggr_funcs
           else some agggregates) with
    | none => none
    | some agggregates =>
      match HashAggregation.update input_regs aggr_funcs agggregates with
      | none => none
      | some agggregates => some (ht_set ht group_by_regs agggregates, false)

/-- Implementation of `HashAggregation::next`.  The order in which the
iterator visits the hash table is not specified: it is the parameter
`iteration`.  Incrementing the iterator at `ht.end()` has no result. -/
def HashAggregation.next (iteration : List (Tuple × Tuple) → List (Tuple × Tuple))
    (a : HashAggregation) : Option (HashAggregation × Bool) := do
  let a ← if a.seen_input then
      match a.output_iterator with
      | [] => none
      | _ :: rest => some { a with output_iterator := rest }
    else do
      let (input, ht, _) ← while_next (HashAggregation.consume a.group_by_attrs a.aggr_funcs)
        (a.input.rest.length + 1) a.input a.ht
      some { a with input := input, ht := ht, output_iterator := iteration ht,
                    seen_input := true }
  match a.output_iterator with
  | [] => some (a, false)
  | (first, second) :: _ => do
    let output_regs ← copy_regs a.group_by_attrs.length 0 first a.output_regs
    let output_regs ← copy_regs a.aggr_funcs.length a.group_by_attrs.length second output_regs
    some ({ a with output_regs := output_regs }, true)

/-- Implementation of `HashAggregation::get_output`. -/
def HashAggregation.get_output (a : HashAggregation) : Tuple := a.output_regs

/-! ### Union and UnionAll -/

/-- Member variables of `Union`; `ht` is a set of tuples. -/
structure Union where
  input_left : Source
  input_right : Source
  ht : List Tuple
  seen_input : Bool
  output_regs : Tuple
  deriving DecidableEq, Repr

/-- The operator after construction and `Union::open`. -/
def Union.open (input_left input_right : Source) : Union :=
  { input_left := input_left, input_right := input_right, ht := [], seen_input := false,
    output_regs := List.replicate input_left.get_output.length (Register.int 0) }

/-- Body of both loops of `Union::next`: `ht.insert(tuple).second` tells whether
the tuple was new. -/
def Union.body (st : List Tuple × Tuple) (input_regs : Tuple) :
    Option ((List Tuple × Tuple) × Bool) :=
  if input_regs ∈ st.1 then some (st, false)
  else
    match copy_regs input_regs.length 0 input_regs st.2 with
    | none => none
    | some output_regs => some ((input_regs :: st.1, output_regs), true)

/-- Implementation of `Union::next`. -/
def Union.next (u : Union) : Option (Union × Bool) := do
  let (u, found) ← if !u.seen_input then do
      let (input_left, (ht, output_regs), found) ← while_next Union.body
        (u.input_left.rest.length + 1) u.input_left (u.ht, u.output_regs)
      some ({ u with input_left := input_left, ht := ht, output_regs := output_regs,
                     seen_input := !found }, found)
    else some (u, false)
  if found then some (u, true)
  else do
    let (input_right, (ht, output_regs), found) ← while_next Union.body
      (u.input_right.rest.length + 1) u.input_right (u.ht, u.output_regs)
    some ({ u with input_right := input_right, ht := ht, output_regs := output_regs }, found)

/-- Implementation of `Union::get_output`. -/
def Union.get_output (u : Union) : Tuple := u.output_regs

/-- Member variables of `UnionAll`. -/
structure UnionAll where
  input_left : Source
  input_right : Source
  seen_input : Bool
  output_regs : Tuple
  deriving DecidableEq, Repr

/-- The operator after construction and `UnionAll::open`. -/
def UnionAll.open (input_left input_right : Source) : UnionAll :=
  { input_left := input_left, input_right := input_right, seen_input := false,
    output_regs := List.replicate input_left.get_output.length (Register.int 0) }

/-- Implementation of `UnionAll::next`. -/
def UnionAll.next (u : UnionAll) : Option (UnionAll × Bool) :=
  if !u.seen_input ∧ u.input_left.next.2 then
    match copy_regs u.output_regs.length 0 u.input_left.next.1.get_output u.output_regs with
    | none => none
    | some output_regs =>
      some ({ u with input_left := u.input_left.next.1, output_regs := output_regs }, true)
  else
    let u := if !u.seen_input then
        { u with input_left := u.input_left.next.1, seen_input := true }
      else u
    if u.input_right.next.2 then
      match copy_regs u.output_regs.length 0 u.input_right.next.1.get_output u.output_regs with
      | none => none
      | some output_regs =>
        some ({ u with input_right := u.input_right.next.1, output_regs := output_regs }, true)
    else some ({ u with input_right := u.input_right.next.1 }, false)

/-- Implementation of `UnionAll::get_output`. -/
def UnionAll.get_output (u : UnionAll) : Tuple := u.output_regs

/-! ### Intersect and IntersectAll -/

/-- Member variables of `Intersect` and of `IntersectAll`; `ht` maps a tuple to
its counter. -/
structure Intersect where
  input_left : Source
  input_right : Source
  ht : List (Tuple × Nat)
  seen_input : Bool
  output_regs : Tuple
  deriving DecidableEq, Repr

/-- The operator after construction and `Intersect::open`
(`IntersectAll::open` is the same). -/
def Intersect.open (input_left input_right : Source) : Intersect :=
  { input_left := input_left, input_right := input_right, ht := [], seen_input := false,
    output_regs := List.replicate input_left.get_output.length (Register.int 0) }

/-- Body of the loop over the left input of `Intersect::next`:
`ht[tuple] = 1`. -/
def Intersect.count (ht : List (Tuple × Nat)) (input_regs : Tuple) :
    Option (List (Tuple × Nat) × Bool) :=
  some (ht_set ht input_regs 1, false)

/-- Body of the loop over the left input of `IntersectAll::next`:
`++ht[tuple]`, where `ht[tuple]` starts at zero. -/
def IntersectAll.count (ht : List (Tuple × Nat)) (input_regs : Tuple) :
    Option (List (Tuple × Nat) × Bool) :=
  some (ht_set ht input_regs ((ht_find ht input_regs).getD 0 + 1), false)

/-- Body of the loop over the right input of `Intersect::next` and of
`IntersectAll::next`. -/
def Intersect.probe (st : List (Tuple × Nat) × Tuple) (tuple : Tuple) :
    Option ((List (Tuple × Nat) × Tuple) × Bool) :=
  match ht_find st.1 tuple with
  | none => some (st, false)
  | some counter =>
    if counter > 0 then
      match copy_regs st.2.length 0 tuple st.2 with
      | none => none
      | some output_regs => some ((ht_set st.1 tuple (counter - 1), output_regs), true)
    else some (st, false)

/-- The common shape of `Intersect::next` and `IntersectAll::next`, which
differ in the body `count` of the loop over the left input. -/
def Intersect.next_with
    (count : List (Tuple × Nat) → Tuple → Option (List (Tuple × Nat) × Bool))
    (x : Intersect) : Option (Intersect × Bool) := do
  let x ← if !x.seen_input then do
      let (input_left, ht, _) ← while_next count (x.input_left.rest.length + 1)
        x.input_left x.ht
      some { x with input_left := input_left, ht := ht, seen_input := true }
    else some x
  let (input_right, (ht, output_regs), found) ← while_next Intersect.probe
    (x.input_right.rest.length + 1) x.input_right (x.ht, x.output_regs)
  some ({ x with input_right := input_right, ht := ht, output_regs := output_regs }, found)

/-- Implementation of `Intersect::next`. -/
def Intersect.next (x : Intersect) : Option (Intersect × Bool) :=
  Intersect.next_with Intersect.count x

/-- Implementation of `IntersectAll::next`. -/
def IntersectAll.next (x : Intersect) : Option (Intersect × Bool) :=
  Intersect.next_with IntersectAll.count x

/-- Implementation of `Intersect::get_output` and `IntersectAll::get_output`. -/
def Intersect.get_output (x : Intersect) : Tuple := x.output_regs

/-! ### Notions of the specification -/

/-- The order of the specification on registers: the order of the integers, or
of the strings, within one variant; registers of different variants are not
comparable. -/
def Register.Less : Register → Register → Prop
  | Register.int a, Register.int b => a < b
  | Register.str a, Register.str b => a < b
  | _, _ => False

/-- The order "less than or equal" of the specification on registers of one
variant. -/
def Register.LessEq : Register → Register → Prop
  | Register.int a, Register.int b => a ≤ b
  | Register.str a, Register.str b => a ≤ b
  | _, _ => False

instance Register.decidableLess (a b : Register) : Decidable (Register.Less a b) := by
  cases a <;> cases b <;> unfold Register.Less <;> infer_instance

instance Register.decidableLessEq (a b : Register) : Decidable (Register.LessEq a b) := by
  cases a <;> cases b <;> unfold Register.LessEq <;> infer_instance

/-- The comparison `left <comparator> right` of the specification. -/
def PredicateType.holds : PredicateType → Register → Register → Bool
  | PredicateType.EQ, left, right => decide (left = right)
  | PredicateType.NE, left, right => decide (left ≠ right)
  | PredicateType.LT, left, right => decide (Register.Less left right)
  | PredicateType.LE, left, right => decide (Register.LessEq left right)
  | PredicateType.GT, left, right => decide (Register.Less right left)
  | PredicateType.GE, left, right => decide (Register.LessEq right left)

/-- The right operand of a predicate on a tuple: the constant, or the value of
the attribute. -/
def operand (right_operand : Register ⊕ Nat) (t : Tuple) : Option Register :=
  match right_operand with
  | Sum.inl constant => some constant
  | Sum.inr index => t[index]?

/-- The predicate of the specification on a tuple:
`t[attr_index] <comparator> right operand`. -/
def satisfies (attr_index : Nat) (comparator : PredicateType) (right_operand : Register ⊕ Nat)
    (t : Tuple) : Bool :=
  match t[attr_index]?, operand right_operand t with
  | some left, some right => comparator.holds left right
  | _, _ => false

/-- The tuples of a sequence that are not in `seen` and did not occur earlier
in the sequence, in the order of their first occurrence. -/
def new_tuples (seen : List Tuple) : List Tuple → List Tuple
  | [] => []
  | t :: l => if t ∈ seen then new_tuples seen l else t :: new_tuples (t :: seen) l

/-- The counter of a tuple in a hash table of counters; zero when the tuple is
not a key. -/
def counter (ht : List (Tuple × Nat)) (t : Tuple) : Nat := (ht_find ht t).getD 0

/-- The tuples of a sequence that find a positive counter, each one using up
one unit of its counter. -/
def matched (ht : List (Tuple × Nat)) : List Tuple → List Tuple
  | [] => []
  | t :: l =>
    if 0 < counter ht t then t :: matched (ht_set ht t (counter ht t - 1)) l
    else matched ht l

/-- The equi-join of the specification: for each right tuple `r`, in the order
of the right input, the tuples `l ++ r` of the left tuples `l` with
`l[li] = r[ri]`. -/
def equi_join (left right : List Tuple) (li ri : Nat) : List Tuple :=
  right.flatMap (fun r =>
    (left.filter (fun l => decide (l[li]? = r[ri]?))).map (fun l => l ++ r))

/-- The tuple that probing the hash table with the right tuple `r` yields. -/
def probed (ri : Nat) (ht : List (Register × Tuple)) (r : Tuple) : Option Tuple :=
  match r[ri]? with
  | none => none
  | some key =>
    match ht_find ht key with
    | none => none
    | some l => some (l ++ r)

/-- The pure form of the body of the build loop of `HashJoin`. -/
def built (li : Nat) (ht : List (Register × Tuple)) (l : Tuple) : List (Register × Tuple) :=
  match l[li]? with
  | none => ht
  | some key => ht_emplace ht key l

/-- A criterion puts the tuple `t` strictly before the tuple `u`: the
attribute of `t` is less than that of `u`, or greater when the criterion is
descending. -/
def Criterion.before (c : Criterion) (t u : Tuple) : Prop :=
  match t[c.attr_index]?, u[c.attr_index]? with
  | some a, some b => if c.desc then Register.Less b a else Register.Less a b
  | _, _ => False

/-- Two tuples tie on a criterion: they agree on its attribute. -/
def Criterion.tie (c : Criterion) (t u : Tuple) : Prop :=
  t[c.attr_index]? = u[c.attr_index]?

/-- The lexicographic order of the specification: the first criterion is the
most significant one, and the next criterion decides between tuples that tie
on it. -/
def LexLe : List Criterion → Tuple → Tuple → Prop
  | [], _, _ => True
  | c :: criteria, t, u => c.before t u ∨ (c.tie t u ∧ LexLe criteria t u)

/-- The tuple `u` ties with the tuple `t` on all criteria. -/
def ties (criteria : List Criterion) (t u : Tuple) : Bool :=
  criteria.all (fun c => decide (u[c.attr_index]? = t[c.attr_index]?))

/-- An embedding of the registers into a linear order that agrees with the
order of the specification within each variant. -/
def Register.rank : Register → Int ⊕ₗ String
  | Register.int a => toLex (Sum.inl a)
  | Register.str s => toLex (Sum.inr s)

/-- The rank of the attribute of a criterion in a tuple. -/
def Criterion.key (c : Criterion) (t : Tuple) : Int ⊕ₗ String :=
  Register.rank ((t[c.attr_index]?).getD (Register.int 0))

/-- The group-by key of a tuple: the values of its group-by attributes. -/
def group_key (group_by_attrs : List Nat) (t : Tuple) : Tuple :=
  group_by_attrs.filterMap (fun index => t[index]?)

/-- The integer value of an attribute of a tuple (zero when the attribute is
not an integer). -/
def attr_int (attr_index : Nat) (t : Tuple) : Int :=
  match t[attr_index]? with
  | some (Register.int value) => value
  | _ => 0

/-- The aggregates of the specification: `r` is the value of the aggregate
`f` over the tuples of `group`.  MIN is a value of the attribute in the group
that no value in the group is less than, MAX one that is less than no value in
the group, SUM the sum of the attribute as an `int64_t`, and COUNT the number
of tuples. -/
def IsAggregate (f : AggrFunc) (group : List Tuple) (r : Register) : Prop :=
  match f.func with
  | Func.MIN => (∃ t ∈ group, t[f.attr_index]? = some r) ∧
      ∀ t ∈ group, ∀ v, t[f.attr_index]? = some v → ¬ Register.Less v r
  | Func.MAX => (∃ t ∈ group, t[f.attr_index]? = some r) ∧
      ∀ t ∈ group, ∀ v, t[f.attr_index]? = some v → ¬ Register.Less r v
  | Func.SUM => r = Register.int (int64 ((group.map (attr_int f.attr_index)).sum))
  | Func.COUNT => r = Register.int group.length

/-- The tuples of an input that belong to the group of a key. -/
def group_of (group_by_attrs : List Nat) (input : List Tuple) (key : Tuple) : List Tuple :=
  input.filter (fun t => decide (group_key group_by_attrs t = key))

/-- The state of the hash table of `HashAggregation` after the tuples of
`input`: its keys are the distinct group-by keys of `input`, and each key is
mapped to the aggregates of its group. -/
def Aggregated (group_by_attrs : List Nat) (aggr_funcs : List AggrFunc) (input : List Tuple)
    (ht : List (Tuple × Tuple)) : Prop :=
  (ht.map Prod.fst).Nodup ∧
  (∀ key, key ∈ ht.map Prod.fst ↔ key ∈ input.map (group_key group_by_attrs)) ∧
  ∀ key aggregates, ht_find ht key = some aggregates →
    List.Forall₂ (fun f r => IsAggregate f (group_of group_by_attrs input key) r)
      aggr_funcs aggregates

/-- The column of an aggregate in an input: all tuples have the attribute, with
one and the same variant, which is the integer variant for SUM; COUNT reads
no attribute. -/
def Column (f : AggrFunc) (input : List Tuple) : Prop :=
  f.func ≠ Func.COUNT →
    ∃ ty, (f.func = Func.SUM → ty = RegisterType.INT64) ∧
      ∀ t ∈ input, ∃ r, t[f.attr_index]? = some r ∧ r.get_type = ty

/-! ### Except and ExceptAll -/

/-- Member variables of `Except` and of `ExceptAll`.  The iterator
`current_output_it` is modelled by the entries of the hash table from its
position to `ht.end()`, with their counters: once the iterator is set, the
counters are reached through it only. -/
structure Except where
  input_left : Source
  input_right : Source
  ht : List (Tuple × Nat)
  seen_input : Bool
  current_output_it : List (Tuple × Nat)
  output_regs : Tuple
  deriving DecidableEq, Repr

/-- The operator after construction and `Except::open` (`ExceptAll::open` is
the same). -/
def Except.open (input_left input_right : Source) : Except :=
  { input_left := input_left, input_right := input_right, ht := [], seen_input := false,
    current_output_it := [],
    output_regs := List.replicate input_left.get_output.length (Register.int 0) }

/-- Body of the loop over the right input of `Except::next` and of
`ExceptAll::next`: a positive counter of the tuple is decremented. -/
def Except.subtract (ht : List (Tuple × Nat)) (tuple : Tuple) :
    Option (List (Tuple × Nat) × Bool) :=
  match ht_find ht tuple with
  | none => some (ht, false)
  | some counter =>
    if counter > 0 then some (ht_set ht tuple (counter - 1), false) else some (ht, false)

/-- The loop `while (current_output_it != ht.end())` of `Except::next` and of
`ExceptAll::next`: the iterator afterwards, the output registers, and whether
the function returned true. -/
def Except.output : List (Tuple × Nat) → Tuple → Option (List (Tuple × Nat) × Tuple × Bool)
  | [], output_regs => some ([], output_regs, false)
  | (first, counter) :: rest, output_regs =>
    if counter > 0 then
      match copy_regs output_regs.length 0 first output_regs with
      | none => none
      | some output_regs => some ((first, counter - 1) :: rest, output_regs, true)
    else Except.output rest output_regs

/-- The common shape of `Except::next` and `ExceptAll::next`, which differ in
the body `count` of the loop over the left input.  The order in which the
iterator visits the hash table is not specified: it is the parameter
`iteration`. -/
def Except.next_with
    (count : List (Tuple × Nat) → Tuple → Option (List (Tuple × Nat) × Bool))
    (iteration : List (Tuple × Nat) → List (Tuple × Nat))
    (x : Except) : Option (Except × Bool) := do
  let x ← if !x.seen_input then do
      let (input_left, ht, _) ← while_next count (x.input_left.rest.length + 1)
        x.input_left x.ht
      let (input_right, ht, _) ← while_next Except.subtract (x.input_right.rest.length + 1)
        x.input_right ht
      some { x with input_left := input_left, input_right := input_right, ht := ht,
                    current_output_it := iteration ht, seen_input := true }
    else some x
  let (current_output_it, output_regs, found) ← Except.output x.current_output_it x.output_regs
  some ({ x with current_output_it := current_output_it, output_regs := output_regs }, found)

/-- Implementation of `Except::next`; the loop over the left input sets
`ht[tuple] = 1`. -/
def Except.next (iteration : List (Tuple × Nat) → List (Tuple × Nat)) (x : Except) :
    Option (Except × Bool) :=
  Except.next_with Intersect.count iteration x

/-- Implementation of `ExceptAll::next`; the loop over the left input
increments `ht[tuple]`. -/
def ExceptAll.next (iteration : List (Tuple × Nat) → List (Tuple × Nat)) (x : Except) :
    Option (Except × Bool) :=
  Except.next_with IntersectAll.count iteration x

/-- Implementation of `Except::get_output` and `ExceptAll::get_output`. -/
def Except.get_output (x : Except) : Tuple := x.output_regs

/-- The pure form of `Except.subtract`. -/
def subtracted (ht : List (Tuple × Nat)) (t : Tuple) : List (Tuple × Nat) :=
  if 0 < counter ht t then ht_set ht t (counter ht t - 1) else ht

/-- The tuples the output loop produces from the entries of the hash table:
each key as often as its counter says. -/
def expand (entries : List (Tuple × Nat)) : List Tuple :=
  entries.flatMap (fun e => List.replicate e.2 e.1)

/-- The sum of the counters of a hash table. -/
def total (entries : List (Tuple × Nat)) : Nat := (entries.map Prod.snd).sum

/-! ### `close()` and a second `open()` -/

/-- Modelled from the spec: `close()` of the child. -/
def Source.close (s : Source) : Source := s

/-- Modelled from the spec: `open()` of a restartable child, which delivers
`tuples` again. -/
def Source.open (s : Source) (tuples : List Tuple) : Source := { s with rest := tuples }

/-- Result of `output_regs.resize(n)`: the first `n` registers, padded with
default-constructed registers. -/
def resize_regs (n : Nat) (regs : Tuple) : Tuple :=
  regs.take n ++ List.replicate (n - regs.length) (Register.int 0)

/-- The state of an operator after the call of `next()` that returns false;
at most `fuel` calls. -/
def exhaust {σ : Type} (next : σ → Option (σ × Bool)) : Nat → σ → Option σ
  | 0, _ => none
  | fuel + 1, op =>
    match next op with
    | none => none
    | some (op, false) => some op
    | some (op, true) => exhaust next fuel op

/-- Implementation of `Projection::close`. -/
def Projection.close (p : Projection) : Projection :=
  { input := p.input.close, attr_indexes := [] }

/-- Implementation of `Projection::open`, over a child that delivers `tuples`. -/
def Projection.open (p : Projection) (tuples : List Tuple) : Projection :=
  { p with input := p.input.open tuples }

/-- Implementation of `Sort::close`. -/
def SortOperator.close (s : SortOperator) : SortOperator :=
  { s with input := s.input.close, sorted := [] }

/-- Implementation of `Sort::open` on an operator that has been used, over a
child that delivers `tuples`. -/
def SortOperator.reopen (s : SortOperator) (tuples : List Tuple) : SortOperator :=
  { s with input := s.input.open tuples,
           output_regs := resize_regs (s.input.open tuples).get_output.length s.output_regs }

/-- Implementation of `HashAggregation::close`; `ht.clear()` invalidates the
iterator. -/
def HashAggregation.close (a : HashAggregation) : HashAggregation :=
  { a with input := a.input.close, ht := [], output_iterator := [] }

/-- Implementation of `HashAggregation::open` on an operator that has been
used, over a child that delivers `tuples`. -/
def HashAggregation.reopen (a : HashAggregation) (tuples : List Tuple) : HashAggregation :=
  { a with input := a.input.open tuples,
           output_regs := resize_regs (a.aggr_funcs.length + a.group_by_attrs.length)
             a.output_regs }

/-- Implementation of `UnionAll::close`. -/
def UnionAll.close (u : UnionAll) : UnionAll :=
  { u with input_left := u.input_left.close, input_right := u.input_right.close }

/-- Implementation of `UnionAll::open` on an operator that has been used, over
children that deliver `left` and `right`. -/
def UnionAll.reopen (u : UnionAll) (left right : List Tuple) : UnionAll :=
  { u with input_left := u.input_left.open left, input_right := u.input_right.open right,
           output_regs := resize_regs (u.input_left.open left).get_output.length
             u.output_regs }

end Operators

namespace ExternalSort

theorem extractMin_eq_none {pq : List element} (h : extractMin pq = none) : pq = [] := by
  cases pq with
  | nil => rfl
  | cons e rest =>
    simp only [extractMin] at h
    split at h
    · simp at h
    · split at h <;> simp at h

theorem extractMin_spec : ∀ {pq : List element} {m : element} {r : List element},
    extractMin pq = some (m, r) → (m :: r).Perm pq ∧ ∀ e ∈ pq, m.value ≤ e.value := by
  intro pq
  induction pq with
  | nil => intro m r h; simp [extractMin] at h
  | cons e rest ih =>
    intro m r h
    simp only [extractMin] at h
    split at h
    · rename_i hn
      have := extractMin_eq_none hn
      subst this
      simp only [Option.some.injEq, Prod.mk.injEq] at h
      obtain ⟨rfl, rfl⟩ := h
      simp
    · rename_i m' r' hs
      obtain ⟨hp, hmin⟩ := ih hs
      split at h
      · rename_i hle
        simp only [Option.some.injEq, Prod.mk.injEq] at h
        obtain ⟨rfl, rfl⟩ := h
        refine ⟨List.Perm.refl _, ?_⟩
        intro x hx
        rcases List.mem_cons.1 hx with rfl | hx
        · exact le_refl _
        · exact le_trans hle (hmin x hx)
      · rename_i hle
        simp only [Option.some.injEq, Prod.mk.injEq] at h
        obtain ⟨rfl, rfl⟩ := h
        refine ⟨?_, ?_⟩
        · exact (List.Perm.swap _ _ _).trans (hp.cons e)
        · intro x hx
          rcases List.mem_cons.1 hx with rfl | hx
          · exact le_of_lt (not_le.1 hle)
          · exact hmin x hx

theorem overwrite_one (ws : List Nat) (i v : Nat) (h : i < ws.length) :
    overwrite ws i [v] = ws.take i ++ v :: ws.drop (i + 1) := by
  unfold overwrite
  have : i - ws.length = 0 := by omega
  simp [this]

theorem length_overwrite_one (ws : List Nat) (i v : Nat) (h : i < ws.length) :
    (overwrite ws i [v]).length = ws.length := by
  rw [overwrite_one ws i v h]
  simp
  omega

theorem write_one_words (out : File) (wp v : Nat) (h : wp < out.words.length) :
    (out.write_block [v] (wp * wordBytes) wordBytes).words
      = out.words.take wp ++ v :: out.words.drop (wp + 1) := by
  simp only [File.write_block, wordBytes, Nat.mul_div_cancel, Nat.zero_lt_succ, Nat.div_self,
    List.take_succ_cons, List.take_zero, Nat.ofNat_pos]
  exact overwrite_one _ _ _ h

theorem elemOk_step {reg : List File} {e : element} {tl : List Nat} (h : ElemOk reg e)
    (htl : remaining reg e = e.value :: tl) :
    (e.read_offset < e.eof_offset - 1 →
      ElemOk reg { e with
        read_offset := e.read_offset + 1
        value := ((reg.getD e.chunk_id make_temporary_file).read_block
          ((e.read_offset + 1) * wordBytes) wordBytes).headD e.value } ∧
      remaining reg { e with
        read_offset := e.read_offset + 1
        value := ((reg.getD e.chunk_id make_temporary_file).read_block
          ((e.read_offset + 1) * wordBytes) wordBytes).headD e.value } = tl) ∧
    (¬ e.read_offset < e.eof_offset - 1 → tl = []) := by
  obtain ⟨hs, heof, _⟩ := h
  unfold remaining at htl
  have hlen : (List.drop e.read_offset (reg.getD e.chunk_id make_temporary_file).words).length
      = tl.length + 1 := by rw [htl]; simp
  rw [List.length_drop, ← heof] at hlen
  have hdrop : List.drop (e.read_offset + 1) (reg.getD e.chunk_id make_temporary_file).words
      = tl := by
    rw [← List.drop_drop, htl]
    rfl
  constructor
  · intro hlt
    have hne : tl ≠ [] := by
      intro h0
      rw [h0] at hlen
      simp only [List.length_nil] at hlen
      omega
    obtain ⟨t, tl', rfl⟩ := List.exists_cons_of_ne_nil hne
    have hval : ((reg.getD e.chunk_id make_temporary_file).read_block
          ((e.read_offset + 1) * wordBytes) wordBytes).headD e.value = t := by
      simp only [File.read_block, wordBytes, Nat.mul_div_cancel, Nat.ofNat_pos, Nat.div_self]
      rw [hdrop]
      rfl
    rw [hval]
    refine ⟨⟨hs, heof, tl', ?_⟩, ?_⟩
    · simpa [remaining] using hdrop
    · simpa [remaining] using hdrop
  · intro hnlt
    cases tl with
    | nil => rfl
    | cons t tl' =>
      simp only [List.length_cons] at hlen
      omega

theorem sorted_head_le {v : Nat} {tl : List Nat} (h : (v :: tl).Sorted (· ≤ ·)) :
    ∀ x ∈ v :: tl, v ≤ x := by
  intro x hx
  rcases List.mem_cons.1 hx with rfl | hx
  · exact le_refl _
  · exact List.rel_of_sorted_cons h x hx

theorem elemOk_value_le {reg : List File} {e : element} (h : ElemOk reg e) :
    ∀ x ∈ remaining reg e, e.value ≤ x := by
  obtain ⟨hs, _, tl, htl⟩ := h
  have hs' : (remaining reg e).Sorted (· ≤ ·) := by
    unfold remaining
    exact List.Pairwise.sublist (List.drop_sublist _ _) hs
  rw [htl] at hs' ⊢
  exact sorted_head_le hs'

theorem merge_loop_spec (reg : List File) (n : Nat) :
    ∀ (fuel : Nat) (pq : List element) (wp : Nat) (out : File),
      (∀ e ∈ pq, ElemOk reg e) →
      wp + (pq.flatMap (remaining reg)).length = n →
      (pq.flatMap (remaining reg)).length ≤ fuel →
      n ≤ out.words.length →
      ∃ L, (merge_loop reg n fuel pq wp out).words
          = out.words.take wp ++ L ++ out.words.drop n ∧
        L.Sorted (· ≤ ·) ∧ L.Perm (pq.flatMap (remaining reg)) := by
  intro fuel
  induction fuel with
  | zero =>
    intro pq wp out hok hn hfuel hlen
    have h0 : (pq.flatMap (remaining reg)).length = 0 := by omega
    have hnil : pq.flatMap (remaining reg) = [] := List.length_eq_zero.1 h0
    refine ⟨[], ?_, List.sorted_nil, ?_⟩
    · have : wp = n := by omega
      subst this
      simp [merge_loop]
    · rw [hnil]
  | succ fuel ih =>
    intro pq wp out hok hn hfuel hlen
    unfold merge_loop
    cases hex : extractMin pq with
    | none =>
      have hpq := extractMin_eq_none hex
      subst hpq
      simp only [List.flatMap_nil, List.length_nil, Nat.add_zero] at hn
      subst hn
      exact ⟨[], by simp, List.sorted_nil, by simp⟩
    | some p =>
      obtain ⟨e, pq'⟩ := p
      obtain ⟨hperm, hmin⟩ := extractMin_spec hex
      have heok : ElemOk reg e := hok e (hperm.subset (List.mem_cons_self _ _))
      have hok' : ∀ x ∈ pq', ElemOk reg x :=
        fun x hx => hok x (hperm.subset (List.mem_cons_of_mem _ hx))
      obtain ⟨tl, htl⟩ := heok.2.2
      have hflat : (pq.flatMap (remaining reg)).Perm
          (e.value :: (tl ++ pq'.flatMap (remaining reg))) := by
        have := (List.Perm.flatMap_right (remaining reg) hperm).symm
        simpa [List.flatMap_cons, htl] using this
      have hflen := hflat.length_eq
      simp only [List.length_cons, List.length_append] at hflen
      have hwp : wp < n := by omega
      have hwlen : wp < out.words.length := by omega
      have hvle : ∀ x ∈ tl ++ pq'.flatMap (remaining reg), e.value ≤ x := by
        intro x hx
        rcases List.mem_append.1 hx with hx | hx
        · exact elemOk_value_le heok x (by rw [htl]; exact List.mem_cons_of_mem _ hx)
        · obtain ⟨e', he', hxe'⟩ := List.mem_flatMap.1 hx
          exact le_trans (hmin e' (hperm.subset (List.mem_cons_of_mem _ he')))
            (elemOk_value_le (hok' e' he') x hxe')
      have hout' := write_one_words out wp e.value hwlen
      have hlen' : n ≤ (out.write_block [e.value] (wp * wordBytes) wordBytes).words.length := by
        rw [hout']
        simp only [List.length_append, List.length_take, List.length_cons, List.length_drop]
        omega
      have hstep := elemOk_step heok htl
      simp only [hwp, if_true]
      -- common closing argument
      have close : ∀ (pq'' : List element),
          (∀ x ∈ pq'', ElemOk reg x) →
          (pq''.flatMap (remaining reg)).Perm (tl ++ pq'.flatMap (remaining reg)) →
          ∃ L, (merge_loop reg n fuel pq'' (wp + 1)
              (out.write_block [e.value] (wp * wordBytes) wordBytes)).words
              = out.words.take wp ++ L ++ out.words.drop n ∧
            L.Sorted (· ≤ ·) ∧ L.Perm (pq.flatMap (remaining reg)) := by
        intro pq'' hok'' hperm''
        have hl'' := hperm''.length_eq
        simp only [List.length_append] at hl''
        obtain ⟨L', hw, hsorted, hp⟩ := ih pq'' (wp + 1)
          (out.write_block [e.value] (wp * wordBytes) wordBytes) hok'' (by omega) (by omega) hlen'
        refine ⟨e.value :: L', ?_, ?_, ?_⟩
        · rw [hw, hout']
          have h1 : List.take (wp + 1) (List.take wp out.words ++ e.value :: List.drop (wp + 1) out.words)
              = List.take wp out.words ++ [e.value] := by
            rw [List.take_append_eq_append_take]
            simp only [List.length_take, Nat.min_eq_left (le_of_lt hwlen)]
            have : wp + 1 - wp = 1 := by omega
            rw [this, List.take_of_length_le (by simp)]
            rfl
          have h2 : List.drop n (List.take wp out.words ++ e.value :: List.drop (wp + 1) out.words)
              = List.drop n out.words := by
            rw [List.drop_append_eq_append_drop]
            simp only [List.length_take, Nat.min_eq_left (le_of_lt hwlen)]
            rw [List.drop_of_length_le (by simp; omega)]
            obtain ⟨k, hk⟩ : ∃ k, n - wp = k + 1 := ⟨n - wp - 1, by omega⟩
            rw [hk]
            simp only [List.nil_append, List.drop_succ_cons, List.drop_drop]
            congr 1
            omega
          rw [h1, h2]
          simp
        · refine List.sorted_cons.2 ⟨?_, hsorted⟩
          intro x hx
          exact hvle x ((hp.trans hperm'').subset hx)
        · exact ((hp.trans hperm'').cons e.value).trans hflat.symm
      by_cases hlt : e.read_offset < e.eof_offset - 1
      · simp only [hlt, if_true]
        obtain ⟨hok1, hrem1⟩ := hstep.1 hlt
        apply close
        · intro x hx
          rcases List.mem_append.1 hx with hx | hx
          · exact hok' x hx
          · simp only [List.mem_singleton] at hx
            subst hx
            exact hok1
        · rw [List.flatMap_append]
          simp only [List.flatMap_cons, List.flatMap_nil, List.append_nil, hrem1]
          exact List.perm_append_comm
      · simp only [hlt, if_false]
        have htl0 := hstep.2 hlt
        apply close _ hok'
        rw [htl0]
        simp

theorem flatMap_chunks (xs : List Nat) (C : Nat) :
    ∀ k, (List.range k).flatMap (fun i => List.take C (List.drop (i * C) xs))
      = List.take (k * C) xs := by
  intro k
  induction k with
  | zero => simp
  | succ k ih =>
    rw [List.range_succ, List.flatMap_append, ih]
    simp only [List.flatMap_cons, List.flatMap_nil, List.append_nil]
    rw [Nat.succ_mul, List.take_add]

theorem last_chunk_arith (C n i : Nat) (hC : 0 < C) (h1 : i * C < n) (h2 : n ≤ i * C + C) :
    n - i * C = if 8 * n % (8 * C) ≠ 0 then 8 * n % (8 * C) / 8 else C := by
  rw [Nat.mul_mod_mul_left]
  obtain ⟨r, hr⟩ : ∃ r, n = r + i * C := ⟨n - i * C, by omega⟩
  have hmod : n % C = r % C := by rw [hr, Nat.add_mul_mod_self_right]
  by_cases hrC : r = C
  · have : n % C = 0 := by rw [hmod, hrC, Nat.mod_self]
    simp [this]
    omega
  · have hlt : r < C := by omega
    have : n % C = r := by rw [hmod, Nat.mod_eq_of_lt hlt]
    have hr0 : r ≠ 0 := by omega
    simp [this, hr0]
    omega

theorem make_chunk_words (xs : List Nat) (C nc i : Nat) (hC : 0 < C) (hi : i < nc)
    (h1 : nc * C < xs.length + C) (h2 : xs.length ≤ nc * C) :
    (make_chunk ⟨Mode.READ, xs⟩ (8 * C) nc C
        (if 8 * xs.length % (8 * C) ≠ 0 then 8 * xs.length % (8 * C) / 8 else C)
        (8 * xs.length % (8 * C)) i).words
      = (List.take C (List.drop (i * C) xs)).insertionSort (· ≤ ·) ∧
    (List.take C (List.drop (i * C) xs)).length
      = (if i = nc - 1 then
          (if 8 * xs.length % (8 * C) ≠ 0 then 8 * xs.length % (8 * C) / 8 else C) else C) ∧
    0 < (List.take C (List.drop (i * C) xs)).length := by
  have hiC : i * C + C ≤ nc * C := by
    have := Nat.mul_le_mul_right C (Nat.succ_le_of_lt hi)
    rwa [Nat.succ_mul] at this
  have hoff : i * (8 * C) / wordBytes = i * C := by
    have : i * (8 * C) = (i * C) * 8 := by ring
    rw [this]
    exact Nat.mul_div_cancel _ (by decide)
  have hC8 : 8 * C / wordBytes = C := Nat.mul_div_cancel_left _ (by decide)
  have hlenD : (List.drop (i * C) xs).length = xs.length - i * C := List.length_drop _ _
  by_cases hlast : i = nc - 1
  · have hnc : nc * C = i * C + C := by
      have : nc = i + 1 := by omega
      rw [this, Nat.succ_mul]
    have harith := last_chunk_arith C xs.length i hC (by omega) (by omega)
    have hfull : List.take C (List.drop (i * C) xs) = List.drop (i * C) xs :=
      List.take_of_length_le (by rw [hlenD]; omega)
    refine ⟨?_, ?_, ?_⟩
    · simp only [make_chunk, File.read_block, File.write_block, make_temporary_file,
        if_pos hlast, hoff, hC8]
      rw [← harith]
      have hov : (if 8 * xs.length % (8 * C) = 0 then 8 * C
          else 8 * xs.length % (8 * C)) / wordBytes = xs.length - i * C := by
        rw [harith]
        by_cases h0 : 8 * xs.length % (8 * C) = 0
        · simp [h0, hC8]
        · simp [h0, wordBytes]
      rw [hov]
      have ht : List.take (xs.length - i * C) (List.drop (i * C) xs) = List.drop (i * C) xs :=
        List.take_of_length_le (by rw [hlenD])
      rw [ht, ht]
      have hs : List.take (xs.length - i * C)
          (List.insertionSort (· ≤ ·) (List.drop (i * C) xs))
          = List.insertionSort (· ≤ ·) (List.drop (i * C) xs) :=
        List.take_of_length_le (by rw [List.length_insertionSort, hlenD])
      rw [hs, hfull]
      simp [overwrite]
    · rw [hfull, hlenD, if_pos hlast]
      exact harith
    · rw [hfull, hlenD]
      omega
  · have hi2 : i + 1 < nc := by omega
    have hiC2 : i * C + C + C ≤ nc * C := by
      have := Nat.mul_le_mul_right C (Nat.succ_le_of_lt hi2)
      rw [Nat.succ_mul, Nat.succ_mul] at this
      exact this
    have hlen : (List.take C (List.drop (i * C) xs)).length = C := by
      rw [List.length_take, hlenD]
      omega
    refine ⟨?_, ?_, ?_⟩
    · simp only [make_chunk, File.read_block, File.write_block, make_temporary_file,
        if_neg hlast, hoff, hC8, ite_self]
      rw [List.take_take, Nat.min_self]
      have hs : List.take C (List.insertionSort (· ≤ ·) (List.take C (List.drop (i * C) xs)))
          = List.insertionSort (· ≤ ·) (List.take C (List.drop (i * C) xs)) :=
        List.take_of_length_le (by rw [List.length_insertionSort, hlen])
      rw [hs]
      simp [overwrite]
    · rw [hlen, if_neg hlast]
    · rw [hlen]
      exact hC

theorem num_chunks_arith (n C : Nat) (hC : 0 < C) :
    (n * wordBytes + 8 * C - 1) / (8 * C) * C < n + C ∧
    n ≤ (n * wordBytes + 8 * C - 1) / (8 * C) * C := by
  have hpos : 0 < 8 * C := by omega
  have hdm := Nat.div_add_mod (n * wordBytes + 8 * C - 1) (8 * C)
  have hmod := Nat.mod_lt (n * wordBytes + 8 * C - 1) hpos
  have hmul : 8 * C * ((n * wordBytes + 8 * C - 1) / (8 * C))
      = 8 * ((n * wordBytes + 8 * C - 1) / (8 * C) * C) := by ring
  rw [hmul] at hdm
  simp only [wordBytes] at hdm hmod ⊢
  constructor <;> omega

/-- C1: for every sequence `xs` of 64-bit values held in an input file opened
READ, every output file opened WRITE and every `mem_size >= 16` (a multiple of
8 or not), after `external_sort(input, n, output, mem_size)` with `n` the
number of values, the output file holds `xs` in ascending order: its contents
are non-decreasing and a permutation of `xs`. -/
theorem external_sort_sorted_perm (xs : List Nat) (output : File) (mem_size : Nat)
    (hmode : output.mode = Mode.WRITE) (hmem : 16 ≤ mem_size) :
    (external_sort ⟨Mode.READ, xs⟩ xs.length output mem_size).words.Sorted (· ≤ ·) ∧
    (external_sort ⟨Mode.READ, xs⟩ xs.length output mem_size).words.Perm xs := by
  obtain ⟨C, hC, hM⟩ : ∃ C, 0 < C ∧ mem_size - mem_size % wordBytes = 8 * C := by
    refine ⟨mem_size / 8, by omega, ?_⟩
    simp only [wordBytes]
    omega
  have hC8 : 8 * C / wordBytes = C := Nat.mul_div_cancel_left _ (by decide)
  have hn8 : xs.length * wordBytes = 8 * xs.length := by simp [wordBytes, Nat.mul_comm]
  obtain ⟨h1, h2⟩ := num_chunks_arith xs.length C hC
  generalize hnc : (xs.length * wordBytes + 8 * C - 1) / (8 * C) = nc at h1 h2
  -- the chunk files
  let reg : List File := (List.range nc).map
    (make_chunk ⟨Mode.READ, xs⟩ (8 * C) nc C
      (if 8 * xs.length % (8 * C) ≠ 0 then 8 * xs.length % (8 * C) / 8 else C)
      (8 * xs.length % (8 * C)))
  let sv : List element := (List.range nc).map fun i =>
    ({ value := ((reg.getD i make_temporary_file).read_block 0 wordBytes).headD 0
       read_offset := 0
       eof_offset := if i = nc - 1 then
          (if 8 * xs.length % (8 * C) ≠ 0 then 8 * xs.length % (8 * C) / 8 else C) else C
       chunk_id := i } : element)
  have hdef : external_sort ⟨Mode.READ, xs⟩ xs.length output mem_size
      = merge_loop reg xs.length xs.length sv 0 (output.resize (8 * xs.length)) := by
    simp only [external_sort, hmode, hM, hC8, hnc, ne_eq, not_true_eq_false, or_self, if_false,
      File.size]
    simp only [hn8, reg, sv]
    rfl
  have hreg : ∀ i, i < nc → (reg.getD i make_temporary_file).words
      = (List.take C (List.drop (i * C) xs)).insertionSort (· ≤ ·) := by
    intro i hi
    have hlen : i < reg.length := by simp [reg, hi]
    rw [List.getD_eq_getElem _ _ hlen]
    simp only [reg, List.getElem_map, List.getElem_range]
    exact (make_chunk_words xs C nc i hC hi h1 h2).1
  have hok : ∀ e ∈ sv, ElemOk reg e ∧
      ∃ i, i < nc ∧ remaining reg e = (List.take C (List.drop (i * C) xs)).insertionSort (· ≤ ·) := by
    intro e he
    simp only [sv, List.mem_map, List.mem_range] at he
    obtain ⟨i, hi, rfl⟩ := he
    obtain ⟨_, hl, hpos⟩ := make_chunk_words xs C nc i hC hi h1 h2
    have hw := hreg i hi
    have hne : (reg.getD i make_temporary_file).words ≠ [] := by
      intro h0
      rw [hw] at h0
      have := congrArg List.length h0
      rw [List.length_insertionSort] at this
      simp only [List.length_nil] at this
      omega
    obtain ⟨v, tl, hvt⟩ := List.exists_cons_of_ne_nil hne
    have hval : ((reg.getD i make_temporary_file).read_block 0 wordBytes).headD 0 = v := by
      simp only [File.read_block, wordBytes, Nat.zero_div, List.drop_zero, Nat.div_self,
        Nat.ofNat_pos, hvt]
      rfl
    refine ⟨⟨?_, ?_, tl, ?_⟩, i, hi, ?_⟩
    · show (reg.getD i make_temporary_file).words.Sorted (· ≤ ·)
      rw [hw]
      exact List.sorted_insertionSort _ _
    · show (if i = nc - 1 then _ else C) = (reg.getD i make_temporary_file).words.length
      rw [hw, List.length_insertionSort, hl]
    · show List.drop 0 (reg.getD i make_temporary_file).words = _ :: tl
      rw [hval]
      simpa using hvt
    · show List.drop 0 (reg.getD i make_temporary_file).words = _
      simpa using hw
  have hflat : (sv.flatMap (remaining reg)).Perm xs := by
    have e1 : sv.flatMap (remaining reg) = (List.range nc).flatMap
        (fun i => (List.take C (List.drop (i * C) xs)).insertionSort (· ≤ ·)) := by
      simp only [sv, List.flatMap_map]
      apply List.flatMap_congr
      intro i hi
      have hi' := List.mem_range.1 hi
      show List.drop 0 (reg.getD i make_temporary_file).words = _
      simpa using hreg i hi'
    rw [e1]
    have e2 : ((List.range nc).flatMap
        (fun i => (List.take C (List.drop (i * C) xs)).insertionSort (· ≤ ·))).Perm
        ((List.range nc).flatMap (fun i => List.take C (List.drop (i * C) xs))) :=
      List.Perm.flatMap_left _ (fun i _ => List.perm_insertionSort _ _)
    refine e2.trans ?_
    rw [flatMap_chunks, List.take_of_length_le h2]
  have hout : (output.resize (8 * xs.length)).words.length = xs.length := by
    simp only [File.resize, wordBytes, List.length_take, List.length_append,
      List.length_replicate]
    omega
  obtain ⟨L, hw, hs, hp⟩ := merge_loop_spec reg xs.length xs.length sv 0
    (output.resize (8 * xs.length)) (fun e he => (hok e he).1)
    (by rw [hflat.length_eq]; simp) (by rw [hflat.length_eq]) (by rw [hout])
  have hfin : (external_sort ⟨Mode.READ, xs⟩ xs.length output mem_size).words = L := by
    rw [hdef, hw, List.drop_of_length_le (by rw [hout])]
    simp
  rw [hfin]
  exact ⟨hs, hp.trans hflat⟩

/-- C1 (witness and worked example): `[5,2,9,1,7,3]` with `mem_size = 16`. -/
theorem external_sort_sorted_perm_witness :
    (external_sort ⟨Mode.READ, [5, 2, 9, 1, 7, 3]⟩ 6 ⟨Mode.WRITE, []⟩ 16).words.Sorted (· ≤ ·) ∧
    (external_sort ⟨Mode.READ, [5, 2, 9, 1, 7, 3]⟩ 6 ⟨Mode.WRITE, []⟩ 16).words.Perm
      [5, 2, 9, 1, 7, 3] :=
  external_sort_sorted_perm [5, 2, 9, 1, 7, 3] ⟨Mode.WRITE, []⟩ 16 rfl (by decide)

end ExternalSort

namespace ExternalSort

/-! ### Wrong file modes and `num_values = 0` -/

/-- With the files opened READ and WRITE, `external_sort` creates one temporary
file per chunk and reads the input once per chunk. -/
theorem external_sort_effects_length (input : File) (n : Nat) (output : File) (mem_size : Nat)
    (hin : input.mode = Mode.READ) (hout : output.mode = Mode.WRITE) :
    (external_sort_effects input n output mem_size).temporary_files.length
      = (n * wordBytes + (mem_size - mem_size % wordBytes) - 1)
          / (mem_size - mem_size % wordBytes) ∧
    (external_sort_effects input n output mem_size).input_reads.length
      = (external_sort_effects input n output mem_size).temporary_files.length := by
  simp [external_sort_effects, hin, hout]

/-- The files of the example `xs = [5,2,9,1,7,3]`, `mem_size = 16`: three
chunks are read from the input and three sorted temporary files are created. -/
theorem external_sort_effects_example :
    (external_sort_effects ⟨Mode.READ, [5, 2, 9, 1, 7, 3]⟩ 6 ⟨Mode.WRITE, []⟩ 16).input_reads
      = [(0, 16), (16, 16), (32, 16)] ∧
    ((external_sort_effects ⟨Mode.READ, [5, 2, 9, 1, 7, 3]⟩ 6 ⟨Mode.WRITE, []⟩ 16).temporary_files.map
      fun f => f.words) = [[2, 5], [1, 9], [3, 7]] := by
  decide

/-- C29: if the input file is not opened in READ mode or the output file is not
opened in WRITE mode, `external_sort` is a no-op: the output file after the
call is the output file before it (neither resized nor written), no
`read_block` is issued on the input and no temporary file is created. -/
theorem wrong_mode_is_noop (input : File) (num_values : Nat) (output : File) (mem_size : Nat)
    (hmode : input.mode ≠ Mode.READ ∨ output.mode ≠ Mode.WRITE) :
    external_sort input num_values output mem_size = output ∧
    (external_sort_effects input num_values output mem_size).input_reads = [] ∧
    (external_sort_effects input num_values output mem_size).temporary_files = [] := by
  refine ⟨?_, ?_, ?_⟩
  · unfold external_sort
    rw [if_pos hmode]
  · unfold external_sort_effects
    rw [if_pos hmode]
  · unfold external_sort_effects
    rw [if_pos hmode]

/-- C29 (witness): an input file opened WRITE; the output `[7, 8]` is returned
as it was. -/
theorem wrong_mode_is_noop_witness :
    (external_sort ⟨Mode.WRITE, [3, 1, 2]⟩ 3 ⟨Mode.WRITE, [7, 8]⟩ 16).words = [7, 8] ∧
    (external_sort_effects ⟨Mode.WRITE, [3, 1, 2]⟩ 3 ⟨Mode.WRITE, [7, 8]⟩ 16).input_reads = [] ∧
    (external_sort_effects ⟨Mode.WRITE, [3, 1, 2]⟩ 3 ⟨Mode.WRITE, [7, 8]⟩ 16).temporary_files
      = [] :=
  have h := wrong_mode_is_noop ⟨Mode.WRITE, [3, 1, 2]⟩ 3 ⟨Mode.WRITE, [7, 8]⟩ 16
    (Or.inl (by decide))
  ⟨by rw [h.1], h.2.1, h.2.2⟩

/-- C30 (counterexample): with `num_values = 0` and an input file of three
values (opened READ, output opened WRITE and empty, `mem_size = 16`) the output
file afterwards is not empty: it has the 24 bytes of the input file, all zero.
And with an output file that is not opened WRITE the call is a no-op, so an
output file of two values keeps its 16 bytes. -/
theorem zero_values_output_not_empty :
    (external_sort ⟨Mode.READ, [1, 2, 3]⟩ 0 ⟨Mode.WRITE, []⟩ 16).size = 24 ∧
    (external_sort ⟨Mode.READ, [1, 2, 3]⟩ 0 ⟨Mode.WRITE, []⟩ 16).words = [0, 0, 0] ∧
    (external_sort ⟨Mode.READ, [1, 2, 3]⟩ 0 ⟨Mode.WRITE, []⟩ 16).size ≠ 0 ∧
    (external_sort ⟨Mode.READ, []⟩ 0 ⟨Mode.READ, [4, 5]⟩ 16).size = 16 := by
  decide

theorem length_resize (f : File) (k : Nat) :
    (f.resize (wordBytes * k)).words.length = k := by
  simp only [File.resize, wordBytes, List.length_take, List.length_append,
    List.length_replicate]
  omega

/-- C30 (amended): for every input file opened READ, every output file opened
WRITE and every `mem_size >= 16`, `external_sort(input, 0, output, mem_size)`
writes no value: the output file afterwards is the output file resized to the
size of the input file (line 27), no chunk is read and no temporary file is
created; so the output has the size of the input file, and is empty when the
input file is empty. -/
theorem zero_values_output_is_resized_only (input output : File) (mem_size : Nat)
    (hin : input.mode = Mode.READ) (hout : output.mode = Mode.WRITE) (hmem : 16 ≤ mem_size) :
    external_sort input 0 output mem_size = output.resize input.size ∧
    (external_sort_effects input 0 output mem_size).input_reads = [] ∧
    (external_sort_effects input 0 output mem_size).temporary_files = [] ∧
    (external_sort input 0 output mem_size).size = input.size ∧
    (input.size = 0 → (external_sort input 0 output mem_size).size = 0) := by
  have hm : 0 < mem_size - mem_size % wordBytes := by
    simp only [wordBytes]
    omega
  have hnc : (0 * wordBytes + (mem_size - mem_size % wordBytes) - 1)
      / (mem_size - mem_size % wordBytes) = 0 := by
    rw [Nat.div_eq_zero_iff hm]
    omega
  have h1 : external_sort input 0 output mem_size = output.resize input.size := by
    unfold external_sort
    rw [if_neg (by simp [hin, hout])]
    simp only [hnc, List.range_zero, List.map_nil]
    rfl
  have h2 : (external_sort input 0 output mem_size).size = input.size := by
    rw [h1]
    unfold File.size
    rw [length_resize]
  refine ⟨h1, ?_, ?_, h2, ?_⟩
  · unfold external_sort_effects
    rw [if_neg (by simp [hin, hout])]
    simp only [hnc, List.range_zero, List.map_nil]
  · unfold external_sort_effects
    rw [if_neg (by simp [hin, hout])]
    simp only [hnc, List.range_zero, List.map_nil]
  · intro h0
    rw [h2, h0]

/-- C30 (amended, witness): an empty input gives an empty output, also when the
output file held values before. -/
theorem zero_values_output_is_resized_only_witness :
    (external_sort ⟨Mode.READ, []⟩ 0 ⟨Mode.WRITE, [4, 5]⟩ 16).size = 0 :=
  (zero_values_output_is_resized_only ⟨Mode.READ, []⟩ ⟨Mode.WRITE, [4, 5]⟩ 16 rfl rfl
    (by decide)).2.2.2.2 (by decide)

end ExternalSort

namespace ExternalSort

/-! ### Chunking -/

theorem ceil_div_eq (n C k : Nat) (hC : 0 < C) (h1 : k * C < n + C) (h2 : n ≤ k * C) :
    (n + C - 1) / C = k := by
  apply Nat.le_antisymm
  · apply Nat.le_of_lt_succ
    rw [Nat.div_lt_iff_lt_mul hC, Nat.succ_mul]
    omega
  · rw [Nat.le_div_iff_mul_le hC]
    omega

theorem sum_chunk_lengths (xs : List Nat) (C : Nat) :
    ∀ k, ((List.range k).map (fun i => (List.take C (List.drop (i * C) xs)).length)).sum
      = (List.take (k * C) xs).length := by
  intro k
  rw [← flatMap_chunks xs C k]
  induction k with
  | zero => simp
  | succ k ih =>
    rw [List.range_succ, List.map_append, List.sum_append, ih, List.flatMap_append,
      List.length_append]
    simp

/-- C36: chunking and memory bound.  With `C = floor(mem_size / 8) >= 1`, the
input values `xs` (`n` of them, in a file opened READ) and an output opened
WRITE, `external_sort` creates exactly `ceil(n / C)` temporary files; chunk `i`
is the `i`-th block of `C` consecutive input values (the blocks concatenated
give `xs`), read by one `read_block` of at most `mem_size` bytes, and written
sorted to its own temporary file; every chunk but the last holds exactly `C`
values, the last one between 1 and `C`, the lengths add up to `n`, and a chunk
never takes more than `mem_size` bytes. -/
theorem chunks_partition_the_input (xs : List Nat) (output : File) (mem_size : Nat)
    (hmode : output.mode = Mode.WRITE) (hmem : 8 ≤ mem_size) :
    (external_sort_effects ⟨Mode.READ, xs⟩ xs.length output mem_size).temporary_files.length
      = (xs.length + mem_size / 8 - 1) / (mem_size / 8) ∧
    (external_sort_effects ⟨Mode.READ, xs⟩ xs.length output mem_size).input_reads.length
      = (xs.length + mem_size / 8 - 1) / (mem_size / 8) ∧
    (∀ i, i < (xs.length + mem_size / 8 - 1) / (mem_size / 8) →
      ∃ f offset size,
        (external_sort_effects ⟨Mode.READ, xs⟩ xs.length output
          mem_size).temporary_files[i]? = some f ∧
        (external_sort_effects ⟨Mode.READ, xs⟩ xs.length output
          mem_size).input_reads[i]? = some (offset, size) ∧
        f.words = (List.take (mem_size / 8) (List.drop (i * (mem_size / 8)) xs)).insertionSort
          (· ≤ ·) ∧
        f.words.Sorted (· ≤ ·) ∧
        offset = 8 * (i * (mem_size / 8)) ∧ size = 8 * f.words.length ∧
        8 * f.words.length ≤ mem_size ∧
        1 ≤ f.words.length ∧ f.words.length ≤ mem_size / 8 ∧
        (i + 1 < (xs.length + mem_size / 8 - 1) / (mem_size / 8) →
          f.words.length = mem_size / 8)) ∧
    (List.range ((xs.length + mem_size / 8 - 1) / (mem_size / 8))).flatMap
        (fun i => List.take (mem_size / 8) (List.drop (i * (mem_size / 8)) xs)) = xs ∧
    ((external_sort_effects ⟨Mode.READ, xs⟩ xs.length output mem_size).temporary_files.map
        (fun f => f.words.length)).sum = xs.length := by
  obtain ⟨C, hC, hM, hCdef⟩ : ∃ C, 0 < C ∧ mem_size - mem_size % wordBytes = 8 * C ∧
      mem_size / 8 = C := by
    refine ⟨mem_size / 8, by omega, ?_, rfl⟩
    simp only [wordBytes]
    omega
  rw [hCdef]
  have hC8 : 8 * C / wordBytes = C := Nat.mul_div_cancel_left _ (by decide)
  have hn8 : xs.length * wordBytes = 8 * xs.length := by simp [wordBytes, Nat.mul_comm]
  obtain ⟨h1, h2⟩ := num_chunks_arith xs.length C hC
  have hceil := ceil_div_eq xs.length C _ hC h1 h2
  generalize hnc : (xs.length * wordBytes + 8 * C - 1) / (8 * C) = nc at h1 h2 hceil
  rw [hceil]
  have hfiles : (external_sort_effects ⟨Mode.READ, xs⟩ xs.length output mem_size).temporary_files
      = (List.range nc).map
        (make_chunk ⟨Mode.READ, xs⟩ (8 * C) nc C
          (if 8 * xs.length % (8 * C) ≠ 0 then 8 * xs.length % (8 * C) / 8 else C)
          (8 * xs.length % (8 * C))) := by
    simp only [external_sort_effects, hmode, hM, hC8, hnc, ne_eq, not_true_eq_false, or_self,
      if_false]
    simp only [hn8]
    rfl
  have hreads : (external_sort_effects ⟨Mode.READ, xs⟩ xs.length output mem_size).input_reads
      = (List.range nc).map fun i =>
        (i * (8 * C),
          if 8 * xs.length % (8 * C) = 0 then 8 * C
          else if i = nc - 1 then 8 * xs.length % (8 * C) else 8 * C) := by
    simp only [external_sort_effects, hmode, hM, hnc, ne_eq, not_true_eq_false, or_self,
      if_false]
    simp only [hn8]
  have hwords : ∀ i, i < nc →
      (make_chunk ⟨Mode.READ, xs⟩ (8 * C) nc C
          (if 8 * xs.length % (8 * C) ≠ 0 then 8 * xs.length % (8 * C) / 8 else C)
          (8 * xs.length % (8 * C)) i).words
        = (List.take C (List.drop (i * C) xs)).insertionSort (· ≤ ·) :=
    fun i hi => (make_chunk_words xs C nc i hC hi h1 h2).1
  have hflat : (List.range nc).flatMap (fun i => List.take C (List.drop (i * C) xs)) = xs := by
    rw [flatMap_chunks, List.take_of_length_le h2]
  refine ⟨?_, ?_, ?_, hflat, ?_⟩
  · rw [hfiles]
    simp
  · rw [hreads]
    simp
  · intro i hi
    obtain ⟨_, hl, hpos⟩ := make_chunk_words xs C nc i hC hi h1 h2
    have hlenle : (List.take C (List.drop (i * C) xs)).length ≤ C := by
      rw [List.length_take]
      exact Nat.min_le_left _ _
    have hCm : 8 * C ≤ mem_size := by omega
    refine ⟨make_chunk ⟨Mode.READ, xs⟩ (8 * C) nc C
        (if 8 * xs.length % (8 * C) ≠ 0 then 8 * xs.length % (8 * C) / 8 else C)
        (8 * xs.length % (8 * C)) i, i * (8 * C),
      (if 8 * xs.length % (8 * C) = 0 then 8 * C
        else if i = nc - 1 then 8 * xs.length % (8 * C) else 8 * C),
      ?_, ?_, hwords i hi, ?_, ?_, ?_, ?_, ?_, ?_, ?_⟩
    · rw [hfiles, List.getElem?_map, List.getElem?_range hi]
      rfl
    · rw [hreads, List.getElem?_map, List.getElem?_range hi]
      rfl
    · rw [hwords i hi]
      exact List.sorted_insertionSort _ _
    · ring
    · rw [hwords i hi, List.length_insertionSort, hl]
      by_cases hlast : i = nc - 1
      · simp only [hlast, if_true]
        by_cases h0 : 8 * xs.length % (8 * C) = 0
        · simp [h0]
        · simp only [h0, if_false, ne_eq, not_false_eq_true, if_true]
          have : 8 * xs.length % (8 * C) % 8 = 0 := by
            rw [Nat.mul_mod_mul_left]
            simp
          omega
      · simp only [hlast, if_false]
        by_cases h0 : 8 * xs.length % (8 * C) = 0
        · simp [h0]
        · simp [h0]
    · rw [hwords i hi, List.length_insertionSort]
      omega
    · rw [hwords i hi, List.length_insertionSort]
      omega
    · rw [hwords i hi, List.length_insertionSort]
      exact hlenle
    · intro hnl
      rw [hwords i hi, List.length_insertionSort, hl, if_neg (by omega)]
  · rw [hfiles, List.map_map]
    have : (List.range nc).map ((fun f => f.words.length) ∘
        (make_chunk ⟨Mode.READ, xs⟩ (8 * C) nc C
          (if 8 * xs.length % (8 * C) ≠ 0 then 8 * xs.length % (8 * C) / 8 else C)
          (8 * xs.length % (8 * C))))
        = (List.range nc).map (fun i => (List.take C (List.drop (i * C) xs)).length) := by
      apply List.map_congr_left
      intro i hi
      have hi' := List.mem_range.1 hi
      show (make_chunk _ _ _ _ _ _ i).words.length = _
      rw [hwords i hi', List.length_insertionSort]
    rw [this, sum_chunk_lengths, List.take_of_length_le h2]

/-- C36 (witness): the six values `[5,2,9,1,7,3]` with `mem_size = 20` (so
`C = 2`) are cut into three chunks. -/
theorem chunks_partition_the_input_witness :
    (external_sort_effects ⟨Mode.READ, [5, 2, 9, 1, 7, 3]⟩ 6 ⟨Mode.WRITE, []⟩
      20).temporary_files.length = (6 + 20 / 8 - 1) / (20 / 8) ∧
    ((external_sort_effects ⟨Mode.READ, [5, 2, 9, 1, 7, 3]⟩ 6 ⟨Mode.WRITE, []⟩
      20).temporary_files.map (fun f => f.words.length)).sum = 6 :=
  ⟨(chunks_partition_the_input [5, 2, 9, 1, 7, 3] ⟨Mode.WRITE, []⟩ 20 rfl (by decide)).1,
   (chunks_partition_the_input [5, 2, 9, 1, 7, 3] ⟨Mode.WRITE, []⟩ 20 rfl
     (by decide)).2.2.2.2⟩

end ExternalSort

namespace Buffer

/-! ### Frames of a page id -/

theorem find_some {bm : BufferManager} {p : Nat} {f : BufferFrame} (h : bm.find p = some f) :
    f ∈ bm.bufferframes ∧ f.pId = p := by
  unfold BufferManager.find at h
  refine ⟨List.mem_of_find?_eq_some h, ?_⟩
  have := List.find?_some h
  simpa using this

theorem find_none {bm : BufferManager} {p : Nat} (h : bm.find p = none) :
    ∀ f ∈ bm.bufferframes, f.pId ≠ p := by
  unfold BufferManager.find at h
  intro f hf
  have := List.find?_eq_none.1 h f hf
  simpa using this

theorem find_none_of_not_mem {bm : BufferManager} {p : Nat}
    (h : ∀ f ∈ bm.bufferframes, f.pId ≠ p) : bm.find p = none := by
  unfold BufferManager.find
  apply List.find?_eq_none.2
  intro f hf
  simpa using h f hf

theorem find_list_of_mem : ∀ (F : List BufferFrame), (F.map (fun f => f.pId)).Nodup →
    ∀ f ∈ F, F.find? (fun g => g.pId == f.pId) = some f := by
  intro F
  induction F with
  | nil => intro _ f hf; cases hf
  | cons a F ih =>
    intro hnd f hf
    simp only [List.map_cons, List.nodup_cons] at hnd
    rcases List.mem_cons.1 hf with rfl | hf
    · simp
    · have hne : a.pId ≠ f.pId := by
        intro heq
        exact hnd.1 (heq ▸ List.mem_map_of_mem (fun f => f.pId) hf)
      rw [List.find?_cons_of_neg _ (by simpa using hne)]
      exact ih hnd.2 f hf

theorem find_of_mem {bm : BufferManager} (hnd : (bm.bufferframes.map (fun f => f.pId)).Nodup)
    {f : BufferFrame} (hf : f ∈ bm.bufferframes) : bm.find f.pId = some f :=
  find_list_of_mem bm.bufferframes hnd f hf

theorem map_pId_setFrame (F : List BufferFrame) (p : Nat) (g : BufferFrame) (hg : g.pId = p) :
    (F.map (fun f => if f.pId == p then g else f)).map (fun f => f.pId)
      = F.map (fun f => f.pId) := by
  rw [List.map_map]
  apply List.map_congr_left
  intro f _
  by_cases h : f.pId = p
  · simp [h, hg]
  · simp [h]

theorem mem_setFrame {F : List BufferFrame} {p : Nat} {g x : BufferFrame}
    (hx : x ∈ F.map (fun f => if f.pId == p then g else f)) :
    (x = g ∧ ∃ f ∈ F, f.pId = p) ∨ (x ∈ F ∧ x.pId ≠ p) := by
  obtain ⟨f, hf, hfx⟩ := List.mem_map.1 hx
  by_cases h : f.pId = p
  · simp only [h, beq_self_eq_true, if_true] at hfx
    exact Or.inl ⟨hfx.symm, f, hf, h⟩
  · have : (f.pId == p) = false := by simpa using h
    simp only [this] at hfx
    subst hfx
    exact Or.inr ⟨hf, h⟩

theorem find_list_setFrame_self (p : Nat) (g : BufferFrame) (hg : g.pId = p) :
    ∀ (F : List BufferFrame) (f : BufferFrame), F.find? (fun x => x.pId == p) = some f →
      (F.map (fun x => if x.pId == p then g else x)).find? (fun x => x.pId == p) = some g := by
  intro F
  induction F with
  | nil => intro f hf; simp at hf
  | cons a F ih =>
    intro f hf
    by_cases ha : a.pId = p
    · simp [List.find?_cons, ha, hg]
    · have hb : (a.pId == p) = false := by simpa using ha
      simp only [List.find?_cons, hb] at hf
      simp only [List.map_cons, List.find?_cons, hb, Bool.false_eq_true, if_false]
      exact ih f hf

theorem find_setFrame_self {bm : BufferManager} {p : Nat} {f g : BufferFrame}
    (hf : bm.find p = some f) (hg : g.pId = p) : (bm.setFrame p g).find p = some g :=
  find_list_setFrame_self p g hg bm.bufferframes f hf

theorem find_list_setFrame_other (p q : Nat) (g : BufferFrame) (hg : g.pId = p) (hq : q ≠ p) :
    ∀ (F : List BufferFrame),
      (F.map (fun x => if x.pId == p then g else x)).find? (fun x => x.pId == q)
        = F.find? (fun x => x.pId == q) := by
  intro F
  induction F with
  | nil => rfl
  | cons a F ih =>
    by_cases ha : a.pId = p
    · have hgq : (g.pId == q) = false := by rw [hg]; simpa using fun h => hq h.symm
      have haq : (a.pId == q) = false := by rw [ha]; simpa using fun h => hq h.symm
      have hap : (a.pId == p) = true := by simpa using ha
      simp only [List.map_cons, hap, if_true, List.find?_cons, hgq, haq]
      exact ih
    · have hb : (a.pId == p) = false := by simpa using ha
      simp only [List.map_cons, hb, List.find?_cons, Bool.false_eq_true, if_false]
      rw [ih]

theorem find_setFrame_other {bm : BufferManager} {p q : Nat} {g : BufferFrame}
    (hg : g.pId = p) (hq : q ≠ p) : (bm.setFrame p g).find q = bm.find q :=
  find_list_setFrame_other p q g hg hq bm.bufferframes

/-! ### The invariant holds initially and is kept by every call -/

theorem inv_new (page_size page_count : Nat) (disk : Nat → File) :
    Inv (BufferManager.new page_size page_count disk) := by
  constructor <;> simp [BufferManager.new]

/-- Membership of a page id in the lists is decided by its frame. -/
theorem inv_mem_fifo_iff {bm : BufferManager} (h : Inv bm) {f : BufferFrame}
    (hf : f ∈ bm.bufferframes) : f.pId ∈ bm.fifo_list ↔ f.lru_position = false := by
  constructor
  · intro hm
    obtain ⟨g, hg, hgp, hgl⟩ := h.fifo_mem _ hm
    have h1 := find_of_mem h.nodup hg
    have h2 := find_of_mem h.nodup hf
    rw [hgp, h2] at h1
    cases h1
    exact hgl
  · exact (h.frames f hf).in_fifo

theorem inv_mem_lru_iff {bm : BufferManager} (h : Inv bm) {f : BufferFrame}
    (hf : f ∈ bm.bufferframes) : f.pId ∈ bm.lru_list ↔ f.lru_position = true := by
  constructor
  · intro hm
    obtain ⟨g, hg, hgp, hgl⟩ := h.lru_mem _ hm
    have h1 := find_of_mem h.nodup hg
    have h2 := find_of_mem h.nodup hf
    rw [hgp, h2] at h1
    cases h1
    exact hgl
  · exact (h.frames f hf).in_lru

/-- Replacing the frame of a resident page by a frame with the same page id,
slot and list membership, and well-formed pins, keeps the invariant; the lists
may be rearranged as long as their members are the same except for the page
itself, which must be in the list its new frame names. -/
theorem inv_setFrame {bm : BufferManager} (h : Inv bm) {p : Nat} {f g : BufferFrame}
    (hf : bm.find p = some f) (hgp : g.pId = p) (hgs : g.state = BufferFrameState.MOD)
    (hgd : g.data = f.data) (hgpos : g.fifo_position = !g.lru_position)
    (hgpins : g.num_fixed = g.shared_locks + (if g.exclusively_locked then 1 else 0))
    (hgexcl : g.exclusively_locked = true → g.shared_locks = 0)
    (fifo lru : List Nat) (hfn : fifo.Nodup) (hln : lru.Nodup)
    (hfm : ∀ q, q ∈ fifo ↔ (q ≠ p ∧ q ∈ bm.fifo_list) ∨ (q = p ∧ g.lru_position = false))
    (hlm : ∀ q, q ∈ lru ↔ (q ≠ p ∧ q ∈ bm.lru_list) ∨ (q = p ∧ g.lru_position = true)) :
    Inv { (bm.setFrame p g) with fifo_list := fifo, lru_list := lru } := by
  obtain ⟨hfmem, hfp⟩ := find_some hf
  have hlen : (bm.setFrame p g).bufferframes.length = bm.bufferframes.length := by
    simp [BufferManager.setFrame]
  have hgmem : g ∈ (bm.setFrame p g).bufferframes := by
    simp only [BufferManager.setFrame]
    refine List.mem_map.2 ⟨f, hfmem, ?_⟩
    simp [hfp]
  constructor
  · show ((bm.setFrame p g).bufferframes.map _).Nodup
    simp only [BufferManager.setFrame]
    rw [map_pId_setFrame _ _ _ hgp]
    exact h.nodup
  · show (bm.setFrame p g).bufferframes.length ≤ bm.page_count
    rw [hlen]
    exact h.size
  · intro x hx
    change x ∈ (bm.setFrame p g).bufferframes at hx
    rcases mem_setFrame hx with ⟨rfl, _⟩ | ⟨hxF, hxp⟩
    · refine ⟨hgs, ?_, hgpos, ?_, ?_, hgpins, hgexcl⟩
      · obtain ⟨slot, hs, hlt⟩ := (h.frames f hfmem).slot
        refine ⟨slot, by rw [hgd, hs], ?_⟩
        show slot < (bm.setFrame p x).bufferframes.length
        rw [hlen]
        exact hlt
      · intro hl
        exact (hfm _).2 (Or.inr ⟨hgp, hl⟩)
      · intro hl
        exact (hlm _).2 (Or.inr ⟨hgp, hl⟩)
    · have hok := h.frames x hxF
      refine ⟨hok.state, ?_, hok.pos, ?_, ?_, hok.pins, hok.excl⟩
      · obtain ⟨slot, hs, hlt⟩ := hok.slot
        refine ⟨slot, hs, ?_⟩
        show slot < (bm.setFrame p g).bufferframes.length
        rw [hlen]
        exact hlt
      · intro hl
        exact (hfm _).2 (Or.inl ⟨hxp, hok.in_fifo hl⟩)
      · intro hl
        exact (hlm _).2 (Or.inl ⟨hxp, hok.in_lru hl⟩)
  · exact hfn
  · exact hln
  · intro q hq
    change q ∈ fifo at hq
    show ∃ x ∈ (bm.setFrame p g).bufferframes, _
    rcases (hfm q).1 hq with ⟨hqp, hqm⟩ | ⟨hqp, hl⟩
    · obtain ⟨x, hx, hxp, hxl⟩ := h.fifo_mem q hqm
      refine ⟨x, ?_, hxp, hxl⟩
      simp only [BufferManager.setFrame]
      refine List.mem_map.2 ⟨x, hx, ?_⟩
      have : (x.pId == p) = false := by rw [hxp]; simpa using hqp
      simp [this]
    · exact ⟨g, hgmem, by rw [hgp, hqp], hl⟩
  · intro q hq
    change q ∈ lru at hq
    show ∃ x ∈ (bm.setFrame p g).bufferframes, _
    rcases (hlm q).1 hq with ⟨hqp, hqm⟩ | ⟨hqp, hl⟩
    · obtain ⟨x, hx, hxp, hxl⟩ := h.lru_mem q hqm
      refine ⟨x, ?_, hxp, hxl⟩
      simp only [BufferManager.setFrame]
      refine List.mem_map.2 ⟨x, hx, ?_⟩
      have : (x.pId == p) = false := by rw [hxp]; simpa using hqp
      simp [this]
    · exact ⟨g, hgmem, by rw [hgp, hqp], hl⟩
  · show ((bm.setFrame p g).bufferframes.map _).Nodup
    have : (bm.setFrame p g).bufferframes.map (fun f => f.data)
        = bm.bufferframes.map (fun f => f.data) := by
      simp only [BufferManager.setFrame, List.map_map]
      apply List.map_congr_left
      intro x hx
      by_cases hxp : x.pId = p
      · have hxf : x = f := by
          have h1 := find_of_mem h.nodup hx
          rw [hxp, hf] at h1
          exact (Option.some.inj h1).symm
        simp [hxf, hfp, hgd]
      · simp [hxp]
    rw [this]
    exact h.slots

/-- The invariant only concerns the frames, the two lists and `page_count`. -/
theorem inv_congr {bm bm' : BufferManager} (h : Inv bm)
    (hF : bm'.bufferframes = bm.bufferframes) (hfifo : bm'.fifo_list = bm.fifo_list)
    (hlru : bm'.lru_list = bm.lru_list) (hpc : bm'.page_count = bm.page_count) : Inv bm' := by
  constructor
  · rw [hF]; exact h.nodup
  · rw [hF, hpc]; exact h.size
  · intro f hf
    rw [hF] at hf
    have hok := h.frames f hf
    refine ⟨hok.state, ?_, hok.pos, ?_, ?_, hok.pins, hok.excl⟩
    · rw [hF]; exact hok.slot
    · rw [hfifo]; exact hok.in_fifo
    · rw [hlru]; exact hok.in_lru
  · rw [hfifo]; exact h.fifo_nodup
  · rw [hlru]; exact h.lru_nodup
  · rw [hfifo, hF]; exact h.fifo_mem
  · rw [hlru, hF]; exact h.lru_mem
  · rw [hF]; exact h.slots

theorem inv_write_data {bm bm' : BufferManager} (h : Inv bm) {p : Nat} {bytes : List Nat}
    (hw : write_data bm p bytes = some bm') : Inv bm' := by
  unfold write_data at hw
  split at hw
  · simp at hw
  · split at hw
    · split at hw
      · simp at hw
      · simp only [Option.some.injEq] at hw
        subst hw
        exact inv_congr h rfl rfl rfl rfl
    · simp at hw

theorem inv_unfix_page {bm bm' : BufferManager} (h : Inv bm) {p : Nat} {d : Bool}
    (hu : unfix_page bm p d = some bm') : Inv bm' := by
  unfold unfix_page at hu
  split at hu
  · simp at hu
  · rename_i page hfind
    split at hu
    · simp at hu
    · rename_i page' hunlock
      simp only [Option.some.injEq] at hu
      subst hu
      obtain ⟨hmem, hpid⟩ := find_some hfind
      have hok := h.frames page hmem
      -- the frame after `unlock`
      have hpage' : page'.pId = page.pId ∧ page'.state = page.state ∧ page'.data = page.data ∧
          page'.fifo_position = page.fifo_position ∧ page'.lru_position = page.lru_position ∧
          page'.num_fixed = page.num_fixed ∧ page'.exclusively_locked = false ∧
          page.num_fixed - 1 = page'.shared_locks := by
        unfold BufferFrame.unlock at hunlock
        split at hunlock
        · rename_i hex
          split at hunlock
          · simp at hunlock
          · rename_i hsh
            simp only [Option.some.injEq] at hunlock
            subst hunlock
            have hex' : page.exclusively_locked = false := by simpa using hex
            have := hok.pins
            simp only [hex', Bool.false_eq_true, if_false, Nat.add_zero] at this
            simp [hex', this]
        · rename_i hex
          simp only [Option.some.injEq] at hunlock
          subst hunlock
          have hex' : page.exclusively_locked = true := by simpa using hex
          have := hok.pins
          have hs := hok.excl hex'
          simp only [hex', if_true, hs] at this
          simp [this, hs]
      obtain ⟨q1, q2, q3, q4, q5, q6, q7, q8⟩ := hpage'
      have key := inv_setFrame h hfind
        (g := { (if d = true then { page' with isDirty := true } else page') with
                num_fixed := (if d = true then { page' with isDirty := true } else page').num_fixed - 1 })
        (by cases d <;> simp [q1, hpid])
        (by cases d <;> simp [q2, hok.state])
        (by cases d <;> simp [q3])
        (by cases d <;> simp [q4, q5, hok.pos])
        (by cases d <;> simp [q6, q7, q8])
        (by cases d <;> simp [q7])
        bm.fifo_list bm.lru_list h.fifo_nodup h.lru_nodup
        (by
          intro q
          have hiff := inv_mem_fifo_iff h hmem
          rw [hpid] at hiff
          have hl : ({ (if d = true then { page' with isDirty := true } else page') with
                num_fixed := (if d = true then { page' with isDirty := true } else page').num_fixed - 1 }
                : BufferFrame).lru_position = page.lru_position := by
            cases d <;> simp [q5]
          rw [hl]
          by_cases hq : q = p
          · subst hq; simp [hiff]
          · simp [hq])
        (by
          intro q
          have hiff := inv_mem_lru_iff h hmem
          rw [hpid] at hiff
          have hl : ({ (if d = true then { page' with isDirty := true } else page') with
                num_fixed := (if d = true then { page' with isDirty := true } else page').num_fixed - 1 }
                : BufferFrame).lru_position = page.lru_position := by
            cases d <;> simp [q5]
          rw [hl]
          by_cases hq : q = p
          · subst hq; simp [hiff]
          · simp [hq])
      exact inv_congr key rfl rfl rfl rfl

/-! ### `fix_page` on a resident page -/

/-- The frame of a resident page after `fix_page` has pinned it and moved it to
the tail of the LRU list, before the latch is taken. -/
theorem fix_page_resident {bm : BufferManager} (h : Inv bm) {p : Nat} {f : BufferFrame}
    (hf : bm.find p = some f) (e : Bool) :
    fix_page bm p e =
      match (promoted f).lock e with
      | none => FixResult.never_returns
      | some page =>
        FixResult.ok
          { (bm.setFrame p page) with
            fifo_list := if !f.lru_position then bm.fifo_list.erase p else bm.fifo_list
            lru_list := if !f.lru_position then bm.lru_list ++ [p]
                        else bm.lru_list.erase p ++ [p] } := by
  have hs := (h.frames f (find_some hf).1).state
  unfold fix_page promoted
  simp only [hf, hs]
  simp

theorem lock_spec {f g : BufferFrame} {e : Bool} (hl : f.lock e = some g) :
    g.pId = f.pId ∧ g.state = f.state ∧ g.data = f.data ∧ g.fifo_position = f.fifo_position ∧
    g.lru_position = f.lru_position ∧ g.num_fixed = f.num_fixed ∧ g.isDirty = f.isDirty ∧
    g.exclusively_locked = e ∧ f.exclusively_locked = false ∧
    g.shared_locks = (if e then 0 else f.shared_locks + 1) ∧ (e = true → f.shared_locks = 0) := by
  unfold BufferFrame.lock at hl
  cases e with
  | false =>
    simp only [Bool.not_false, if_true] at hl
    split at hl
    · simp at hl
    · rename_i hex
      simp only [Option.some.injEq] at hl
      subst hl
      simp at hex
      simp [hex]
  | true =>
    simp only [Bool.not_true, Bool.false_eq_true, if_false] at hl
    split at hl
    · simp at hl
    · rename_i hex
      simp only [Option.some.injEq] at hl
      subst hl
      simp at hex
      simp [hex]

theorem inv_fix_page_resident {bm bm' : BufferManager} (h : Inv bm) {p : Nat} {f : BufferFrame}
    (hf : bm.find p = some f) {e : Bool} (hfix : fix_page bm p e = FixResult.ok bm') :
    Inv bm' ∧
    bm'.fifo_list = (if !f.lru_position then bm.fifo_list.erase p else bm.fifo_list) ∧
    bm'.lru_list = (if !f.lru_position then bm.lru_list ++ [p] else bm.lru_list.erase p ++ [p]) ∧
    bm'.loaded_pages = bm.loaded_pages ∧ bm'.segment_files = bm.segment_files ∧
    bm'.page_size = bm.page_size ∧ bm'.page_count = bm.page_count ∧
    ∃ g, bm' = { (bm.setFrame p g) with fifo_list := bm'.fifo_list, lru_list := bm'.lru_list } ∧
      (promoted f).lock e = some g := by
  rw [fix_page_resident h hf] at hfix
  obtain ⟨hmem, hpid⟩ := find_some hf
  have hok := h.frames f hmem
  split at hfix
  · simp at hfix
  · rename_i page hlock
    simp only [FixResult.ok.injEq] at hfix
    subst hfix
    obtain ⟨l1, l2, l3, l4, l5, l6, l7, l8, l9, l10, l11⟩ := lock_spec hlock
    simp only [promoted] at l1 l2 l3 l4 l5 l6 l7 l9 l10 l11
    refine ⟨?_, rfl, rfl, rfl, rfl, rfl, rfl, page, rfl, hlock⟩
    have hpf := inv_mem_fifo_iff h hmem
    have hpl := inv_mem_lru_iff h hmem
    rw [hpid] at hpf hpl
    apply inv_setFrame h hf (by rw [l1, hpid]) (by rw [l2, hok.state]) l3
      (by rw [l4, l5]; cases hl : f.lru_position <;> simp [hok.pos, hl])
    · rw [l6, l10, l8]
      have := hok.pins
      rw [l9] at this
      simp only [Bool.false_eq_true, if_false, Nat.add_zero] at this
      cases e with
      | false => simp [this]
      | true => simp [this, l11 rfl]
    · intro hex
      rw [l10, l8.symm.trans hex]
      rfl
    · split
      · exact h.fifo_nodup.erase p
      · exact h.fifo_nodup
    · split
      · rename_i hlp
        have hlp' : f.lru_position = false := by simpa using hlp
        have hnl : p ∉ bm.lru_list := by rw [hpl, hlp']; simp
        exact List.Nodup.append h.lru_nodup (List.nodup_singleton p)
          (by simpa [List.disjoint_singleton] using hnl)
      · have : p ∉ bm.lru_list.erase p := fun hm => by
          have := (List.Nodup.mem_erase_iff h.lru_nodup).1 hm
          exact this.1 rfl
        exact List.Nodup.append (h.lru_nodup.erase p) (List.nodup_singleton p)
          (by simpa [List.disjoint_singleton] using this)
    · intro q
      rw [l5]
      simp only [Bool.true_eq_false, and_false, or_false]
      split
      · exact List.Nodup.mem_erase_iff h.fifo_nodup
      · rename_i hlp
        have hlp' : f.lru_position = true := by simpa using hlp
        have hnf : p ∉ bm.fifo_list := by rw [hpf, hlp']; simp
        constructor
        · intro hq
          exact ⟨fun hqp => hnf (hqp ▸ hq), hq⟩
        · exact fun hq => hq.2
    · intro q
      rw [l5]
      simp only [and_true]
      split
      · simp only [List.mem_append, List.mem_singleton]
        rename_i hlp
        have hlp' : f.lru_position = false := by simpa using hlp
        have hnl : p ∉ bm.lru_list := by rw [hpl, hlp']; simp
        constructor
        · rintro (hq | hq)
          · exact Or.inl ⟨fun hqp => hnl (hqp ▸ hq), hq⟩
          · exact Or.inr hq
        · rintro (hq | hq)
          · exact Or.inl hq.2
          · exact Or.inr hq
      · simp only [List.mem_append, List.mem_singleton, List.Nodup.mem_erase_iff h.lru_nodup]

/-! ### `evict_page` and the loading of a non-resident page -/

theorem evict_page_eq (bm : BufferManager) :
    evict_page bm =
      match bm.victim with
      | none => (none, bm)
      | some v =>
        match bm.find v with
        | none => (none, bm)
        | some fv => (fv.data, after_evict bm v fv) := by
  unfold evict_page after_evict
  rfl

theorem find_append_transient {bm : BufferManager} {p : Nat} (hp : bm.find p = none) (q : Nat) :
    ({ bm with bufferframes := bm.bufferframes ++ [transientFrame p] } : BufferManager).find q
      = if q = p then some (transientFrame p) else bm.find q := by
  unfold BufferManager.find at *
  simp only [List.find?_append]
  by_cases hq : q = p
  · subst hq
    simp [hp, transientFrame]
  · have : (p == q) = false := by simpa using fun h => hq h.symm
    simp [hq, transientFrame, this]

theorem evictable_append_transient {bm : BufferManager} {p : Nat} (hp : bm.find p = none) :
    ({ bm with bufferframes := bm.bufferframes ++ [transientFrame p] } : BufferManager).evictable
      = bm.evictable := by
  funext q
  unfold BufferManager.evictable
  rw [find_append_transient hp]
  by_cases hq : q = p
  · subst hq
    simp [hp, transientFrame]
  · simp [hq]

theorem victim_append_transient {bm : BufferManager} {p : Nat} (hp : bm.find p = none) :
    ({ bm with bufferframes := bm.bufferframes ++ [transientFrame p] } : BufferManager).victim
      = bm.victim := by
  unfold BufferManager.victim
  rw [evictable_append_transient hp]

theorem victim_spec {bm : BufferManager} {v : Nat} (hv : bm.victim = some v) :
    bm.evictable v = true ∧ (v ∈ bm.fifo_list ∨ v ∈ bm.lru_list) := by
  unfold BufferManager.victim at hv
  split at hv
  · rename_i q hq
    simp only [Option.some.injEq] at hv
    subst hv
    exact ⟨List.find?_some hq, Or.inl (List.mem_of_find?_eq_some hq)⟩
  · exact ⟨List.find?_some hv, Or.inr (List.mem_of_find?_eq_some hv)⟩

theorem evictable_spec {bm : BufferManager} {v : Nat} (hv : bm.evictable v = true) :
    ∃ fv, bm.find v = some fv ∧ fv.state = BufferFrameState.MOD ∧ fv.num_fixed = 0 := by
  unfold BufferManager.evictable at hv
  split at hv
  · rename_i page hpage
    simp only [Bool.and_eq_true, beq_iff_eq] at hv
    exact ⟨page, hpage, hv.1, hv.2⟩
  · simp at hv

theorem filter_append_transient {F : List BufferFrame} {p v : Nat} (hvp : v ≠ p) :
    (F ++ [transientFrame p]).filter (fun f => f.pId != v)
      = F.filter (fun f => f.pId != v) ++ [transientFrame p] := by
  rw [List.filter_append]
  congr 1
  have : (transientFrame p).pId ≠ v := fun h => hvp h.symm
  simp [List.filter_cons, this]

theorem setFrame_append_transient {F : List BufferFrame} {p : Nat} (g : BufferFrame)
    (hF : ∀ f ∈ F, f.pId ≠ p) :
    (F ++ [transientFrame p]).map (fun f => if f.pId == p then g else f) = F ++ [g] := by
  rw [List.map_append]
  congr 1
  · conv_rhs => rw [← List.map_id F]
    apply List.map_congr_left
    intro f hf
    have := hF f hf
    simp [this]
  · simp [transientFrame]

theorem filter_ne_self {F : List BufferFrame} {p : Nat} (hF : ∀ f ∈ F, f.pId ≠ p) :
    F.filter (fun f => f.pId != p) = F := by
  apply List.filter_eq_self.2
  intro f hf
  simpa using hF f hf

/-- Closed form of the loading of a page that is not resident. -/
theorem load_page_eq {bm : BufferManager} {p : Nat} (hp : bm.find p = none) (e : Bool) :
    load_page bm p e =
      if bm.page_count ≤ bm.bufferframes.length then
        match bm.victim with
        | none => FixResult.buffer_full_error bm
        | some v =>
          match bm.find v with
          | none => FixResult.buffer_full_error bm
          | some fv =>
            match fv.data with
            | none => FixResult.buffer_full_error (after_evict bm v fv)
            | some slot => FixResult.ok (after_load (after_evict bm v fv) p slot e)
      else FixResult.ok (after_load bm p bm.bufferframes.length e) := by
  have hF := find_none hp
  unfold load_page
  simp only [List.length_append, List.length_singleton, Nat.add_sub_cancel, ge_iff_le]
  by_cases hfull : bm.page_count ≤ bm.bufferframes.length
  · simp only [hfull, if_true]
    rw [evict_page_eq, victim_append_transient hp]
    cases hv : bm.victim with
    | none =>
      simp only [BufferManager.eraseFrame]
      rw [List.filter_append, filter_ne_self hF]
      simp [transientFrame]
    | some v =>
      obtain ⟨hev, _⟩ := victim_spec hv
      obtain ⟨fv, hfv, _, _⟩ := evictable_spec hev
      have hvp : v ≠ p := by
        intro h
        rw [h, hp] at hfv
        cases hfv
      simp only [find_append_transient hp, hvp, if_false, hfv]
      have hFv : ∀ f ∈ bm.bufferframes.filter (fun f => f.pId != v), f.pId ≠ p :=
        fun f hf => hF f (List.mem_filter.1 hf).1
      cases hd : fv.data with
      | none =>
        simp only [BufferManager.eraseFrame, after_evict, hd]
        rw [filter_append_transient hvp, List.filter_append, filter_ne_self hFv]
        simp [transientFrame]
      | some slot =>
        simp only [finish_load, after_load, after_evict, BufferManager.setFrame, hd,
          loaded_bytes, grown_files, must_grow]
        rw [filter_append_transient hvp, setFrame_append_transient _ hFv]
  · simp only [hfull, if_false]
    simp only [finish_load, after_load, BufferManager.setFrame, loaded_bytes, grown_files,
      must_grow]
    rw [setFrame_append_transient _ hF]

/-- Appending the frame of a freshly loaded page keeps the invariant, when the
page id and the slot are not in use and the slot bound has room for one more
frame. -/
theorem inv_after_load (bm0 : BufferManager) (p slot : Nat) (e : Bool)
    (hnd : (bm0.bufferframes.map (fun f => f.pId)).Nodup)
    (hsize : bm0.bufferframes.length + 1 ≤ bm0.page_count)
    (hfr : ∀ f ∈ bm0.bufferframes, f.state = BufferFrameState.MOD ∧
      (∃ s, f.data = some s ∧ s < bm0.bufferframes.length + 1) ∧
      f.fifo_position = (!f.lru_position) ∧
      (f.lru_position = false → f.pId ∈ bm0.fifo_list) ∧
      (f.lru_position = true → f.pId ∈ bm0.lru_list) ∧
      f.num_fixed = f.shared_locks + (if f.exclusively_locked then 1 else 0) ∧
      (f.exclusively_locked = true → f.shared_locks = 0))
    (hfn : bm0.fifo_list.Nodup) (hln : bm0.lru_list.Nodup)
    (hfm : ∀ q ∈ bm0.fifo_list, ∃ f ∈ bm0.bufferframes, f.pId = q ∧ f.lru_position = false)
    (hlm : ∀ q ∈ bm0.lru_list, ∃ f ∈ bm0.bufferframes, f.pId = q ∧ f.lru_position = true)
    (hslots : (bm0.bufferframes.map (fun f => f.data)).Nodup)
    (hp : ∀ f ∈ bm0.bufferframes, f.pId ≠ p)
    (hslot : ∀ f ∈ bm0.bufferframes, f.data ≠ some slot)
    (hsl : slot < bm0.bufferframes.length + 1) :
    Inv (after_load bm0 p slot e) := by
  have hpf : p ∉ bm0.fifo_list := by
    intro hm
    obtain ⟨f, hf, hfp, _⟩ := hfm p hm
    exact hp f hf hfp
  constructor
  · show ((bm0.bufferframes ++ [loadedFrame p slot e]).map _).Nodup
    rw [List.map_append]
    refine List.Nodup.append hnd (List.nodup_singleton _) ?_
    simp only [List.map_cons, List.map_nil, List.disjoint_singleton, List.mem_map, not_exists,
      not_and]
    intro f hf
    exact hp f hf
  · show (bm0.bufferframes ++ [loadedFrame p slot e]).length ≤ bm0.page_count
    simpa using hsize
  · intro f hf
    change f ∈ bm0.bufferframes ++ [loadedFrame p slot e] at hf
    have hlen : (after_load bm0 p slot e).bufferframes.length = bm0.bufferframes.length + 1 := by
      simp [after_load]
    rcases List.mem_append.1 hf with hf | hf
    · obtain ⟨h1, ⟨s, hs, hslt⟩, h3, h4, h5, h6, h7⟩ := hfr f hf
      refine ⟨h1, ⟨s, hs, by rw [hlen]; exact hslt⟩, h3, ?_, h5, h6, h7⟩
      intro hl
      exact List.mem_append_left _ (h4 hl)
    · simp only [List.mem_singleton] at hf
      subst hf
      refine ⟨rfl, ⟨slot, rfl, by rw [hlen]; exact hsl⟩, rfl, ?_, ?_, ?_, ?_⟩
      · intro _
        exact List.mem_append_right _ (List.mem_singleton_self _)
      · intro hl
        simp [loadedFrame] at hl
      · cases e <;> simp [loadedFrame]
      · intro he
        simp only [loadedFrame] at he ⊢
        simp [he]
  · show (bm0.fifo_list ++ [p]).Nodup
    exact List.Nodup.append hfn (List.nodup_singleton _)
      (by simpa [List.disjoint_singleton] using hpf)
  · exact hln
  · intro q hq
    change q ∈ bm0.fifo_list ++ [p] at hq
    show ∃ f ∈ bm0.bufferframes ++ [loadedFrame p slot e], _
    rcases List.mem_append.1 hq with hq | hq
    · obtain ⟨f, hf, hfq, hfl⟩ := hfm q hq
      exact ⟨f, List.mem_append_left _ hf, hfq, hfl⟩
    · simp only [List.mem_singleton] at hq
      subst hq
      exact ⟨loadedFrame q slot e, List.mem_append_right _ (List.mem_singleton_self _), rfl, rfl⟩
  · intro q hq
    change q ∈ bm0.lru_list at hq
    show ∃ f ∈ bm0.bufferframes ++ [loadedFrame p slot e], _
    obtain ⟨f, hf, hfq, hfl⟩ := hlm q hq
    exact ⟨f, List.mem_append_left _ hf, hfq, hfl⟩
  · show ((bm0.bufferframes ++ [loadedFrame p slot e]).map _).Nodup
    rw [List.map_append]
    refine List.Nodup.append hslots (List.nodup_singleton _) ?_
    simp only [List.map_cons, List.map_nil, List.disjoint_singleton, List.mem_map, not_exists,
      not_and]
    intro f hf
    exact hslot f hf

theorem inv_after_load_free {bm : BufferManager} (h : Inv bm) {p : Nat}
    (hp : bm.find p = none) (hfree : bm.bufferframes.length < bm.page_count) (e : Bool) :
    Inv (after_load bm p bm.bufferframes.length e) := by
  apply inv_after_load bm p _ e h.nodup hfree _ h.fifo_nodup h.lru_nodup h.fifo_mem h.lru_mem
    h.slots (find_none hp) _ (Nat.lt_succ_self _)
  · intro f hf
    have hok := h.frames f hf
    obtain ⟨s, hs, hlt⟩ := hok.slot
    exact ⟨hok.state, ⟨s, hs, Nat.lt_succ_of_lt hlt⟩, hok.pos, hok.in_fifo, hok.in_lru,
      hok.pins, hok.excl⟩
  · intro f hf hd
    obtain ⟨s, hs, hlt⟩ := (h.frames f hf).slot
    rw [hs] at hd
    cases hd
    exact Nat.lt_irrefl _ hlt

theorem length_filter_remove : ∀ (F : List BufferFrame), (F.map (fun f => f.pId)).Nodup →
    ∀ fv ∈ F, (F.filter (fun f => f.pId != fv.pId)).length + 1 = F.length := by
  intro F
  induction F with
  | nil => intro _ fv hfv; cases hfv
  | cons a F ih =>
    intro hnd fv hfv
    simp only [List.map_cons, List.nodup_cons] at hnd
    rcases List.mem_cons.1 hfv with rfl | hfv
    · have hall : ∀ f ∈ F, f.pId ≠ fv.pId := by
        intro f hf heq
        exact hnd.1 (heq ▸ List.mem_map_of_mem (fun f => f.pId) hf)
      simp [List.filter_cons, filter_ne_self hall]
    · have hne : a.pId ≠ fv.pId := by
        intro heq
        exact hnd.1 (heq ▸ List.mem_map_of_mem (fun f => f.pId) hfv)
      simp only [List.filter_cons, bne_iff_ne, ne_eq, hne, not_false_eq_true, if_true,
        List.length_cons]
      rw [ih hnd.2 fv hfv]

theorem inv_after_load_evict {bm : BufferManager} (h : Inv bm) {p v slot : Nat}
    {fv : BufferFrame} (hp : bm.find p = none) (hfv : bm.find v = some fv)
    (hd : fv.data = some slot) (e : Bool) :
    Inv (after_load (after_evict bm v fv) p slot e) := by
  obtain ⟨hvmem, hvp⟩ := find_some hfv
  have hlen : (after_evict bm v fv).bufferframes.length + 1 = bm.bufferframes.length := by
    have := length_filter_remove bm.bufferframes h.nodup fv hvmem
    rw [hvp] at this
    exact this
  have hsub : (after_evict bm v fv).bufferframes.Sublist bm.bufferframes :=
    List.filter_sublist _
  have hmemF : ∀ f, f ∈ (after_evict bm v fv).bufferframes ↔ f ∈ bm.bufferframes ∧ f.pId ≠ v := by
    intro f
    simp [after_evict, List.mem_filter]
  have hvf := inv_mem_fifo_iff h hvmem
  have hvl := inv_mem_lru_iff h hvmem
  rw [hvp] at hvf hvl
  have hfifo : ∀ q, q ∈ (after_evict bm v fv).fifo_list ↔ q ≠ v ∧ q ∈ bm.fifo_list := by
    intro q
    simp only [after_evict]
    split
    · exact List.Nodup.mem_erase_iff h.fifo_nodup
    · rename_i hl
      have hl' : fv.lru_position = true := by simpa using hl
      have : v ∉ bm.fifo_list := by rw [hvf, hl']; simp
      exact ⟨fun hq => ⟨fun hqv => this (hqv ▸ hq), hq⟩, fun hq => hq.2⟩
  have hlru : ∀ q, q ∈ (after_evict bm v fv).lru_list ↔ q ≠ v ∧ q ∈ bm.lru_list := by
    intro q
    simp only [after_evict]
    split
    · rename_i hl
      have hl' : fv.lru_position = false := by simpa using hl
      have : v ∉ bm.lru_list := by rw [hvl, hl']; simp
      exact ⟨fun hq => ⟨fun hqv => this (hqv ▸ hq), hq⟩, fun hq => hq.2⟩
    · exact List.Nodup.mem_erase_iff h.lru_nodup
  apply inv_after_load
  · exact List.Nodup.sublist (hsub.map _) h.nodup
  · show (after_evict bm v fv).bufferframes.length + 1 ≤ bm.page_count
    rw [hlen]
    exact h.size
  · intro f hf
    obtain ⟨hfF, hfv'⟩ := (hmemF f).1 hf
    have hok := h.frames f hfF
    obtain ⟨s, hs, hlt⟩ := hok.slot
    refine ⟨hok.state, ⟨s, hs, by rw [hlen]; exact hlt⟩, hok.pos, ?_, ?_, hok.pins, hok.excl⟩
    · intro hl
      exact (hfifo _).2 ⟨hfv', hok.in_fifo hl⟩
    · intro hl
      exact (hlru _).2 ⟨hfv', hok.in_lru hl⟩
  · simp only [after_evict]
    split
    · exact h.fifo_nodup.erase v
    · exact h.fifo_nodup
  · simp only [after_evict]
    split
    · exact h.lru_nodup
    · exact h.lru_nodup.erase v
  · intro q hq
    obtain ⟨hqv, hqm⟩ := (hfifo q).1 hq
    obtain ⟨f, hf, hfq, hfl⟩ := h.fifo_mem q hqm
    exact ⟨f, (hmemF f).2 ⟨hf, by rw [hfq]; exact hqv⟩, hfq, hfl⟩
  · intro q hq
    obtain ⟨hqv, hqm⟩ := (hlru q).1 hq
    obtain ⟨f, hf, hfq, hfl⟩ := h.lru_mem q hqm
    exact ⟨f, (hmemF f).2 ⟨hf, by rw [hfq]; exact hqv⟩, hfq, hfl⟩
  · exact List.Nodup.sublist (hsub.map _) h.slots
  · intro f hf
    exact find_none hp f ((hmemF f).1 hf).1
  · intro f hf hfd
    obtain ⟨hfF, hfv'⟩ := (hmemF f).1 hf
    have : f = fv := List.inj_on_of_nodup_map h.slots hfF hvmem (by rw [hfd, hd])
    exact hfv' (this ▸ hvp)
  · rw [hlen]
    obtain ⟨s, hs, hlt⟩ := (h.frames fv hvmem).slot
    rw [hd] at hs
    cases hs
    exact hlt

/-- Every completed `fix_page` keeps the invariant. -/
theorem inv_fix_page {bm bm' : BufferManager} (h : Inv bm) {p : Nat} {e : Bool}
    (hfix : fix_page bm p e = FixResult.ok bm' ∨ fix_page bm p e = FixResult.buffer_full_error bm') :
    Inv bm' := by
  cases hf : bm.find p with
  | some f =>
    rcases hfix with hfix | hfix
    · exact (inv_fix_page_resident h hf hfix).1
    · rw [fix_page_resident h hf] at hfix
      split at hfix <;> simp at hfix
  | none =>
    have hfp : fix_page bm p e = load_page bm p e := by
      unfold fix_page
      simp [hf]
    rw [hfp, load_page_eq hf] at hfix
    by_cases hfull : bm.page_count ≤ bm.bufferframes.length
    · simp only [hfull, if_true] at hfix
      cases hv : bm.victim with
      | none =>
        simp only [hv] at hfix
        rcases hfix with hfix | hfix
        · simp at hfix
        · simp only [FixResult.buffer_full_error.injEq] at hfix
          subst hfix
          exact h
      | some v =>
        obtain ⟨hev, _⟩ := victim_spec hv
        obtain ⟨fv, hfv, _, _⟩ := evictable_spec hev
        obtain ⟨slot, hd, _⟩ := (h.frames fv (find_some hfv).1).slot
        simp only [hv, hfv, hd] at hfix
        rcases hfix with hfix | hfix
        · simp only [FixResult.ok.injEq] at hfix
          subst hfix
          exact inv_after_load_evict h hf hfv hd e
        · simp at hfix
    · simp only [hfull, if_false] at hfix
      rcases hfix with hfix | hfix
      · simp only [FixResult.ok.injEq] at hfix
        subst hfix
        exact inv_after_load_free h hf (Nat.lt_of_not_le hfull) e
      · simp at hfix

/-- The invariant holds after every history of calls. -/
theorem inv_run : ∀ (cs : List Call) {bm bm' : BufferManager}, Inv bm → run bm cs = some bm' →
    Inv bm' := by
  intro cs
  induction cs with
  | nil =>
    intro bm bm' h hr
    simp only [run, Option.some.injEq] at hr
    subst hr
    exact h
  | cons c cs ih =>
    intro bm bm' h hr
    simp only [run] at hr
    cases hs : step bm c with
    | none => simp [hs] at hr
    | some bm1 =>
      simp only [hs] at hr
      refine ih ?_ hr
      cases c with
      | fix p e =>
        simp only [step] at hs
        cases hfx : fix_page bm p e with
        | ok b =>
          simp only [hfx, Option.some.injEq] at hs
          subst hs
          exact inv_fix_page h (Or.inl hfx)
        | buffer_full_error b =>
          simp only [hfx, Option.some.injEq] at hs
          subst hs
          exact inv_fix_page h (Or.inr hfx)
        | never_returns => simp [hfx] at hs
      | unfix p d => exact inv_unfix_page h hs
      | write p bytes => exact inv_write_data h hs

/-! ### Admission and promotion (two-queue policy) -/

/-- The lists after the loading of a non-resident page: the page is appended to
the FIFO list; when the pool was full, the victim has left its list. -/
theorem load_page_lists {bm bm' : BufferManager} (h : Inv bm) {p : Nat} {e : Bool}
    (hp : bm.find p = none) (hfix : fix_page bm p e = FixResult.ok bm') :
    (bm.bufferframes.length < bm.page_count →
      bm'.fifo_list = bm.fifo_list ++ [p] ∧ bm'.lru_list = bm.lru_list) ∧
    (bm.page_count ≤ bm.bufferframes.length →
      ∃ v, bm.victim = some v ∧
        bm'.fifo_list = bm.fifo_list.erase v ++ [p] ∧ bm'.lru_list = bm.lru_list.erase v) := by
  have hfp : fix_page bm p e = load_page bm p e := by
    unfold fix_page
    simp [hp]
  rw [hfp, load_page_eq hp] at hfix
  constructor
  · intro hfree
    simp only [Nat.not_le.2 hfree, if_false, FixResult.ok.injEq] at hfix
    subst hfix
    exact ⟨rfl, rfl⟩
  · intro hfull
    simp only [hfull, if_true] at hfix
    cases hv : bm.victim with
    | none => simp [hv] at hfix
    | some v =>
      obtain ⟨hev, _⟩ := victim_spec hv
      obtain ⟨fv, hfv, _, _⟩ := evictable_spec hev
      obtain ⟨hvmem, hvp⟩ := find_some hfv
      obtain ⟨slot, hd, _⟩ := (h.frames fv hvmem).slot
      simp only [hv, hfv, hd, FixResult.ok.injEq] at hfix
      subst hfix
      refine ⟨v, rfl, ?_, ?_⟩
      · show (after_evict bm v fv).fifo_list ++ [p] = _
        simp only [after_evict]
        split
        · rfl
        · rename_i hl
          have hl' : fv.lru_position = true := by simpa using hl
          have hvf := inv_mem_fifo_iff h hvmem
          rw [hvp] at hvf
          have : v ∉ bm.fifo_list := by rw [hvf, hl']; simp
          rw [List.erase_of_not_mem this]
      · show (after_evict bm v fv).lru_list = _
        simp only [after_evict]
        split
        · rename_i hl
          have hl' : fv.lru_position = false := by simpa using hl
          have hvl := inv_mem_lru_iff h hvmem
          rw [hvp] at hvl
          have : v ∉ bm.lru_list := by rw [hvl, hl']; simp
          rw [List.erase_of_not_mem this]
        · rfl

/-- C7: two-queue admission and promotion.  At every point of a
single-threaded history, a completed `fix_page` of a page `p` changes the two
lists as follows.  If `p` is not resident, it is appended to the tail of the
FIFO list (after the victim, if the pool was full, has left its list).  If `p`
is in the FIFO list, it is removed from FIFO and appended to the tail of the
LRU list.  If `p` is in the LRU list, it is moved to the LRU tail.  Worked
example with `page_count = 2`: fix/unfix 1, fix/unfix 2, fix/unfix 1 gives
`fifo = [2]`, `lru = [1]`; then fix/unfix 3 evicts page 2 and gives
`fifo = [3]`, `lru = [1]`. -/
theorem fix_page_two_queue :
    (∀ (page_size page_count : Nat) (disk : Nat → File) (cs : List Call)
        (bm bm' : BufferManager) (p : Nat) (e : Bool),
      run (BufferManager.new page_size page_count disk) cs = some bm →
      fix_page bm p e = FixResult.ok bm' →
      (bm.find p = none →
        (bm.bufferframes.length < bm.page_count →
          bm'.get_fifo_list = bm.get_fifo_list ++ [p] ∧ bm'.get_lru_list = bm.get_lru_list) ∧
        (bm.page_count ≤ bm.bufferframes.length →
          ∃ v, bm.victim = some v ∧ bm'.get_fifo_list = bm.get_fifo_list.erase v ++ [p] ∧
            bm'.get_lru_list = bm.get_lru_list.erase v)) ∧
      (p ∈ bm.get_fifo_list →
        bm'.get_fifo_list = bm.get_fifo_list.erase p ∧
        bm'.get_lru_list = bm.get_lru_list ++ [p]) ∧
      (p ∈ bm.get_lru_list →
        bm'.get_fifo_list = bm.get_fifo_list ∧
        bm'.get_lru_list = bm.get_lru_list.erase p ++ [p])) ∧
    (run (BufferManager.new 1024 2 empty_disk) hot_promotion).map
        (fun bm => (bm.get_fifo_list, bm.get_lru_list)) = some ([2], [1]) ∧
    (run (BufferManager.new 1024 2 empty_disk)
        (hot_promotion ++ [Call.fix 3 false, Call.unfix 3 false])).map
        (fun bm => (bm.get_fifo_list, bm.get_lru_list)) = some ([3], [1]) := by
  refine ⟨?_, by decide, by decide⟩
  intro page_size page_count disk cs bm bm' p e hrun hfix
  have h : Inv bm := inv_run cs (inv_new _ _ _) hrun
  refine ⟨fun hp => load_page_lists h hp hfix, ?_, ?_⟩
  · intro hpf
    obtain ⟨f, hf, hfp, hfl⟩ := h.fifo_mem p hpf
    have hfind : bm.find p = some f := hfp ▸ find_of_mem h.nodup hf
    obtain ⟨_, h1, h2, _⟩ := inv_fix_page_resident h hfind hfix
    simp only [hfl, Bool.not_false, if_true] at h1 h2
    exact ⟨h1, h2⟩
  · intro hpl
    obtain ⟨f, hf, hfp, hfl⟩ := h.lru_mem p hpl
    have hfind : bm.find p = some f := hfp ▸ find_of_mem h.nodup hf
    obtain ⟨_, h1, h2, _⟩ := inv_fix_page_resident h hfind hfix
    simp only [hfl, Bool.not_true, Bool.false_eq_true, if_false] at h1 h2
    exact ⟨h1, h2⟩

/-- C7 (witness): the promotion of page 1 from FIFO to LRU in the worked
example, after fix/unfix 1 and fix/unfix 2. -/
theorem fix_page_two_queue_witness :
    1 ∈ (run_or (BufferManager.new 1024 2 empty_disk) (hot_promotion.take 4)).get_fifo_list ∧
    (fix_or (run_or (BufferManager.new 1024 2 empty_disk) (hot_promotion.take 4)) 1
        false).get_fifo_list
      = (run_or (BufferManager.new 1024 2 empty_disk)
          (hot_promotion.take 4)).get_fifo_list.erase 1 ∧
    (fix_or (run_or (BufferManager.new 1024 2 empty_disk) (hot_promotion.take 4)) 1
        false).get_lru_list
      = (run_or (BufferManager.new 1024 2 empty_disk)
          (hot_promotion.take 4)).get_lru_list ++ [1] :=
  ⟨by decide,
    (fix_page_two_queue.1 1024 2 empty_disk (hot_promotion.take 4)
      (run_or (BufferManager.new 1024 2 empty_disk) (hot_promotion.take 4))
      (fix_or (run_or (BufferManager.new 1024 2 empty_disk) (hot_promotion.take 4)) 1 false)
      1 false rfl rfl).2.1 (by decide)⟩

/-! ### A full pool of fixed pages -/

theorem unfix_page_spec {bm bm' : BufferManager} {p : Nat} {d : Bool}
    (hu : unfix_page bm p d = some bm') :
    ∃ f g, bm.find p = some f ∧ bm' = bm.setFrame p g ∧ g.pId = p ∧ g.state = f.state ∧
      g.num_fixed = f.num_fixed - 1 ∧ g.data = f.data ∧ g.lru_position = f.lru_position ∧
      g.isDirty = (f.isDirty || d) ∧ g.exclusively_locked = false := by
  unfold unfix_page at hu
  split at hu
  · simp at hu
  · rename_i page hfind
    split at hu
    · simp at hu
    · rename_i page' hunlock
      simp only [Option.some.injEq] at hu
      have hpid := (find_some hfind).2
      refine ⟨page, _, hfind, hu.symm, ?_⟩
      unfold BufferFrame.unlock at hunlock
      split at hunlock
      · split at hunlock
        · simp at hunlock
        · simp only [Option.some.injEq] at hunlock
          subst hunlock
          rename_i hex _
          have hex' : page.exclusively_locked = false := by simpa using hex
          cases d <;> simp [hpid, hex']
      · simp only [Option.some.injEq] at hunlock
        subst hunlock
        cases d <;> simp [hpid]

theorem unfix_page_defined {bm : BufferManager} (h : Inv bm) {p : Nat} {f : BufferFrame}
    (hf : bm.find p = some f) (hpin : 0 < f.num_fixed) (d : Bool) :
    ∃ bm', unfix_page bm p d = some bm' := by
  have hok := h.frames f (find_some hf).1
  have hpins := hok.pins
  unfold unfix_page
  simp only [hf]
  unfold BufferFrame.unlock
  by_cases hex : f.exclusively_locked = true
  · simp [hex]
  · have hex' : f.exclusively_locked = false := by simpa using hex
    simp only [hex', Bool.false_eq_true, if_false, Nat.add_zero] at hpins
    have : f.shared_locks ≠ 0 := by omega
    simp [hex', this]

/-- A completed `fix_page` changes neither `page_count` nor `page_size`. -/
theorem fix_page_params {bm bm' : BufferManager} (h : Inv bm) {p : Nat} {e : Bool}
    (hfix : fix_page bm p e = FixResult.ok bm' ∨
      fix_page bm p e = FixResult.buffer_full_error bm') :
    bm'.page_count = bm.page_count ∧ bm'.page_size = bm.page_size := by
  cases hf : bm.find p with
  | some f =>
    rcases hfix with hfix | hfix
    · obtain ⟨_, _, _, _, _, h5, h6, _⟩ := inv_fix_page_resident h hf hfix
      exact ⟨h6, h5⟩
    · rw [fix_page_resident h hf] at hfix
      split at hfix <;> simp at hfix
  | none =>
    have hfp : fix_page bm p e = load_page bm p e := by
      unfold fix_page
      simp [hf]
    rw [hfp, load_page_eq hf] at hfix
    split at hfix
    · split at hfix
      · rcases hfix with hfix | hfix
        · simp at hfix
        · simp only [FixResult.buffer_full_error.injEq] at hfix
          subst hfix
          exact ⟨rfl, rfl⟩
      · split at hfix
        · rcases hfix with hfix | hfix
          · simp at hfix
          · simp only [FixResult.buffer_full_error.injEq] at hfix
            subst hfix
            exact ⟨rfl, rfl⟩
        · split at hfix
          · rcases hfix with hfix | hfix
            · simp at hfix
            · simp only [FixResult.buffer_full_error.injEq] at hfix
              subst hfix
              exact ⟨rfl, rfl⟩
          · rcases hfix with hfix | hfix
            · simp only [FixResult.ok.injEq] at hfix
              subst hfix
              exact ⟨rfl, rfl⟩
            · simp at hfix
    · rcases hfix with hfix | hfix
      · simp only [FixResult.ok.injEq] at hfix
        subst hfix
        exact ⟨rfl, rfl⟩
      · simp at hfix

/-- A history changes neither `page_count` nor `page_size`. -/
theorem run_params : ∀ (cs : List Call) {bm bm' : BufferManager}, Inv bm →
    run bm cs = some bm' → bm'.page_count = bm.page_count ∧ bm'.page_size = bm.page_size := by
  intro cs
  induction cs with
  | nil =>
    intro bm bm' _ hr
    simp only [run, Option.some.injEq] at hr
    subst hr
    exact ⟨rfl, rfl⟩
  | cons c cs ih =>
    intro bm bm' h hr
    simp only [run] at hr
    cases hs : step bm c with
    | none => simp [hs] at hr
    | some bm1 =>
      simp only [hs] at hr
      have hstep : Inv bm1 ∧ bm1.page_count = bm.page_count ∧ bm1.page_size = bm.page_size := by
        cases c with
        | fix p e =>
          simp only [step] at hs
          cases hfx : fix_page bm p e with
          | ok b =>
            simp only [hfx, Option.some.injEq] at hs
            subst hs
            exact ⟨inv_fix_page h (Or.inl hfx), fix_page_params h (Or.inl hfx)⟩
          | buffer_full_error b =>
            simp only [hfx, Option.some.injEq] at hs
            subst hs
            exact ⟨inv_fix_page h (Or.inr hfx), fix_page_params h (Or.inr hfx)⟩
          | never_returns => simp [hfx] at hs
        | unfix p d =>
          refine ⟨inv_unfix_page h hs, ?_⟩
          obtain ⟨f, g, _, hb, _⟩ := unfix_page_spec hs
          rw [hb]
          exact ⟨rfl, rfl⟩
        | write p bytes =>
          refine ⟨inv_write_data h hs, ?_⟩
          simp only [step] at hs
          unfold write_data at hs
          split at hs
          · simp at hs
          · split at hs
            · split at hs
              · simp at hs
              · simp only [Option.some.injEq] at hs
                subst hs
                exact ⟨rfl, rfl⟩
            · simp at hs
      obtain ⟨h1, h2, h3⟩ := hstep
      obtain ⟨h4, h5⟩ := ih h1 hr
      exact ⟨h4.trans h2, h5.trans h3⟩

/-- When every frame is fixed, no victim is found. -/
theorem victim_none_of_all_fixed {bm : BufferManager}
    (hall : ∀ f ∈ bm.bufferframes, 0 < f.num_fixed) : bm.victim = none := by
  have hne : ∀ v, ¬ bm.evictable v = true := by
    intro v hv
    obtain ⟨fv, hfv, _, h0⟩ := evictable_spec hv
    have := hall fv (find_some hfv).1
    omega
  unfold BufferManager.victim
  have h1 : bm.fifo_list.find? bm.evictable = none :=
    List.find?_eq_none.2 (fun v _ => hne v)
  have h2 : bm.lru_list.find? bm.evictable = none :=
    List.find?_eq_none.2 (fun v _ => hne v)
  rw [h1, h2]

/-- When some resident page is not fixed, a victim is found. -/
theorem victim_some_of_unfixed {bm : BufferManager} (h : Inv bm) {f : BufferFrame}
    (hf : f ∈ bm.bufferframes) (h0 : f.num_fixed = 0) : ∃ v, bm.victim = some v := by
  have hev : bm.evictable f.pId = true := by
    unfold BufferManager.evictable
    rw [find_of_mem h.nodup hf]
    simp [(h.frames f hf).state, h0]
  have hmem : f.pId ∈ bm.fifo_list ∨ f.pId ∈ bm.lru_list := by
    cases hl : f.lru_position with
    | false => exact Or.inl ((h.frames f hf).in_fifo hl)
    | true => exact Or.inr ((h.frames f hf).in_lru hl)
  unfold BufferManager.victim
  cases h1 : bm.fifo_list.find? bm.evictable with
  | some v => exact ⟨v, rfl⟩
  | none =>
    simp only
    rcases hmem with hm | hm
    · exact absurd hev (List.find?_eq_none.1 h1 _ hm)
    · have : (bm.lru_list.find? bm.evictable).isSome = true :=
        List.find?_isSome.2 ⟨f.pId, hm, hev⟩
      exact Option.isSome_iff_exists.1 this

/-- C5: at every point of a single-threaded history of a buffer manager with
`page_count` frames, once `page_count` distinct pages are fixed and held,
`fix_page` of any further page throws `buffer_full_error` (and leaves the
buffer manager as it was); and after any one of the held pages, fixed once, is
unfixed, the same `fix_page` call succeeds.  Worked example: `page_count = 1`,
page 1 fixed and held, `fix_page` of page 2 throws `buffer_full_error`, and
succeeds after page 1 is unfixed. -/
theorem buffer_full_when_all_fixed :
    (∀ (page_size page_count : Nat) (disk : Nat → File) (cs : List Call) (bm : BufferManager)
        (held : List Nat) (q : Nat) (e : Bool),
      run (BufferManager.new page_size page_count disk) cs = some bm →
      held.Nodup → held.length = page_count →
      (∀ p ∈ held, ∃ f, bm.find p = some f ∧ 0 < f.num_fixed) →
      q ∉ held →
      fix_page bm q e = FixResult.buffer_full_error bm ∧
      ∀ p ∈ held, (∃ f, bm.find p = some f ∧ f.num_fixed = 1) → ∀ d : Bool,
        ∃ bm1 bm2, unfix_page bm p d = some bm1 ∧ fix_page bm1 q e = FixResult.ok bm2) ∧
    (fix_page (run_or (BufferManager.new 1024 1 empty_disk) [Call.fix 1 false]) 2
        false).is_buffer_full = true ∧
    (fix_page (run_or (BufferManager.new 1024 1 empty_disk)
        [Call.fix 1 false, Call.fix 2 false, Call.unfix 1 false]) 2 false).is_ok = true := by
  refine ⟨?_, by decide, by decide⟩
  intro page_size page_count disk cs bm held q e hrun hnd hlen hheld hq
  have h : Inv bm := inv_run cs (inv_new _ _ _) hrun
  have hpc : bm.page_count = page_count := (run_params cs (inv_new _ _ _) hrun).1
  -- the resident pages are exactly the held pages
  have hsub : held ⊆ bm.bufferframes.map (fun f => f.pId) := by
    intro p hp
    obtain ⟨f, hf, _⟩ := hheld p hp
    obtain ⟨hmem, hpid⟩ := find_some hf
    exact hpid ▸ List.mem_map_of_mem (fun f => f.pId) hmem
  have hperm : held.Perm (bm.bufferframes.map (fun f => f.pId)) :=
    (List.subperm_of_subset hnd hsub).perm_of_length_le (by
      rw [List.length_map, hlen, ← hpc]
      exact h.size)
  have hfull : bm.page_count ≤ bm.bufferframes.length := by
    have := hperm.length_eq
    rw [List.length_map] at this
    omega
  have hall : ∀ f ∈ bm.bufferframes, 0 < f.num_fixed := by
    intro f hf
    have hm : f.pId ∈ held := hperm.symm.subset (List.mem_map_of_mem (fun f => f.pId) hf)
    obtain ⟨g, hg, hpos⟩ := hheld _ hm
    rw [find_of_mem h.nodup hf] at hg
    cases hg
    exact hpos
  have hqn : bm.find q = none := by
    apply find_none_of_not_mem
    intro f hf hfq
    exact hq (hperm.symm.subset (hfq ▸ List.mem_map_of_mem (fun f => f.pId) hf))
  have hfp : ∀ b : BufferManager, b.find q = none → fix_page b q e = load_page b q e := by
    intro b hb
    unfold fix_page
    simp [hb]
  constructor
  · rw [hfp bm hqn, load_page_eq hqn]
    simp [hfull, victim_none_of_all_fixed hall]
  · intro p hp hone d
    obtain ⟨f, hf, h1⟩ := hone
    obtain ⟨bm1, hu⟩ := unfix_page_defined h hf (by omega) d
    obtain ⟨f', g, hf', hbm1, hgp, hgs, hgn, hgd, _⟩ := unfix_page_spec hu
    rw [hf] at hf'
    cases hf'
    have h1inv : Inv bm1 := inv_unfix_page h hu
    have hpq : q ≠ p := fun hqp => hq (hqp ▸ hp)
    have hqn1 : bm1.find q = none := by
      rw [hbm1, find_setFrame_other hgp hpq]
      exact hqn
    have hg1 : bm1.find p = some g := by
      rw [hbm1]
      exact find_setFrame_self hf hgp
    have hfull1 : bm1.page_count ≤ bm1.bufferframes.length := by
      rw [hbm1]
      simpa [BufferManager.setFrame] using hfull
    obtain ⟨v, hv⟩ := victim_some_of_unfixed h1inv (find_some hg1).1 (by rw [hgn, h1])
    obtain ⟨hev, _⟩ := victim_spec hv
    obtain ⟨fv, hfv, _, _⟩ := evictable_spec hev
    obtain ⟨slot, hd, _⟩ := (h1inv.frames fv (find_some hfv).1).slot
    refine ⟨bm1, after_load (after_evict bm1 v fv) q slot e, hu, ?_⟩
    rw [hfp bm1 hqn1, load_page_eq hqn1]
    simp [hfull1, hv, hfv, hd]

/-- C5 (witness): `page_count = 1`, page 1 is fixed and held; `fix_page` of
page 2 throws `buffer_full_error` and leaves the buffer manager unchanged. -/
theorem buffer_full_when_all_fixed_witness :
    fix_page (run_or (BufferManager.new 1024 1 empty_disk) [Call.fix 1 false]) 2 false
      = FixResult.buffer_full_error
          (run_or (BufferManager.new 1024 1 empty_disk) [Call.fix 1 false]) :=
  (buffer_full_when_all_fixed.1 1024 1 empty_disk [Call.fix 1 false]
    (run_or (BufferManager.new 1024 1 empty_disk) [Call.fix 1 false]) [1] 2 false rfl
    (by decide) rfl
    (fun p hp => by
      have hp1 : p = 1 := by simpa using hp
      subst hp1
      exact ⟨loadedFrame 1 0 false, rfl, by decide⟩)
    (by decide)).1

end Buffer

namespace Buffer

/-! ### Segment files -/

theorem getD_append_replicate (l : List (List Nat)) (k i : Nat) (z : List Nat) :
    (l ++ List.replicate k z).getD i z = l.getD i z := by
  simp only [List.getD_eq_getElem?_getD]
  by_cases h : i < l.length
  · rw [List.getElem?_append_left h]
  · have h' : l.length ≤ i := Nat.le_of_not_lt h
    rw [List.getElem?_append_right h', List.getElem?_eq_none_iff.2 h']
    by_cases h2 : i - l.length < k
    · rw [List.getElem?_replicate_of_lt h2]
      rfl
    · rw [List.getElem?_eq_none_iff.2 (by simpa using h2)]

theorem read_resize (page_size : Nat) (f : File) (n i : Nat) :
    (f.resize page_size n).read_block page_size i = f.read_block page_size i := by
  unfold File.resize File.read_block
  exact getD_append_replicate _ _ _ _

theorem read_write_same (page_size : Nat) (f : File) (src : List Nat) (i : Nat) :
    (f.write_block page_size src i).read_block page_size i = src := by
  unfold File.write_block File.read_block
  simp only [List.getD_eq_getElem?_getD]
  rw [List.getElem?_set_self (by simp; omega)]
  rfl

theorem read_write_other (page_size : Nat) (f : File) (src : List Nat) {i j : Nat} (h : i ≠ j) :
    (f.write_block page_size src i).read_block page_size j = f.read_block page_size j := by
  unfold File.write_block File.read_block
  have := getD_append_replicate f.blocks (i + 1 - f.blocks.length) j (zeros page_size)
  simp only [List.getD_eq_getElem?_getD] at this ⊢
  rw [List.getElem?_set_ne h]
  exact this

theorem page_key_inj {p q : Nat} (hs : get_segment_id p = get_segment_id q)
    (hi : get_segment_page_id p = get_segment_page_id q) : p = q := by
  unfold get_segment_id at hs
  unfold get_segment_page_id at hi
  have hp := Nat.div_add_mod p (2 ^ 48)
  have hq := Nat.div_add_mod q (2 ^ 48)
  rw [hs, hi] at hp
  omega

/-- The bytes `fix_page` loads are the bytes of the page's block in its file. -/
theorem loaded_bytes_eq (bm : BufferManager) (p : Nat) :
    loaded_bytes bm p
      = (bm.segment_files (get_segment_id p)).read_block bm.page_size
          (get_segment_page_id p) := by
  unfold loaded_bytes
  split
  · rename_i hg
    unfold must_grow File.size at hg
    have hlt : (bm.segment_files (get_segment_id p)).blocks.length
        < get_segment_page_id p + 1 := by
      have := of_decide_eq_true hg
      exact Nat.lt_of_mul_lt_mul_right this
    unfold File.read_block
    simp only [List.getD_eq_getElem?_getD]
    rw [List.getElem?_eq_none_iff.2 (by omega)]
    rfl
  · rfl

/-- Growing the file of a page changes the bytes of no block. -/
theorem read_grown_files (bm : BufferManager) (p q : Nat) :
    (grown_files bm p (get_segment_id q)).read_block bm.page_size (get_segment_page_id q)
      = (bm.segment_files (get_segment_id q)).read_block bm.page_size
          (get_segment_page_id q) := by
  unfold grown_files
  split
  · by_cases hs : get_segment_id q = get_segment_id p
    · rw [hs, Function.update_same, read_resize]
    · rw [Function.update_noteq hs]
  · rfl

/-! ### The bytes of a page across the calls -/

theorem content_eq {bm bm' : BufferManager} {q : Nat}
    (hlp : bm'.loaded_pages = bm.loaded_pages) (hsf : bm'.segment_files = bm.segment_files)
    (hps : bm'.page_size = bm.page_size)
    (hfind : (bm'.find q).map (fun f => f.data) = (bm.find q).map (fun f => f.data)) :
    bm'.content q = bm.content q := by
  unfold BufferManager.content
  rw [hlp, hsf, hps]
  cases h1 : bm'.find q with
  | none =>
    cases h2 : bm.find q with
    | none => rfl
    | some f => rw [h1, h2] at hfind; simp at hfind
  | some f' =>
    cases h2 : bm.find q with
    | none => rw [h1, h2] at hfind; simp at hfind
    | some f =>
      rw [h1, h2] at hfind
      simp only [Option.map_some', Option.some.injEq] at hfind
      simp only [hfind]

theorem find_data_setFrame {bm : BufferManager} {p : Nat} {f g : BufferFrame}
    (hf : bm.find p = some f) (hgp : g.pId = p) (hgd : g.data = f.data) (q : Nat) :
    ((bm.setFrame p g).find q).map (fun f => f.data) = (bm.find q).map (fun f => f.data) := by
  by_cases hq : q = p
  · subst hq
    rw [find_setFrame_self hf hgp, hf]
    simp [hgd]
  · rw [find_setFrame_other hgp hq]

theorem held_of_find {bm : BufferManager} {p : Nat} {f : BufferFrame} (hf : bm.find p = some f) :
    bm.held_exclusively p = f.exclusively_locked := by
  unfold BufferManager.held_exclusively
  rw [hf]

theorem held_of_find_none {bm : BufferManager} {p : Nat} (hf : bm.find p = none) :
    bm.held_exclusively p = false := by
  unfold BufferManager.held_exclusively
  rw [hf]

theorem held_setFrame_other {bm : BufferManager} {p q : Nat} {g : BufferFrame}
    (hgp : g.pId = p) (hq : q ≠ p) :
    (bm.setFrame p g).held_exclusively q = bm.held_exclusively q := by
  unfold BufferManager.held_exclusively
  rw [find_setFrame_other hgp hq]

/-- A frame replaced by one with the same slot: the clean pages still hold the
bytes of their blocks. -/
theorem dataInv_setFrame {bm : BufferManager} {pending pending' : List Nat}
    (hD : DataInv bm pending) {p : Nat} {f g : BufferFrame}
    (hf : bm.find p = some f) (hgp : g.pId = p) (hgd : g.data = f.data)
    (hsub : ∀ q, q ≠ p → q ∉ pending' → q ∉ pending)
    (hg : g.isDirty = false → p ∉ pending' → f.isDirty = false ∧ p ∉ pending)
    {bm' : BufferManager} (hF : bm'.bufferframes = (bm.setFrame p g).bufferframes)
    (hlp : bm'.loaded_pages = bm.loaded_pages) (hsf : bm'.segment_files = bm.segment_files)
    (hps : bm'.page_size = bm.page_size) : DataInv bm' pending' := by
  intro x hx hxd hxp slot hxs
  rw [hF] at hx
  rw [hlp, hsf, hps]
  obtain ⟨hfmem, hfp⟩ := find_some hf
  rcases mem_setFrame hx with ⟨rfl, _⟩ | ⟨hxF, hxne⟩
  · rw [hgp] at hxp ⊢
    obtain ⟨hfd, hfpend⟩ := hg hxd hxp
    have := hD f hfmem hfd (by rw [hfp]; exact hfpend) slot (by rw [← hgd]; exact hxs)
    rw [hfp] at this
    exact this
  · exact hD x hxF hxd (hsub _ hxne hxp) slot hxs

theorem ghostInv_write {bm bm' : BufferManager} {g : Ghost} (hG : GhostInv bm g) {p : Nat}
    {bytes : List Nat} (hw : write_data bm p bytes = some bm') :
    GhostInv bm' (g.step bm (Call.write p bytes)) := by
  have hinv' := inv_write_data hG.inv hw
  unfold write_data at hw
  split at hw
  · simp at hw
  · rename_i f hf
    split at hw
    · rename_i hcond
      split at hw
      · simp at hw
      · rename_i slot hslot
        simp only [Option.some.injEq] at hw
        subst hw
        obtain ⟨hfmem, hfp⟩ := find_some hf
        have hex : f.exclusively_locked = true := by
          simp only [Bool.and_eq_true] at hcond
          exact hcond.1
        have hother : ∀ x ∈ bm.bufferframes, x.pId ≠ p → ∀ s, x.data = some s → s ≠ slot := by
          intro x hx hxp s hs hss
          have : x = f := List.inj_on_of_nodup_map hG.inv.slots hx hfmem (by rw [hs, hslot, hss])
          exact hxp (this ▸ hfp)
        refine ⟨hinv', ?_, ?_, ?_⟩
        · intro q hq
          simp only [Ghost.step, List.mem_cons] at hq
          show bm.held_exclusively q = true
          rcases hq with rfl | hq
          · unfold BufferManager.held_exclusively
            rw [hf]
            exact hex
          · exact hG.pending_held q hq
        · intro hh
          intro x hx hxd hxp s hs
          simp only [Ghost.step, List.mem_cons, not_or] at hxp
          show Function.update bm.loaded_pages slot bytes s = _
          rw [Function.update_noteq (hother x hx hxp.1 s hs)]
          exact hG.data hh x hx hxd hxp.2 s hs
        · intro hh q b hl hq
          simp only [Ghost.step, List.mem_cons, not_or] at hq
          rw [← hG.last hh q b hl hq.2]
          unfold BufferManager.content
          show (match bm.find q with
            | some page => match page.data with
              | some s => Function.update bm.loaded_pages slot bytes s
              | none => zeros bm.page_size
            | none => _) = _
          cases hfq : bm.find q with
          | none => rfl
          | some x =>
            simp only
            cases hxs : x.data with
            | none => rfl
            | some s =>
              simp only
              obtain ⟨hxmem, hxp⟩ := find_some hfq
              rw [Function.update_noteq (hother x hxmem (by rw [hxp]; exact hq.1) s hxs)]
    · simp at hw

theorem ghostInv_unfix {bm bm' : BufferManager} {g : Ghost} (hG : GhostInv bm g) {p : Nat}
    {d : Bool} (hu : unfix_page bm p d = some bm') :
    GhostInv bm' (g.step bm (Call.unfix p d)) := by
  have hinv' := inv_unfix_page hG.inv hu
  obtain ⟨f, x, hf, hbm', hxp, hxs, hxn, hxd, hxl, hxdirty, hxe⟩ := unfix_page_spec hu
  subst hbm'
  have hcontent : ∀ q, (bm.setFrame p x).content q = bm.content q :=
    fun q => content_eq rfl rfl rfl (find_data_setFrame hf hxp hxd q)
  have hheld_p : (bm.setFrame p x).held_exclusively p = false := by
    unfold BufferManager.held_exclusively
    rw [find_setFrame_self hf hxp]
    exact hxe
  have hheld_f : bm.held_exclusively p = f.exclusively_locked := by
    unfold BufferManager.held_exclusively
    rw [hf]
  by_cases hex : f.exclusively_locked = true
  · have hstep_pending : (g.step bm (Call.unfix p d)).pending
        = g.pending.filter (fun q => q != p) := by
      simp only [Ghost.step, hheld_f, hex, if_true]
      cases d <;> rfl
    have hmem : ∀ q, q ∈ (g.step bm (Call.unfix p d)).pending ↔ q ∈ g.pending ∧ q ≠ p := by
      intro q
      rw [hstep_pending]
      simp [List.mem_filter]
    refine ⟨hinv', ?_, ?_, ?_⟩
    · intro q hq
      obtain ⟨hq1, hq2⟩ := (hmem q).1 hq
      rw [held_setFrame_other hxp hq2]
      exact hG.pending_held q hq1
    · intro hh
      have hh0 : g.honest = true ∧ (d = false → p ∉ g.pending) := by
        cases d with
        | true =>
          simp only [Ghost.step, hheld_f, hex, if_true] at hh
          exact ⟨hh, fun h => by cases h⟩
        | false =>
          simp only [Ghost.step, hheld_f, hex, if_true, Bool.false_eq_true, if_false,
            Bool.and_eq_true, Bool.not_eq_true', List.contains_eq_any_beq, List.any_eq_false,
            beq_iff_eq] at hh
          refine ⟨hh.1, fun _ hp => ?_⟩
          exact hh.2 p hp rfl
      refine dataInv_setFrame (hG.data hh0.1) hf hxp hxd ?_ ?_ rfl rfl rfl rfl
      · intro q hq hqn hqp
        exact hqn ((hmem q).2 ⟨hqp, hq⟩)
      · intro hxc _
        rw [hxdirty] at hxc
        simp only [Bool.or_eq_false_iff] at hxc
        exact ⟨hxc.1, hh0.2 hxc.2⟩
    · intro hh q b hl hq
      rw [hcontent]
      cases d with
      | true =>
        simp only [Ghost.step, hheld_f, hex, if_true] at hh hl
        by_cases hqp : q = p
        · subst hqp
          rw [Function.update_same] at hl
          exact Option.some.inj hl
        · rw [Function.update_noteq hqp] at hl
          exact hG.last hh q b hl (fun hm => hq ((hmem q).2 ⟨hm, hqp⟩))
      | false =>
        simp only [Ghost.step, hheld_f, hex, if_true, Bool.false_eq_true, if_false,
          Bool.and_eq_true, Bool.not_eq_true', List.contains_eq_any_beq, List.any_eq_false,
          beq_iff_eq] at hh hl
        refine hG.last hh.1 q b hl (fun hm => ?_)
        by_cases hqp : q = p
        · exact hh.2 q hm hqp.symm
        · exact hq ((hmem q).2 ⟨hm, hqp⟩)
  · have hex' : f.exclusively_locked = false := by simpa using hex
    have hstep : g.step bm (Call.unfix p d) = g := by
      simp [Ghost.step, hheld_f, hex']
    rw [hstep]
    have hpn : p ∉ g.pending := by
      intro hp
      have := hG.pending_held p hp
      rw [hheld_f, hex'] at this
      cases this
    refine ⟨hinv', ?_, ?_, ?_⟩
    · intro q hq
      have hqp : q ≠ p := fun h => hpn (h ▸ hq)
      rw [held_setFrame_other hxp hqp]
      exact hG.pending_held q hq
    · intro hh
      refine dataInv_setFrame (hG.data hh) hf hxp hxd (fun _ _ h => h) ?_ rfl rfl rfl rfl
      intro hxc _
      rw [hxdirty] at hxc
      simp only [Bool.or_eq_false_iff] at hxc
      exact ⟨hxc.1, hpn⟩
    · intro hh q b hl hq
      rw [hcontent]
      exact hG.last hh q b hl hq

/-! ### Loading and eviction keep the bytes of every page -/

theorem find_after_load {bm0 : BufferManager} {p : Nat} (hp : bm0.find p = none)
    (slot : Nat) (e : Bool) (q : Nat) :
    (after_load bm0 p slot e).find q
      = if q = p then some (loadedFrame p slot e) else bm0.find q := by
  unfold BufferManager.find at *
  simp only [after_load, List.find?_append]
  by_cases hq : q = p
  · subst hq
    simp [hp, loadedFrame]
  · have : (p == q) = false := by simpa using fun h => hq h.symm
    simp [hq, loadedFrame, this]

theorem content_after_load {bm0 : BufferManager} {p slot : Nat} (hp : bm0.find p = none)
    (hslot : ∀ f ∈ bm0.bufferframes, f.data ≠ some slot) (e : Bool) (q : Nat) :
    (after_load bm0 p slot e).content q = bm0.content q := by
  unfold BufferManager.content
  rw [find_after_load hp]
  by_cases hq : q = p
  · subst hq
    simp only [if_true, hp, loadedFrame]
    show Function.update bm0.loaded_pages slot (loaded_bytes bm0 q) slot = _
    rw [Function.update_same, loaded_bytes_eq]
  · simp only [hq, if_false]
    cases hf : bm0.find q with
    | none =>
      show (grown_files bm0 p (get_segment_id q)).read_block bm0.page_size _ = _
      exact read_grown_files bm0 p q
    | some f =>
      simp only
      cases hd : f.data with
      | none => rfl
      | some s =>
        show Function.update bm0.loaded_pages slot (loaded_bytes bm0 p) s = _
        have : s ≠ slot := fun hs => hslot f (find_some hf).1 (by rw [hd, hs])
        rw [Function.update_noteq this]

theorem dataInv_after_load {bm0 : BufferManager} {pending : List Nat} (hD : DataInv bm0 pending)
    {p slot : Nat} (hslot : ∀ f ∈ bm0.bufferframes, f.data ≠ some slot) (e : Bool) :
    DataInv (after_load bm0 p slot e) pending := by
  intro x hx hxd hxp s hs
  change x ∈ bm0.bufferframes ++ [loadedFrame p slot e] at hx
  show Function.update bm0.loaded_pages slot (loaded_bytes bm0 p) s
    = (grown_files bm0 p (get_segment_id x.pId)).read_block bm0.page_size _
  rw [read_grown_files]
  rcases List.mem_append.1 hx with hx | hx
  · have : s ≠ slot := fun hss => hslot x hx (by rw [hs, hss])
    rw [Function.update_noteq this]
    exact hD x hx hxd hxp s hs
  · simp only [List.mem_singleton] at hx
    subst hx
    simp only [loadedFrame, Option.some.injEq] at hs
    subst hs
    rw [Function.update_same, loaded_bytes_eq]
    rfl

theorem find_list_filter_ne (v q : Nat) : ∀ (F : List BufferFrame),
    (F.filter (fun f => f.pId != v)).find? (fun f => f.pId == q)
      = if q = v then none else F.find? (fun f => f.pId == q) := by
  intro F
  induction F with
  | nil => simp
  | cons a F ih =>
    by_cases hav : a.pId = v
    · have h1 : (a.pId != v) = false := by simp [hav]
      simp only [List.filter_cons, h1, Bool.false_eq_true, if_false]
      rw [ih]
      by_cases hq : q = v
      · simp [hq]
      · have : (a.pId == q) = false := by rw [hav]; simpa using fun h => hq h.symm
        simp [hq, List.find?_cons, this]
    · have h1 : (a.pId != v) = true := by simpa using hav
      simp only [List.filter_cons, h1, if_true]
      by_cases haq : a.pId = q
      · have hqv : ¬ q = v := fun h => hav (haq.trans h)
        simp [List.find?_cons, haq, hqv]
      · have : (a.pId == q) = false := by simpa using haq
        simp only [List.find?_cons, this]
        exact ih

theorem find_after_evict (bm : BufferManager) (v : Nat) (fv : BufferFrame) (q : Nat) :
    (after_evict bm v fv).find q = if q = v then none else bm.find q :=
  find_list_filter_ne v q bm.bufferframes

theorem read_after_evict_other (bm : BufferManager) {v q : Nat} (fv : BufferFrame)
    (hq : q ≠ v) :
    ((after_evict bm v fv).segment_files (get_segment_id q)).read_block bm.page_size
        (get_segment_page_id q)
      = (bm.segment_files (get_segment_id q)).read_block bm.page_size
          (get_segment_page_id q) := by
  simp only [after_evict]
  split
  · by_cases hs : get_segment_id q = get_segment_id v
    · have hi : get_segment_page_id v ≠ get_segment_page_id q :=
        fun hi => hq (page_key_inj hs hi.symm)
      rw [hs, Function.update_same, read_write_other _ _ _ hi]
    · rw [Function.update_noteq hs]
  · rfl

theorem content_after_evict {bm : BufferManager} {v slot : Nat} {fv : BufferFrame}
    (hfv : bm.find v = some fv) (hd : fv.data = some slot)
    (hclean : fv.isDirty = false → bm.loaded_pages slot
      = (bm.segment_files (get_segment_id v)).read_block bm.page_size
          (get_segment_page_id v)) (q : Nat) :
    (after_evict bm v fv).content q = bm.content q := by
  unfold BufferManager.content
  rw [find_after_evict]
  by_cases hq : q = v
  · subst hq
    simp only [if_true, hfv, hd]
    show ((after_evict bm q fv).segment_files (get_segment_id q)).read_block bm.page_size _ = _
    simp only [after_evict, hd]
    cases hdirty : fv.isDirty with
    | true =>
      simp only [if_true]
      rw [Function.update_same, read_write_same]
    | false =>
      simp only [Bool.false_eq_true, if_false]
      exact (hclean hdirty).symm
  · simp only [hq, if_false]
    cases hf : bm.find q with
    | none => exact read_after_evict_other bm fv hq
    | some f => rfl

theorem dataInv_after_evict {bm : BufferManager} {pending : List Nat} (hD : DataInv bm pending)
    (v : Nat) (fv : BufferFrame) : DataInv (after_evict bm v fv) pending := by
  intro x hx hxd hxp s hs
  have hx' : x ∈ bm.bufferframes ∧ x.pId ≠ v := by
    simpa [after_evict, List.mem_filter] using hx
  show bm.loaded_pages s = ((after_evict bm v fv).segment_files _).read_block bm.page_size _
  rw [read_after_evict_other bm fv hx'.2]
  exact hD x hx'.1 hxd hxp s hs

/-- A completed `fix_page` keeps the invariant of the bookkeeping and, in an
honest history, the bytes of every page. -/
theorem ghostInv_fix {bm bm' : BufferManager} {g : Ghost} (hG : GhostInv bm g) {p : Nat}
    {e : Bool} (hfix : fix_page bm p e = FixResult.ok bm' ∨
      fix_page bm p e = FixResult.buffer_full_error bm') :
    GhostInv bm' g ∧ (g.honest = true → ∀ q, bm'.content q = bm.content q) := by
  have h := hG.inv
  have hinv' := inv_fix_page h hfix
  cases hf : bm.find p with
  | some f =>
    rcases hfix with hfix | hfix
    · obtain ⟨_, _, _, hlp, hsf, hps, _, x, hbm', hlock⟩ := inv_fix_page_resident h hf hfix
      obtain ⟨l1, l2, l3, l4, l5, l6, l7, l8, l9, l10, l11⟩ := lock_spec hlock
      simp only [promoted] at l1 l3 l7 l9
      have hxp : x.pId = p := l1.trans (find_some hf).2
      have hF : bm'.bufferframes = (bm.setFrame p x).bufferframes := by rw [hbm']
      have hfind : ∀ q, bm'.find q = (bm.setFrame p x).find q := by
        intro q
        unfold BufferManager.find
        rw [hF]
      have hpn : p ∉ g.pending := by
        intro hp
        have := hG.pending_held p hp
        rw [held_of_find hf, l9] at this
        cases this
      have hcontent : ∀ q, bm'.content q = bm.content q := by
        intro q
        refine content_eq hlp hsf hps ?_
        rw [hfind]
        exact find_data_setFrame hf hxp l3 q
      refine ⟨⟨hinv', ?_, ?_, ?_⟩, fun _ => hcontent⟩
      · intro q hq
        have hqp : q ≠ p := fun hqp => hpn (hqp ▸ hq)
        have := hG.pending_held q hq
        unfold BufferManager.held_exclusively at this ⊢
        rw [hfind, find_setFrame_other hxp hqp]
        exact this
      · intro hh
        refine dataInv_setFrame (hG.data hh) hf hxp l3 (fun _ _ hq => hq) ?_ hF hlp hsf hps
        intro hxd _
        exact ⟨by rw [← l7]; exact hxd, hpn⟩
      · intro hh q b hl hq
        rw [hcontent]
        exact hG.last hh q b hl hq
    · rw [fix_page_resident h hf] at hfix
      split at hfix <;> simp at hfix
  | none =>
    have hfp : fix_page bm p e = load_page bm p e := by
      unfold fix_page
      simp [hf]
    rw [hfp, load_page_eq hf] at hfix
    have hheld_other : ∀ (b : BufferManager), (∀ q, q ∈ g.pending → b.find q = bm.find q) →
        ∀ q ∈ g.pending, b.held_exclusively q = true := by
      intro b hb q hq
      have hqh := hG.pending_held q hq
      unfold BufferManager.held_exclusively at hqh ⊢
      rw [hb q hq]
      exact hqh
    have hpn : p ∉ g.pending := by
      intro hp
      have := hG.pending_held p hp
      rw [held_of_find_none hf] at this
      cases this
    by_cases hfull : bm.page_count ≤ bm.bufferframes.length
    · simp only [hfull, if_true] at hfix
      cases hv : bm.victim with
      | none =>
        simp only [hv] at hfix
        rcases hfix with hfix | hfix
        · simp at hfix
        · simp only [FixResult.buffer_full_error.injEq] at hfix
          subst hfix
          exact ⟨hG, fun _ _ => rfl⟩
      | some v =>
        obtain ⟨hev, _⟩ := victim_spec hv
        obtain ⟨fv, hfv, _, hfv0⟩ := evictable_spec hev
        obtain ⟨hvmem, hvp⟩ := find_some hfv
        obtain ⟨slot, hd, _⟩ := (h.frames fv hvmem).slot
        simp only [hv, hfv, hd] at hfix
        rcases hfix with hfix | hfix
        · simp only [FixResult.ok.injEq] at hfix
          subst hfix
          have hvex : fv.exclusively_locked = false := by
            have := (h.frames fv hvmem).pins
            rw [hfv0] at this
            cases hex : fv.exclusively_locked with
            | false => rfl
            | true => rw [hex] at this; simp at this
          have hvn : v ∉ g.pending := by
            intro hvm
            have := hG.pending_held v hvm
            rw [held_of_find hfv, hvex] at this
            cases this
          have hp2 : (after_evict bm v fv).find p = none := by
            rw [find_after_evict, hf]
            simp
          have hslot2 : ∀ x ∈ (after_evict bm v fv).bufferframes, x.data ≠ some slot := by
            intro x hx hxd
            have hx' : x ∈ bm.bufferframes ∧ x.pId ≠ v := by
              simpa [after_evict, List.mem_filter] using hx
            have : x = fv :=
              List.inj_on_of_nodup_map h.slots hx'.1 hvmem (by rw [hxd, hd])
            exact hx'.2 (this ▸ hvp)
          have hcontent : g.honest = true → ∀ q,
              (after_load (after_evict bm v fv) p slot e).content q = bm.content q := by
            intro hh q
            rw [content_after_load hp2 hslot2]
            refine content_after_evict hfv hd ?_ q
            intro hclean
            have := hG.data hh fv hvmem hclean (by rw [hvp]; exact hvn) slot hd
            rw [hvp] at this
            exact this
          refine ⟨⟨hinv', ?_, ?_, ?_⟩, hcontent⟩
          · apply hheld_other
            intro q hq
            have hqp : q ≠ p := fun hqp => hpn (hqp ▸ hq)
            have hqv : q ≠ v := fun hqv => hvn (hqv ▸ hq)
            rw [find_after_load hp2, find_after_evict]
            simp [hqp, hqv]
          · intro hh
            exact dataInv_after_load (dataInv_after_evict (hG.data hh) v fv) hslot2 e
          · intro hh q b hl hq
            rw [hcontent hh]
            exact hG.last hh q b hl hq
        · simp at hfix
    · simp only [hfull, if_false] at hfix
      rcases hfix with hfix | hfix
      · simp only [FixResult.ok.injEq] at hfix
        subst hfix
        have hslot : ∀ x ∈ bm.bufferframes, x.data ≠ some bm.bufferframes.length := by
          intro x hx hxd
          obtain ⟨s, hs, hlt⟩ := (h.frames x hx).slot
          rw [hs] at hxd
          cases hxd
          exact Nat.lt_irrefl _ hlt
        have hcontent : ∀ q,
            (after_load bm p bm.bufferframes.length e).content q = bm.content q :=
          fun q => content_after_load hf hslot e q
        refine ⟨⟨hinv', ?_, ?_, ?_⟩, fun _ => hcontent⟩
        · apply hheld_other
          intro q hq
          have hqp : q ≠ p := fun hqp => hpn (hqp ▸ hq)
          rw [find_after_load hf]
          simp [hqp]
        · intro hh
          exact dataInv_after_load (hG.data hh) hslot e
        · intro hh q b hl hq
          rw [hcontent]
          exact hG.last hh q b hl hq
      · simp at hfix

theorem ghostInv_init (page_size page_count : Nat) (disk : Nat → File) :
    GhostInv (BufferManager.new page_size page_count disk) Ghost.init := by
  refine ⟨inv_new _ _ _, ?_, ?_, ?_⟩
  · intro p hp
    cases hp
  · intro _ f hf
    cases hf
  · intro _ p b hl
    cases hl

theorem ghostInv_step {bm bm' : BufferManager} {g : Ghost} (hG : GhostInv bm g) {c : Call}
    (hs : step bm c = some bm') : GhostInv bm' (g.step bm c) := by
  cases c with
  | fix p e =>
    simp only [step] at hs
    cases hfx : fix_page bm p e with
    | ok b =>
      simp only [hfx, Option.some.injEq] at hs
      subst hs
      exact (ghostInv_fix hG (Or.inl hfx)).1
    | buffer_full_error b =>
      simp only [hfx, Option.some.injEq] at hs
      subst hs
      exact (ghostInv_fix hG (Or.inr hfx)).1
    | never_returns => simp [hfx] at hs
  | unfix p d => exact ghostInv_unfix hG hs
  | write p bytes => exact ghostInv_write hG hs

theorem ghostInv_track : ∀ (cs : List Call) {bm bm' : BufferManager} {g g' : Ghost},
    GhostInv bm g → track bm g cs = some (bm', g') → GhostInv bm' g' := by
  intro cs
  induction cs with
  | nil =>
    intro bm bm' g g' hG ht
    simp only [track, Option.some.injEq, Prod.mk.injEq] at ht
    obtain ⟨rfl, rfl⟩ := ht
    exact hG
  | cons c cs ih =>
    intro bm bm' g g' hG ht
    simp only [track] at ht
    cases hs : step bm c with
    | none => simp [hs] at ht
    | some bm1 =>
      simp only [hs] at ht
      exact ih (ghostInv_step hG hs) ht

/-- After a completed `fix_page` the page is resident. -/
theorem fix_page_ok_find {bm bm' : BufferManager} (h : Inv bm) {p : Nat} {e : Bool}
    (hfix : fix_page bm p e = FixResult.ok bm') : ∃ x, bm'.find p = some x := by
  cases hf : bm.find p with
  | some f =>
    obtain ⟨_, _, _, _, _, _, _, x, hbm', hlock⟩ := inv_fix_page_resident h hf hfix
    have hxp : x.pId = p := (lock_spec hlock).1.trans (find_some hf).2
    refine ⟨x, ?_⟩
    have : bm'.find p = (bm.setFrame p x).find p := by
      unfold BufferManager.find
      rw [hbm']
    rw [this]
    exact find_setFrame_self hf hxp
  | none =>
    have hfp : fix_page bm p e = load_page bm p e := by
      unfold fix_page
      simp [hf]
    rw [hfp, load_page_eq hf] at hfix
    by_cases hfull : bm.page_count ≤ bm.bufferframes.length
    · simp only [hfull, if_true] at hfix
      cases hv : bm.victim with
      | none => simp [hv] at hfix
      | some v =>
        simp only [hv] at hfix
        cases hfv : bm.find v with
        | none => simp [hfv] at hfix
        | some fv =>
          simp only [hfv] at hfix
          cases hd : fv.data with
          | none => simp [hd] at hfix
          | some slot =>
            simp only [hd, FixResult.ok.injEq] at hfix
            subst hfix
            have hp2 : (after_evict bm v fv).find p = none := by
              rw [find_after_evict, hf]
              simp
            exact ⟨loadedFrame p slot e, by rw [find_after_load hp2]; simp⟩
    · simp only [hfull, if_false, FixResult.ok.injEq] at hfix
      subst hfix
      exact ⟨loadedFrame p bm.bufferframes.length e, by rw [find_after_load hf]; simp⟩

/-- C4 (as amended): in every single-threaded history of `fix_page` /
`unfix_page` calls on one buffer manager in which every exclusive fix that
wrote to its page was unfixed with `dirty = true`, the page bytes returned by a
shared fix of page `p` equal the bytes `p` held at the most recent completed
exclusive fix of `p` that was unfixed with `dirty = true`, also when `p` was
evicted (written back) and loaded again from its segment file in between. -/
theorem shared_fix_reads_last_dirty_unfix (page_size page_count : Nat) (disk : Nat → File)
    (cs : List Call) (bm bm' : BufferManager) (g : Ghost) (p : Nat) (b : List Nat)
    (htrack : track (BufferManager.new page_size page_count disk) Ghost.init cs = some (bm, g))
    (hhonest : g.honest = true)
    (hfix : fix_page bm p false = FixResult.ok bm')
    (hlast : g.last p = some b) :
    bm'.get_data p = some b := by
  have hG : GhostInv bm g := ghostInv_track cs (ghostInv_init _ _ _) htrack
  obtain ⟨hG', hcontent⟩ := ghostInv_fix hG (Or.inl hfix)
  have hpn : p ∉ g.pending := by
    intro hp
    have hheld := hG.pending_held p hp
    cases hf : bm.find p with
    | none =>
      rw [held_of_find_none hf] at hheld
      cases hheld
    | some f =>
      rw [held_of_find hf] at hheld
      rw [fix_page_resident hG.inv hf] at hfix
      simp [BufferFrame.lock, promoted, hheld] at hfix
  have hb : bm.content p = b := hG.last hhonest p b hlast hpn
  obtain ⟨x, hx⟩ := fix_page_ok_find hG.inv hfix
  obtain ⟨slot, hslot, _⟩ := (hG'.inv.frames x (find_some hx).1).slot
  have hc := hcontent hhonest p
  rw [hb] at hc
  unfold BufferManager.get_data
  unfold BufferManager.content at hc
  rw [hx] at hc ⊢
  simp only [hslot] at hc
  simp [hslot, hc]

/-- C4 (witness): with one frame, page 1 is written, unfixed with
`dirty = true` and evicted by a fix of page 2; a later shared fix of page 1
loads it again and returns the written bytes. -/
theorem shared_fix_reads_last_dirty_unfix_witness :
    (fix_or (track_or (BufferManager.new 4 1 empty_disk) Ghost.init write_then_evict).1 1
      false).get_data 1 = some [7, 7, 7, 7] :=
  shared_fix_reads_last_dirty_unfix 4 1 empty_disk write_then_evict
    (track_or (BufferManager.new 4 1 empty_disk) Ghost.init write_then_evict).1
    (fix_or (track_or (BufferManager.new 4 1 empty_disk) Ghost.init write_then_evict).1 1 false)
    (track_or (BufferManager.new 4 1 empty_disk) Ghost.init write_then_evict).2
    1 [7, 7, 7, 7] rfl rfl rfl rfl

/-- C4 (counterexample to the claim as stated): page 1 is written to
`[1, 1, 1, 1]` under an exclusive fix unfixed with `dirty = true`, then written
to `[2, 2, 2, 2]` under an exclusive fix unfixed with `dirty = false`.  The
most recent completed exclusive fix unfixed with `dirty = true` left
`[1, 1, 1, 1]`, but the following shared fix of page 1 succeeds and returns
`[2, 2, 2, 2]`. -/
theorem shared_fix_after_unreported_write :
    (track (BufferManager.new 4 2 empty_disk) Ghost.init unreported_write).map
      (fun x => (x.2.last 1, (fix_page x.1 1 false).is_ok, (fix_or x.1 1 false).get_data 1))
      = some (some [1, 1, 1, 1], true, some [2, 2, 2, 2]) := by
  decide

end Buffer

namespace Buffer

/-! ### Further properties of the bookkeeping -/

theorem inv_step {bm bm' : BufferManager} (h : Inv bm) {c : Call}
    (hs : step bm c = some bm') : Inv bm' := by
  cases c with
  | fix q e =>
    simp only [step] at hs
    cases hfix : fix_page bm q e with
    | ok b =>
      simp only [hfix, Option.some.injEq] at hs
      subst hs
      exact inv_fix_page h (Or.inl hfix)
    | buffer_full_error b =>
      simp only [hfix, Option.some.injEq] at hs
      subst hs
      exact inv_fix_page h (Or.inr hfix)
    | never_returns => simp [hfix] at hs
  | unfix q d => exact inv_unfix_page h hs
  | write q bytes => exact inv_write_data h hs

theorem fix_page_of_not_resident {bm : BufferManager} {p : Nat} (hp : bm.find p = none)
    (e : Bool) : fix_page bm p e = load_page bm p e := by
  unfold fix_page
  simp [hp]

/-- A `fix_page` that throws `buffer_full_error` was called for a page that is
not resident, and it leaves the buffer manager as it was. -/
theorem buffer_full_spec {bm bm' : BufferManager} (h : Inv bm) {p : Nat} {e : Bool}
    (hfix : fix_page bm p e = FixResult.buffer_full_error bm') :
    bm' = bm ∧ bm.find p = none := by
  cases hf : bm.find p with
  | some f =>
    rw [fix_page_resident h hf e] at hfix
    cases hl : (promoted f).lock e <;> simp [hl] at hfix
  | none =>
    rw [fix_page_of_not_resident hf, load_page_eq hf] at hfix
    by_cases hfull : bm.page_count ≤ bm.bufferframes.length
    · simp only [hfull, if_true] at hfix
      cases hv : bm.victim with
      | none =>
        simp only [hv, FixResult.buffer_full_error.injEq] at hfix
        exact ⟨hfix.symm, rfl⟩
      | some v =>
        obtain ⟨hev, _⟩ := victim_spec hv
        obtain ⟨fv, hfv, _, _⟩ := evictable_spec hev
        obtain ⟨slot, hd, _⟩ := (h.frames fv (find_some hfv).1).slot
        simp [hv, hfv, hd] at hfix
    · simp [hfull] at hfix

/-- C24: at every point of a single-threaded history, a `fix_page` call that
throws `buffer_full_error` leaves the buffer manager exactly as it was before
the call: the frame map (without a frame for the requested page, whose
transient `NEW` frame is gone), the FIFO list, the LRU list, and every frame
with its page id, data slot, state, `num_fixed` and dirty flag. -/
theorem buffer_full_error_changes_nothing (page_size page_count : Nat) (disk : Nat → File)
    (cs : List Call) (bm bm' : BufferManager) (p : Nat) (e : Bool)
    (hrun : run (BufferManager.new page_size page_count disk) cs = some bm)
    (hfix : fix_page bm p e = FixResult.buffer_full_error bm') :
    bm' = bm ∧ bm'.find p = none ∧
    (∀ f ∈ bm'.bufferframes, f.state ≠ BufferFrameState.NEW) ∧
    bm'.fifo_list = bm.fifo_list ∧ bm'.lru_list = bm.lru_list ∧
    bm'.bufferframes = bm.bufferframes := by
  have h : Inv bm := inv_run cs (inv_new _ _ _) hrun
  obtain ⟨h1, h2⟩ := buffer_full_spec h hfix
  subst h1
  refine ⟨rfl, h2, fun f hf => ?_, rfl, rfl, rfl⟩
  rw [(h.frames f hf).state]
  decide

/-- C24 (witness): one frame, page 1 fixed and held; `fix_page` of page 2
throws `buffer_full_error`. -/
theorem buffer_full_error_changes_nothing_witness :
    fix_or (run_or (BufferManager.new 1024 1 empty_disk) [Call.fix 1 false]) 2 false
      = run_or (BufferManager.new 1024 1 empty_disk) [Call.fix 1 false] ∧
    (fix_or (run_or (BufferManager.new 1024 1 empty_disk) [Call.fix 1 false]) 2 false).find 2
      = none :=
  ⟨(buffer_full_error_changes_nothing 1024 1 empty_disk [Call.fix 1 false]
      (run_or (BufferManager.new 1024 1 empty_disk) [Call.fix 1 false])
      (fix_or (run_or (BufferManager.new 1024 1 empty_disk) [Call.fix 1 false]) 2 false)
      2 false rfl rfl).1,
   (buffer_full_error_changes_nothing 1024 1 empty_disk [Call.fix 1 false]
      (run_or (BufferManager.new 1024 1 empty_disk) [Call.fix 1 false])
      (fix_or (run_or (BufferManager.new 1024 1 empty_disk) [Call.fix 1 false]) 2 false)
      2 false rfl rfl).2.1⟩


/-- C25: at every quiescent point of a single-threaded history (after every
completed call), each frame of the frame map is in exactly one of the FIFO
list and the LRU list, the lists hold page ids of frames only, neither list
holds a page id twice, and `|fifo_list| + |lru_list| = |frame map|`. -/
theorem lists_partition_frame_map (page_size page_count : Nat) (disk : Nat → File)
    (cs : List Call) (bm : BufferManager)
    (hrun : run (BufferManager.new page_size page_count disk) cs = some bm) :
    (∀ f ∈ bm.bufferframes,
      (f.pId ∈ bm.fifo_list ∧ f.pId ∉ bm.lru_list) ∨
      (f.pId ∉ bm.fifo_list ∧ f.pId ∈ bm.lru_list)) ∧
    (∀ p, p ∈ bm.fifo_list ∨ p ∈ bm.lru_list → ∃ f ∈ bm.bufferframes, f.pId = p) ∧
    bm.fifo_list.Nodup ∧ bm.lru_list.Nodup ∧
    bm.fifo_list.length + bm.lru_list.length = bm.bufferframes.length := by
  have h : Inv bm := inv_run cs (inv_new _ _ _) hrun
  have hframe : ∀ f ∈ bm.bufferframes,
      (f.pId ∈ bm.fifo_list ∧ f.pId ∉ bm.lru_list) ∨
      (f.pId ∉ bm.fifo_list ∧ f.pId ∈ bm.lru_list) := by
    intro f hf
    rw [inv_mem_fifo_iff h hf, inv_mem_lru_iff h hf]
    cases f.lru_position <;> simp
  have hlist : ∀ p, p ∈ bm.fifo_list ∨ p ∈ bm.lru_list → ∃ f ∈ bm.bufferframes, f.pId = p := by
    rintro p (hp | hp)
    · obtain ⟨f, hf, hfp, _⟩ := h.fifo_mem p hp
      exact ⟨f, hf, hfp⟩
    · obtain ⟨f, hf, hfp, _⟩ := h.lru_mem p hp
      exact ⟨f, hf, hfp⟩
  refine ⟨hframe, hlist, h.fifo_nodup, h.lru_nodup, ?_⟩
  have hdisj : bm.fifo_list.Disjoint bm.lru_list := by
    intro p h1 h2
    obtain ⟨f, hf, hfp, _⟩ := h.fifo_mem p h1
    rcases hframe f hf with ⟨_, h3⟩ | ⟨h3, _⟩
    · exact h3 (hfp ▸ h2)
    · exact h3 (hfp ▸ h1)
  have hperm : (bm.fifo_list ++ bm.lru_list).Perm (bm.bufferframes.map (fun f => f.pId)) := by
    rw [List.perm_ext_iff_of_nodup (List.Nodup.append h.fifo_nodup h.lru_nodup hdisj) h.nodup]
    intro p
    rw [List.mem_append, List.mem_map]
    constructor
    · intro hp
      obtain ⟨f, hf, hfp⟩ := hlist p hp
      exact ⟨f, hf, hfp⟩
    · rintro ⟨f, hf, rfl⟩
      rcases hframe f hf with ⟨h1, _⟩ | ⟨_, h1⟩
      · exact Or.inl h1
      · exact Or.inr h1
  have := hperm.length_eq
  rw [List.length_append, List.length_map] at this
  exact this

/-- C25 (witness): after the hot-promotion history the frames of pages 1 and 2
are split between the LRU list and the FIFO list. -/
theorem lists_partition_frame_map_witness :
    (run_or (BufferManager.new 1024 2 empty_disk) hot_promotion).fifo_list.length
      + (run_or (BufferManager.new 1024 2 empty_disk) hot_promotion).lru_list.length
      = (run_or (BufferManager.new 1024 2 empty_disk) hot_promotion).bufferframes.length :=
  (lists_partition_frame_map 1024 2 empty_disk hot_promotion
    (run_or (BufferManager.new 1024 2 empty_disk) hot_promotion) rfl).2.2.2.2

/-- A call other than `unfix_page` of page `p` keeps a fixed page `p` resident,
in its slot, and does not lower its `num_fixed`. -/
theorem pinned_step {bm bm' : BufferManager} (h : Inv bm) {c : Call} {p : Nat} {f : BufferFrame}
    (hs : step bm c = some bm') (hf : bm.find p = some f) (hpin : 0 < f.num_fixed)
    (hc : ∀ d, c ≠ Call.unfix p d) :
    ∃ f', bm'.find p = some f' ∧ f'.data = f.data ∧ f.num_fixed ≤ f'.num_fixed := by
  cases c with
  | fix q e =>
    have hres : ∀ b, (fix_page bm q e = FixResult.ok b ∨
        fix_page bm q e = FixResult.buffer_full_error b) →
        ∃ f', b.find p = some f' ∧ f'.data = f.data ∧ f.num_fixed ≤ f'.num_fixed := by
      intro b hb
      cases hq : bm.find q with
      | some fq =>
        rw [fix_page_resident h hq e] at hb
        cases hl : (promoted fq).lock e with
        | none =>
          rw [hl] at hb
          rcases hb with hb | hb <;> cases hb
        | some page =>
          rw [hl] at hb
          obtain ⟨hpid, _, hdata, _, _, hnum, _⟩ := lock_spec hl
          have hpq : page.pId = q := by rw [hpid]; exact (find_some hq).2
          rcases hb with hb | hb <;> cases hb
          by_cases hpeq : p = q
          · subst hpeq
            rw [hq] at hf
            cases hf
            refine ⟨page, ?_, ?_, ?_⟩
            · show (bm.setFrame p page).find p = some page
              exact find_setFrame_self hq hpq
            · rw [hdata]
              rfl
            · rw [hnum]
              simp [promoted]
          · refine ⟨f, ?_, rfl, le_refl _⟩
            show (bm.setFrame q page).find p = some f
            rw [find_setFrame_other hpq hpeq]
            exact hf
      | none =>
        have hpq : p ≠ q := by
          intro hpq
          rw [hpq, hq] at hf
          cases hf
        rw [fix_page_of_not_resident hq, load_page_eq hq] at hb
        by_cases hfull : bm.page_count ≤ bm.bufferframes.length
        · rw [if_pos hfull] at hb
          cases hv : bm.victim with
          | none =>
            rw [hv] at hb
            rcases hb with hb | hb <;> cases hb
            exact ⟨f, hf, rfl, le_refl _⟩
          | some v =>
            obtain ⟨hev, _⟩ := victim_spec hv
            obtain ⟨fv, hfv, _, hfv0⟩ := evictable_spec hev
            obtain ⟨slot, hd, _⟩ := (h.frames fv (find_some hfv).1).slot
            simp only [hv, hfv, hd] at hb
            rcases hb with hb | hb <;> cases hb
            have hpv : p ≠ v := by
              intro hpv
              rw [hpv, hfv] at hf
              cases hf
              omega
            have hq2 : (after_evict bm v fv).find q = none := by
              rw [find_after_evict, hq]
              simp
            refine ⟨f, ?_, rfl, le_refl _⟩
            rw [find_after_load hq2, if_neg hpq, find_after_evict, if_neg hpv]
            exact hf
        · rw [if_neg hfull] at hb
          rcases hb with hb | hb <;> cases hb
          refine ⟨f, ?_, rfl, le_refl _⟩
          rw [find_after_load hq, if_neg hpq]
          exact hf
    simp only [step] at hs
    cases hfix : fix_page bm q e with
    | ok b =>
      simp only [hfix, Option.some.injEq] at hs
      subst hs
      exact hres _ (Or.inl hfix)
    | buffer_full_error b =>
      simp only [hfix, Option.some.injEq] at hs
      subst hs
      exact hres _ (Or.inr hfix)
    | never_returns => simp [hfix] at hs
  | unfix q d =>
    have hqp : p ≠ q := by
      intro hqp
      exact hc d (by rw [hqp])
    obtain ⟨fq, g, _, hbm', hgq, _⟩ := unfix_page_spec hs
    refine ⟨f, ?_, rfl, le_refl _⟩
    rw [hbm', find_setFrame_other hgq hqp]
    exact hf
  | write q bytes =>
    simp only [step] at hs
    unfold write_data at hs
    split at hs
    · simp at hs
    · split at hs
      · split at hs
        · simp at hs
        · simp only [Option.some.injEq] at hs
          subst hs
          exact ⟨f, hf, rfl, le_refl _⟩
      · simp at hs

theorem pinned_run (p : Nat) : ∀ (cs : List Call) {bm bm' : BufferManager} {f : BufferFrame},
    Inv bm → run bm cs = some bm' → bm.find p = some f → 0 < f.num_fixed →
    (∀ d, Call.unfix p d ∉ cs) →
    ∃ f', bm'.find p = some f' ∧ f'.data = f.data ∧ f.num_fixed ≤ f'.num_fixed := by
  intro cs
  induction cs with
  | nil =>
    intro bm bm' f _ hr hf _ _
    simp only [run, Option.some.injEq] at hr
    subst hr
    exact ⟨f, hf, rfl, le_refl _⟩
  | cons c cs ih =>
    intro bm bm' f h hr hf hpin hno
    simp only [run] at hr
    cases hs : step bm c with
    | none => simp [hs] at hr
    | some bm1 =>
      simp only [hs] at hr
      obtain ⟨f1, hf1, hd1, hn1⟩ := pinned_step h hs hf hpin
        (fun d hcd => hno d (hcd ▸ List.mem_cons_self _ _))
      obtain ⟨f', hf', hd', hn'⟩ := ih (inv_step h hs) hr hf1 (by omega)
        (fun d hd => hno d (List.mem_cons_of_mem _ hd))
      exact ⟨f', hf', hd'.trans hd1, by omega⟩


/-- The frames that `evict_page` removes from a frame map with unique keys had
`num_fixed = 0` and state `MOD` when they were chosen. -/
theorem evict_page_removes_unfixed {bm bm' : BufferManager} {data : Option Nat}
    {f : BufferFrame} (hnd : (bm.bufferframes.map (fun f => f.pId)).Nodup)
    (hev : evict_page bm = (data, bm')) (hf : f ∈ bm.bufferframes)
    (hgone : f ∉ bm'.bufferframes) :
    f.num_fixed = 0 ∧ f.state = BufferFrameState.MOD := by
  rw [evict_page_eq] at hev
  cases hv : bm.victim with
  | none =>
    simp only [hv, Prod.mk.injEq] at hev
    exact absurd (hev.2 ▸ hf) hgone
  | some v =>
    obtain ⟨hevi, _⟩ := victim_spec hv
    obtain ⟨fv, hfv, hst, h0⟩ := evictable_spec hevi
    simp only [hv, hfv, Prod.mk.injEq] at hev
    have hbm' := hev.2
    subst hbm'
    have hpid : f.pId = v := by
      by_contra hne
      apply hgone
      simp only [after_evict]
      exact List.mem_filter.2 ⟨hf, by simpa using hne⟩
    have hfind := find_of_mem hnd hf
    rw [hpid, hfv] at hfind
    cases hfind
    exact ⟨h0, hst⟩

/-- C26: a frame with `num_fixed > 0` is never evicted.  Whenever `evict_page`
removes a frame from the frame map, also when it is called inside `fix_page`
with the transient frame of the requested page in the map, that frame had
`num_fixed = 0` when it was chosen; and at every point of a single-threaded
history, a page that is fixed stays resident with the same data slot through
every further history in which it is not unfixed. -/
theorem fixed_frame_is_never_evicted :
    (∀ (bm bm' : BufferManager) (data : Option Nat) (f : BufferFrame),
      (bm.bufferframes.map (fun f => f.pId)).Nodup → evict_page bm = (data, bm') →
      f ∈ bm.bufferframes → f ∉ bm'.bufferframes → f.num_fixed = 0) ∧
    (∀ (page_size page_count : Nat) (disk : Nat → File) (cs cs' : List Call)
        (bm bm' : BufferManager) (p : Nat) (f : BufferFrame),
      run (BufferManager.new page_size page_count disk) cs = some bm →
      run bm cs' = some bm' → bm.find p = some f → 0 < f.num_fixed →
      (∀ d, Call.unfix p d ∉ cs') →
      ∃ f', bm'.find p = some f' ∧ f'.data = f.data ∧ 0 < f'.num_fixed) := by
  constructor
  · intro bm bm' data f hnd hev hf hgone
    exact (evict_page_removes_unfixed hnd hev hf hgone).1
  · intro page_size page_count disk cs cs' bm bm' p f hrun hrun' hf hpin hno
    obtain ⟨f', h1, h2, h3⟩ := pinned_run p cs' (inv_run cs (inv_new _ _ _) hrun) hrun' hf
      hpin hno
    exact ⟨f', h1, h2, by omega⟩

/-- C26 (witness): with one frame, the unfixed page 1 is the frame that
`evict_page` removes, and its `num_fixed` is 0; with two frames, page 1 is
fixed and held while pages 2 and 3 are fixed and unfixed: page 2 is evicted
for page 3 and page 1 stays in slot 0. -/
theorem fixed_frame_is_never_evicted_witness :
    (BufferFrame.mk BufferFrameState.MOD 1 (some 0) 0 false 0 false true false ∈
        (run_or (BufferManager.new 1024 1 empty_disk)
          [Call.fix 1 false, Call.unfix 1 false]).bufferframes ∧
      (evict_page (run_or (BufferManager.new 1024 1 empty_disk)
          [Call.fix 1 false, Call.unfix 1 false])).2.bufferframes = [] ∧
      (BufferFrame.mk BufferFrameState.MOD 1 (some 0) 0 false 0 false true false).num_fixed = 0) ∧
    ∃ f', (run_or (BufferManager.new 1024 2 empty_disk)
        [Call.fix 1 false, Call.fix 2 false, Call.unfix 2 false, Call.fix 3 false,
         Call.unfix 3 false]).find 1 = some f' ∧
      f'.data = (loadedFrame 1 0 false).data ∧ 0 < f'.num_fixed :=
  ⟨⟨by decide, by decide,
    fixed_frame_is_never_evicted.1
      (run_or (BufferManager.new 1024 1 empty_disk) [Call.fix 1 false, Call.unfix 1 false])
      (evict_page (run_or (BufferManager.new 1024 1 empty_disk)
        [Call.fix 1 false, Call.unfix 1 false])).2
      (evict_page (run_or (BufferManager.new 1024 1 empty_disk)
        [Call.fix 1 false, Call.unfix 1 false])).1
      (BufferFrame.mk BufferFrameState.MOD 1 (some 0) 0 false 0 false true false)
      (by decide) rfl (by decide) (by decide)⟩,
   fixed_frame_is_never_evicted.2 1024 2 empty_disk [Call.fix 1 false]
    [Call.fix 2 false, Call.unfix 2 false, Call.fix 3 false, Call.unfix 3 false]
    (run_or (BufferManager.new 1024 2 empty_disk) [Call.fix 1 false])
    (run_or (BufferManager.new 1024 2 empty_disk)
      [Call.fix 1 false, Call.fix 2 false, Call.unfix 2 false, Call.fix 3 false,
       Call.unfix 3 false])
    1 (loadedFrame 1 0 false) rfl rfl rfl (by decide) (by intro d; simp)⟩

theorem unfix_page_frame {bm bm' : BufferManager} {p : Nat} {d : Bool}
    (hu : unfix_page bm p d = some bm') :
    ∃ f g, bm.find p = some f ∧ bm' = bm.setFrame p g ∧ g.pId = f.pId ∧ g.state = f.state ∧
      g.data = f.data ∧ g.fifo_position = f.fifo_position ∧ g.lru_position = f.lru_position ∧
      g.num_fixed = f.num_fixed - 1 ∧ g.isDirty = (f.isDirty || d) := by
  unfold unfix_page at hu
  split at hu
  · simp at hu
  · rename_i page hfind
    split at hu
    · simp at hu
    · rename_i page' hunlock
      simp only [Option.some.injEq] at hu
      refine ⟨page, _, hfind, hu.symm, ?_⟩
      unfold BufferFrame.unlock at hunlock
      split at hunlock
      · split at hunlock
        · simp at hunlock
        · simp only [Option.some.injEq] at hunlock
          subst hunlock
          cases d <;> simp
      · simp only [Option.some.injEq] at hunlock
        subst hunlock
        cases d <;> simp

/-- C27: at every point of a single-threaded history, `unfix_page(frame,
dirty)` on a frame with `num_fixed >= 1` returns, decreases `num_fixed` of the
frame by exactly one and sets its dirty flag to `old dirty || dirty` (so
`dirty = false` never clears a set flag); the page id, data slot, state and
list position of the frame, the two lists, the page bytes, the segment files
and every other frame are unchanged. -/
theorem unfix_page_decrements_and_ors_dirty (page_size page_count : Nat) (disk : Nat → File)
    (cs : List Call) (bm : BufferManager) (p : Nat) (f : BufferFrame) (d : Bool)
    (hrun : run (BufferManager.new page_size page_count disk) cs = some bm)
    (hf : bm.find p = some f) (hpin : 1 ≤ f.num_fixed) :
    ∃ bm' g, unfix_page bm p d = some bm' ∧ bm'.find p = some g ∧
      g.num_fixed + 1 = f.num_fixed ∧ g.isDirty = (f.isDirty || d) ∧
      (f.isDirty = true → g.isDirty = true) ∧
      g.pId = f.pId ∧ g.data = f.data ∧ g.state = f.state ∧
      g.fifo_position = f.fifo_position ∧ g.lru_position = f.lru_position ∧
      bm'.fifo_list = bm.fifo_list ∧ bm'.lru_list = bm.lru_list ∧
      bm'.loaded_pages = bm.loaded_pages ∧ bm'.segment_files = bm.segment_files ∧
      bm'.bufferframes.length = bm.bufferframes.length ∧
      ∀ q, q ≠ p → bm'.find q = bm.find q := by
  have h : Inv bm := inv_run cs (inv_new _ _ _) hrun
  obtain ⟨bm', hu⟩ := unfix_page_defined h hf (by omega) d
  obtain ⟨f', g, hf', hbm', hgp, hgs, hgd, hgf, hgl, hgn, hgdirty⟩ := unfix_page_frame hu
  rw [hf] at hf'
  cases hf'
  have hgq : g.pId = p := hgp.trans (find_some hf).2
  refine ⟨bm', g, hu, ?_, by omega, hgdirty, ?_, hgp, hgd, hgs, hgf, hgl, ?_, ?_, ?_, ?_, ?_,
    ?_⟩
  · rw [hbm']
    exact find_setFrame_self hf hgq
  · intro hdirty
    rw [hgdirty, hdirty]
    rfl
  · rw [hbm']; rfl
  · rw [hbm']; rfl
  · rw [hbm']; rfl
  · rw [hbm']; rfl
  · rw [hbm']
    simp [BufferManager.setFrame]
  · intro q hq
    rw [hbm']
    exact find_setFrame_other hgq hq

/-- C27 (witness): page 1 is fixed exclusively and unfixed with `dirty = true`,
fixed again and unfixed with `dirty = false`: the flag stays set. -/
theorem unfix_page_decrements_and_ors_dirty_witness :
    ∃ bm' g, unfix_page (run_or (BufferManager.new 1024 2 empty_disk)
        [Call.fix 1 true, Call.unfix 1 true, Call.fix 1 false]) 1 false = some bm' ∧
      bm'.find 1 = some g ∧ g.num_fixed = 0 ∧ g.isDirty = true := by
  obtain ⟨bm', g, h1, h2, h3, h4, _⟩ := unfix_page_decrements_and_ors_dirty 1024 2 empty_disk
    [Call.fix 1 true, Call.unfix 1 true, Call.fix 1 false]
    (run_or (BufferManager.new 1024 2 empty_disk)
      [Call.fix 1 true, Call.unfix 1 true, Call.fix 1 false]) 1
    { state := BufferFrameState.MOD, pId := 1, data := some 0, num_fixed := 1,
      exclusively_locked := false, shared_locks := 1, isDirty := true,
      fifo_position := false, lru_position := true } false rfl rfl (by decide)
  exact ⟨bm', g, h1, h2, by simpa using h3, by simpa using h4⟩

/-- C28: for every 64-bit page id, `get_segment_id` is the page id shifted
right by 48 bits (it fits the 16 bits of its result type),
`get_segment_page_id` is the page id masked with `2^48 - 1` (and is less than
`2^48`), and the two determine the page id:
`(get_segment_id(p) << 48) | get_segment_page_id(p) = p`. -/
theorem segment_id_and_page_id_split (page_id : Nat) (h : page_id < 2 ^ 64) :
    get_segment_id page_id = page_id >>> 48 ∧
    get_segment_id page_id < 2 ^ 16 ∧
    get_segment_page_id page_id = page_id &&& (2 ^ 48 - 1) ∧
    get_segment_page_id page_id < 2 ^ 48 ∧
    (get_segment_id page_id <<< 48) ||| get_segment_page_id page_id = page_id := by
  have hlt : page_id % 2 ^ 48 < 2 ^ 48 := Nat.mod_lt _ (by norm_num)
  refine ⟨?_, ?_, ?_, hlt, ?_⟩
  · rw [Nat.shiftRight_eq_div_pow]
    rfl
  · unfold get_segment_id
    rw [Nat.div_lt_iff_lt_mul (by norm_num)]
    calc page_id < 2 ^ 64 := h
      _ = 2 ^ 16 * 2 ^ 48 := by norm_num
  · rw [Nat.and_pow_two_sub_one_eq_mod]
    rfl
  · unfold get_segment_id get_segment_page_id
    rw [Nat.shiftLeft_eq, Nat.mul_comm, ← Nat.mul_add_lt_is_or hlt]
    exact Nat.div_add_mod page_id (2 ^ 48)

/-- C28 (witness): page 5 of segment 3. -/
theorem segment_id_and_page_id_split_witness :
    get_segment_id (3 * 2 ^ 48 + 5) = (3 * 2 ^ 48 + 5) >>> 48 ∧
    get_segment_id (3 * 2 ^ 48 + 5) < 2 ^ 16 ∧
    get_segment_page_id (3 * 2 ^ 48 + 5) = (3 * 2 ^ 48 + 5) &&& (2 ^ 48 - 1) ∧
    get_segment_page_id (3 * 2 ^ 48 + 5) < 2 ^ 48 ∧
    (get_segment_id (3 * 2 ^ 48 + 5) <<< 48) ||| get_segment_page_id (3 * 2 ^ 48 + 5)
      = 3 * 2 ^ 48 + 5 :=
  segment_id_and_page_id_split (3 * 2 ^ 48 + 5) (by norm_num)

end Buffer

namespace Buffer

/-! ### Victim selection -/

theorem find_first {α : Type} (P : α → Bool) (v : α) (l2 : List α) :
    ∀ (l1 : List α), (∀ q ∈ l1, P q = false) → P v = true →
      (l1 ++ v :: l2).find? P = some v := by
  intro l1
  induction l1 with
  | nil =>
    intro _ hv
    simp [List.find?_cons, hv]
  | cons a l1 ih =>
    intro h hv
    have ha : P a = false := h a (List.mem_cons_self _ _)
    simp only [List.cons_append, List.find?_cons, ha]
    exact ih (fun q hq => h q (List.mem_cons_of_mem _ hq)) hv

theorem find_all_false {α : Type} (P : α → Bool) (l : List α) (h : ∀ q ∈ l, P q = false) :
    l.find? P = none := by
  apply List.find?_eq_none.2
  intro x hx
  simp [h x hx]

theorem with_transient_find {bm : BufferManager} {p : Nat} (hp : bm.find p = none) (q : Nat) :
    (with_transient bm p).find q = if q = p then some (transientFrame p) else bm.find q :=
  find_append_transient hp q

theorem with_transient_evictable {bm : BufferManager} {p : Nat} (hp : bm.find p = none) :
    (with_transient bm p).evictable = bm.evictable :=
  evictable_append_transient hp

theorem with_transient_victim {bm : BufferManager} {p : Nat} (hp : bm.find p = none) :
    (with_transient bm p).victim = bm.victim :=
  victim_append_transient hp

/-- The effect of `evict_page` once the victim is known. -/
theorem evict_page_of_victim {bm0 : BufferManager} (h : Inv bm0) {p v : Nat}
    (hp : bm0.find p = none) (hv : bm0.victim = some v) :
    ∃ fv slot, (with_transient bm0 p).find v = some fv ∧ fv.num_fixed = 0 ∧
      fv.state = BufferFrameState.MOD ∧ fv.data = some slot ∧
      (evict_page (with_transient bm0 p)).1 = some slot ∧
      (evict_page (with_transient bm0 p)).2.find v = none ∧
      (evict_page (with_transient bm0 p)).2.fifo_list
        = (if !fv.lru_position then bm0.fifo_list.erase v else bm0.fifo_list) ∧
      (evict_page (with_transient bm0 p)).2.lru_list
        = (if !fv.lru_position then bm0.lru_list else bm0.lru_list.erase v) ∧
      (v ∈ bm0.fifo_list ↔ fv.lru_position = false) ∧
      (v ∈ bm0.lru_list ↔ fv.lru_position = true) ∧
      ∀ q, q ≠ v → (evict_page (with_transient bm0 p)).2.find q
        = (with_transient bm0 p).find q := by
  obtain ⟨hev, _⟩ := victim_spec hv
  obtain ⟨fv, hfv, hst, h0⟩ := evictable_spec hev
  have hvp : v ≠ p := by
    intro hvp
    rw [hvp, hp] at hfv
    cases hfv
  have hfvT : (with_transient bm0 p).find v = some fv := by
    rw [with_transient_find hp, if_neg hvp, hfv]
  obtain ⟨hmem, hpid⟩ := find_some hfv
  obtain ⟨slot, hslot, _⟩ := (h.frames fv hmem).slot
  have heq : evict_page (with_transient bm0 p)
      = (fv.data, after_evict (with_transient bm0 p) v fv) := by
    rw [evict_page_eq, with_transient_victim hp, hv]
    simp only [hfvT]
  have hfifo := inv_mem_fifo_iff h hmem
  have hlru := inv_mem_lru_iff h hmem
  rw [hpid] at hfifo hlru
  refine ⟨fv, slot, hfvT, h0, hst, hslot, ?_, ?_, ?_, ?_, hfifo, hlru, ?_⟩
  · rw [heq, hslot]
  · rw [heq]
    show (after_evict (with_transient bm0 p) v fv).find v = none
    rw [find_after_evict, if_pos rfl]
  · rw [heq]
    rfl
  · rw [heq]
    rfl
  · intro q hq
    rw [heq]
    show (after_evict (with_transient bm0 p) v fv).find q = _
    rw [find_after_evict, if_neg hq]

theorem not_mem_of_first {bm : BufferManager} {l1 : List Nat} {v : Nat}
    (h1 : ∀ q ∈ l1, bm.evictable q = false) (hv : bm.evictable v = true) : v ∉ l1 := by
  intro hmem
  rw [h1 v hmem] at hv
  cases hv

/-- C35: victim selection.  When `fix_page` of a page `p` that is not resident
calls `evict_page` (at any point of a single-threaded history), the victim is
the first frame in FIFO-list order with `state == MOD` and `num_fixed == 0`;
only when the FIFO list has no such frame, it is the first such frame in
LRU-list order; the victim is erased from the frame map and from its list, the
other list and every other frame are unchanged, and its data pointer is
returned.  `evict_page` returns `nullptr` exactly when neither list has such a
frame, and then it changes nothing. -/
theorem evict_page_scans_fifo_then_lru (page_size page_count : Nat) (disk : Nat → File)
    (cs : List Call) (bm0 : BufferManager) (p : Nat)
    (hrun : run (BufferManager.new page_size page_count disk) cs = some bm0)
    (hp : bm0.find p = none) :
    (∀ l1 v l2, (with_transient bm0 p).fifo_list = l1 ++ v :: l2 →
      (∀ q ∈ l1, (with_transient bm0 p).evictable q = false) →
      (with_transient bm0 p).evictable v = true →
      ∃ fv slot, (with_transient bm0 p).find v = some fv ∧ fv.num_fixed = 0 ∧
        fv.state = BufferFrameState.MOD ∧ fv.data = some slot ∧
        (evict_page (with_transient bm0 p)).1 = some slot ∧
        (evict_page (with_transient bm0 p)).2.find v = none ∧
        (evict_page (with_transient bm0 p)).2.fifo_list = l1 ++ l2 ∧
        (evict_page (with_transient bm0 p)).2.lru_list = (with_transient bm0 p).lru_list ∧
        ∀ q, q ≠ v → (evict_page (with_transient bm0 p)).2.find q
          = (with_transient bm0 p).find q) ∧
    (∀ l1 v l2, (∀ q ∈ (with_transient bm0 p).fifo_list,
        (with_transient bm0 p).evictable q = false) →
      (with_transient bm0 p).lru_list = l1 ++ v :: l2 →
      (∀ q ∈ l1, (with_transient bm0 p).evictable q = false) →
      (with_transient bm0 p).evictable v = true →
      ∃ fv slot, (with_transient bm0 p).find v = some fv ∧ fv.num_fixed = 0 ∧
        fv.state = BufferFrameState.MOD ∧ fv.data = some slot ∧
        (evict_page (with_transient bm0 p)).1 = some slot ∧
        (evict_page (with_transient bm0 p)).2.find v = none ∧
        (evict_page (with_transient bm0 p)).2.lru_list = l1 ++ l2 ∧
        (evict_page (with_transient bm0 p)).2.fifo_list = (with_transient bm0 p).fifo_list ∧
        ∀ q, q ≠ v → (evict_page (with_transient bm0 p)).2.find q
          = (with_transient bm0 p).find q) ∧
    ((evict_page (with_transient bm0 p)).1 = none ↔
      ∀ q, q ∈ (with_transient bm0 p).fifo_list ∨ q ∈ (with_transient bm0 p).lru_list →
        (with_transient bm0 p).evictable q = false) ∧
    ((evict_page (with_transient bm0 p)).1 = none →
      (evict_page (with_transient bm0 p)).2 = with_transient bm0 p) := by
  have h : Inv bm0 := inv_run cs (inv_new _ _ _) hrun
  have hfl : (with_transient bm0 p).fifo_list = bm0.fifo_list := rfl
  have hll : (with_transient bm0 p).lru_list = bm0.lru_list := rfl
  rw [with_transient_evictable hp, hfl, hll]
  refine ⟨?_, ?_, ?_, ?_⟩
  · intro l1 v l2 hl h1 hv
    have hvic : bm0.victim = some v := by
      unfold BufferManager.victim
      rw [hl, find_first _ v l2 l1 h1 hv]
    obtain ⟨fv, slot, a1, a2, a3, a4, a5, a6, a7, a8, a9, a10, a11⟩ :=
      evict_page_of_victim h hp hvic
    have hfifo : v ∈ bm0.fifo_list := by rw [hl]; simp
    have hpos : fv.lru_position = false := a9.1 hfifo
    refine ⟨fv, slot, a1, a2, a3, a4, a5, a6, ?_, ?_, a11⟩
    · rw [a7, hpos, hl]
      simp only [Bool.not_false, if_true]
      rw [List.erase_append_right _ (not_mem_of_first h1 hv), List.erase_cons_head]
    · rw [a8, hpos]
      rfl
  · intro l1 v l2 hf hl h1 hv
    have hvic : bm0.victim = some v := by
      unfold BufferManager.victim
      rw [find_all_false _ _ hf, hl, find_first _ v l2 l1 h1 hv]
    obtain ⟨fv, slot, a1, a2, a3, a4, a5, a6, a7, a8, a9, a10, a11⟩ :=
      evict_page_of_victim h hp hvic
    have hlru : v ∈ bm0.lru_list := by rw [hl]; simp
    have hpos : fv.lru_position = true := a10.1 hlru
    refine ⟨fv, slot, a1, a2, a3, a4, a5, a6, ?_, ?_, a11⟩
    · rw [a8, hpos, hl]
      simp only [Bool.not_true, Bool.false_eq_true, if_false]
      rw [List.erase_append_right _ (not_mem_of_first h1 hv), List.erase_cons_head]
    · rw [a7, hpos]
      rfl
  · constructor
    · intro hnone q hq
      cases hvic : bm0.victim with
      | some v =>
        obtain ⟨fv, slot, _, _, _, _, a5, _⟩ := evict_page_of_victim h hp hvic
        rw [a5] at hnone
        cases hnone
      | none =>
        unfold BufferManager.victim at hvic
        cases hff : bm0.fifo_list.find? bm0.evictable with
        | some x => simp [hff] at hvic
        | none =>
          simp only [hff] at hvic
          rcases hq with hq | hq
          · have := List.find?_eq_none.1 hff q hq
            simpa using this
          · have := List.find?_eq_none.1 hvic q hq
            simpa using this
    · intro hall
      have hvic : bm0.victim = none := by
        unfold BufferManager.victim
        rw [find_all_false _ _ (fun q hq => hall q (Or.inl hq)),
          find_all_false _ _ (fun q hq => hall q (Or.inr hq))]
      rw [evict_page_eq, with_transient_victim hp, hvic]
  · intro hnone
    cases hvic : bm0.victim with
    | some v =>
      obtain ⟨fv, slot, _, _, _, _, a5, _⟩ := evict_page_of_victim h hp hvic
      rw [a5] at hnone
      cases hnone
    | none =>
      rw [evict_page_eq, with_transient_victim hp, hvic]

/-- C35 (witness): with two frames, after the hot-promotion history the FIFO
list is `[2]` and the LRU list is `[1]`, both pages unfixed; the fix of page 3
evicts page 2, the first evictable frame of the FIFO list, from slot 1. -/
theorem evict_page_scans_fifo_then_lru_witness :
    ∃ fv slot, (with_transient (run_or (BufferManager.new 1024 2 empty_disk) hot_promotion)
        3).find 2 = some fv ∧ fv.num_fixed = 0 ∧
      fv.state = BufferFrameState.MOD ∧ fv.data = some slot ∧
      (evict_page (with_transient (run_or (BufferManager.new 1024 2 empty_disk) hot_promotion)
        3)).1 = some slot ∧
      (evict_page (with_transient (run_or (BufferManager.new 1024 2 empty_disk) hot_promotion)
        3)).2.find 2 = none ∧
      (evict_page (with_transient (run_or (BufferManager.new 1024 2 empty_disk) hot_promotion)
        3)).2.fifo_list = [] ++ [] ∧
      (evict_page (with_transient (run_or (BufferManager.new 1024 2 empty_disk) hot_promotion)
        3)).2.lru_list
        = (with_transient (run_or (BufferManager.new 1024 2 empty_disk) hot_promotion)
            3).lru_list ∧
      ∀ q, q ≠ 2 →
        (evict_page (with_transient (run_or (BufferManager.new 1024 2 empty_disk)
          hot_promotion) 3)).2.find q
        = (with_transient (run_or (BufferManager.new 1024 2 empty_disk) hot_promotion)
            3).find q :=
  (evict_page_scans_fifo_then_lru 1024 2 empty_disk hot_promotion
    (run_or (BufferManager.new 1024 2 empty_disk) hot_promotion) 3 rfl rfl).1
    [] 2 [] rfl (by simp) (by decide)


/-! ### Slots of the pool -/

theorem run_append : ∀ (cs1 cs2 : List Call) (bm : BufferManager),
    run bm (cs1 ++ cs2) = (run bm cs1).bind (fun bm1 => run bm1 cs2) := by
  intro cs1
  induction cs1 with
  | nil => intro cs2 bm; rfl
  | cons c cs1 ih =>
    intro cs2 bm
    simp only [List.cons_append, run]
    cases hs : step bm c with
    | none => rfl
    | some bm' => exact ih cs2 bm'

theorem length_setFrame (bm : BufferManager) (p : Nat) (g : BufferFrame) :
    (bm.setFrame p g).bufferframes.length = bm.bufferframes.length := by
  simp [BufferManager.setFrame]

/-- The number of frames never goes down from one quiescent point to the next. -/
theorem length_mono_step {bm bm' : BufferManager} (h : Inv bm) {c : Call}
    (hs : step bm c = some bm') : bm.bufferframes.length ≤ bm'.bufferframes.length := by
  cases c with
  | fix q e =>
    have hres : ∀ b, (fix_page bm q e = FixResult.ok b ∨
        fix_page bm q e = FixResult.buffer_full_error b) →
        bm.bufferframes.length ≤ b.bufferframes.length := by
      intro b hb
      cases hq : bm.find q with
      | some fq =>
        rw [fix_page_resident h hq e] at hb
        cases hl : (promoted fq).lock e with
        | none => simp [hl] at hb
        | some page =>
          simp only [hl] at hb
          rcases hb with hb | hb <;> cases hb
          simp [BufferManager.setFrame]
      | none =>
        rw [fix_page_of_not_resident hq, load_page_eq hq] at hb
        by_cases hfull : bm.page_count ≤ bm.bufferframes.length
        · simp only [hfull, if_true] at hb
          cases hv : bm.victim with
          | none =>
            simp only [hv] at hb
            rcases hb with hb | hb <;> cases hb
            exact Nat.le_refl _
          | some v =>
            obtain ⟨hev, _⟩ := victim_spec hv
            obtain ⟨fv, hfv, _, _⟩ := evictable_spec hev
            obtain ⟨hmem, hpid⟩ := find_some hfv
            obtain ⟨slot, hslot, _⟩ := (h.frames fv hmem).slot
            simp only [hv, hfv, hslot] at hb
            rcases hb with hb | hb <;> cases hb
            have := length_filter_remove bm.bufferframes h.nodup fv hmem
            rw [hpid] at this
            simp only [after_load, after_evict, List.length_append, List.length_singleton]
            omega
        · simp only [hfull, if_false] at hb
          rcases hb with hb | hb <;> cases hb
          simp [after_load]
    simp only [step] at hs
    cases hfix : fix_page bm q e with
    | ok b =>
      simp only [hfix, Option.some.injEq] at hs
      subst hs
      exact hres _ (Or.inl hfix)
    | buffer_full_error b =>
      simp only [hfix, Option.some.injEq] at hs
      subst hs
      exact hres _ (Or.inr hfix)
    | never_returns => simp [hfix] at hs
  | unfix q d =>
    simp only [step] at hs
    obtain ⟨f, g, _, hbm', _⟩ := unfix_page_spec hs
    rw [hbm', length_setFrame]
  | write q bytes =>
    simp only [step] at hs
    unfold write_data at hs
    split at hs
    · simp at hs
    · split at hs
      · split at hs
        · simp at hs
        · simp only [Option.some.injEq] at hs
          subst hs
          exact Nat.le_refl _
      · simp at hs

theorem length_mono_run : ∀ (cs : List Call) {bm bm' : BufferManager}, Inv bm →
    run bm cs = some bm' → bm.bufferframes.length ≤ bm'.bufferframes.length := by
  intro cs
  induction cs with
  | nil =>
    intro bm bm' _ hr
    simp only [run, Option.some.injEq] at hr
    subst hr
    exact Nat.le_refl _
  | cons c cs ih =>
    intro bm bm' h hr
    simp only [run] at hr
    cases hs : step bm c with
    | none => simp [hs] at hr
    | some b =>
      simp only [hs] at hr
      exact Nat.le_trans (length_mono_step h hs) (ih (inv_step h hs) hr)

/-- C38: pool-slot exclusivity.  At every quiescent point of a single-threaded
history the frame map holds at most `page_count` frames, the data pointer of
every frame is a slot `i < page_count` of the pool (offset `i * page_size`),
and no two frames have the same slot.  When `fix_page` loads a page that is not
resident, the slot of the new frame is either the next slot of a pool that is
not full yet, which no frame had at any earlier point of the history, or the
slot of an unfixed frame that this call has evicted from the frame map. -/
theorem pool_slots_are_exclusive (page_size page_count : Nat) (disk : Nat → File)
    (cs : List Call) (bm : BufferManager)
    (hrun : run (BufferManager.new page_size page_count disk) cs = some bm) :
    bm.bufferframes.length ≤ page_count ∧
    (∀ f ∈ bm.bufferframes, ∃ i, f.data = some i ∧ i < page_count) ∧
    (∀ f ∈ bm.bufferframes, ∀ g ∈ bm.bufferframes, f.data = g.data → f = g) ∧
    (∀ (p : Nat) (e : Bool) (bm' : BufferManager), bm.find p = none →
      fix_page bm p e = FixResult.ok bm' →
      ∃ g slot, bm'.find p = some g ∧ g.data = some slot ∧
        ((bm.bufferframes.length < page_count ∧ slot = bm.bufferframes.length ∧
            ∀ (cs1 cs2 : List Call) (bm1 : BufferManager), cs = cs1 ++ cs2 →
              run (BufferManager.new page_size page_count disk) cs1 = some bm1 →
              ∀ f ∈ bm1.bufferframes, f.data ≠ some slot) ∨
         (∃ fv ∈ bm.bufferframes, fv.data = some slot ∧ fv.num_fixed = 0 ∧
            bm'.find fv.pId = none))) := by
  have h : Inv bm := inv_run cs (inv_new _ _ _) hrun
  have hpc : bm.page_count = page_count := (run_params cs (inv_new _ _ _) hrun).1
  refine ⟨?_, ?_, ?_, ?_⟩
  · rw [← hpc]
    exact h.size
  · intro f hf
    obtain ⟨i, hi, hlt⟩ := (h.frames f hf).slot
    exact ⟨i, hi, by have := h.size; omega⟩
  · intro f hf g hg hfg
    exact List.inj_on_of_nodup_map h.slots hf hg hfg
  · intro p e bm' hp hfix
    rw [fix_page_of_not_resident hp, load_page_eq hp] at hfix
    by_cases hfull : bm.page_count ≤ bm.bufferframes.length
    · simp only [hfull, if_true] at hfix
      cases hv : bm.victim with
      | none => simp [hv] at hfix
      | some v =>
        obtain ⟨hev, _⟩ := victim_spec hv
        obtain ⟨fv, hfv, _, h0⟩ := evictable_spec hev
        obtain ⟨hmem, hpid⟩ := find_some hfv
        obtain ⟨slot, hslot, _⟩ := (h.frames fv hmem).slot
        have hvp : v ≠ p := by
          intro hvp
          rw [hvp, hp] at hfv
          cases hfv
        simp only [hv, hfv, hslot, FixResult.ok.injEq] at hfix
        subst hfix
        have hp' : (after_evict bm v fv).find p = none := by
          rw [find_after_evict, if_neg (fun hh => hvp hh.symm), hp]
        refine ⟨loadedFrame p slot e, slot, ?_, rfl, Or.inr ⟨fv, hmem, hslot, h0, ?_⟩⟩
        · rw [find_after_load hp', if_pos rfl]
        · rw [hpid, find_after_load hp', if_neg hvp, find_after_evict, if_pos rfl]
    · simp only [hfull, if_false, FixResult.ok.injEq] at hfix
      subst hfix
      refine ⟨loadedFrame p bm.bufferframes.length e, bm.bufferframes.length, ?_, rfl,
        Or.inl ⟨by omega, rfl, ?_⟩⟩
      · rw [find_after_load hp, if_pos rfl]
      · intro cs1 cs2 bm1 hcs hrun1 f hf hdata
        have h1 : Inv bm1 := inv_run cs1 (inv_new _ _ _) hrun1
        have hrun2 : run bm1 cs2 = some bm := by
          rw [hcs, run_append, hrun1] at hrun
          exact hrun
        have hmono := length_mono_run cs2 h1 hrun2
        obtain ⟨i, hi, hlt⟩ := (h1.frames f hf).slot
        rw [hi] at hdata
        cases hdata
        omega

/-- C38 (witness): with two frames, after pages 1 and 2 were loaded the frames
have the slots 0 and 1. -/
theorem pool_slots_are_exclusive_witness :
    (run_or (BufferManager.new 1024 2 empty_disk) hot_promotion).bufferframes.length ≤ 2 ∧
    ((run_or (BufferManager.new 1024 2 empty_disk) hot_promotion).bufferframes.map
      (fun f => f.data)) = [some 0, some 1] ∧
    ∀ f ∈ (run_or (BufferManager.new 1024 2 empty_disk) hot_promotion).bufferframes,
      ∃ i, f.data = some i ∧ i < 2 :=
  ⟨(pool_slots_are_exclusive 1024 2 empty_disk hot_promotion
      (run_or (BufferManager.new 1024 2 empty_disk) hot_promotion) rfl).1,
   by decide,
   (pool_slots_are_exclusive 1024 2 empty_disk hot_promotion
      (run_or (BufferManager.new 1024 2 empty_disk) hot_promotion) rfl).2.1⟩


/-! ### Eviction while another thread fixes the victim -/

theorem find_write_back (bm : BufferManager) (v : Nat) (c : List Nat) (q : Nat) :
    (write_back bm v c).find q = bm.find q := rfl

theorem filter_setFrame (F : List BufferFrame) (v : Nat) (g : BufferFrame) (hg : g.pId = v) :
    (F.map (fun f => if f.pId == v then g else f)).filter (fun f => f.pId != v)
      = F.filter (fun f => f.pId != v) := by
  induction F with
  | nil => rfl
  | cons a F ih =>
    by_cases ha : a.pId = v
    · have h2 : (g.pId != v) = false := by simp [hg]
      have h3 : (a.pId != v) = false := by simp [ha]
      have h4 : (a.pId == v) = true := by simp [ha]
      simp only [List.map_cons, h4, if_true, List.filter_cons, h2, h3, Bool.false_eq_true,
        if_false]
      exact ih
    · have h1 : (a.pId == v) = false := by simpa using ha
      have h3 : (a.pId != v) = true := by simpa using ha
      simp only [List.map_cons, h1, Bool.false_eq_true, if_false, List.filter_cons, h3, if_true]
      rw [ih]

/-- The selection of a victim `v` with frame `fv`. -/
theorem evict_select_eq {bm : BufferManager} {v : Nat} {fv : BufferFrame}
    (hv : bm.victim = some v) (hfv : bm.find v = some fv) :
    evict_select bm =
      (if !fv.isDirty then EvictRound.clean v
        else EvictRound.writing v
          (match fv.data with
            | some slot => bm.loaded_pages slot
            | none => zeros bm.page_size),
       bm.setFrame v { fv with state := BufferFrameState.EVICT }) := by
  unfold evict_select
  simp only [hv, hfv]
  split <;> rfl

/-- The removal of the frame `g` of page `v`. -/
theorem evict_remove_eq {bm : BufferManager} {v : Nat} {g : BufferFrame}
    (hg : bm.find v = some g) :
    evict_remove bm v =
      (g.data,
        { bm with
          fifo_list := if !g.lru_position then bm.fifo_list.erase v else bm.fifo_list
          lru_list := if !g.lru_position then bm.lru_list else bm.lru_list.erase v
          bufferframes := bm.bufferframes.filter (fun f => f.pId != v) }) := by
  unfold evict_remove
  simp only [hg]

theorem find_evict_remove (bm : BufferManager) (v q : Nat) :
    (evict_remove bm v).2.find q = if q = v then none else bm.find q := by
  cases hg : bm.find v with
  | none =>
    unfold evict_remove
    simp only [hg]
    by_cases hq : q = v
    · rw [if_pos hq, hq, hg]
    · rw [if_neg hq]
  | some g =>
    rw [evict_remove_eq hg]
    exact find_list_filter_ne v q bm.bufferframes

/-- Without other threads, `evict_page_with` is `evict_page`. -/
theorem evict_page_with_nil (bm : BufferManager) :
    evict_page_with [] bm = some (evict_page bm) := by
  rw [evict_page_eq]
  unfold evict_page_with evict_round
  cases hv : bm.victim with
  | none =>
    have : evict_select bm = (EvictRound.no_victim, bm) := by
      unfold evict_select
      simp only [hv]
    simp only [this]
  | some v =>
    cases hfv : bm.find v with
    | none =>
      have : evict_select bm = (EvictRound.no_victim, bm) := by
        unfold evict_select
        simp only [hv, hfv]
      simp only [this, hfv]
    | some fv =>
      obtain ⟨hmem, hpid⟩ := find_some hfv
      obtain ⟨fvE, hfvE, hpE, hlE, hdE⟩ : ∃ fvE : BufferFrame,
          fvE = { fv with state := BufferFrameState.EVICT } ∧ fvE.pId = v ∧
          fvE.lru_position = fv.lru_position ∧ fvE.data = fv.data :=
        ⟨_, rfl, hpid, rfl, rfl⟩
      have hE : (bm.setFrame v fvE).find v = some fvE := find_setFrame_self hfv hpE
      rw [evict_select_eq hv hfv, ← hfvE]
      cases hd : fv.isDirty with
      | false =>
        simp only [Bool.not_false, if_true]
        rw [evict_remove_eq hE]
        simp only [after_evict, hd, Bool.false_eq_true, if_false, BufferManager.setFrame,
          filter_setFrame _ _ _ hpE, hlE, hdE, hfv]
      | true =>
        have hE2 : (write_back (bm.setFrame v fvE) v
            (match fv.data with
              | some slot => bm.loaded_pages slot
              | none => zeros bm.page_size)).find v = some fvE := hE
        have hst : fvE.state = BufferFrameState.EVICT := by rw [hfvE]
        simp only [Bool.not_true, Bool.false_eq_true, if_false, run, hE2, hst, if_true]
        rw [evict_remove_eq hE2]
        simp only [after_evict, hd, if_true, BufferManager.setFrame, write_back,
          filter_setFrame _ _ _ hpE, hlE, hdE, hfv]

/-- A `fix_page` of a page whose frame is in state `EVICT` (source lines 63-96):
the frame is pinned, its state becomes `RELOAD` and it moves to the tail of the
LRU list. -/
theorem fix_page_evicting {bm : BufferManager} {v : Nat} {f : BufferFrame}
    (hf : bm.find v = some f) (hst : f.state = BufferFrameState.EVICT)
    (h0 : f.num_fixed = 0) (hex : f.exclusively_locked = false) (hsh : f.shared_locks = 0)
    (e : Bool) :
    ∃ g, fix_page bm v e = FixResult.ok
        { (bm.setFrame v g) with
          fifo_list := if !f.lru_position then bm.fifo_list.erase v else bm.fifo_list
          lru_list := if !f.lru_position then bm.lru_list ++ [v]
            else bm.lru_list.erase v ++ [v] } ∧
      g.state = BufferFrameState.RELOAD ∧ g.num_fixed = 1 ∧ g.data = f.data ∧
      g.pId = f.pId ∧ g.lru_position = true ∧ g.isDirty = f.isDirty := by
  unfold fix_page
  simp only [hf, hst]
  cases e with
  | false =>
    simp [BufferFrame.lock, hex, h0]
    exact ⟨_, ⟨rfl, rfl, rfl, rfl, rfl⟩, rfl, rfl, rfl, rfl, rfl, rfl⟩
  | true =>
    simp [BufferFrame.lock, hex, hsh, h0]
    exact ⟨_, ⟨rfl, rfl, rfl, rfl, rfl⟩, rfl, rfl, rfl, rfl, rfl, rfl⟩

/-- C40: eviction abort under concurrency.  At any point of a history, let
`fix_page` of a page `p` that is not resident call `evict_page`, and let the
victim `V` be dirty: `evict_page` sets `V.state = EVICT` and releases the
global latch for the write.  If another thread fixes the page of `V` meanwhile,
the call returns the frame of `V` with `state = RELOAD`, fixed once, in the LRU
list.  After the write `evict_page` does not evict a victim whose state is no
longer `EVICT`: the frame stays in the frame map with its data slot, both lists
are as the other threads left them, its state is set back to `MOD`, and victim
selection is retried on that buffer manager.  The victim is erased only when
its state is still `EVICT` after the write. -/
theorem evict_page_aborts_when_victim_is_fixed (page_size page_count : Nat)
    (disk : Nat → File) (cs : List Call) (bm0 : BufferManager) (p v : Nat) (fv : BufferFrame)
    (hrun : run (BufferManager.new page_size page_count disk) cs = some bm0)
    (hp : bm0.find p = none) (hv : bm0.victim = some v) (hfv : bm0.find v = some fv)
    (hdirty : fv.isDirty = true) :
    ∃ page_copy bm1,
      evict_select (with_transient bm0 p) = (EvictRound.writing v page_copy, bm1) ∧
      bm1.find v = some { fv with state := BufferFrameState.EVICT } ∧
      (∀ e : Bool, ∃ bm2 g,
        fix_page (write_back bm1 v page_copy) v e = FixResult.ok bm2 ∧
        bm2.find v = some g ∧ g.state = BufferFrameState.RELOAD ∧ g.num_fixed = 1 ∧
        g.data = fv.data ∧ v ∈ bm2.lru_list ∧ v ∉ bm2.fifo_list) ∧
      (∀ (w : List Call) (ws : List (List Call)) (bm2 : BufferManager) (g : BufferFrame),
        run (write_back bm1 v page_copy) w = some bm2 → bm2.find v = some g →
        (g.state ≠ BufferFrameState.EVICT →
          evict_page_with (w :: ws) (with_transient bm0 p)
            = evict_page_with ws (bm2.setFrame v { g with state := BufferFrameState.MOD }) ∧
          (bm2.setFrame v { g with state := BufferFrameState.MOD }).find v
            = some { g with state := BufferFrameState.MOD } ∧
          (bm2.setFrame v { g with state := BufferFrameState.MOD }).fifo_list = bm2.fifo_list ∧
          (bm2.setFrame v { g with state := BufferFrameState.MOD }).lru_list = bm2.lru_list ∧
          (∀ q, q ≠ v →
            (bm2.setFrame v { g with state := BufferFrameState.MOD }).find q = bm2.find q) ∧
          (0 < g.num_fixed →
            (bm2.setFrame v { g with state := BufferFrameState.MOD }).evictable v = false)) ∧
        (g.state = BufferFrameState.EVICT →
          evict_page_with (w :: ws) (with_transient bm0 p)
            = some (g.data, (evict_remove bm2 v).2) ∧
          (evict_remove bm2 v).2.find v = none)) := by
  have h : Inv bm0 := inv_run cs (inv_new _ _ _) hrun
  obtain ⟨hev, _⟩ := victim_spec hv
  obtain ⟨fv', hfv', hst, h0⟩ := evictable_spec hev
  rw [hfv] at hfv'
  cases hfv'
  obtain ⟨hmem, hpid⟩ := find_some hfv
  have hok := h.frames fv hmem
  have hvp : v ≠ p := by
    intro hvp
    rw [hvp, hp] at hfv
    cases hfv
  have hvT : (with_transient bm0 p).victim = some v := by
    rw [with_transient_victim hp, hv]
  have hfT : (with_transient bm0 p).find v = some fv := by
    rw [with_transient_find hp, if_neg hvp, hfv]
  obtain ⟨fvE, hfvE⟩ : ∃ fvE : BufferFrame,
      fvE = { fv with state := BufferFrameState.EVICT } := ⟨_, rfl⟩
  have hEp : fvE.pId = v := by rw [hfvE]; exact hpid
  have hEs : fvE.state = BufferFrameState.EVICT := by rw [hfvE]
  have hEd : fvE.data = fv.data := by rw [hfvE]
  have hEl : fvE.lru_position = fv.lru_position := by rw [hfvE]
  have hpins := hok.pins
  have hex : fv.exclusively_locked = false := by
    cases hx : fv.exclusively_locked with
    | false => rfl
    | true =>
      rw [hx, h0] at hpins
      simp at hpins
  have hsh : fv.shared_locks = 0 := by
    rw [hex, h0] at hpins
    simp at hpins
    exact hpins.symm
  have hE0 : fvE.num_fixed = 0 := by rw [hfvE]; exact h0
  have hEx : fvE.exclusively_locked = false := by rw [hfvE]; exact hex
  have hEh : fvE.shared_locks = 0 := by rw [hfvE]; exact hsh
  have hsel := evict_select_eq hvT hfT
  rw [← hfvE] at hsel
  simp only [hdirty, Bool.not_true, Bool.false_eq_true, if_false] at hsel
  have hE : ((with_transient bm0 p).setFrame v fvE).find v = some fvE :=
    find_setFrame_self hfT hEp
  rw [← hfvE]
  refine ⟨_, _, hsel, hE, ?_, ?_⟩
  · intro e
    obtain ⟨g, hfix, g1, g2, g3, g4, g5, _⟩ :=
      @fix_page_evicting (write_back ((with_transient bm0 p).setFrame v fvE) v
          (match fv.data with
            | some slot => (with_transient bm0 p).loaded_pages slot
            | none => zeros (with_transient bm0 p).page_size))
        v fvE hE hEs hE0 hEx hEh e
    refine ⟨_, g, hfix, ?_, g1, g2, g3.trans hEd, ?_, ?_⟩
    · exact @find_setFrame_self (write_back ((with_transient bm0 p).setFrame v fvE) v _)
        v fvE g hE (g4.trans hEp)
    · show v ∈ (if (!fvE.lru_position) = true then _ else _)
      split <;> simp
    · show v ∉ (if (!fvE.lru_position) = true then bm0.fifo_list.erase v else bm0.fifo_list)
      rw [hEl]
      by_cases hl : fv.lru_position = true
      · simp only [hl, Bool.not_true, Bool.false_eq_true, if_false]
        intro hmf
        have := (inv_mem_fifo_iff h hmem).1 (by rw [hpid]; exact hmf)
        rw [hl] at this
        cases this
      · simp only [hl, Bool.not_eq_true, Bool.not_false, if_true]
        intro hmf
        exact (List.Nodup.not_mem_erase h.fifo_nodup) hmf
  · intro w ws bm2 g hw hg
    have hgp : g.pId = v := (find_some hg).2
    constructor
    · intro hne
      refine ⟨?_, find_setFrame_self hg hgp, rfl, rfl, ?_, ?_⟩
      · conv_lhs => unfold evict_page_with evict_round
        simp only [hsel, hw, hg, hne, if_false]
      · intro q hq
        exact find_setFrame_other hgp hq
      · intro hpin
        unfold BufferManager.evictable
        rw [@find_setFrame_self bm2 v g { g with state := BufferFrameState.MOD } hg hgp]
        have : g.num_fixed ≠ 0 := by omega
        simp [this]
    · intro heq
      refine ⟨?_, ?_⟩
      · conv_lhs => unfold evict_page_with evict_round
        simp only [hsel, hw, hg, heq, if_true]
        rw [evict_remove_eq hg]
      · rw [find_evict_remove, if_pos rfl]

/-- C40 (witness): one frame holds the dirty, unfixed page 1, and page 2 is
being fixed: page 1 is chosen as victim and set to `EVICT`, and a `fix_page` of
page 1 by another thread during the write returns its frame in state
`RELOAD`. -/
theorem evict_page_aborts_when_victim_is_fixed_witness :
    ∃ page_copy bm1,
      evict_select (with_transient one_dirty_page 2) = (EvictRound.writing 1 page_copy, bm1) ∧
      bm1.find 1 = some (BufferFrame.mk BufferFrameState.EVICT 1 (some 0) 0 false 0 true true
        false) ∧
      ∀ e : Bool, ∃ bm2 g,
        fix_page (write_back bm1 1 page_copy) 1 e = FixResult.ok bm2 ∧
        bm2.find 1 = some g ∧ g.state = BufferFrameState.RELOAD ∧ g.num_fixed = 1 ∧
        g.data = some 0 ∧ 1 ∈ bm2.lru_list ∧ 1 ∉ bm2.fifo_list := by
  obtain ⟨c, b, h1, h2, h3, _⟩ := evict_page_aborts_when_victim_is_fixed 4 1 empty_disk
    [Call.fix 1 true, Call.write 1 [7, 7, 7, 7], Call.unfix 1 true] one_dirty_page 2 1
    (BufferFrame.mk BufferFrameState.MOD 1 (some 0) 0 false 0 true true false)
    rfl rfl rfl rfl rfl
  exact ⟨c, b, h1, h2, h3⟩

/-- The scenario of the witness run to its end: page 1 is fixed by another
thread during the write, so `evict_page` keeps its frame (state `MOD`, fixed
once, in the LRU list), finds no other victim and returns `nullptr`; when the
other thread also unfixes page 1 during the write, the next round evicts it;
and without another thread page 1 is evicted at once. -/
theorem evict_page_with_example :
    (evict_page_with [[Call.fix 1 false]] (with_transient one_dirty_page 2)).map
        (fun r => (r.1, r.2.bufferframes, r.2.fifo_list, r.2.lru_list))
      = some (none,
          [BufferFrame.mk BufferFrameState.MOD 1 (some 0) 1 false 1 true false true,
           transientFrame 2], [], [1]) ∧
    (evict_page_with [[Call.fix 1 false, Call.unfix 1 false]]
        (with_transient one_dirty_page 2)).map
        (fun r => (r.1, r.2.bufferframes, r.2.fifo_list, r.2.lru_list))
      = some (some 0, [transientFrame 2], [], []) ∧
    (evict_page_with [] (with_transient one_dirty_page 2)).map
        (fun r => (r.1, r.2.bufferframes, r.2.fifo_list, r.2.lru_list))
      = some (some 0, [transientFrame 2], [], []) := by
  refine ⟨by decide, by decide, by decide⟩

end Buffer

namespace BTree

/-- The lookup of key 5 in `tree_three` alternates for ever between the root
(with `next = 1`) and the right leaf. -/
theorem lookup_three_cycle : ∀ fuel,
    iterate (lookup_step 64 tree_three 5) fuel
        { currentPageId := 2, next := 1, previousParentPageId := 2 } = Outcome.running ∧
    iterate (lookup_step 64 tree_three 5) fuel
        { currentPageId := 1, next := 0, previousParentPageId := 2 } = Outcome.running := by
  intro fuel
  induction fuel with
  | zero => exact ⟨rfl, rfl⟩
  | succ n ih =>
    have h1 : lookup_step 64 tree_three 5
        { currentPageId := 2, next := 1, previousParentPageId := 2 }
        = Step.loop { currentPageId := 1, next := 0, previousParentPageId := 2 } := by decide
    have h2 : lookup_step 64 tree_three 5
        { currentPageId := 1, next := 0, previousParentPageId := 2 }
        = Step.loop { currentPageId := 2, next := 1, previousParentPageId := 2 } := by decide
    constructor
    · simp only [iterate, h1]
      exact ih.2
    · simp only [iterate, h2]
      exact ih.1

/-- C3 (evaluation): with leaf capacity 2, after `insert(30, 300)`,
`insert(10, 100)`, `insert(20, 200)` the lookup of the never inserted key 5
(below the stored keys) does not return: for every number of loop iterations
it is still running.  (The lookup of key 40, above the stored keys, returns
empty.) -/
theorem lookup_absent_key_never_returns :
    insertAll 64 10 Tree.empty [(30, 300), (10, 100), (20, 200)] = Outcome.returns tree_three ∧
    (∀ fuel, lookup 64 fuel tree_three 5 = Outcome.running) ∧
    lookup 64 10 tree_three 40 = Outcome.returns none := by
  refine ⟨by decide, ?_, by decide⟩
  intro fuel
  show iterate (lookup_step 64 tree_three 5) fuel
    { currentPageId := 2, next := 0, previousParentPageId := 2 } = Outcome.running
  have h0 : lookup_step 64 tree_three 5
      { currentPageId := 2, next := 0, previousParentPageId := 2 }
      = Step.loop { currentPageId := 0, next := 0, previousParentPageId := 2 } := by decide
  have h1 : lookup_step 64 tree_three 5
      { currentPageId := 0, next := 0, previousParentPageId := 2 }
      = Step.loop { currentPageId := 2, next := 1, previousParentPageId := 2 } := by decide
  cases fuel with
  | zero => rfl
  | succ n =>
    simp only [iterate, h0]
    cases n with
    | zero => rfl
    | succ n =>
      simp only [iterate, h1]
      exact (lookup_three_cycle n).1

/-- The erase of key 2 in `tree_one` visits the root leaf for ever. -/
theorem erase_one_cycle : ∀ fuel next,
    iterate (erase_step 64 2) fuel
      (tree_one, { currentPageId := 0, next := next, previousParentPageId := 0 })
        = Outcome.running := by
  intro fuel
  induction fuel with
  | zero => intro next; rfl
  | succ n ih =>
    intro next
    have h : erase_step 64 2
        (tree_one, { currentPageId := 0, next := next, previousParentPageId := 0 })
        = Step.loop
          (tree_one, { currentPageId := 0, next := next + 1, previousParentPageId := 0 }) := rfl
    simp only [iterate, h]
    exact ih (next + 1)

/-- C10 (evaluation): in the tree whose root is the single leaf `[1]` (after
`insert(1, 10)`), `erase(2)` of the absent key 2 does not return: for every
number of loop iterations it is still running.  On a tree that never had an
insert (`root` unset) `erase` returns at once and changes nothing. -/
theorem erase_absent_key_never_returns :
    insertAll 64 10 Tree.empty [(1, 10)] = Outcome.returns tree_one ∧
    (∀ fuel, erase 64 fuel tree_one 2 = Outcome.running) ∧
    (∀ fuel key, erase 64 fuel Tree.empty key = Outcome.returns Tree.empty) := by
  refine ⟨by decide, ?_, ?_⟩
  · intro fuel
    exact erase_one_cycle fuel 0
  · intro fuel key
    rfl

/-- C11 (evaluation): `insert(1, 10)`, `erase(1)`, `insert(1, 20)` on an empty
tree all return, the leaf then holds the entry `(1, 20)`, and the following
`lookup(1)` returns no value: `erase` recorded the key in `deletedKeys`,
`insert` never removes it, and `lookup` answers "absent" for every recorded
key before it reads a page. -/
theorem lookup_after_erase_and_reinsert_empty :
    insert 64 1 Tree.empty 1 10 = Outcome.returns tree_one ∧
    erase 64 1 tree_one 1 = Outcome.returns tree_one_erased ∧
    insert 64 1 tree_one_erased 1 20 = Outcome.returns tree_one_reinserted ∧
    LeafNode.get_key_vector (getPage 64 tree_one_reinserted.pages 0) = [1] ∧
    LeafNode.get_value_vector 64 (getPage 64 tree_one_reinserted.pages 0) = [20] ∧
    (∀ fuel, lookup 64 fuel tree_one_reinserted 1 = Outcome.returns none) := by
  refine ⟨by decide, by decide, by decide, by decide, by decide, ?_⟩
  intro fuel
  rfl

end BTree

namespace BTree

/-- The calls of a sequence of inserts depend on the tree only, not on the
segment id of the tree object. -/
theorem insert_all_calls_congr (PageSize fuel : Nat) :
    ∀ (kvs : List (Nat × Nat)) (ix ix' : Index), ix.tree = ix'.tree →
      Index.insert_all_calls PageSize fuel ix kvs = Index.insert_all_calls PageSize fuel ix' kvs := by
  intro kvs
  induction kvs with
  | nil => intro ix ix' _; rfl
  | cons kv kvs ih =>
    intro ix ix' h
    obtain ⟨k, v⟩ := kv
    simp only [Index.insert_all_calls, Index.insert, h]
    congr 1
    apply ih
    cases hins : BTree.insert PageSize fuel ix'.tree k v <;> simp [h]

/-- C31 (evaluation): the tree operations return with pages still fixed.  With
leaf capacity 2: `lookup(1)` on the tree holding the key 1 returns 10 after one
`fix_page(0, false)` and no `unfix_page`, so `num_fixed` of page 0 is 1 instead
of 0 afterwards; `lookup(5)` of an absent key leaves the same pin.
`insert(40, 400)` into the tree holding 10, 20, 30 splits a leaf under the
existing root and never unfixes the new page 3, which stays fixed and latched
exclusively, so the following `insert(50, 500)` never returns from
`fix_page(3, true)`.  `insert(6, 60)` into the tree holding 1 .. 5 splits an
inner node and never unfixes the children 3 and 6 that it moves.  (`erase`
unfixes what it fixes.) -/
theorem tree_operations_leave_pages_fixed :
    insert_calls 64 10 Tree.empty 1 10 = [Buffer.Call.fix 0 true, Buffer.Call.unfix 0 true] ∧
    insert 64 10 Tree.empty 1 10 = Outcome.returns tree_one ∧
    pins_after 8 (insert_calls 64 10 Tree.empty 1 10) = some [(0, 0)] ∧
    lookup 64 10 tree_one 1 = Outcome.returns (some 10) ∧
    lookup_calls 64 10 tree_one 1 = [Buffer.Call.fix 0 false] ∧
    pins_after 8 (insert_calls 64 10 Tree.empty 1 10 ++ lookup_calls 64 10 tree_one 1)
      = some [(0, 1)] ∧
    lookup 64 10 tree_one 5 = Outcome.returns none ∧
    lookup_calls 64 10 tree_one 5
      = [Buffer.Call.fix 0 false, Buffer.Call.unfix 0 false, Buffer.Call.fix 0 false,
         Buffer.Call.unfix 0 false, Buffer.Call.fix 0 false] ∧
    insert 64 10 tree_three 40 400 = Outcome.returns tree_four ∧
    insert_calls 64 10 tree_three 40 400
      = [Buffer.Call.fix 2 true, Buffer.Call.unfix 2 true, Buffer.Call.fix 1 true,
         Buffer.Call.fix 3 true, Buffer.Call.fix 2 true, Buffer.Call.unfix 2 true,
         Buffer.Call.unfix 1 true] ∧
    pins_after 8 (Index.insert_all_calls 64 10 (construct 0)
        [(30, 300), (10, 100), (20, 200)]) = some [(0, 0), (1, 0), (2, 0)] ∧
    pins_after 8 (Index.insert_all_calls 64 10 (construct 0)
        [(30, 300), (10, 100), (20, 200), (40, 400)]) = some [(0, 0), (1, 0), (2, 0), (3, 1)] ∧
    insert 64 10 tree_four 50 500 ≠ Outcome.running ∧
    pins_after 8 (Index.insert_all_calls 64 10 (construct 0)
        [(30, 300), (10, 100), (20, 200), (40, 400), (50, 500)]) = none ∧
    insert 64 10 tree_asc5 6 60 = Outcome.returns tree_asc6 ∧
    insert_calls 64 10 tree_asc5 6 60
      = [Buffer.Call.fix 5 true, Buffer.Call.unfix 5 true, Buffer.Call.fix 4 true,
         Buffer.Call.fix 7 true, Buffer.Call.fix 3 true, Buffer.Call.fix 6 true,
         Buffer.Call.fix 5 true, Buffer.Call.unfix 5 true, Buffer.Call.unfix 7 true,
         Buffer.Call.unfix 4 true, Buffer.Call.fix 2 true, Buffer.Call.unfix 2 true,
         Buffer.Call.fix 0 true, Buffer.Call.unfix 0 true] ∧
    erase_calls 64 10 tree_one 1 = [Buffer.Call.fix 0 true, Buffer.Call.unfix 0 true] := by
  and_intros
  all_goals decide

/-- C32 (evaluation): for leaf capacity 3 (`PageSize = 80`) the split of the
full leaf with the keys 10, 20, 30 keeps `[10, 20]`, moves `[30]` to the new
page and returns the separator 10, which is below the left key 20 and not the
largest key of the left half.  (For capacity 2 the leaf `[10, 20]` is split
into `[10]` and `[20]` with the separator 10.)  At the level of the tree:
after inserting 10, 20, 30, 15 the leaves hold `[10, 20]` and `[15, 30]` under
the separator 10, and `lookup(20)` returns empty. -/
theorem leaf_split_separator_below_left_key :
    kCapacity 80 = 3 ∧
    LeafNode.split 80 leaf_k3 (zeroPage 80)
      = some (Page.mk 0 2 none [10, 20, 0, 100, 200, 0, 0],
          Page.mk 0 1 none [30, 0, 0, 300, 0, 0, 0], 10) ∧
    LeafNode.get_key_vector (Page.mk 0 2 none [10, 20, 0, 100, 200, 0, 0]) = [10, 20] ∧
    LeafNode.get_key_vector (Page.mk 0 1 none [30, 0, 0, 300, 0, 0, 0]) = [30] ∧
    ¬ (∀ k ∈ LeafNode.get_key_vector (Page.mk 0 2 none [10, 20, 0, 100, 200, 0, 0]), k ≤ 10) ∧
    LeafNode.split 64 (Page.mk 0 2 none [10, 20, 100, 200, 0]) (zeroPage 64)
      = some (Page.mk 0 1 none [10, 0, 100, 0, 0], Page.mk 0 1 none [20, 0, 200, 0, 0], 10) ∧
    insertAll 80 10 Tree.empty [(10, 100), (20, 200), (30, 300), (15, 150)]
      = Outcome.returns tree_k3 ∧
    lookup 80 10 tree_k3 20 = Outcome.returns none ∧
    tree_k3.inorderKeys 80 = [10, 20, 15, 30] := by
  and_intros
  all_goals decide

/-- C33 (evaluation): for capacity 2 the split of the inner node with the keys
10, 20 and the children 7, 8, 9 returns the separator 15, the average of the
keys 10 and 20 and not a key of the node; the left node keeps the child 7 and
no valid key, the new node gets the key 20 and the children 8, 9.  For keys
from `2^31` on the cast to `int` truncates the average: the keys `2^33` and
`2^33 + 2` give the separator 1. -/
theorem inner_split_separator_is_no_key :
    kCapacity 64 = 2 ∧
    InnerNode.get_key_vector inner_k2 = [10, 20] ∧
    InnerNode.get_child_vector 64 inner_k2 = [7, 8, 9] ∧
    InnerNode.split 64 inner_k2 (zeroPage 64)
      = some (Page.mk 1 1 none [10, 0, 7, 0, 0], Page.mk 0 2 none [20, 0, 8, 9, 0], 15) ∧
    15 ∉ InnerNode.get_key_vector inner_k2 ∧
    InnerNode.get_key_vector (Page.mk 1 1 none [10, 0, 7, 0, 0]) = [] ∧
    InnerNode.get_child_vector 64 (Page.mk 1 1 none [10, 0, 7, 0, 0]) = [7] ∧
    InnerNode.get_key_vector (Page.mk 0 2 none [20, 0, 8, 9, 0]) = [20] ∧
    InnerNode.get_child_vector 64 (Page.mk 0 2 none [20, 0, 8, 9, 0]) = [8, 9] ∧
    InnerNode.separator (2 ^ 33 + 2) (2 ^ 33) = 1 := by
  and_intros
  all_goals decide

/-- C34 (evaluation): `InnerNode::lower_bound` searches the key slots
`0 .. count - 1`, one more than the `count - 1` keys of the node.  For the
node with two children and the single key 50, `lower_bound(60)` returns
`(1, true)` when the key slot of index 1 holds 70 and `(0, false)` when it
holds 0, although no key of the node is `>= 60` in either case.  The node with
the stale 70 is page 5 of the tree (capacity 3) built by inserting
10, 20, .., 130 in ascending order. -/
theorem inner_lower_bound_reads_past_the_keys :
    InnerNode.get_key_vector (inner_two_children 70) = [50] ∧
    InnerNode.get_key_vector (inner_two_children 0) = [50] ∧
    InnerNode.lower_bound (inner_two_children 70) 60 = some (1, true) ∧
    InnerNode.lower_bound (inner_two_children 0) 60 = some (0, false) ∧
    page_after 80 10
        [(10, 100), (20, 200), (30, 300), (40, 400), (50, 500), (60, 600), (70, 700),
         (80, 800), (90, 900), (100, 1000), (110, 1100), (120, 1200), (130, 1300)] 5
      = some (inner_two_children 70) := by
  refine ⟨by decide, by decide, by decide, by decide, by decide⟩

/-- The first call of `insert` on a tree that is still empty is
`fix_page(0, true)`: the root of a new tree is page id 0. -/
theorem insert_calls_empty (PageSize fuel key value : Nat) :
    ∃ rest, insert_calls PageSize (fuel + 1) Tree.empty key value
      = Buffer.Call.fix 0 true :: rest := by
  simp only [insert_calls, Tree.empty, if_true, iterate_calls, insert_step_calls,
    List.singleton_append, List.cons_append]
  exact ⟨_, rfl⟩

/-- C39 (counterexample): the tree constructed with segment id 1 passes page
id 0 to `fix_page` in its first insert, and `get_segment_id(0) = 0`, not 1; all
page ids it fixes while the keys 1 .. 6 are inserted are the counters 0 .. 7 of
segment 0; and the tree constructed with segment id 2 fixes page id 0 as
well. -/
theorem btree_with_segment_id_one_fixes_page_zero :
    (construct 1).segment.segment_id = 1 ∧
    ((construct 1).insert 64 10 1 10).1
      = [Buffer.Call.fix 0 true, Buffer.Call.unfix 0 true] ∧
    Buffer.get_segment_id 0 = 0 ∧
    Buffer.get_segment_id 0 ≠ (construct 1).segment.segment_id ∧
    fixed_page_ids (Index.insert_all_calls 64 10 (construct 1)
        [(1, 10), (2, 20), (3, 30), (4, 40), (5, 50), (6, 60)])
      = [0, 0, 0, 1, 2, 2, 1, 3, 2, 2, 4, 1, 3, 5, 4, 3, 6, 4, 5, 4, 7, 3, 6, 5, 2, 0] ∧
    (fixed_page_ids (Index.insert_all_calls 64 10 (construct 1)
        [(1, 10), (2, 20), (3, 30), (4, 40), (5, 50), (6, 60)])).all
      (fun id => decide (Buffer.get_segment_id id = 0)) = true ∧
    (construct 2).segment.segment_id = 2 ∧
    fixed_page_ids ((construct 2).insert 64 10 2 20).1 = [0] := by
  and_intros
  all_goals decide

/-- C39 (amended): the page ids that a tree passes to `fix_page` are bare page
counters that do not depend on the segment id it was constructed with.  For
all segment ids `S`, `S'`, every page size and every non-empty sequence of
inserts (each allowed at least one loop iteration): the `fix_page` and
`unfix_page` calls of the tree with segment id `S` are those of the tree with
segment id `S'`, so both trees fix the same page ids; the first page fixed is
page id 0, the root of a new tree, whose segment id is 0; hence
`get_segment_id(page_id) = S` fails for a fixed page whenever `S` is not 0. -/
theorem btree_page_ids_do_not_depend_on_segment_id (PageSize S S' fuel : Nat)
    (kvs : List (Nat × Nat)) (hfuel : 0 < fuel) (hkvs : kvs ≠ []) :
    Index.insert_all_calls PageSize fuel (construct S) kvs
      = Index.insert_all_calls PageSize fuel (construct S') kvs ∧
    fixed_page_ids (Index.insert_all_calls PageSize fuel (construct S) kvs)
      = fixed_page_ids (Index.insert_all_calls PageSize fuel (construct S') kvs) ∧
    (fixed_page_ids (Index.insert_all_calls PageSize fuel (construct S) kvs)).head? = some 0 ∧
    Buffer.get_segment_id 0 = 0 ∧
    (S ≠ 0 → ∃ id ∈ fixed_page_ids (Index.insert_all_calls PageSize fuel (construct S) kvs),
      Buffer.get_segment_id id ≠ S) := by
  have hcongr := insert_all_calls_congr PageSize fuel kvs (construct S) (construct S') rfl
  have hseg : Buffer.get_segment_id 0 = 0 := by decide
  have hhead : ∃ rest, Index.insert_all_calls PageSize fuel (construct S) kvs
      = Buffer.Call.fix 0 true :: rest := by
    obtain ⟨f, rfl⟩ : ∃ f, fuel = f + 1 := ⟨fuel - 1, by omega⟩
    cases kvs with
    | nil => exact absurd rfl hkvs
    | cons kv rest =>
      obtain ⟨k, v⟩ := kv
      obtain ⟨r, hr⟩ := insert_calls_empty PageSize f k v
      refine ⟨r ++ Index.insert_all_calls PageSize (f + 1)
        ((construct S).insert PageSize (f + 1) k v).2 rest, ?_⟩
      show insert_calls PageSize (f + 1) Tree.empty k v ++ _ = _
      rw [hr]
      rfl
  obtain ⟨rest, hrest⟩ := hhead
  have hids : fixed_page_ids (Index.insert_all_calls PageSize fuel (construct S) kvs)
      = 0 :: fixed_page_ids rest := by
    rw [hrest]
    rfl
  refine ⟨hcongr, by rw [hcongr], ?_, hseg, ?_⟩
  · rw [hids]
    rfl
  · intro hS
    refine ⟨0, ?_, ?_⟩
    · rw [hids]
      exact List.mem_cons_self _ _
    · rw [hseg]
      exact fun h => hS h.symm

/-- C39 (amended, witness): the trees with the segment ids 1 and 2 make the
same calls for `insert(1, 10)`, and fix page id 0. -/
theorem btree_page_ids_do_not_depend_on_segment_id_witness :
    Index.insert_all_calls 64 10 (construct 1) [(1, 10)]
      = Index.insert_all_calls 64 10 (construct 2) [(1, 10)] ∧
    (fixed_page_ids (Index.insert_all_calls 64 10 (construct 1) [(1, 10)])).head? = some 0 ∧
    ∃ id ∈ fixed_page_ids (Index.insert_all_calls 64 10 (construct 1) [(1, 10)]),
      Buffer.get_segment_id id ≠ 1 :=
  have h := btree_page_ids_do_not_depend_on_segment_id 64 1 2 10 [(1, 10)] (by decide)
    (by simp)
  ⟨h.1, h.2.2.1, h.2.2.2.2 (by decide)⟩

end BTree

namespace Operators

/-! ### The loops over a child and the register copies -/

theorem while_next_nil {σ : Type} (body : σ → Tuple → Option (σ × Bool)) (fuel : Nat)
    (regs : Tuple) (s : σ) :
    while_next body (fuel + 1) { regs := regs, rest := [] } s
      = some ({ regs := regs, rest := [] }, s, false) := rfl

theorem while_next_cons {σ : Type} (body : σ → Tuple → Option (σ × Bool)) (fuel : Nat)
    (regs t : Tuple) (rest : List Tuple) (s : σ) :
    while_next body (fuel + 1) { regs := regs, rest := t :: rest } s
      = match body s t with
        | none => none
        | some (s, true) => some ({ regs := t, rest := rest }, s, true)
        | some (s, false) => while_next body fuel { regs := t, rest := rest } s := rfl

/-- A loop whose body never returns from the function folds the body over the
tuples the child still delivers. -/
theorem while_next_fold {σ : Type} (body : σ → Tuple → Option (σ × Bool)) (g : σ → Tuple → σ)
    (rest : List Tuple) :
    ∀ (regs : Tuple) (s : σ) (fuel : Nat), rest.length < fuel →
      (∀ (pre : List Tuple) (t : Tuple) (post : List Tuple), rest = pre ++ t :: post →
        body (pre.foldl g s) t = some (g (pre.foldl g s) t, false)) →
      ∃ regs', while_next body fuel { regs := regs, rest := rest } s
        = some ({ regs := regs', rest := [] }, rest.foldl g s, false) := by
  induction rest with
  | nil =>
    intro regs s fuel hfuel _
    obtain ⟨fuel, rfl⟩ : ∃ f, fuel = f + 1 := ⟨fuel - 1, by omega⟩
    exact ⟨regs, rfl⟩
  | cons t rest ih =>
    intro regs s fuel hfuel hbody
    obtain ⟨fuel, rfl⟩ : ∃ f, fuel = f + 1 := ⟨fuel - 1, by omega⟩
    have h0 := hbody [] t rest rfl
    simp only [List.foldl_nil] at h0
    rw [while_next_cons, h0]
    simp only [List.foldl_cons]
    apply ih t (g s t) fuel (by simpa using hfuel)
    intro pre u post hrest
    have := hbody (t :: pre) u post (by rw [hrest]; rfl)
    simpa using this

theorem copy_regs_eq (src : Tuple) (offset : Nat) :
    ∀ (n : Nat) (output_regs : Tuple), n ≤ src.length → offset + n ≤ output_regs.length →
      copy_regs n offset src output_regs
        = some (output_regs.take offset ++ src.take n ++ output_regs.drop (offset + n)) := by
  intro n
  induction n with
  | zero =>
    intro out _ _
    simp [copy_regs]
  | succ n ih =>
    intro out hn hout
    have ihn := ih out (by omega) (by omega)
    unfold copy_regs at ihn ⊢
    rw [List.range_succ, List.foldlM_append, ihn]
    have hsrc : src[n]? = some src[n] := List.getElem?_eq_getElem (by omega)
    simp only [Option.some_bind, List.foldlM_cons, List.foldlM_nil, hsrc, Option.pure_def,
      Option.bind_eq_bind]
    have hlen : offset + n < (List.take offset out ++ List.take n src
        ++ List.drop (offset + n) out).length := by
      simp only [List.length_append, List.length_take, List.length_drop]
      omega
    rw [if_pos hlen]
    simp only [Option.some_bind]
    congr 1
    have hA : (List.take offset out ++ List.take n src).length = offset + n := by
      simp only [List.length_append, List.length_take]
      omega
    rw [List.set_append, if_neg (by omega), hA, Nat.sub_self]
    have hdrop : List.drop (offset + n) out
        = out[offset + n] :: List.drop (offset + n + 1) out :=
      List.drop_eq_getElem_cons (by omega)
    have htake : List.take (n + 1) src = List.take n src ++ [src[n]] := by
      rw [List.take_succ, hsrc]
      rfl
    rw [hdrop, List.set_cons_zero, htake]
    simp only [List.append_assoc, List.singleton_append, List.cons_append, List.nil_append,
      Nat.add_assoc]

/-- Copying all registers of a tuple over a vector of the same size. -/
theorem copy_regs_all (src output_regs : Tuple) (h : output_regs.length = src.length) :
    copy_regs src.length 0 src output_regs = some src := by
  rw [copy_regs_eq src 0 src.length output_regs (le_refl _) (by omega)]
  simp [h.symm ▸ List.drop_length output_regs, ← h]

theorem produce_congr {σ : Type} (next : σ → Option (σ × Bool)) (get_output : σ → Tuple)
    (fuel : Nat) (op op' : σ) (h : next op = next op') :
    produce next get_output fuel op = produce next get_output fuel op' := by
  cases fuel with
  | zero => rfl
  | succ fuel => simp only [produce, h]

/-! ### Projection -/

/-- C15 (evaluation): over a child that delivers the tuple `(1, 2)`,
`Projection` with `indices = [1, 0]` returns the tuple `(1, 2)` from
`get_output()` after the successful `next()`, not the swapped tuple `(2, 1)`:
the loop of `get_output` pushes `src_regs[i]`, so the output depends on the
number of indices only and is the same as for `indices = [0, 1, ...]`. -/
theorem projection_get_output_ignores_indices :
    (Projection.next { input := Source.scan 2 [[Register.int 1, Register.int 2]],
                       attr_indexes := [1, 0] }).2 = true ∧
    (Projection.next { input := Source.scan 2 [[Register.int 1, Register.int 2]],
                       attr_indexes := [1, 0] }).1.get_output
      = some [Register.int 1, Register.int 2] ∧
    (Projection.next { input := Source.scan 2 [[Register.int 1, Register.int 2]],
                       attr_indexes := [1, 0] }).1.get_output
      ≠ some [Register.int 2, Register.int 1] ∧
    (∀ (input : Source) (indices : List Nat),
      Projection.get_output { input := input, attr_indexes := indices }
        = Projection.get_output
            { input := input, attr_indexes := List.range indices.length }) := by
  refine ⟨by decide, by decide, by decide, ?_⟩
  intro input indices
  simp [Projection.get_output]

/-! ### UnionAll -/

theorem union_all_right (width : Nat) (B : List Tuple) :
    ∀ (left : Source) (regs output_regs : Tuple) (fuel : Nat),
      (∀ t ∈ B, t.length = width) → output_regs.length = width → B.length < fuel →
      produce UnionAll.next UnionAll.get_output fuel
        { input_left := left, input_right := { regs := regs, rest := B },
          seen_input := true, output_regs := output_regs } = some B := by
  induction B with
  | nil =>
    intro left regs output_regs fuel _ _ hfuel
    obtain ⟨fuel, rfl⟩ : ∃ f, fuel = f + 1 := ⟨fuel - 1, by omega⟩
    simp [produce, UnionAll.next, Source.next]
  | cons t B ih =>
    intro left regs output_regs fuel hB hout hfuel
    obtain ⟨fuel, rfl⟩ : ∃ f, fuel = f + 1 := ⟨fuel - 1, by omega⟩
    have ht : t.length = width := hB t (List.mem_cons_self _ _)
    have hcopy : copy_regs output_regs.length 0 t output_regs = some t := by
      rw [hout, ← ht]
      exact copy_regs_all t output_regs (by omega)
    have ihB := ih left t t fuel (fun u hu => hB u (List.mem_cons_of_mem _ hu)) ht
      (by simpa using hfuel)
    simp [produce, UnionAll.next, Source.next, Source.get_output, hcopy, ihB,
      UnionAll.get_output]

theorem union_all_left (width : Nat) (B : List Tuple) (A : List Tuple) :
    ∀ (regs regs' output_regs : Tuple) (fuel : Nat),
      (∀ t ∈ A, t.length = width) → (∀ t ∈ B, t.length = width) →
      output_regs.length = width → A.length + B.length < fuel →
      produce UnionAll.next UnionAll.get_output fuel
        { input_left := { regs := regs, rest := A }, input_right := { regs := regs', rest := B },
          seen_input := false, output_regs := output_regs } = some (A ++ B) := by
  induction A with
  | nil =>
    intro regs regs' output_regs fuel _ hB hout hfuel
    rw [produce_congr UnionAll.next UnionAll.get_output fuel _
      { input_left := { regs := regs, rest := [] }, input_right := { regs := regs', rest := B },
        seen_input := true, output_regs := output_regs }
      (by simp [UnionAll.next, Source.next])]
    exact union_all_right width B _ regs' output_regs fuel hB hout (by simpa using hfuel)
  | cons t A ih =>
    intro regs regs' output_regs fuel hA hB hout hfuel
    obtain ⟨fuel, rfl⟩ : ∃ f, fuel = f + 1 := ⟨fuel - 1, by omega⟩
    have ht : t.length = width := hA t (List.mem_cons_self _ _)
    have hcopy : copy_regs output_regs.length 0 t output_regs = some t := by
      rw [hout, ← ht]
      exact copy_regs_all t output_regs (by omega)
    have ihA := ih t regs' t fuel (fun u hu => hA u (List.mem_cons_of_mem _ hu)) hB ht
      (by simp only [List.length_cons] at hfuel; omega)
    simp [produce, UnionAll.next, Source.next, Source.get_output, hcopy, ihA,
      UnionAll.get_output]

/-- C18: for inputs `A` and `B` whose tuples all have the width of the schema,
`UnionAll` produces the sequence of `A` followed by the sequence of `B`, so a
tuple `t` is produced `A[t] + B[t]` times; `|A| + |B| + 1` calls of `next()`
suffice. -/
theorem union_all_is_concatenation (A B : List Tuple) (width : Nat)
    (hA : ∀ t ∈ A, t.length = width) (hB : ∀ t ∈ B, t.length = width) :
    produce UnionAll.next UnionAll.get_output (A.length + B.length + 1)
        (UnionAll.open (Source.scan width A) (Source.scan width B)) = some (A ++ B) ∧
    ∀ t, (A ++ B).count t = A.count t + B.count t := by
  refine ⟨?_, fun t => List.count_append _ _ _⟩
  exact union_all_left width B A _ _ _ _ hA hB (by simp [Source.scan, Source.get_output])
    (by omega)

/-- C18 (witness): two inputs of width 1 that share a tuple. -/
theorem union_all_is_concatenation_witness :
    produce UnionAll.next UnionAll.get_output 4
        (UnionAll.open (Source.scan 1 [[Register.int 1], [Register.int 2]])
          (Source.scan 1 [[Register.int 1]]))
      = some [[Register.int 1], [Register.int 2], [Register.int 1]] ∧
    ∀ t, ([[Register.int 1], [Register.int 2]] ++ [[Register.int 1]]).count t
      = [[Register.int 1], [Register.int 2]].count t + [[Register.int 1]].count t :=
  union_all_is_concatenation [[Register.int 1], [Register.int 2]] [[Register.int 1]] 1
    (by decide) (by decide)

/-! ### Select -/

theorem register_lt_eq (l r : Register) (h : l.get_type = r.get_type) :
    Register.lt l r = some (decide (Register.Less l r)) := by
  cases l <;> cases r <;> simp [Register.get_type] at h <;>
    simp [Register.lt, Register.get_type, Register.as_int, Register.as_string, Register.Less]

theorem register_gt_eq (l r : Register) (h : l.get_type = r.get_type) :
    Register.gt l r = some (decide (Register.Less r l)) := by
  cases l <;> cases r <;> simp [Register.get_type] at h <;>
    simp [Register.gt, Register.get_type, Register.as_int, Register.as_string, Register.Less]

theorem register_lessEq_iff (l r : Register) :
    Register.LessEq l r ↔ Register.Less l r ∨ (l.get_type = r.get_type ∧ l = r) := by
  cases l <;> cases r <;>
    simp [Register.LessEq, Register.Less, Register.get_type, le_iff_lt_or_eq]

theorem select_compare_eq (p : PredicateType) (l r : Register)
    (hty : l.get_type = r.get_type) :
    (match p with
      | PredicateType.EQ => some (Register.eq l r)
      | PredicateType.NE => some (Register.ne l r)
      | PredicateType.LT => Register.lt l r
      | PredicateType.LE => Register.le l r
      | PredicateType.GT => Register.gt l r
      | PredicateType.GE => Register.ge l r) = some (p.holds l r) := by
  cases p
  · simp [PredicateType.holds, Register.eq]
  · simp [PredicateType.holds, Register.ne]
  · simp [PredicateType.holds, register_lt_eq l r hty]
  · simp only [PredicateType.holds, Register.le, register_lt_eq l r hty, hty, ne_eq,
      not_true_eq_false, if_false, Option.bind_eq_bind, Option.some_bind, Register.eq,
      Option.some.injEq]
    rw [Bool.eq_iff_iff]
    simp only [Bool.or_eq_true, decide_eq_true_eq, register_lessEq_iff, hty, true_and]
  · simp [PredicateType.holds, register_gt_eq l r hty]
  · simp only [PredicateType.holds, Register.ge, register_gt_eq l r hty, hty, ne_eq,
      not_true_eq_false, if_false, Option.bind_eq_bind, Option.some_bind, Register.eq,
      Option.some.injEq]
    rw [Bool.eq_iff_iff]
    simp only [Bool.or_eq_true, decide_eq_true_eq, register_lessEq_iff, hty, true_and]
    exact or_congr Iff.rfl eq_comm

theorem select_result_eq (s : Select) (t : Tuple) (l r : Register)
    (hl : t[s.attr_index]? = some l) (hr : operand s.right_operand t = some r)
    (hty : l.get_type = r.get_type) :
    s.result t = some (satisfies s.attr_index s.predicate_type s.right_operand t) := by
  have hr' : (match s.right_operand with
      | Sum.inl constant => some constant
      | Sum.inr index => t[index]?) = some r := hr
  unfold Select.result satisfies
  rw [hl, hr, hr']
  exact select_compare_eq s.predicate_type l r hty

theorem select_produce (attr_index : Nat) (right_operand : Register ⊕ Nat)
    (predicate_type : PredicateType) (input : List Tuple) :
    ∀ (regs : Tuple) (fuel : Nat),
      (∀ t ∈ input, ∃ l r, t[attr_index]? = some l ∧ operand right_operand t = some r ∧
        l.get_type = r.get_type) →
      input.length < fuel →
      produce Select.next Select.get_output fuel
        { input := { regs := regs, rest := input }, attr_index := attr_index,
          right_operand := right_operand, predicate_type := predicate_type }
        = some (input.filter (satisfies attr_index predicate_type right_operand)) := by
  induction input with
  | nil =>
    intro regs fuel _ hfuel
    obtain ⟨fuel, rfl⟩ : ∃ f, fuel = f + 1 := ⟨fuel - 1, by omega⟩
    simp [produce, Select.next, while_next_nil]
  | cons t input ih =>
    intro regs fuel hin hfuel
    obtain ⟨fuel, rfl⟩ : ∃ f, fuel = f + 1 := ⟨fuel - 1, by omega⟩
    obtain ⟨l, r, hl, hr, hty⟩ := hin t (List.mem_cons_self _ _)
    have hin' : ∀ u ∈ input, ∃ l r, u[attr_index]? = some l ∧
        operand right_operand u = some r ∧ l.get_type = r.get_type :=
      fun u hu => hin u (List.mem_cons_of_mem _ hu)
    have hres := fun (regs' : Tuple) (rest : List Tuple) => select_result_eq
      { input := { regs := regs', rest := rest }, attr_index := attr_index,
        right_operand := right_operand, predicate_type := predicate_type } t l r hl hr hty
    simp only at hres
    cases hsat : satisfies attr_index predicate_type right_operand t
    · -- the tuple is skipped: the call continues as a call on the advanced child
      have hnext : Select.next
          { input := { regs := regs, rest := t :: input }, attr_index := attr_index,
            right_operand := right_operand, predicate_type := predicate_type }
          = Select.next
          { input := { regs := t, rest := input }, attr_index := attr_index,
            right_operand := right_operand, predicate_type := predicate_type } := by
        simp only [Select.next, List.length_cons, while_next_cons, hres, hsat]
        rfl
      rw [produce_congr _ _ _ _ _ hnext, List.filter_cons_of_neg (by simp [hsat])]
      exact ih t (fuel + 1) hin' (by simp only [List.length_cons] at hfuel; omega)
    · have hnext : Select.next
          { input := { regs := regs, rest := t :: input }, attr_index := attr_index,
            right_operand := right_operand, predicate_type := predicate_type }
          = some (Select.mk { regs := t, rest := input } attr_index right_operand
              predicate_type, true) := by
        simp only [Select.next, List.length_cons, while_next_cons, hres, hsat]
      rw [List.filter_cons_of_pos (by simp [hsat])]
      simp only [produce, hnext, ih t fuel hin' (by simpa using hfuel)]
      rfl

/-- C16: over an input in which every tuple has the attribute `attr_index` and
a right operand (the constant or the other attribute) of the same variant,
`Select` produces exactly the input tuples on which
`t[attr_index] <comparator> right operand` holds, in input order and
unchanged, for each of the six comparators; `|input| + 1` calls of `next()`
suffice. -/
theorem select_produces_filter (input : List Tuple) (width attr_index : Nat)
    (right_operand : Register ⊕ Nat) (predicate_type : PredicateType)
    (htyped : ∀ t ∈ input, ∃ l r, t[attr_index]? = some l ∧
      operand right_operand t = some r ∧ l.get_type = r.get_type) :
    produce Select.next Select.get_output (input.length + 1)
        { input := Source.scan width input, attr_index := attr_index,
          right_operand := right_operand, predicate_type := predicate_type }
      = some (input.filter (satisfies attr_index predicate_type right_operand)) :=
  select_produce attr_index right_operand predicate_type input _ _ htyped (by omega)

/-- C16 (witness): the tuples whose attribute 0 is at most the attribute 1. -/
theorem select_produces_filter_witness :
    (∀ t ∈ [[Register.int 1, Register.int 2], [Register.int 3, Register.int 2],
          [Register.int 2, Register.int 2]],
      ∃ l r, t[0]? = some l ∧ operand (Sum.inr 1) t = some r ∧ l.get_type = r.get_type) ∧
    produce Select.next Select.get_output 4
        { input := Source.scan 2 [[Register.int 1, Register.int 2],
            [Register.int 3, Register.int 2], [Register.int 2, Register.int 2]],
          attr_index := 0, right_operand := Sum.inr 1, predicate_type := PredicateType.LE }
      = some [[Register.int 1, Register.int 2], [Register.int 2, Register.int 2]] := by
  have h : ∀ t ∈ [[Register.int 1, Register.int 2], [Register.int 3, Register.int 2],
          [Register.int 2, Register.int 2]],
      ∃ l r, t[0]? = some l ∧ operand (Sum.inr 1) t = some r ∧ l.get_type = r.get_type := by
    intro t ht
    simp only [List.mem_cons, List.mem_singleton, List.not_mem_nil, or_false] at ht
    rcases ht with rfl | rfl | rfl <;> exact ⟨_, _, rfl, rfl, rfl⟩
  exact ⟨h, select_produces_filter _ 2 0 (Sum.inr 1) PredicateType.LE h⟩

/-! ### Union -/

theorem mem_new_tuples (l : List Tuple) :
    ∀ (seen : List Tuple) (t : Tuple), t ∈ new_tuples seen l ↔ t ∈ l ∧ t ∉ seen := by
  induction l with
  | nil => intro seen t; simp [new_tuples]
  | cons a l ih =>
    intro seen t
    unfold new_tuples
    by_cases ha : a ∈ seen
    · rw [if_pos ha, ih]
      constructor
      · rintro ⟨h1, h2⟩
        exact ⟨List.mem_cons_of_mem _ h1, h2⟩
      · rintro ⟨h1, h2⟩
        rcases List.mem_cons.1 h1 with rfl | h1
        · exact absurd ha h2
        · exact ⟨h1, h2⟩
    · rw [if_neg ha, List.mem_cons, ih]
      constructor
      · rintro (rfl | ⟨h1, h2⟩)
        · exact ⟨List.mem_cons_self _ _, ha⟩
        · exact ⟨List.mem_cons_of_mem _ h1, fun h => h2 (List.mem_cons_of_mem _ h)⟩
      · rintro ⟨h1, h2⟩
        by_cases hta : t = a
        · exact Or.inl hta
        · rcases List.mem_cons.1 h1 with rfl | h1
          · exact absurd rfl hta
          · refine Or.inr ⟨h1, fun h => ?_⟩
            rcases List.mem_cons.1 h with rfl | h
            · exact hta rfl
            · exact h2 h

theorem nodup_new_tuples (l : List Tuple) : ∀ (seen : List Tuple), (new_tuples seen l).Nodup := by
  induction l with
  | nil => intro seen; simp [new_tuples]
  | cons a l ih =>
    intro seen
    unfold new_tuples
    by_cases ha : a ∈ seen
    · rw [if_pos ha]
      exact ih seen
    · rw [if_neg ha, List.nodup_cons]
      refine ⟨fun h => ?_, ih _⟩
      exact ((mem_new_tuples l _ a).1 h).2 (List.mem_cons_self _ _)

theorem union_body_seen (ht : List Tuple) (output_regs t : Tuple) (h : t ∈ ht) :
    Union.body (ht, output_regs) t = some ((ht, output_regs), false) := by
  simp [Union.body, h]

theorem union_body_new (ht : List Tuple) (output_regs t : Tuple) (h : t ∉ ht)
    (hlen : output_regs.length = t.length) :
    Union.body (ht, output_regs) t = some ((t :: ht, t), true) := by
  simp [Union.body, h, copy_regs_all t output_regs hlen]

theorem union_right (width : Nat) (B : List Tuple) :
    ∀ (left : Source) (regs output_regs : Tuple) (ht : List Tuple) (fuel : Nat),
      (∀ t ∈ B, t.length = width) → output_regs.length = width → B.length < fuel →
      produce Union.next Union.get_output fuel
        { input_left := left, input_right := { regs := regs, rest := B }, ht := ht,
          seen_input := true, output_regs := output_regs } = some (new_tuples ht B) := by
  induction B with
  | nil =>
    intro left regs output_regs ht fuel _ _ hfuel
    obtain ⟨fuel, rfl⟩ : ∃ f, fuel = f + 1 := ⟨fuel - 1, by omega⟩
    simp [produce, Union.next, while_next_nil, new_tuples]
  | cons t B ih =>
    intro left regs output_regs ht fuel hB hout hfuel
    obtain ⟨fuel, rfl⟩ : ∃ f, fuel = f + 1 := ⟨fuel - 1, by omega⟩
    have hlen : output_regs.length = t.length := by
      rw [hout, hB t (List.mem_cons_self _ _)]
    have hB' : ∀ u ∈ B, u.length = width := fun u hu => hB u (List.mem_cons_of_mem _ hu)
    by_cases hmem : t ∈ ht
    · have hnext : Union.next
          { input_left := left, input_right := { regs := regs, rest := t :: B }, ht := ht,
            seen_input := true, output_regs := output_regs }
          = Union.next
          { input_left := left, input_right := { regs := t, rest := B }, ht := ht,
            seen_input := true, output_regs := output_regs } := by
        simp [Union.next, while_next_cons, union_body_seen ht output_regs t hmem]
      rw [produce_congr _ _ _ _ _ hnext]
      simp only [new_tuples, if_pos hmem]
      exact ih left t output_regs ht (fuel + 1) hB' hout
        (by simp only [List.length_cons] at hfuel; omega)
    · have hnext : Union.next
          { input_left := left, input_right := { regs := regs, rest := t :: B }, ht := ht,
            seen_input := true, output_regs := output_regs }
          = some (Union.mk left { regs := t, rest := B } (t :: ht) true t, true) := by
        simp [Union.next, while_next_cons, union_body_new ht output_regs t hmem hlen]
      simp only [new_tuples, if_neg hmem, produce, hnext]
      rw [ih left t t (t :: ht) fuel hB' (hB t (List.mem_cons_self _ _))
        (by simpa using hfuel)]
      rfl

theorem union_left (width : Nat) (B : List Tuple) (A : List Tuple) :
    ∀ (regs regs' output_regs : Tuple) (ht : List Tuple) (fuel : Nat),
      (∀ t ∈ A, t.length = width) → (∀ t ∈ B, t.length = width) →
      output_regs.length = width → A.length + B.length < fuel →
      produce Union.next Union.get_output fuel
        { input_left := { regs := regs, rest := A },
          input_right := { regs := regs', rest := B }, ht := ht,
          seen_input := false, output_regs := output_regs }
        = some (new_tuples ht (A ++ B)) := by
  induction A with
  | nil =>
    intro regs regs' output_regs ht fuel _ hB hout hfuel
    rw [produce_congr Union.next Union.get_output fuel _
      { input_left := { regs := regs, rest := [] },
        input_right := { regs := regs', rest := B }, ht := ht,
        seen_input := true, output_regs := output_regs }
      (by simp [Union.next, while_next_nil])]
    exact union_right width B _ regs' output_regs ht fuel hB hout (by simpa using hfuel)
  | cons t A ih =>
    intro regs regs' output_regs ht fuel hA hB hout hfuel
    obtain ⟨fuel, rfl⟩ : ∃ f, fuel = f + 1 := ⟨fuel - 1, by omega⟩
    have hlen : output_regs.length = t.length := by
      rw [hout, hA t (List.mem_cons_self _ _)]
    have hA' : ∀ u ∈ A, u.length = width := fun u hu => hA u (List.mem_cons_of_mem _ hu)
    by_cases hmem : t ∈ ht
    · have hnext : Union.next
          { input_left := { regs := regs, rest := t :: A },
            input_right := { regs := regs', rest := B }, ht := ht,
            seen_input := false, output_regs := output_regs }
          = Union.next
          { input_left := { regs := t, rest := A },
            input_right := { regs := regs', rest := B }, ht := ht,
            seen_input := false, output_regs := output_regs } := by
        simp [Union.next, while_next_cons, union_body_seen ht output_regs t hmem]
      rw [produce_congr _ _ _ _ _ hnext]
      simp only [List.cons_append, new_tuples, if_pos hmem]
      exact ih t regs' output_regs ht (fuel + 1) hA' hB hout
        (by simp only [List.length_cons] at hfuel; omega)
    · have hnext : Union.next
          { input_left := { regs := regs, rest := t :: A },
            input_right := { regs := regs', rest := B }, ht := ht,
            seen_input := false, output_regs := output_regs }
          = some (Union.mk { regs := t, rest := A } { regs := regs', rest := B } (t :: ht)
              false t, true) := by
        simp [Union.next, while_next_cons, union_body_new ht output_regs t hmem hlen]
      simp only [List.cons_append, new_tuples, if_neg hmem, produce, hnext]
      rw [ih t regs' t (t :: ht) fuel hA' hB (hA t (List.mem_cons_self _ _))
        (by simp only [List.length_cons] at hfuel; omega)]
      rfl

/-- C17: for inputs `A` and `B` whose tuples all have the width of the schema,
`Union` produces a sequence without repetition whose tuples are exactly the
tuples that occur in `A` or in `B`; `|A| + |B| + 1` calls of `next()`
suffice. -/
theorem union_distinct_tuples_once (A B : List Tuple) (width : Nat)
    (hA : ∀ t ∈ A, t.length = width) (hB : ∀ t ∈ B, t.length = width) :
    ∃ out, produce Union.next Union.get_output (A.length + B.length + 1)
        (Union.open (Source.scan width A) (Source.scan width B)) = some out ∧
      out.Nodup ∧ ∀ t, t ∈ out ↔ t ∈ A ∨ t ∈ B := by
  refine ⟨new_tuples [] (A ++ B), ?_, nodup_new_tuples _ _, fun t => ?_⟩
  · exact union_left width B A _ _ _ _ _ hA hB (by simp [Source.scan, Source.get_output])
      (by omega)
  · simp [mem_new_tuples]

/-- C17 (witness): inputs of width 1 with repeated and shared tuples. -/
theorem union_distinct_tuples_once_witness :
    ∃ out, produce Union.next Union.get_output 6
        (Union.open (Source.scan 1 [[Register.int 1], [Register.int 2], [Register.int 1]])
          (Source.scan 1 [[Register.int 2], [Register.int 3]])) = some out ∧
      out.Nodup ∧ ∀ t, t ∈ out ↔
        t ∈ [[Register.int 1], [Register.int 2], [Register.int 1]] ∨
        t ∈ [[Register.int 2], [Register.int 3]] :=
  union_distinct_tuples_once [[Register.int 1], [Register.int 2], [Register.int 1]]
    [[Register.int 2], [Register.int 3]] 1 (by decide) (by decide)

/-! ### Hash tables -/

theorem ht_find_set_self {κ ν : Type} [DecidableEq κ] (ht : List (κ × ν)) (key : κ)
    (value : ν) : ht_find (ht_set ht key value) key = some value := by
  induction ht with
  | nil => simp [ht_set, ht_find]
  | cons e ht ih =>
    obtain ⟨k, v⟩ := e
    by_cases h : k = key
    · simp [ht_set, ht_find, h]
    · simp [ht_set, ht_find, h, ih]

theorem ht_find_set_other {κ ν : Type} [DecidableEq κ] (ht : List (κ × ν)) (key key' : κ)
    (value : ν) (hne : key ≠ key') :
    ht_find (ht_set ht key value) key' = ht_find ht key' := by
  induction ht with
  | nil => simp [ht_set, ht_find, hne]
  | cons e ht ih =>
    obtain ⟨k, v⟩ := e
    by_cases h : k = key
    · subst h
      simp [ht_set, ht_find, hne]
    · by_cases h' : k = key'
      · subst h'
        simp [ht_set, ht_find, h]
      · simp [ht_set, ht_find, h, h', ih]

theorem counter_set (ht : List (Tuple × Nat)) (key t : Tuple) (value : Nat) :
    counter (ht_set ht key value) t = if key = t then value else counter ht t := by
  unfold counter
  by_cases h : key = t
  · subst h
    simp [ht_find_set_self]
  · simp [ht_find_set_other ht key t value h, h]

/-! ### Intersect and IntersectAll -/

theorem count_matched (B : List Tuple) :
    ∀ (ht : List (Tuple × Nat)) (t : Tuple),
      (matched ht B).count t = min (counter ht t) (B.count t) := by
  induction B with
  | nil => intro ht t; simp [matched]
  | cons u B ih =>
    intro ht t
    unfold matched
    by_cases hpos : 0 < counter ht u
    · rw [if_pos hpos, List.count_cons, List.count_cons, ih, counter_set]
      by_cases hut : u = t
      · subst hut
        simp only [if_true, beq_self_eq_true]
        omega
      · have : (u == t) = false := by simpa using hut
        simp only [if_neg hut, this]
        simp
    · rw [if_neg hpos, ih, List.count_cons]
      by_cases hut : u = t
      · subst hut
        have h0 : counter ht u = 0 := by omega
        simp [h0]
      · have : (u == t) = false := by simpa using hut
        simp [this]

theorem intersect_probe_hit (ht : List (Tuple × Nat)) (output_regs t : Tuple)
    (hpos : 0 < counter ht t) (hlen : output_regs.length = t.length) :
    Intersect.probe (ht, output_regs) t
      = some ((ht_set ht t (counter ht t - 1), t), true) := by
  unfold counter at hpos
  unfold Intersect.probe counter
  cases hf : ht_find ht t with
  | none => simp [hf] at hpos
  | some c =>
    have hc : 0 < c := by simpa [hf] using hpos
    have hcopy : copy_regs output_regs.length 0 t output_regs = some t := by
      rw [hlen]
      exact copy_regs_all t output_regs hlen
    simp [hc, hcopy]

theorem intersect_probe_miss (ht : List (Tuple × Nat)) (output_regs t : Tuple)
    (hpos : ¬ 0 < counter ht t) :
    Intersect.probe (ht, output_regs) t = some ((ht, output_regs), false) := by
  unfold counter at hpos
  unfold Intersect.probe
  cases hf : ht_find ht t with
  | none => rfl
  | some c =>
    have hc : ¬ 0 < c := by simpa [hf] using hpos
    simp [hc]

theorem intersect_right
    (count : List (Tuple × Nat) → Tuple → Option (List (Tuple × Nat) × Bool))
    (width : Nat) (B : List Tuple) :
    ∀ (left : Source) (regs output_regs : Tuple) (ht : List (Tuple × Nat)) (fuel : Nat),
      (∀ t ∈ B, t.length = width) → output_regs.length = width → B.length < fuel →
      produce (Intersect.next_with count) Intersect.get_output fuel
        { input_left := left, input_right := { regs := regs, rest := B }, ht := ht,
          seen_input := true, output_regs := output_regs } = some (matched ht B) := by
  induction B with
  | nil =>
    intro left regs output_regs ht fuel _ _ hfuel
    obtain ⟨fuel, rfl⟩ : ∃ f, fuel = f + 1 := ⟨fuel - 1, by omega⟩
    simp [produce, Intersect.next_with, while_next_nil, matched]
  | cons t B ih =>
    intro left regs output_regs ht fuel hB hout hfuel
    obtain ⟨fuel, rfl⟩ : ∃ f, fuel = f + 1 := ⟨fuel - 1, by omega⟩
    have hlen : output_regs.length = t.length := by
      rw [hout, hB t (List.mem_cons_self _ _)]
    have hB' : ∀ u ∈ B, u.length = width := fun u hu => hB u (List.mem_cons_of_mem _ hu)
    by_cases hpos : 0 < counter ht t
    · have hnext : Intersect.next_with count
          { input_left := left, input_right := { regs := regs, rest := t :: B }, ht := ht,
            seen_input := true, output_regs := output_regs }
          = some (Intersect.mk left { regs := t, rest := B }
              (ht_set ht t (counter ht t - 1)) true t, true) := by
        simp [Intersect.next_with, while_next_cons,
          intersect_probe_hit ht output_regs t hpos hlen]
      simp only [matched, if_pos hpos, produce, hnext]
      rw [ih left t t _ fuel hB' (hB t (List.mem_cons_self _ _)) (by simpa using hfuel)]
      rfl
    · have hnext : Intersect.next_with count
          { input_left := left, input_right := { regs := regs, rest := t :: B }, ht := ht,
            seen_input := true, output_regs := output_regs }
          = Intersect.next_with count
          { input_left := left, input_right := { regs := t, rest := B }, ht := ht,
            seen_input := true, output_regs := output_regs } := by
        simp [Intersect.next_with, while_next_cons,
          intersect_probe_miss ht output_regs t hpos]
      rw [produce_congr _ _ _ _ _ hnext]
      simp only [matched, if_neg hpos]
      exact ih left t output_regs ht (fuel + 1) hB' hout
        (by simp only [List.length_cons] at hfuel; omega)

theorem intersect_produce
    (count : List (Tuple × Nat) → Tuple → Option (List (Tuple × Nat) × Bool))
    (g : List (Tuple × Nat) → Tuple → List (Tuple × Nat))
    (hcount : ∀ ht t, count ht t = some (g ht t, false))
    (width : Nat) (A B : List Tuple) (hB : ∀ t ∈ B, t.length = width) (fuel : Nat)
    (hfuel : B.length < fuel) :
    produce (Intersect.next_with count) Intersect.get_output fuel
        (Intersect.open (Source.scan width A) (Source.scan width B))
      = some (matched (A.foldl g []) B) := by
  obtain ⟨regs', hbuild⟩ := while_next_fold count g A (List.replicate width (Register.int 0))
    [] (A.length + 1) (by omega) (fun pre t post _ => hcount _ t)
  rw [produce_congr (Intersect.next_with count) Intersect.get_output fuel _
    { input_left := { regs := regs', rest := [] },
      input_right := Source.scan width B, ht := A.foldl g [],
      seen_input := true,
      output_regs := List.replicate width (Register.int 0) }
    (by simp [Intersect.next_with, Intersect.open, Source.scan, Source.get_output, hbuild])]
  exact intersect_right count width B _ _ _ _ fuel hB (by simp) hfuel

theorem counter_fold_intersect (A : List Tuple) :
    ∀ (ht : List (Tuple × Nat)) (t : Tuple),
      counter (A.foldl (fun ht t => ht_set ht t 1) ht) t
        = if t ∈ A then 1 else counter ht t := by
  induction A with
  | nil => intro ht t; simp
  | cons a A ih =>
    intro ht t
    rw [List.foldl_cons, ih, counter_set]
    by_cases h1 : t ∈ A
    · simp [h1]
    · by_cases h2 : a = t
      · simp [h2]
      · have h3 : ¬ t = a := fun h => h2 h.symm
        simp [h1, h2, h3]

theorem counter_fold_intersect_all (A : List Tuple) :
    ∀ (ht : List (Tuple × Nat)) (t : Tuple),
      counter (A.foldl (fun ht t => ht_set ht t ((ht_find ht t).getD 0 + 1)) ht) t
        = counter ht t + A.count t := by
  induction A with
  | nil => intro ht t; simp
  | cons a A ih =>
    intro ht t
    rw [List.foldl_cons, ih, counter_set, List.count_cons]
    by_cases h2 : a = t
    · subst h2
      simp [counter]
      omega
    · have : (a == t) = false := by simpa using h2
      simp [h2, this]

/-- C19: for inputs `A` and `B` (the tuples of `B` have the width of the
schema), `Intersect` produces every tuple that occurs in `A` and in `B`
exactly once and no other tuple, whatever the multiplicities in `A` and `B`;
`|B| + 1` calls of `next()` suffice. -/
theorem intersect_common_tuples_once (A B : List Tuple) (width : Nat)
    (hB : ∀ t ∈ B, t.length = width) :
    ∃ out, produce Intersect.next Intersect.get_output (B.length + 1)
        (Intersect.open (Source.scan width A) (Source.scan width B)) = some out ∧
      ∀ t, out.count t = if t ∈ A ∧ t ∈ B then 1 else 0 := by
  refine ⟨_, intersect_produce Intersect.count (fun ht t => ht_set ht t 1)
    (fun _ _ => rfl) width A B hB _ (by omega), fun t => ?_⟩
  rw [count_matched, counter_fold_intersect]
  by_cases h1 : t ∈ A
  · by_cases h2 : t ∈ B
    · have := List.count_pos_iff.2 h2
      simp only [h1, h2, and_self, if_true]
      omega
    · simp [h1, h2, List.count_eq_zero_of_not_mem h2]
  · simp [h1, counter, ht_find]

/-- C19 (witness): a tuple three times on the left and twice on the right. -/
theorem intersect_common_tuples_once_witness :
    ∃ out, produce Intersect.next Intersect.get_output 4
        (Intersect.open
          (Source.scan 1 [[Register.int 1], [Register.int 1], [Register.int 1],
            [Register.int 2]])
          (Source.scan 1 [[Register.int 1], [Register.int 3], [Register.int 1]])) = some out ∧
      ∀ t, out.count t =
        if t ∈ [[Register.int 1], [Register.int 1], [Register.int 1], [Register.int 2]] ∧
          t ∈ [[Register.int 1], [Register.int 3], [Register.int 1]] then 1 else 0 :=
  intersect_common_tuples_once
    [[Register.int 1], [Register.int 1], [Register.int 1], [Register.int 2]]
    [[Register.int 1], [Register.int 3], [Register.int 1]] 1 (by decide)

/-- C20: for inputs `A` and `B` (the tuples of `B` have the width of the
schema) and every tuple `t`, `IntersectAll` produces `t` exactly
`min(A[t], B[t])` times; `|B| + 1` calls of `next()` suffice. -/
theorem intersect_all_min_multiplicity (A B : List Tuple) (width : Nat)
    (hB : ∀ t ∈ B, t.length = width) :
    ∃ out, produce IntersectAll.next Intersect.get_output (B.length + 1)
        (Intersect.open (Source.scan width A) (Source.scan width B)) = some out ∧
      ∀ t, out.count t = min (A.count t) (B.count t) := by
  refine ⟨_, intersect_produce IntersectAll.count
    (fun ht t => ht_set ht t ((ht_find ht t).getD 0 + 1))
    (fun _ _ => rfl) width A B hB _ (by omega), fun t => ?_⟩
  rw [count_matched, counter_fold_intersect_all]
  simp [counter, ht_find]

/-- C20 (witness): a tuple three times on the left and twice on the right. -/
theorem intersect_all_min_multiplicity_witness :
    ∃ out, produce IntersectAll.next Intersect.get_output 4
        (Intersect.open
          (Source.scan 1 [[Register.int 1], [Register.int 1], [Register.int 1],
            [Register.int 2]])
          (Source.scan 1 [[Register.int 1], [Register.int 3], [Register.int 1]])) = some out ∧
      ∀ t, out.count t =
        min ([[Register.int 1], [Register.int 1], [Register.int 1], [Register.int 2]].count t)
          ([[Register.int 1], [Register.int 3], [Register.int 1]].count t) :=
  intersect_all_min_multiplicity
    [[Register.int 1], [Register.int 1], [Register.int 1], [Register.int 2]]
    [[Register.int 1], [Register.int 3], [Register.int 1]] 1 (by decide)

/-! ### HashJoin -/

theorem ht_find_append {κ ν : Type} [DecidableEq κ] (ht : List (κ × ν)) (key key' : κ)
    (value : ν) :
    ht_find (ht ++ [(key, value)]) key'
      = match ht_find ht key' with
        | some v => some v
        | none => if key = key' then some value else none := by
  induction ht with
  | nil => simp [ht_find]
  | cons e ht ih =>
    obtain ⟨k, v⟩ := e
    by_cases h : k = key'
    · simp [ht_find, h]
    · simp [ht_find, h, ih]

theorem ht_find_emplace {κ ν : Type} [DecidableEq κ] (ht : List (κ × ν)) (key key' : κ)
    (value : ν) :
    ht_find (ht_emplace ht key value) key'
      = match ht_find ht key' with
        | some v => some v
        | none => if key = key' then some value else none := by
  unfold ht_emplace
  cases hk : ht_find ht key with
  | none => simp only [ht_find_append]
  | some v =>
    simp only
    cases hk' : ht_find ht key' with
    | some v' => rfl
    | none =>
      have : key ≠ key' := by
        intro h
        rw [h, hk'] at hk
        exact Option.noConfusion hk
      simp [this]

theorem ht_find_built (li : Nat) (left : List Tuple) (key : Register) :
    ∀ (ht : List (Register × Tuple)),
      ht_find (left.foldl (built li) ht) key
        = match ht_find ht key with
          | some l => some l
          | none => left.find? (fun l => decide (l[li]? = some key)) := by
  induction left with
  | nil =>
    intro ht
    cases h : ht_find ht key <;> simp [h]
  | cons a left ih =>
    intro ht
    rw [List.foldl_cons, ih]
    unfold built
    cases ha : a[li]? with
    | none => simp [List.find?_cons, ha]
    | some k =>
      simp only [ht_find_emplace]
      cases hf : ht_find ht key with
      | some l => rfl
      | none =>
        by_cases hk : k = key
        · subst hk
          simp [List.find?_cons, ha]
        · simp [hk, List.find?_cons, ha]

theorem filter_eq_find_toList {α β : Type} [DecidableEq β] (f : α → β) (x : β) (l : List α)
    (h : (l.map f).Nodup) :
    l.filter (fun a => decide (f a = x)) = (l.find? (fun a => decide (f a = x))).toList := by
  induction l with
  | nil => rfl
  | cons a l ih =>
    rw [List.map_cons, List.nodup_cons] at h
    by_cases ha : f a = x
    · have hnone : l.filter (fun b => decide (f b = x)) = [] := by
        rw [List.filter_eq_nil_iff]
        intro b hb
        have : f b ≠ x := fun hbx => h.1 (by rw [ha, ← hbx]; exact List.mem_map_of_mem f hb)
        simpa using this
      simp [List.filter_cons, List.find?_cons, ha, hnone]
    · simp [List.filter_cons, List.find?_cons, ha, ih h.2]

theorem copy_regs_concat (l r output_regs : Tuple)
    (h : output_regs.length = l.length + r.length) :
    copy_regs l.length 0 l output_regs = some (l ++ output_regs.drop l.length) ∧
    copy_regs r.length l.length r (l ++ output_regs.drop l.length) = some (l ++ r) := by
  constructor
  · rw [copy_regs_eq l 0 l.length output_regs (le_refl _) (by omega)]
    simp
  · rw [copy_regs_eq r l.length r.length _ (le_refl _) (by simp; omega)]
    have hd : List.drop (l.length + r.length) (l ++ List.drop l.length output_regs) = [] := by
      apply List.drop_eq_nil_of_le
      simp
      omega
    simp [hd]

theorem hash_join_probe_eq (ri : Nat) (ht : List (Register × Tuple)) (wl wr : Nat)
    (output_regs r : Tuple) (hri : ri < r.length) (hr : r.length = wr)
    (hht : ∀ key l, ht_find ht key = some l → l.length = wl)
    (hout : output_regs.length = wl + wr) :
    HashJoin.probe ri ht output_regs r
      = match probed ri ht r with
        | none => some (output_regs, false)
        | some t => some (t, true) := by
  have hkey : r[ri]? = some r[ri] := List.getElem?_eq_getElem hri
  unfold HashJoin.probe probed
  rw [hkey]
  cases hf : ht_find ht r[ri] with
  | none => simp [hf]
  | some l =>
    have hl := hht _ _ hf
    obtain ⟨h1, h2⟩ := copy_regs_concat l r output_regs (by omega)
    simp [hf, h1, h2]

theorem hash_join_right (li ri wl wr : Nat) (ht : List (Register × Tuple))
    (hht : ∀ key l, ht_find ht key = some l → l.length = wl) (B : List Tuple) :
    ∀ (lregs regs output_regs : Tuple) (fuel : Nat),
      (∀ r ∈ B, ri < r.length ∧ r.length = wr) → output_regs.length = wl + wr →
      B.length < fuel →
      produce HashJoin.next HashJoin.get_output fuel
        { input_left := { regs := lregs, rest := [] },
          input_right := { regs := regs, rest := B },
          attr_index_left := li, attr_index_right := ri, ht := ht, ht_build := false,
          output_regs := output_regs } = some (B.filterMap (probed ri ht)) := by
  induction B with
  | nil =>
    intro lregs regs output_regs fuel _ _ hfuel
    obtain ⟨fuel, rfl⟩ : ∃ f, fuel = f + 1 := ⟨fuel - 1, by omega⟩
    simp [produce, HashJoin.next, while_next_nil]
  | cons r B ih =>
    intro lregs regs output_regs fuel hB hout hfuel
    obtain ⟨fuel, rfl⟩ : ∃ f, fuel = f + 1 := ⟨fuel - 1, by omega⟩
    obtain ⟨hri, hr⟩ := hB r (List.mem_cons_self _ _)
    have hB' : ∀ u ∈ B, ri < u.length ∧ u.length = wr :=
      fun u hu => hB u (List.mem_cons_of_mem _ hu)
    have hprobe := hash_join_probe_eq ri ht wl wr output_regs r hri hr hht hout
    cases hp : probed ri ht r with
    | none =>
      rw [hp] at hprobe
      have hnext : HashJoin.next
          { input_left := { regs := lregs, rest := [] },
            input_right := { regs := regs, rest := r :: B },
            attr_index_left := li, attr_index_right := ri, ht := ht, ht_build := false,
            output_regs := output_regs }
          = HashJoin.next
          { input_left := { regs := lregs, rest := [] },
            input_right := { regs := r, rest := B },
            attr_index_left := li, attr_index_right := ri, ht := ht, ht_build := false,
            output_regs := output_regs } := by
        simp [HashJoin.next, while_next_nil, while_next_cons, hprobe]
      rw [produce_congr _ _ _ _ _ hnext, List.filterMap_cons_none hp]
      exact ih lregs r output_regs (fuel + 1) hB' hout
        (by simp only [List.length_cons] at hfuel; omega)
    | some t =>
      rw [hp] at hprobe
      have hnext : HashJoin.next
          { input_left := { regs := lregs, rest := [] },
            input_right := { regs := regs, rest := r :: B },
            attr_index_left := li, attr_index_right := ri, ht := ht, ht_build := false,
            output_regs := output_regs }
          = some (HashJoin.mk { regs := lregs, rest := [] } { regs := r, rest := B }
              li ri ht false t, true) := by
        simp [HashJoin.next, while_next_nil, while_next_cons, hprobe]
      have ht_len : t.length = wl + wr := by
        unfold probed at hp
        rw [List.getElem?_eq_getElem hri] at hp
        cases hf : ht_find ht r[ri] with
        | none => simp [hf] at hp
        | some l =>
          simp only [hf, Option.some.injEq] at hp
          rw [← hp, List.length_append, hht _ _ hf, hr]
      simp only [produce, hnext, List.filterMap_cons_some hp]
      rw [ih lregs r t fuel hB' ht_len (by simpa using hfuel)]
      rfl

/-- C13: for a left input whose tuples have pairwise distinct values at the
attribute `li` and any right input (all tuples have the attribute and the
width of their schema), `HashJoin` produces the equi-join in the order of the
right input: for every right tuple `r` whose `r[ri]` equals `l[li]` for a
left tuple `l` the tuple `l ++ r`, and nothing for a right tuple without
match; `|right| + 1` calls of `next()` suffice. -/
theorem hash_join_produces_equi_join (left right : List Tuple) (li ri wl wr : Nat)
    (hdistinct : (left.map (fun l => l[li]?)).Nodup)
    (hleft : ∀ l ∈ left, li < l.length ∧ l.length = wl)
    (hright : ∀ r ∈ right, ri < r.length ∧ r.length = wr) :
    produce HashJoin.next HashJoin.get_output (right.length + 1)
        (HashJoin.open (Source.scan wl left) (Source.scan wr right) li ri)
      = some (equi_join left right li ri) := by
  -- the build loop of the first call
  obtain ⟨regs', hbuild⟩ := while_next_fold (HashJoin.build li) (built li) left
    (List.replicate wl (Register.int 0)) [] (left.length + 1) (by omega)
    (fun pre t post hsplit => by
      have ht : t ∈ left := by rw [hsplit]; simp
      have hin := (hleft t ht).1
      simp [HashJoin.build, built, List.getElem?_eq_getElem hin])
  have hfind : ∀ key, ht_find (left.foldl (built li) []) key
      = left.find? (fun l => decide (l[li]? = some key)) := by
    intro key
    rw [ht_find_built]
    rfl
  have hht : ∀ key l, ht_find (left.foldl (built li) []) key = some l → l.length = wl := by
    intro key l hl
    rw [hfind] at hl
    exact (hleft l (List.mem_of_find?_eq_some hl)).2
  rw [produce_congr HashJoin.next HashJoin.get_output _ _
    { input_left := { regs := regs', rest := [] },
      input_right := { regs := List.replicate wr (Register.int 0), rest := right },
      attr_index_left := li, attr_index_right := ri, ht := left.foldl (built li) [],
      ht_build := false,
      output_regs := List.replicate (wl + wr) (Register.int 0) }
    (by simp [HashJoin.next, HashJoin.open, Source.scan, Source.get_output, hbuild,
      while_next_nil])]
  rw [hash_join_right li ri wl wr _ hht right _ _ _ _ hright (by simp) (by omega)]
  -- the probes are the equi-join
  congr 1
  unfold equi_join
  rw [List.filterMap_eq_flatMap_toList]
  apply List.flatMap_congr
  intro r hr
  obtain ⟨key, hkey⟩ : ∃ key, r[ri]? = some key :=
    ⟨_, List.getElem?_eq_getElem (hright r hr).1⟩
  rw [hkey, filter_eq_find_toList (fun l => l[li]?) (some key) left hdistinct]
  unfold probed
  rw [hkey]
  simp only [hfind]
  cases left.find? (fun l => decide (l[li]? = some key)) <;> rfl

/-- C13 (witness and worked example): left `{(1,"a"), (2,"b")}` and right
`{(2,"x"), (3,"y")}` joined on attribute 0 give exactly `[(2,"b",2,"x")]`. -/
theorem hash_join_produces_equi_join_witness :
    produce HashJoin.next HashJoin.get_output 3
        (HashJoin.open
          (Source.scan 2 [[Register.int 1, Register.str "a"], [Register.int 2, Register.str "b"]])
          (Source.scan 2 [[Register.int 2, Register.str "x"], [Register.int 3, Register.str "y"]])
          0 0)
      = some [[Register.int 2, Register.str "b", Register.int 2, Register.str "x"]] :=
  hash_join_produces_equi_join
    [[Register.int 1, Register.str "a"], [Register.int 2, Register.str "b"]]
    [[Register.int 2, Register.str "x"], [Register.int 3, Register.str "y"]] 0 0 2 2
    (by decide) (by decide) (by decide)

/-! ### Stable sorting -/

theorem ordered_insert_spec {α K : Type} [LinearOrder K] (k : α → K)
    (comp : α → α → Option Bool) (a : α) (s : List α) :
    (∀ b ∈ s, comp b a = some (decide (k b < k a))) →
    ∃ out, ordered_insert comp a s = some out ∧ out.Perm (a :: s) ∧
      (s.Pairwise (fun x y => k x ≤ k y) → out.Pairwise (fun x y => k x ≤ k y)) ∧
      ∀ x : K, out.filter (fun y => decide (k y = x))
        = (a :: s).filter (fun y => decide (k y = x)) := by
  induction s with
  | nil =>
    intro _
    exact ⟨[a], rfl, List.Perm.refl _, fun _ => List.pairwise_singleton _ _, fun _ => rfl⟩
  | cons b s ih =>
    intro hcomp
    have hb := hcomp b (List.mem_cons_self _ _)
    obtain ⟨out', hout', hperm', hsorted', hfilter'⟩ :=
      ih (fun c hc => hcomp c (List.mem_cons_of_mem _ hc))
    by_cases hlt : k b < k a
    · refine ⟨b :: out', ?_, ?_, ?_, ?_⟩
      · simp [ordered_insert, hb, hlt, hout']
      · exact (hperm'.cons b).trans (List.Perm.swap a b s)
      · intro hs
        rw [List.pairwise_cons] at hs ⊢
        refine ⟨fun y hy => ?_, hsorted' hs.2⟩
        rcases List.mem_cons.1 (hperm'.mem_iff.1 hy) with rfl | hy
        · exact le_of_lt hlt
        · exact hs.1 y hy
      · intro x
        by_cases hax : k a = x
        · have hbx : k b ≠ x := fun h => by rw [h, ← hax] at hlt; exact lt_irrefl _ hlt
          simp only [List.filter_cons, hax, hbx, decide_True, decide_False, if_true,
            Bool.false_eq_true, if_false]
          simpa [List.filter_cons, hax] using hfilter' x
        · have := hfilter' x
          simp only [List.filter_cons, hax, decide_False, Bool.false_eq_true, if_false]
            at this ⊢
          rw [this]
    · refine ⟨a :: b :: s, ?_, List.Perm.refl _, ?_, fun _ => rfl⟩
      · simp [ordered_insert, hb, hlt]
      · intro hs
        rw [List.pairwise_cons]
        refine ⟨fun y hy => ?_, hs⟩
        have hab : k a ≤ k b := not_lt.1 hlt
        rcases List.mem_cons.1 hy with rfl | hy
        · exact hab
        · exact le_trans hab ((List.pairwise_cons.1 hs).1 y hy)

/-- The result of a stable sort with a comparison that, on the elements of the
sequence, is the strict order of a key in a linear order: a permutation,
sorted by the key, in which the elements of each key keep their order. -/
theorem stable_sort_spec {α K : Type} [LinearOrder K] (k : α → K)
    (comp : α → α → Option Bool) (l : List α) :
    (∀ a ∈ l, ∀ b ∈ l, comp a b = some (decide (k a < k b))) →
    ∃ out, stable_sort comp l = some out ∧ out.Perm l ∧
      out.Pairwise (fun x y => k x ≤ k y) ∧
      ∀ x : K, out.filter (fun y => decide (k y = x))
        = l.filter (fun y => decide (k y = x)) := by
  induction l with
  | nil =>
    intro _
    exact ⟨[], rfl, List.Perm.refl _, List.Pairwise.nil, fun _ => rfl⟩
  | cons a l ih =>
    intro hcomp
    obtain ⟨s, hs, hperm, hsorted, hfilter⟩ := ih (fun x hx y hy =>
      hcomp x (List.mem_cons_of_mem _ hx) y (List.mem_cons_of_mem _ hy))
    obtain ⟨out, hout, hperm', hsorted', hfilter'⟩ := ordered_insert_spec k comp a s
      (fun b hb => hcomp b (List.mem_cons_of_mem _ (hperm.mem_iff.1 hb)) a
        (List.mem_cons_self _ _))
    refine ⟨out, ?_, hperm'.trans (hperm.cons a), hsorted' hsorted, fun x => ?_⟩
    · simp [stable_sort, hs, hout]
    · rw [hfilter' x, List.filter_cons, List.filter_cons, hfilter x]

theorem rank_injective (x y : Register) (h : Register.rank x = Register.rank y) : x = y := by
  cases x <;> cases y <;> simp [Register.rank] at h <;> simp [h]

theorem rank_lt_iff (x y : Register) (h : x.get_type = y.get_type) :
    Register.rank x < Register.rank y ↔ Register.Less x y := by
  cases x <;> cases y <;> simp [Register.get_type] at h
  · exact Sum.Lex.inl_lt_inl_iff
  · exact Sum.Lex.inr_lt_inr_iff

/-! ### Sort -/

theorem sort_by_key_spec {K : Type} [LinearOrder K] (c : Criterion) (k : Tuple → K)
    (l : List Tuple)
    (hcomp : ∀ a ∈ l, ∀ b ∈ l, SortOperator.comp c a b = some (decide (k a < k b)))
    (hbefore : ∀ a ∈ l, ∀ b ∈ l, k a < k b → c.before a b)
    (htie : ∀ a ∈ l, ∀ b ∈ l, k a = k b → c.tie a b)
    (hclass : ∀ t : Tuple,
      (∀ u ∈ l, decide (u[c.attr_index]? = t[c.attr_index]?) = false) ∨
      ∃ x, ∀ u ∈ l, decide (u[c.attr_index]? = t[c.attr_index]?) = decide (k u = x)) :
    ∃ out, stable_sort (SortOperator.comp c) l = some out ∧ out.Perm l ∧
      (∀ a b, [a, b].Sublist out → c.before a b ∨ (c.tie a b ∧ [a, b].Sublist l)) ∧
      ∀ t : Tuple, out.filter (fun u => decide (u[c.attr_index]? = t[c.attr_index]?))
        = l.filter (fun u => decide (u[c.attr_index]? = t[c.attr_index]?)) := by
  obtain ⟨out, hout, hperm, hsorted, hfilter⟩ := stable_sort_spec k (SortOperator.comp c) l hcomp
  refine ⟨out, hout, hperm, ?_, ?_⟩
  · intro a b hab
    have ha : a ∈ l := hperm.mem_iff.1 (hab.subset (List.mem_cons_self _ _))
    have hb : b ∈ l := hperm.mem_iff.1
      (hab.subset (List.mem_cons_of_mem _ (List.mem_cons_self _ _)))
    have hle : k a ≤ k b := List.pairwise_iff_forall_sublist.1 hsorted hab
    rcases lt_or_eq_of_le hle with hlt | heq
    · exact Or.inl (hbefore a ha b hb hlt)
    · refine Or.inr ⟨htie a ha b hb heq, ?_⟩
      have h1 := hab.filter (fun y => decide (k y = k a))
      have h2 : [a, b].filter (fun y => decide (k y = k a)) = [a, b] := by
        simp [List.filter_cons, heq]
      rw [h2, hfilter] at h1
      exact h1.trans (List.filter_sublist _)
  · intro t
    rcases hclass t with hnone | ⟨x, hx⟩
    · have h1 : out.filter (fun u => decide (u[c.attr_index]? = t[c.attr_index]?)) = [] :=
        List.filter_eq_nil_iff.2 (fun u hu => by
          rw [hnone u (hperm.mem_iff.1 hu)]
          exact Bool.false_ne_true)
      have h2 : l.filter (fun u => decide (u[c.attr_index]? = t[c.attr_index]?)) = [] :=
        List.filter_eq_nil_iff.2 (fun u hu => by
          rw [hnone u hu]
          exact Bool.false_ne_true)
      rw [h1, h2]
    · rw [List.filter_congr (fun u hu => hx u (hperm.mem_iff.1 hu)), List.filter_congr hx]
      exact hfilter x

theorem sort_by_criterion_spec (c : Criterion) (l : List Tuple) (ty : RegisterType)
    (htyped : ∀ t ∈ l, ∃ r, t[c.attr_index]? = some r ∧ r.get_type = ty) :
    ∃ out, stable_sort (SortOperator.comp c) l = some out ∧ out.Perm l ∧
      (∀ a b, [a, b].Sublist out → c.before a b ∨ (c.tie a b ∧ [a, b].Sublist l)) ∧
      ∀ t : Tuple, out.filter (fun u => decide (u[c.attr_index]? = t[c.attr_index]?))
        = l.filter (fun u => decide (u[c.attr_index]? = t[c.attr_index]?)) := by
  have hclass : ∀ (K : Type) (_ : LinearOrder K) (e : (Int ⊕ₗ String) → K)
      (_ : ∀ x y, e x = e y → x = y) (t : Tuple),
      (∀ u ∈ l, decide (u[c.attr_index]? = t[c.attr_index]?) = false) ∨
      ∃ x, ∀ u ∈ l, decide (u[c.attr_index]? = t[c.attr_index]?)
        = decide (e (c.key u) = x) := by
    intro K _ e he t
    cases ht : t[c.attr_index]? with
    | none =>
      left
      intro u hu
      obtain ⟨r, hr, _⟩ := htyped u hu
      simp [hr]
    | some r =>
      right
      refine ⟨e (Register.rank r), fun u hu => ?_⟩
      obtain ⟨y, hy, _⟩ := htyped u hu
      rw [hy, Bool.eq_iff_iff]
      simp only [decide_eq_true_eq, Option.some.injEq, Criterion.key, hy, Option.getD_some]
      constructor
      · intro h
        rw [h]
      · intro h
        exact rank_injective _ _ (he _ _ h)
  cases hdesc : c.desc
  · -- ascending
    apply sort_by_key_spec c c.key l
    · intro a ha b hb
      obtain ⟨x, hx, hxt⟩ := htyped a ha
      obtain ⟨y, hy, hyt⟩ := htyped b hb
      have hty : x.get_type = y.get_type := by rw [hxt, hyt]
      simp only [SortOperator.comp, hx, hy, hdesc, Bool.not_false, if_true, Criterion.key,
        Option.getD_some, register_lt_eq x y hty, rank_lt_iff x y hty]
    · intro a ha b hb hlt
      obtain ⟨x, hx, hxt⟩ := htyped a ha
      obtain ⟨y, hy, hyt⟩ := htyped b hb
      have hty : x.get_type = y.get_type := by rw [hxt, hyt]
      simp only [Criterion.key, hx, hy, Option.getD_some, rank_lt_iff x y hty] at hlt
      simpa [Criterion.before, hx, hy, hdesc] using hlt
    · intro a ha b hb heq
      obtain ⟨x, hx, _⟩ := htyped a ha
      obtain ⟨y, hy, _⟩ := htyped b hb
      simp only [Criterion.key, hx, hy, Option.getD_some] at heq
      rw [Criterion.tie, hx, hy, rank_injective x y heq]
    · exact hclass _ inferInstance id (fun _ _ h => h)
  · -- descending
    apply sort_by_key_spec c (fun t => OrderDual.toDual (c.key t)) l
    · intro a ha b hb
      obtain ⟨x, hx, hxt⟩ := htyped a ha
      obtain ⟨y, hy, hyt⟩ := htyped b hb
      have hty : x.get_type = y.get_type := by rw [hxt, hyt]
      simp only [SortOperator.comp, hx, hy, hdesc, Bool.not_true, Bool.false_eq_true, if_false,
        Criterion.key, Option.getD_some, register_gt_eq x y hty, OrderDual.toDual_lt_toDual,
        rank_lt_iff y x hty.symm]
    · intro a ha b hb hlt
      obtain ⟨x, hx, hxt⟩ := htyped a ha
      obtain ⟨y, hy, hyt⟩ := htyped b hb
      have hty : x.get_type = y.get_type := by rw [hxt, hyt]
      simp only [Criterion.key, hx, hy, Option.getD_some, OrderDual.toDual_lt_toDual,
        rank_lt_iff y x hty.symm] at hlt
      simpa [Criterion.before, hx, hy, hdesc] using hlt
    · intro a ha b hb heq
      obtain ⟨x, hx, _⟩ := htyped a ha
      obtain ⟨y, hy, _⟩ := htyped b hb
      simp only [Criterion.key, hx, hy, Option.getD_some, EmbeddingLike.apply_eq_iff_eq]
        at heq
      rw [Criterion.tie, hx, hy, rank_injective x y heq]
    · exact hclass _ inferInstance OrderDual.toDual (fun _ _ h => OrderDual.toDual_inj.1 h)

/-- Sorting stably by the criteria from the last to the first gives the
lexicographic order of the criteria and keeps tying tuples in their order. -/
theorem sort_by_criteria_spec (criteria : List Criterion) (l : List Tuple) :
    (∀ c ∈ criteria, ∃ ty, ∀ t ∈ l, ∃ r, t[c.attr_index]? = some r ∧ r.get_type = ty) →
    ∃ out, criteria.reverse.foldlM (fun sorted criterion =>
        stable_sort (SortOperator.comp criterion) sorted) l = some out ∧
      out.Perm l ∧ out.Pairwise (LexLe criteria) ∧
      ∀ t, out.filter (ties criteria t) = l.filter (ties criteria t) := by
  induction criteria with
  | nil =>
    intro _
    refine ⟨l, rfl, List.Perm.refl _, ?_, fun t => rfl⟩
    exact List.pairwise_iff_forall_sublist.2 (fun _ => trivial)
  | cons c criteria ih =>
    intro htyped
    obtain ⟨mid, hmid, hperm, hsorted, hfilter⟩ :=
      ih (fun c' hc' => htyped c' (List.mem_cons_of_mem _ hc'))
    obtain ⟨ty, hty⟩ := htyped c (List.mem_cons_self _ _)
    obtain ⟨out, hout, hperm', hsub, hfilter'⟩ := sort_by_criterion_spec c mid ty
      (fun t ht => hty t (hperm.mem_iff.1 ht))
    refine ⟨out, ?_, hperm'.trans hperm, ?_, fun t => ?_⟩
    · rw [List.reverse_cons, List.foldlM_append, hmid]
      simp [hout]
    · refine List.pairwise_iff_forall_sublist.2 (fun {a b} hab => ?_)
      rcases hsub a b hab with h | ⟨h1, h2⟩
      · exact Or.inl h
      · exact Or.inr ⟨h1, List.pairwise_iff_forall_sublist.1 hsorted h2⟩
    · have hsplit : ∀ l' : List Tuple, l'.filter (ties (c :: criteria) t)
          = (l'.filter (fun u => decide (u[c.attr_index]? = t[c.attr_index]?))).filter
              (ties criteria t) := by
        intro l'
        rw [List.filter_filter]
        apply List.filter_congr
        intro u _
        simp [ties, Bool.and_comm]
      rw [hsplit out, hsplit l, hfilter' t, List.filter_comm, hfilter t, List.filter_comm]

theorem foldl_push (l : List Tuple) :
    ∀ acc : List Tuple, l.foldl (fun sorted t => sorted ++ [t]) acc = acc ++ l := by
  induction l with
  | nil => intro acc; simp
  | cons a l ih => intro acc; simp [ih]

theorem sort_next_later (input : Source) (criteria : List Criterion) (sorted : List Tuple)
    (k : Nat) (output_regs : Tuple) (hk : k ≠ 0) :
    SortOperator.next
        { input := input, criteria := criteria, sorted := sorted, next_output_offset := k,
          output_regs := output_regs }
      = if k ≠ sorted.length then
          match sorted[k]? with
          | none => none
          | some t => some (SortOperator.mk input criteria sorted (k + 1) t, true)
        else some (SortOperator.mk input criteria sorted k output_regs, false) := by
  unfold SortOperator.next
  simp only [hk, if_false, Option.bind_eq_bind, Option.some_bind]
  split
  · cases sorted[k]? <;> rfl
  · rfl

theorem sort_next_first (regs : Tuple) (input : List Tuple) (criteria : List Criterion)
    (output_regs : Tuple) (out : List Tuple)
    (hout : criteria.reverse.foldlM (fun sorted criterion =>
        stable_sort (SortOperator.comp criterion) sorted) input = some out) :
    ∃ regs', SortOperator.next
        { input := { regs := regs, rest := input }, criteria := criteria, sorted := [],
          next_output_offset := 0, output_regs := output_regs }
      = match out with
        | [] => some (SortOperator.mk { regs := regs', rest := [] } criteria [] 0 output_regs,
            false)
        | t :: out' => some (SortOperator.mk { regs := regs', rest := [] } criteria
            (t :: out') 1 t, true) := by
  obtain ⟨regs', hload⟩ := while_next_fold
    (fun (sorted : List Tuple) (input_regs : Tuple) => some (sorted ++ [input_regs], false))
    (fun sorted t => sorted ++ [t]) input regs []
    (input.length + 1) (by omega) (fun _ _ _ _ => rfl)
  rw [foldl_push, List.nil_append] at hload
  refine ⟨regs', ?_⟩
  unfold SortOperator.next
  simp only [if_true, Option.bind_eq_bind, hload, Option.some_bind, hout]
  cases out with
  | nil => rfl
  | cons t out' => simp

theorem sort_stream (input : Source) (criteria : List Criterion) (sorted : List Tuple) :
    ∀ (n k : Nat) (output_regs : Tuple) (fuel : Nat),
      sorted.length - k = n → 0 < k → k ≤ sorted.length → n < fuel →
      produce SortOperator.next SortOperator.get_output fuel
        { input := input, criteria := criteria, sorted := sorted, next_output_offset := k,
          output_regs := output_regs } = some (sorted.drop k) := by
  intro n
  induction n with
  | zero =>
    intro k output_regs fuel hn hk hle hfuel
    obtain ⟨fuel, rfl⟩ : ∃ f, fuel = f + 1 := ⟨fuel - 1, by omega⟩
    have hk' : k = sorted.length := by omega
    have hnext := sort_next_later input criteria sorted k output_regs (by omega)
    rw [if_neg (by omega)] at hnext
    simp only [produce, hnext]
    rw [hk', List.drop_length]
  | succ n ih =>
    intro k output_regs fuel hn hk hle hfuel
    obtain ⟨fuel, rfl⟩ : ∃ f, fuel = f + 1 := ⟨fuel - 1, by omega⟩
    have hlt : k < sorted.length := by omega
    have hget : sorted[k]? = some sorted[k] := List.getElem?_eq_getElem hlt
    have hnext := sort_next_later input criteria sorted k output_regs (by omega)
    rw [if_pos (by omega), hget] at hnext
    simp only [produce, hnext]
    rw [ih (k + 1) sorted[k] fuel (by omega) (by omega) (by omega) (by omega)]
    simp only [SortOperator.get_output]
    rw [← List.drop_eq_getElem_cons hlt]

/-- C12: for an input in which, for every criterion, all tuples have the
attribute of the criterion with one and the same variant, `Sort` produces a
permutation of the input that is ordered lexicographically by the criteria
(the first criterion is the most significant, ascending unless `desc`), and
the tuples that tie with a given tuple on all criteria appear in their input
order; `|input| + 1` calls of `next()` suffice. -/
theorem sort_lexicographic_stable (input : List Tuple) (criteria : List Criterion)
    (width : Nat)
    (htyped : ∀ c ∈ criteria, ∃ ty, ∀ t ∈ input,
      ∃ r, t[c.attr_index]? = some r ∧ r.get_type = ty) :
    ∃ out, produce SortOperator.next SortOperator.get_output (input.length + 1)
        (SortOperator.open (Source.scan width input) criteria) = some out ∧
      out.Perm input ∧ out.Pairwise (LexLe criteria) ∧
      ∀ t, out.filter (ties criteria t) = input.filter (ties criteria t) := by
  obtain ⟨out, hout, hperm, hsorted, hfilter⟩ := sort_by_criteria_spec criteria input htyped
  refine ⟨out, ?_, hperm, hsorted, hfilter⟩
  obtain ⟨regs', hnext⟩ := sort_next_first (List.replicate width (Register.int 0)) input
    criteria (List.replicate width (Register.int 0)) out hout
  have hopen : SortOperator.open (Source.scan width input) criteria
      = { input := { regs := List.replicate width (Register.int 0), rest := input },
          criteria := criteria, sorted := [], next_output_offset := 0,
          output_regs := List.replicate width (Register.int 0) } := by
    simp [SortOperator.open, Source.scan, Source.get_output]
  rw [hopen]
  have hlen : out.length = input.length := hperm.length_eq
  cases out with
  | nil => simp only [produce, hnext]
  | cons t out' =>
    simp only [produce, hnext]
    rw [sort_stream _ criteria (t :: out') (t :: out').length.pred 1 t input.length rfl
      (by omega) (by simp) (by rw [← hlen]; simp)]
    rfl

/-- C12 (witness): four tuples sorted by attribute 1 descending, then by
attribute 0 ascending. -/
theorem sort_lexicographic_stable_witness :
    ∃ out, produce SortOperator.next SortOperator.get_output 5
        (SortOperator.open (Source.scan 2
          [[Register.int 1, Register.int 10], [Register.int 1, Register.int 20],
           [Register.int 2, Register.int 5], [Register.int 0, Register.int 20]])
          [{ attr_index := 1, desc := true }, { attr_index := 0, desc := false }]) = some out ∧
      out.Perm [[Register.int 1, Register.int 10], [Register.int 1, Register.int 20],
           [Register.int 2, Register.int 5], [Register.int 0, Register.int 20]] ∧
      out.Pairwise (LexLe [{ attr_index := 1, desc := true }, { attr_index := 0, desc := false }]) ∧
      ∀ t, out.filter
          (ties [{ attr_index := 1, desc := true }, { attr_index := 0, desc := false }] t)
        = [[Register.int 1, Register.int 10], [Register.int 1, Register.int 20],
           [Register.int 2, Register.int 5], [Register.int 0, Register.int 20]].filter
          (ties [{ attr_index := 1, desc := true }, { attr_index := 0, desc := false }] t) :=
  sort_lexicographic_stable
    [[Register.int 1, Register.int 10], [Register.int 1, Register.int 20],
     [Register.int 2, Register.int 5], [Register.int 0, Register.int 20]]
    [{ attr_index := 1, desc := true }, { attr_index := 0, desc := false }] 2 (by
    intro c hc
    refine ⟨RegisterType.INT64, ?_⟩
    simp only [List.mem_cons, List.mem_singleton, List.not_mem_nil, or_false] at hc
    rcases hc with rfl | rfl <;> decide)

/-! ### HashAggregation -/

theorem ht_find_eq_none_iff {κ ν : Type} [DecidableEq κ] (ht : List (κ × ν)) (key : κ) :
    ht_find ht key = none ↔ key ∉ ht.map Prod.fst := by
  induction ht with
  | nil => simp [ht_find]
  | cons e ht ih =>
    obtain ⟨k, v⟩ := e
    by_cases h : k = key
    · simp [ht_find, h]
    · have h' : ¬ key = k := fun h' => h h'.symm
      simp [ht_find, h, h', ih]

theorem ht_find_of_mem {κ ν : Type} [DecidableEq κ] (ht : List (κ × ν)) (key : κ) (value : ν)
    (hnodup : (ht.map Prod.fst).Nodup) (hmem : (key, value) ∈ ht) :
    ht_find ht key = some value := by
  induction ht with
  | nil => simp at hmem
  | cons e ht ih =>
    obtain ⟨k, v⟩ := e
    rw [List.map_cons, List.nodup_cons] at hnodup
    rcases List.mem_cons.1 hmem with h | h
    · cases h
      simp [ht_find]
    · have hk : k ≠ key := by
        intro hk
        apply hnodup.1
        rw [hk]
        exact List.mem_map.2 ⟨(key, value), h, rfl⟩
      simp [ht_find, hk, ih hnodup.2 h]

theorem ht_keys_set {κ ν : Type} [DecidableEq κ] (ht : List (κ × ν)) (key : κ) (value : ν) :
    (ht_set ht key value).map Prod.fst
      = if key ∈ ht.map Prod.fst then ht.map Prod.fst else ht.map Prod.fst ++ [key] := by
  induction ht with
  | nil => simp [ht_set]
  | cons e ht ih =>
    obtain ⟨k, v⟩ := e
    by_cases h : k = key
    · simp [ht_set, h]
    · have h' : ¬ key = k := fun h' => h h'.symm
      by_cases hm : key ∈ ht.map Prod.fst
      · simp only [ht_set, h, if_false, List.map_cons, ih, if_pos hm, List.mem_cons, hm,
          or_true, if_true]
      · simp only [ht_set, h, if_false, List.map_cons, ih, if_neg hm, List.mem_cons, hm,
          or_false, h', List.cons_append]

theorem int64_add (a b : Int) : int64 (int64 a + b) = int64 (a + b) := by
  unfold int64
  omega

theorem int64_small (a : Int) (h0 : 0 ≤ a) (h1 : a < 9223372036854775808) : int64 a = a := by
  unfold int64
  omega

theorem less_irrefl (x : Register) : ¬ Register.Less x x := by
  cases x <;> simp [Register.Less]

theorem less_trans (x y z : Register) (h1 : Register.Less x y) (h2 : Register.Less y z) :
    Register.Less x z := by
  cases x <;> cases y <;> cases z <;> simp only [Register.Less] at h1 h2 ⊢ <;>
    exact lt_trans h1 h2

theorem group_by_regs_eq (t : Tuple) (group_by_attrs : List Nat)
    (h : ∀ i ∈ group_by_attrs, i < t.length) :
    HashAggregation.group_by_regs t group_by_attrs = some (group_key group_by_attrs t) ∧
    (group_key group_by_attrs t).length = group_by_attrs.length := by
  induction group_by_attrs with
  | nil => exact ⟨rfl, rfl⟩
  | cons i rest ih =>
    obtain ⟨x, hi⟩ : ∃ x, t[i]? = some x :=
      ⟨_, List.getElem?_eq_getElem (h i (List.mem_cons_self _ _))⟩
    obtain ⟨h1, h2⟩ := ih (fun j hj => h j (List.mem_cons_of_mem _ hj))
    constructor
    · simp only [HashAggregation.group_by_regs, hi, h1, group_key, List.filterMap_cons]
    · simp only [group_key, List.filterMap_cons, hi, List.length_cons]
      exact congrArg (· + 1) h2

theorem column_subset (f : AggrFunc) (l l' : List Tuple) (hsub : ∀ t ∈ l', t ∈ l)
    (h : Column f l) : Column f l' := by
  intro hf
  obtain ⟨ty, h1, h2⟩ := h hf
  exact ⟨ty, h1, fun t ht => h2 t (hsub t ht)⟩

theorem register_min_eq (a b : Register) (h : a.get_type = b.get_type) :
    Register.min a b = some (if Register.Less b a then b else a) := by
  unfold Register.min
  rw [register_lt_eq b a h.symm]
  by_cases hl : Register.Less b a <;> simp [hl]

theorem register_max_eq (a b : Register) (h : a.get_type = b.get_type) :
    Register.max a b = some (if Register.Less a b then b else a) := by
  unfold Register.max
  rw [register_lt_eq a b h]
  by_cases hl : Register.Less a b <;> simp [hl]

/-- The aggregate of a new group: the initial value, updated with the first
tuple of the group. -/
theorem apply_new (f : AggrFunc) (t : Tuple) (hcol : Column f [t]) :
    ∃ r0 r, (match f.func with
        | Func.MIN => t[f.attr_index]?
        | Func.MAX => t[f.attr_index]?
        | Func.SUM => some (Register.from_int 0)
        | Func.COUNT => some (Register.from_int 0)) = some r0 ∧
      HashAggregation.apply t f r0 = some r ∧ IsAggregate f [t] r := by
  cases hf : f.func
  · obtain ⟨ty, _, hty⟩ := hcol (by simp [hf])
    obtain ⟨x, hx, _⟩ := hty t (List.mem_singleton_self _)
    refine ⟨x, x, hx, ?_, ?_⟩
    · simp [HashAggregation.apply, hf, hx, register_min_eq x x rfl]
    · simp only [IsAggregate, hf, List.mem_singleton, exists_eq_left, forall_eq]
      refine ⟨hx, fun v hv => ?_⟩
      rw [hx] at hv
      cases hv
      exact less_irrefl x
  · obtain ⟨ty, _, hty⟩ := hcol (by simp [hf])
    obtain ⟨x, hx, _⟩ := hty t (List.mem_singleton_self _)
    refine ⟨x, x, hx, ?_, ?_⟩
    · simp [HashAggregation.apply, hf, hx, register_max_eq x x rfl]
    · simp only [IsAggregate, hf, List.mem_singleton, exists_eq_left, forall_eq]
      refine ⟨hx, fun v hv => ?_⟩
      rw [hx] at hv
      cases hv
      exact less_irrefl x
  · obtain ⟨ty, hsum, hty⟩ := hcol (by simp [hf])
    obtain ⟨x, hx, hxt⟩ := hty t (List.mem_singleton_self _)
    rw [hsum hf] at hxt
    cases x with
    | str s => simp [Register.get_type] at hxt
    | int v =>
      refine ⟨Register.int 0, Register.int (int64 (0 + v)), rfl, ?_, ?_⟩
      · simp [HashAggregation.apply, hf, hx, Register.as_int, Register.from_int]
      · simp [IsAggregate, hf, attr_int, hx]
  · refine ⟨Register.int 0, Register.int (int64 (0 + 1)), rfl, ?_, ?_⟩
    · simp [HashAggregation.apply, hf, Register.as_int, Register.from_int]
    · simp [IsAggregate, hf, int64]

/-- The aggregate of a group that grows by one tuple. -/
theorem apply_existing (f : AggrFunc) (group : List Tuple) (t : Tuple) (r : Register)
    (hcol : Column f (group ++ [t])) (hlen : group.length + 1 < 9223372036854775808)
    (hr : IsAggregate f group r) :
    ∃ r', HashAggregation.apply t f r = some r' ∧ IsAggregate f (group ++ [t]) r' := by
  cases hf : f.func
  · obtain ⟨ty, _, hty⟩ := hcol (by simp [hf])
    obtain ⟨x, hx, hxt⟩ := hty t (by simp)
    simp only [IsAggregate, hf] at hr ⊢
    obtain ⟨⟨u, hu, hur⟩, hmin⟩ := hr
    obtain ⟨r₁, hr₁, hrt⟩ := hty u (by simp [hu])
    rw [hur] at hr₁
    cases hr₁
    have hsame : r.get_type = x.get_type := by rw [hrt, hxt]
    refine ⟨if Register.Less x r then x else r, ?_, ?_⟩
    · simp [HashAggregation.apply, hf, hx, register_min_eq r x hsame]
    · by_cases hl : Register.Less x r
      · rw [if_pos hl]
        refine ⟨⟨t, by simp, hx⟩, fun w hw v hv => ?_⟩
        rcases List.mem_append.1 hw with hw | hw
        · exact fun h => hmin w hw v hv (less_trans v x r h hl)
        · rw [List.mem_singleton.1 hw, hx] at hv
          cases hv
          exact less_irrefl x
      · rw [if_neg hl]
        refine ⟨⟨u, by simp [hu], hur⟩, fun w hw v hv => ?_⟩
        rcases List.mem_append.1 hw with hw | hw
        · exact hmin w hw v hv
        · rw [List.mem_singleton.1 hw, hx] at hv
          cases hv
          exact hl
  · obtain ⟨ty, _, hty⟩ := hcol (by simp [hf])
    obtain ⟨x, hx, hxt⟩ := hty t (by simp)
    simp only [IsAggregate, hf] at hr ⊢
    obtain ⟨⟨u, hu, hur⟩, hmax⟩ := hr
    obtain ⟨r₁, hr₁, hrt⟩ := hty u (by simp [hu])
    rw [hur] at hr₁
    cases hr₁
    have hsame : r.get_type = x.get_type := by rw [hrt, hxt]
    refine ⟨if Register.Less r x then x else r, ?_, ?_⟩
    · simp [HashAggregation.apply, hf, hx, register_max_eq r x hsame]
    · by_cases hl : Register.Less r x
      · rw [if_pos hl]
        refine ⟨⟨t, by simp, hx⟩, fun w hw v hv => ?_⟩
        rcases List.mem_append.1 hw with hw | hw
        · exact fun h => hmax w hw v hv (less_trans r x v hl h)
        · rw [List.mem_singleton.1 hw, hx] at hv
          cases hv
          exact less_irrefl x
      · rw [if_neg hl]
        refine ⟨⟨u, by simp [hu], hur⟩, fun w hw v hv => ?_⟩
        rcases List.mem_append.1 hw with hw | hw
        · exact hmax w hw v hv
        · rw [List.mem_singleton.1 hw, hx] at hv
          cases hv
          exact hl
  · obtain ⟨ty, hsum, hty⟩ := hcol (by simp [hf])
    obtain ⟨x, hx, hxt⟩ := hty t (by simp)
    rw [hsum hf] at hxt
    simp only [IsAggregate, hf] at hr ⊢
    cases x with
    | str s => simp [Register.get_type] at hxt
    | int v =>
      refine ⟨_, ?_, rfl⟩
      rw [hr]
      simp [HashAggregation.apply, hf, hx, Register.as_int, Register.from_int, attr_int,
        int64_add]
  · simp only [IsAggregate, hf] at hr ⊢
    refine ⟨_, ?_, rfl⟩
    rw [hr]
    have h1 : int64 ((group.length : Int) + 1) = (group.length : Int) + 1 :=
      int64_small _ (by omega) (by omega)
    simp [HashAggregation.apply, hf, Register.as_int, Register.from_int, h1]

theorem init_update_new (t : Tuple) (aggr_funcs : List AggrFunc) :
    (∀ f ∈ aggr_funcs, Column f [t]) →
    ∃ init aggregates, HashAggregation.init t aggr_funcs = some init ∧
      HashAggregation.update t aggr_funcs init = some aggregates ∧
      List.Forall₂ (fun f r => IsAggregate f [t] r) aggr_funcs aggregates := by
  induction aggr_funcs with
  | nil =>
    intro _
    exact ⟨[], [], rfl, rfl, List.Forall₂.nil⟩
  | cons f funcs ih =>
    intro hcol
    obtain ⟨init, aggregates, h1, h2, h3⟩ := ih (fun g hg => hcol g (List.mem_cons_of_mem _ hg))
    obtain ⟨r0, r, h4, h5, h6⟩ := apply_new f t (hcol f (List.mem_cons_self _ _))
    refine ⟨r0 :: init, r :: aggregates, ?_, ?_, List.Forall₂.cons h6 h3⟩
    · simp only [HashAggregation.init, h4, h1]
    · simp only [HashAggregation.update, h5, h2]

theorem update_existing (t : Tuple) (group : List Tuple)
    (hlen : group.length + 1 < 9223372036854775808) (aggr_funcs : List AggrFunc) :
    ∀ aggregates : Tuple,
      List.Forall₂ (fun f r => IsAggregate f group r) aggr_funcs aggregates →
      (∀ f ∈ aggr_funcs, Column f (group ++ [t])) →
      ∃ aggregates', HashAggregation.update t aggr_funcs aggregates = some aggregates' ∧
        List.Forall₂ (fun f r => IsAggregate f (group ++ [t]) r) aggr_funcs aggregates' := by
  induction aggr_funcs with
  | nil =>
    intro aggregates h _
    rw [List.forall₂_nil_left_iff] at h
    subst h
    exact ⟨[], rfl, List.Forall₂.nil⟩
  | cons f funcs ih =>
    intro aggregates h hcol
    obtain ⟨r, rest, hr, hrest, rfl⟩ := List.forall₂_cons_left_iff.1 h
    obtain ⟨rest', h1, h2⟩ := ih rest hrest (fun g hg => hcol g (List.mem_cons_of_mem _ hg))
    obtain ⟨r', h3, h4⟩ := apply_existing f group t r (hcol f (List.mem_cons_self _ _)) hlen hr
    refine ⟨r' :: rest', ?_, List.Forall₂.cons h4 h2⟩
    simp only [HashAggregation.update, h3, h1]

theorem group_of_append (group_by_attrs : List Nat) (p : List Tuple) (t key : Tuple) :
    group_of group_by_attrs (p ++ [t]) key
      = if group_key group_by_attrs t = key then group_of group_by_attrs p key ++ [t]
        else group_of group_by_attrs p key := by
  unfold group_of
  by_cases h : group_key group_by_attrs t = key
  · simp [List.filter_append, List.filter_cons, h]
  · simp [List.filter_append, List.filter_cons, h]

theorem group_of_eq_nil (group_by_attrs : List Nat) (p : List Tuple) (key : Tuple)
    (h : key ∉ p.map (group_key group_by_attrs)) : group_of group_by_attrs p key = [] := by
  unfold group_of
  rw [List.filter_eq_nil_iff]
  intro t ht hkey
  apply h
  rw [List.mem_map]
  exact ⟨t, ht, by simpa using hkey⟩

/-- One iteration of the loop over the input of `HashAggregation::next`. -/
theorem consume_spec (group_by_attrs : List Nat) (aggr_funcs : List AggrFunc)
    (p : List Tuple) (ht : List (Tuple × Tuple)) (t : Tuple)
    (hInv : Aggregated group_by_attrs aggr_funcs p ht)
    (hgb : ∀ i ∈ group_by_attrs, i < t.length)
    (hcol : ∀ f ∈ aggr_funcs, Column f (p ++ [t]))
    (hlen : p.length + 1 < 9223372036854775808) :
    ∃ ht', HashAggregation.consume group_by_attrs aggr_funcs ht t = some (ht', false) ∧
      Aggregated group_by_attrs aggr_funcs (p ++ [t]) ht' := by
  obtain ⟨hnodup, hkeys, haggs⟩ := hInv
  obtain ⟨hk, _⟩ := group_by_regs_eq t group_by_attrs hgb
  cases hf : ht_find ht (group_key group_by_attrs t) with
  | none =>
    have hnot : group_key group_by_attrs t ∉ ht.map Prod.fst :=
      (ht_find_eq_none_iff ht _).1 hf
    obtain ⟨init, aggs, h1, h2, h3⟩ := init_update_new t aggr_funcs
      (fun f hf' => column_subset f (p ++ [t]) [t] (by simp) (hcol f hf'))
    refine ⟨ht_set ht (group_key group_by_attrs t) aggs, ?_, ?_, ?_, ?_⟩
    · simp [HashAggregation.consume, hk, hf, h1, h2]
    · rw [ht_keys_set, if_neg hnot]
      exact List.Nodup.append hnodup (List.nodup_singleton _)
        (by simpa [List.disjoint_singleton] using hnot)
    · intro key
      rw [ht_keys_set, if_neg hnot]
      simp only [List.mem_append, List.mem_singleton, List.map_append, List.map_cons,
        List.map_nil, hkeys key]
    · intro key aggregates hfind
      by_cases hkk : group_key group_by_attrs t = key
      · subst hkk
        rw [ht_find_set_self] at hfind
        cases hfind
        rw [group_of_append, if_pos rfl, group_of_eq_nil group_by_attrs p _
          (fun h => hnot ((hkeys _).2 h)), List.nil_append]
        exact h3
      · rw [ht_find_set_other ht _ key aggs hkk] at hfind
        rw [group_of_append, if_neg hkk]
        exact haggs key aggregates hfind
  | some aggs0 =>
    have hmem : group_key group_by_attrs t ∈ ht.map Prod.fst := by
      by_contra hnot
      rw [(ht_find_eq_none_iff ht _).2 hnot] at hf
      exact Option.noConfusion hf
    have hF := haggs _ aggs0 hf
    have hscrut : (if aggs0.isEmpty then HashAggregation.init t aggr_funcs else some aggs0)
        = some aggs0 := by
      cases aggs0 with
      | nil =>
        rw [List.forall₂_nil_right_iff] at hF
        subst hF
        rfl
      | cons x xs => rfl
    have hle : (group_of group_by_attrs p (group_key group_by_attrs t)).length ≤ p.length :=
      List.length_filter_le _ _
    obtain ⟨aggs, h1, h2⟩ := update_existing t
      (group_of group_by_attrs p (group_key group_by_attrs t)) (by omega) aggr_funcs aggs0 hF
      (fun f hf' => column_subset f (p ++ [t]) _ (by
        intro u hu
        rcases List.mem_append.1 hu with hu | hu
        · exact List.mem_append_left _ (List.mem_of_mem_filter hu)
        · exact List.mem_append_right _ hu) (hcol f hf'))
    refine ⟨ht_set ht (group_key group_by_attrs t) aggs, ?_, ?_, ?_, ?_⟩
    · simp only [HashAggregation.consume, hk, hf, Option.getD_some, hscrut, h1]
    · rw [ht_keys_set, if_pos hmem]
      exact hnodup
    · intro key
      rw [ht_keys_set, if_pos hmem]
      simp only [List.mem_append, List.mem_singleton, List.map_append, List.map_cons,
        List.map_nil, ← hkeys key]
      constructor
      · exact Or.inl
      · rintro (h | rfl)
        · exact h
        · exact hmem
    · intro key aggregates hfind
      by_cases hkk : group_key group_by_attrs t = key
      · subst hkk
        rw [ht_find_set_self] at hfind
        cases hfind
        rw [group_of_append, if_pos rfl]
        exact h2
      · rw [ht_find_set_other ht _ key aggs hkk] at hfind
        rw [group_of_append, if_neg hkk]
        exact haggs key aggregates hfind

/-- The loop over the input of `HashAggregation::next`. -/
theorem consume_all (group_by_attrs : List Nat) (aggr_funcs : List AggrFunc)
    (rest : List Tuple) :
    ∀ (p : List Tuple) (ht : List (Tuple × Tuple)) (regs : Tuple) (fuel : Nat),
      Aggregated group_by_attrs aggr_funcs p ht →
      (∀ t ∈ rest, ∀ i ∈ group_by_attrs, i < t.length) →
      (∀ f ∈ aggr_funcs, Column f (p ++ rest)) →
      (p ++ rest).length < 9223372036854775808 → rest.length < fuel →
      ∃ regs' ht', while_next (HashAggregation.consume group_by_attrs aggr_funcs) fuel
          { regs := regs, rest := rest } ht = some ({ regs := regs', rest := [] }, ht', false) ∧
        Aggregated group_by_attrs aggr_funcs (p ++ rest) ht' := by
  induction rest with
  | nil =>
    intro p ht regs fuel hInv _ _ _ hfuel
    obtain ⟨fuel, rfl⟩ : ∃ f, fuel = f + 1 := ⟨fuel - 1, by omega⟩
    exact ⟨regs, ht, rfl, by simpa using hInv⟩
  | cons t rest ih =>
    intro p ht regs fuel hInv hgb hcol hlen hfuel
    obtain ⟨fuel, rfl⟩ : ∃ f, fuel = f + 1 := ⟨fuel - 1, by omega⟩
    have happ : p ++ t :: rest = (p ++ [t]) ++ rest := by simp
    obtain ⟨ht1, h1, hInv1⟩ := consume_spec group_by_attrs aggr_funcs p ht t hInv
      (hgb t (List.mem_cons_self _ _))
      (fun f hf => column_subset f (p ++ t :: rest) _ (by
        intro u hu
        rw [happ]
        exact List.mem_append_left _ hu) (hcol f hf))
      (by simp only [List.length_append, List.length_cons] at hlen; omega)
    rw [while_next_cons, h1]
    simp only
    rw [happ] at hcol hlen ⊢
    exact ih (p ++ [t]) ht1 t fuel hInv1 (fun u hu => hgb u (List.mem_cons_of_mem _ hu))
      hcol hlen (by simp only [List.length_cons] at hfuel; omega)

theorem aggregation_emit (group_by_attrs : List Nat) (aggr_funcs : List AggrFunc)
    (first second output_regs : Tuple) (h1 : first.length = group_by_attrs.length)
    (h2 : second.length = aggr_funcs.length)
    (hout : output_regs.length = aggr_funcs.length + group_by_attrs.length) :
    ∃ mid, copy_regs group_by_attrs.length 0 first output_regs = some mid ∧
      copy_regs aggr_funcs.length group_by_attrs.length second mid = some (first ++ second) := by
  obtain ⟨h3, h4⟩ := copy_regs_concat first second output_regs (by omega)
  rw [h1, h2] at h4
  rw [h1] at h3
  exact ⟨_, h3, h4⟩

theorem aggregation_stream (iteration : List (Tuple × Tuple) → List (Tuple × Tuple))
    (input : Source) (group_by_attrs : List Nat) (aggr_funcs : List AggrFunc)
    (ht : List (Tuple × Tuple)) (rest : List (Tuple × Tuple)) :
    ∀ (e : Tuple × Tuple) (output_regs : Tuple) (fuel : Nat),
      (∀ e' ∈ rest, e'.1.length = group_by_attrs.length ∧ e'.2.length = aggr_funcs.length) →
      output_regs.length = aggr_funcs.length + group_by_attrs.length → rest.length < fuel →
      produce (HashAggregation.next iteration) HashAggregation.get_output fuel
        { input := input, group_by_attrs := group_by_attrs, aggr_funcs := aggr_funcs,
          ht := ht, seen_input := true, output_iterator := e :: rest,
          output_regs := output_regs } = some (rest.map (fun e' => e'.1 ++ e'.2)) := by
  induction rest with
  | nil =>
    intro e output_regs fuel _ _ hfuel
    obtain ⟨fuel, rfl⟩ : ∃ f, fuel = f + 1 := ⟨fuel - 1, by omega⟩
    simp [produce, HashAggregation.next]
  | cons e' rest ih =>
    intro e output_regs fuel hrest hout hfuel
    obtain ⟨fuel, rfl⟩ : ∃ f, fuel = f + 1 := ⟨fuel - 1, by omega⟩
    obtain ⟨h1, h2⟩ := hrest e' (List.mem_cons_self _ _)
    obtain ⟨mid, h3, h4⟩ := aggregation_emit group_by_attrs aggr_funcs e'.1 e'.2 output_regs
      h1 h2 hout
    have hnext : HashAggregation.next iteration
        { input := input, group_by_attrs := group_by_attrs, aggr_funcs := aggr_funcs,
          ht := ht, seen_input := true, output_iterator := e :: e' :: rest,
          output_regs := output_regs }
        = some (HashAggregation.mk input group_by_attrs aggr_funcs ht true (e' :: rest)
            (e'.1 ++ e'.2), true) := by
      obtain ⟨first, second⟩ := e'
      simp [HashAggregation.next, h3, h4]
    simp only [produce, hnext, List.map_cons]
    rw [ih e' (e'.1 ++ e'.2) fuel (fun x hx => hrest x (List.mem_cons_of_mem _ hx))
      (by rw [List.length_append, h1, h2]; omega) (by simpa using hfuel)]
    rfl

/-- C14: for an input in which every tuple has the group-by attributes and the
attribute of every aggregate other than COUNT has one variant (the integer
variant for SUM), and for whatever order the iterator visits the hash table
in, `HashAggregation` produces exactly one tuple per distinct group-by key of
the input; the tuple is the key followed by the aggregates of the group of
that key, where MIN is the least and MAX the greatest value of the attribute
in the group, SUM the `int64_t` sum of the attribute and COUNT the number of
tuples of the group; `|input| + 1` calls of `next()` suffice. -/
theorem hash_aggregation_one_tuple_per_group (input : List Tuple) (width : Nat)
    (group_by_attrs : List Nat) (aggr_funcs : List AggrFunc)
    (iteration : List (Tuple × Tuple) → List (Tuple × Tuple))
    (hiter : ∀ ht, (iteration ht).Perm ht)
    (hgroup : ∀ t ∈ input, ∀ i ∈ group_by_attrs, i < t.length)
    (hcol : ∀ f ∈ aggr_funcs, Column f input)
    (hlen : input.length < 9223372036854775808) :
    ∃ out, produce (HashAggregation.next iteration) HashAggregation.get_output
        (input.length + 1)
        (HashAggregation.open (Source.scan width input) group_by_attrs aggr_funcs) = some out ∧
      (out.map (List.take group_by_attrs.length)).Perm
        ((input.map (group_key group_by_attrs)).dedup) ∧
      ∀ o ∈ out, ∃ aggregates, o = o.take group_by_attrs.length ++ aggregates ∧
        List.Forall₂
          (fun f r => IsAggregate f
            (group_of group_by_attrs input (o.take group_by_attrs.length)) r)
          aggr_funcs aggregates := by
  have hInv0 : Aggregated group_by_attrs aggr_funcs [] [] :=
    ⟨List.nodup_nil, fun key => by simp, fun key aggregates h => by simp [ht_find] at h⟩
  obtain ⟨regs', ht, hloop, hInv⟩ := consume_all group_by_attrs aggr_funcs input [] []
    (List.replicate width (Register.int 0)) (input.length + 1) hInv0 hgroup
    (by simpa using hcol) (by simpa using hlen) (by omega)
  rw [List.nil_append] at hInv
  obtain ⟨hnodup, hkeys, haggs⟩ := hInv
  have hperm := hiter ht
  have hentry : ∀ e ∈ iteration ht, e.1.length = group_by_attrs.length ∧
      e.2.length = aggr_funcs.length ∧
      List.Forall₂ (fun f r => IsAggregate f (group_of group_by_attrs input e.1) r)
        aggr_funcs e.2 := by
    intro e he
    have hmem : e ∈ ht := hperm.mem_iff.1 he
    have hkey : e.1 ∈ input.map (group_key group_by_attrs) :=
      (hkeys e.1).1 (List.mem_map_of_mem Prod.fst hmem)
    obtain ⟨t, ht_in, hte⟩ := List.mem_map.1 hkey
    have hF := haggs e.1 e.2 (ht_find_of_mem ht e.1 e.2 hnodup hmem)
    refine ⟨?_, hF.length_eq.symm, hF⟩
    rw [← hte]
    exact (group_by_regs_eq t group_by_attrs (hgroup t ht_in)).2
  have hcount : (iteration ht).length ≤ input.length := by
    rw [hperm.length_eq, ← List.length_map ht Prod.fst, ← List.length_map input
      (group_key group_by_attrs)]
    exact (hnodup.subperm (fun key hkey => (hkeys key).1 hkey)).length_le
  have htake : ∀ e ∈ iteration ht, List.take group_by_attrs.length (e.1 ++ e.2) = e.1 := by
    intro e he
    rw [← (hentry e he).1]
    simp
  refine ⟨(iteration ht).map (fun e => e.1 ++ e.2), ?_, ?_, ?_⟩
  · cases horder : iteration ht with
    | nil =>
      have hnext : HashAggregation.next iteration
          (HashAggregation.open (Source.scan width input) group_by_attrs aggr_funcs)
          = some (HashAggregation.mk { regs := regs', rest := [] } group_by_attrs aggr_funcs
              ht true []
              (List.replicate (aggr_funcs.length + group_by_attrs.length) (Register.int 0)),
              false) := by
        simp [HashAggregation.next, HashAggregation.open, Source.scan, hloop, horder]
      simp [produce, hnext]
    | cons e rest =>
      rw [horder] at hentry hcount
      obtain ⟨h1, h2, _⟩ := hentry e (List.mem_cons_self _ _)
      obtain ⟨mid, h3, h4⟩ := aggregation_emit group_by_attrs aggr_funcs e.1 e.2
        (List.replicate (aggr_funcs.length + group_by_attrs.length) (Register.int 0))
        h1 h2 (by simp)
      have hnext : HashAggregation.next iteration
          (HashAggregation.open (Source.scan width input) group_by_attrs aggr_funcs)
          = some (HashAggregation.mk { regs := regs', rest := [] } group_by_attrs aggr_funcs
              ht true (e :: rest) (e.1 ++ e.2), true) := by
        obtain ⟨first, second⟩ := e
        simp [HashAggregation.next, HashAggregation.open, Source.scan, hloop, horder, h3, h4]
      simp only [produce, hnext, List.map_cons]
      rw [aggregation_stream iteration _ group_by_attrs aggr_funcs ht rest e (e.1 ++ e.2)
        input.length
        (fun x hx => ⟨(hentry x (List.mem_cons_of_mem _ hx)).1,
          (hentry x (List.mem_cons_of_mem _ hx)).2.1⟩)
        (by rw [List.length_append, h1, h2]; omega)
        (by simp only [List.length_cons] at hcount; omega)]
      rfl
  · rw [List.map_map]
    have hmap : (iteration ht).map (List.take group_by_attrs.length ∘ fun e => e.1 ++ e.2)
        = (iteration ht).map Prod.fst :=
      List.map_congr_left (fun e he => htake e he)
    rw [hmap]
    refine (hperm.map Prod.fst).trans ?_
    rw [List.perm_ext_iff_of_nodup hnodup (List.nodup_dedup _)]
    intro key
    rw [hkeys key, List.mem_dedup]
  · intro o ho
    obtain ⟨e, he, rfl⟩ := List.mem_map.1 ho
    refine ⟨e.2, ?_, ?_⟩
    · rw [htake e he]
    · rw [htake e he]
      exact (hentry e he).2.2

/-- C14 (witness and worked example): the input `{(1,10), (1,20), (2,5)}`
grouped by attribute 0 with the aggregates `[SUM(1), COUNT]`; visiting the hash
table in insertion order gives `[(1,30,2), (2,5,1)]`. -/
theorem hash_aggregation_one_tuple_per_group_witness :
    (∃ out, produce (HashAggregation.next id) HashAggregation.get_output 4
        (HashAggregation.open
          (Source.scan 2 [[Register.int 1, Register.int 10], [Register.int 1, Register.int 20],
            [Register.int 2, Register.int 5]])
          [0] [{ func := Func.SUM, attr_index := 1 }, { func := Func.COUNT, attr_index := 0 }])
        = some out ∧
      (out.map (List.take [0].length)).Perm
        (([[Register.int 1, Register.int 10], [Register.int 1, Register.int 20],
            [Register.int 2, Register.int 5]].map (group_key [0])).dedup) ∧
      ∀ o ∈ out, ∃ aggregates, o = o.take [0].length ++ aggregates ∧
        List.Forall₂
          (fun f r => IsAggregate f
            (group_of [0] [[Register.int 1, Register.int 10],
              [Register.int 1, Register.int 20], [Register.int 2, Register.int 5]]
              (o.take [0].length)) r)
          [{ func := Func.SUM, attr_index := 1 }, { func := Func.COUNT, attr_index := 0 }]
          aggregates) ∧
    produce (HashAggregation.next id) HashAggregation.get_output 4
        (HashAggregation.open
          (Source.scan 2 [[Register.int 1, Register.int 10], [Register.int 1, Register.int 20],
            [Register.int 2, Register.int 5]])
          [0] [{ func := Func.SUM, attr_index := 1 }, { func := Func.COUNT, attr_index := 0 }])
      = some [[Register.int 1, Register.int 30, Register.int 2],
              [Register.int 2, Register.int 5, Register.int 1]] := by
  refine ⟨hash_aggregation_one_tuple_per_group
    [[Register.int 1, Register.int 10], [Register.int 1, Register.int 20],
      [Register.int 2, Register.int 5]] 2 [0]
    [{ func := Func.SUM, attr_index := 1 }, { func := Func.COUNT, attr_index := 0 }] id
    (fun _ => List.Perm.refl _) (by decide) ?_ (by decide), by decide⟩
  intro f hf
  simp only [List.mem_cons, List.mem_singleton, List.not_mem_nil, or_false] at hf
  rcases hf with rfl | rfl
  · intro _
    refine ⟨RegisterType.INT64, fun _ => rfl, fun t ht => ?_⟩
    simp only [List.mem_cons, List.mem_singleton, List.not_mem_nil, or_false] at ht
    rcases ht with rfl | rfl | rfl <;> exact ⟨_, rfl, rfl⟩
  · intro h
    exact absurd rfl h

/-! ### Except and ExceptAll -/

theorem mem_of_ht_find {κ ν : Type} [DecidableEq κ] (ht : List (κ × ν)) (key : κ) (value : ν)
    (h : ht_find ht key = some value) : (key, value) ∈ ht := by
  induction ht with
  | nil => simp [ht_find] at h
  | cons e ht ih =>
    obtain ⟨k, v⟩ := e
    by_cases hk : k = key
    · subst hk
      simp only [ht_find, if_true, Option.some.injEq] at h
      subst h
      exact List.mem_cons_self _ _
    · simp only [ht_find, hk, if_false] at h
      exact List.mem_cons_of_mem _ (ih h)

theorem nodup_keys_set {κ ν : Type} [DecidableEq κ] (ht : List (κ × ν)) (key : κ) (value : ν)
    (h : (ht.map Prod.fst).Nodup) : ((ht_set ht key value).map Prod.fst).Nodup := by
  rw [ht_keys_set]
  by_cases hm : key ∈ ht.map Prod.fst
  · rw [if_pos hm]
    exact h
  · rw [if_neg hm]
    exact List.Nodup.append h (List.nodup_singleton _)
      (by simpa [List.disjoint_singleton] using hm)

theorem counter_perm (ht entries : List (Tuple × Nat)) (hperm : entries.Perm ht)
    (hnodup : (ht.map Prod.fst).Nodup) (t : Tuple) : counter entries t = counter ht t := by
  have hnodup' : (entries.map Prod.fst).Nodup := (hperm.map Prod.fst).nodup_iff.2 hnodup
  unfold counter
  cases hf : ht_find ht t with
  | some c =>
    rw [ht_find_of_mem entries t c hnodup' (hperm.mem_iff.2 (mem_of_ht_find ht t c hf))]
  | none =>
    have hnot : t ∉ entries.map Prod.fst := by
      intro hm
      exact (ht_find_eq_none_iff ht t).1 hf ((hperm.map Prod.fst).mem_iff.1 hm)
    rw [(ht_find_eq_none_iff entries t).2 hnot]

theorem count_expand (entries : List (Tuple × Nat)) (t : Tuple) :
    (entries.map Prod.fst).Nodup → (expand entries).count t = counter entries t := by
  induction entries with
  | nil => intro _; rfl
  | cons e entries ih =>
    obtain ⟨k, c⟩ := e
    intro hnodup
    rw [List.map_cons, List.nodup_cons] at hnodup
    have hexp : expand ((k, c) :: entries) = List.replicate c k ++ expand entries := rfl
    rw [hexp, List.count_append, ih hnodup.2, List.count_replicate]
    by_cases hk : k = t
    · subst hk
      have h0 : counter entries k = 0 := by
        unfold counter
        rw [(ht_find_eq_none_iff entries k).2 hnodup.1]
        rfl
      have h1 : counter ((k, c) :: entries) k = c := by simp [counter, ht_find]
      rw [h0, h1]
      simp
    · have hkt : (k == t) = false := by simpa using hk
      have h1 : counter ((k, c) :: entries) t = counter entries t := by
        simp [counter, ht_find, hk]
      rw [h1]
      simp [hkt]

theorem length_expand (entries : List (Tuple × Nat)) : (expand entries).length = total entries := by
  induction entries with
  | nil => rfl
  | cons e entries ih =>
    have hexp : expand (e :: entries) = List.replicate e.2 e.1 ++ expand entries := rfl
    rw [hexp, List.length_append, ih, List.length_replicate]
    simp [total]

theorem total_set (ht : List (Tuple × Nat)) (key : Tuple) (value : Nat) :
    total (ht_set ht key value) + counter ht key = total ht + value := by
  induction ht with
  | nil => simp [ht_set, total, counter, ht_find]
  | cons e ht ih =>
    obtain ⟨k, c⟩ := e
    by_cases hk : k = key
    · simp [ht_set, total, counter, ht_find, hk]
      omega
    · simp only [ht_set, hk, if_false, total, List.map_cons, List.sum_cons, counter, ht_find]
        at ih ⊢
      omega

theorem subtract_eq (ht : List (Tuple × Nat)) (t : Tuple) :
    Except.subtract ht t = some (subtracted ht t, false) := by
  unfold Except.subtract subtracted counter
  cases ht_find ht t with
  | none => simp
  | some c => by_cases hc : 0 < c <;> simp [hc]

theorem counter_subtracted (B : List Tuple) :
    ∀ (ht : List (Tuple × Nat)) (t : Tuple),
      counter (B.foldl subtracted ht) t = counter ht t - B.count t := by
  induction B with
  | nil => intro ht t; simp
  | cons b B ih =>
    intro ht t
    rw [List.foldl_cons, ih, List.count_cons]
    unfold subtracted
    by_cases hpos : 0 < counter ht b
    · rw [if_pos hpos, counter_set]
      by_cases hbt : b = t
      · subst hbt
        simp
        omega
      · have : (b == t) = false := by simpa using hbt
        simp [hbt, this]
    · rw [if_neg hpos]
      by_cases hbt : b = t
      · subst hbt
        simp
        omega
      · have : (b == t) = false := by simpa using hbt
        simp [this]

theorem nodup_keys_fold (g : List (Tuple × Nat) → Tuple → List (Tuple × Nat))
    (hg : ∀ ht t, ((ht.map Prod.fst).Nodup → ((g ht t).map Prod.fst).Nodup))
    (l : List Tuple) :
    ∀ ht : List (Tuple × Nat), (ht.map Prod.fst).Nodup →
      ((l.foldl g ht).map Prod.fst).Nodup := by
  induction l with
  | nil => intro ht h; exact h
  | cons a l ih => intro ht h; exact ih _ (hg ht a h)

theorem total_fold_le (g : List (Tuple × Nat) → Tuple → List (Tuple × Nat)) (step : Nat)
    (hg : ∀ ht t, total (g ht t) ≤ total ht + step) (l : List Tuple) :
    ∀ ht : List (Tuple × Nat), total (l.foldl g ht) ≤ total ht + step * l.length := by
  induction l with
  | nil => intro ht; simp
  | cons a l ih =>
    intro ht
    have h1 := ih (g ht a)
    have h2 := hg ht a
    simp only [List.foldl_cons, List.length_cons, Nat.mul_succ]
    omega

theorem subtracted_nodup (ht : List (Tuple × Nat)) (t : Tuple)
    (h : (ht.map Prod.fst).Nodup) : ((subtracted ht t).map Prod.fst).Nodup := by
  unfold subtracted
  split
  · exact nodup_keys_set ht t _ h
  · exact h

theorem subtracted_total (ht : List (Tuple × Nat)) (t : Tuple) :
    total (subtracted ht t) ≤ total ht + 0 := by
  unfold subtracted
  split
  · have := total_set ht t (counter ht t - 1)
    omega
  · omega

theorem keys_set_subset {κ ν : Type} [DecidableEq κ] (ht : List (κ × ν)) (key k : κ)
    (value : ν) (h : k ∈ (ht_set ht key value).map Prod.fst) :
    k ∈ ht.map Prod.fst ∨ k = key := by
  rw [ht_keys_set] at h
  by_cases hm : key ∈ ht.map Prod.fst
  · rw [if_pos hm] at h
    exact Or.inl h
  · rw [if_neg hm, List.mem_append, List.mem_singleton] at h
    exact h

theorem keys_fold_subset (g : List (Tuple × Nat) → Tuple → List (Tuple × Nat))
    (hg : ∀ ht t k, k ∈ (g ht t).map Prod.fst → k ∈ ht.map Prod.fst ∨ k = t)
    (l : List Tuple) :
    ∀ (ht : List (Tuple × Nat)) (k : Tuple), k ∈ (l.foldl g ht).map Prod.fst →
      k ∈ ht.map Prod.fst ∨ k ∈ l := by
  induction l with
  | nil => intro ht k h; exact Or.inl h
  | cons a l ih =>
    intro ht k h
    rcases ih (g ht a) k h with h1 | h1
    · rcases hg ht a k h1 with h2 | h2
      · exact Or.inl h2
      · exact Or.inr (h2 ▸ List.mem_cons_self _ _)
    · exact Or.inr (List.mem_cons_of_mem _ h1)

theorem subtracted_keys (ht : List (Tuple × Nat)) (t k : Tuple)
    (h : k ∈ (subtracted ht t).map Prod.fst) : k ∈ ht.map Prod.fst := by
  unfold subtracted at h
  split at h
  · rename_i hpos
    rcases keys_set_subset ht t k _ h with h' | h'
    · exact h'
    · subst h'
      by_contra hnot
      unfold counter at hpos
      rw [(ht_find_eq_none_iff ht k).2 hnot] at hpos
      simp at hpos
  · exact h

theorem subtracted_fold_keys (l : List Tuple) :
    ∀ (ht : List (Tuple × Nat)) (k : Tuple),
      k ∈ (l.foldl subtracted ht).map Prod.fst → k ∈ ht.map Prod.fst := by
  induction l with
  | nil => intro ht k h; exact h
  | cons a l ih => intro ht k h; exact subtracted_keys ht a k (ih (subtracted ht a) k h)

theorem except_output_pos (first : Tuple) (c : Nat) (rest : List (Tuple × Nat))
    (output_regs : Tuple) (hlen : output_regs.length = first.length) :
    Except.output ((first, c + 1) :: rest) output_regs
      = some ((first, c) :: rest, first, true) := by
  have hcopy : copy_regs output_regs.length 0 first output_regs = some first := by
    rw [hlen]
    exact copy_regs_all first output_regs hlen
  simp [Except.output, hcopy]

/-- The output loop of `Except` and `ExceptAll` over the entries that the
iterator still has to visit. -/
theorem except_stream
    (count : List (Tuple × Nat) → Tuple → Option (List (Tuple × Nat) × Bool))
    (iteration : List (Tuple × Nat) → List (Tuple × Nat))
    (left right : Source) (ht : List (Tuple × Nat)) (width : Nat)
    (entries : List (Tuple × Nat)) :
    (∀ e ∈ entries, e.1.length = width) →
    ∀ (output_regs : Tuple) (fuel : Nat), output_regs.length = width → total entries < fuel →
      produce (Except.next_with count iteration) Except.get_output fuel
        { input_left := left, input_right := right, ht := ht, seen_input := true,
          current_output_it := entries, output_regs := output_regs }
        = some (expand entries) := by
  induction entries with
  | nil =>
    intro _ output_regs fuel _ hfuel
    obtain ⟨fuel, rfl⟩ : ∃ f, fuel = f + 1 := ⟨fuel - 1, by omega⟩
    simp [produce, Except.next_with, Except.output, expand]
  | cons e entries ih =>
    obtain ⟨first, c⟩ := e
    intro hwidth
    have hfirst : first.length = width := hwidth (first, c) (List.mem_cons_self _ _)
    have hrest : ∀ e ∈ entries, e.1.length = width :=
      fun e he => hwidth e (List.mem_cons_of_mem _ he)
    induction c with
    | zero =>
      intro output_regs fuel hout hfuel
      have hnext : Except.next_with count iteration
          { input_left := left, input_right := right, ht := ht, seen_input := true,
            current_output_it := (first, 0) :: entries, output_regs := output_regs }
          = Except.next_with count iteration
          { input_left := left, input_right := right, ht := ht, seen_input := true,
            current_output_it := entries, output_regs := output_regs } := by
        simp [Except.next_with, Except.output]
      rw [produce_congr _ _ _ _ _ hnext, ih hrest output_regs fuel hout
        (by simpa [total] using hfuel)]
      simp [expand]
    | succ c ihc =>
      intro output_regs fuel hout hfuel
      obtain ⟨fuel, rfl⟩ : ∃ f, fuel = f + 1 := ⟨fuel - 1, by omega⟩
      have hnext : Except.next_with count iteration
          { input_left := left, input_right := right, ht := ht, seen_input := true,
            current_output_it := (first, c + 1) :: entries, output_regs := output_regs }
          = some (Except.mk left right ht true ((first, c) :: entries) first, true) := by
        simp [Except.next_with, except_output_pos first c entries output_regs
          (by rw [hout, hfirst])]
      simp only [produce, hnext]
      rw [ihc (fun e he => by
          rcases List.mem_cons.1 he with rfl | he
          · exact hfirst
          · exact hrest e he) first fuel hfirst
        (by simp only [total, List.map_cons, List.sum_cons] at hfuel ⊢; omega)]
      simp [expand, Except.get_output, List.replicate_succ]

theorem except_produce
    (count : List (Tuple × Nat) → Tuple → Option (List (Tuple × Nat) × Bool))
    (g : List (Tuple × Nat) → Tuple → List (Tuple × Nat))
    (hcount : ∀ ht t, count ht t = some (g ht t, false))
    (hnodup : ∀ ht t, (ht.map Prod.fst).Nodup → ((g ht t).map Prod.fst).Nodup)
    (hkeys : ∀ ht t k, k ∈ (g ht t).map Prod.fst → k ∈ ht.map Prod.fst ∨ k = t)
    (htotal : ∀ ht t, total (g ht t) ≤ total ht + 1)
    (iteration : List (Tuple × Nat) → List (Tuple × Nat))
    (hiter : ∀ ht, (iteration ht).Perm ht)
    (A B : List Tuple) (width : Nat) (hA : ∀ t ∈ A, t.length = width) :
    ∃ out, produce (Except.next_with count iteration) Except.get_output (A.length + 1)
        (Except.open (Source.scan width A) (Source.scan width B)) = some out ∧
      ∀ t, out.count t = counter (A.foldl g []) t - B.count t := by
  obtain ⟨regs₁, hleft⟩ := while_next_fold count g A (List.replicate width (Register.int 0))
    [] (A.length + 1) (by omega) (fun _ t _ _ => hcount _ t)
  obtain ⟨regs₂, hright⟩ := while_next_fold Except.subtract subtracted B
    (List.replicate width (Register.int 0)) (A.foldl g []) (B.length + 1) (by omega)
    (fun _ t _ _ => subtract_eq _ t)
  have hnd : ((B.foldl subtracted (A.foldl g [])).map Prod.fst).Nodup :=
    nodup_keys_fold subtracted subtracted_nodup B _
      (nodup_keys_fold g hnodup A [] List.nodup_nil)
  have hperm := hiter (B.foldl subtracted (A.foldl g []))
  have hwidth : ∀ e ∈ iteration (B.foldl subtracted (A.foldl g [])), e.1.length = width := by
    intro e he
    have h1 : e.1 ∈ (B.foldl subtracted (A.foldl g [])).map Prod.fst :=
      List.mem_map_of_mem Prod.fst (hperm.mem_iff.1 he)
    rcases keys_fold_subset g hkeys A _ _ (subtracted_fold_keys B _ _ h1) with h2 | h2
    · simp at h2
    · exact hA _ h2
  have hfuel : total (iteration (B.foldl subtracted (A.foldl g []))) < A.length + 1 := by
    have h1 : total (iteration (B.foldl subtracted (A.foldl g [])))
        = total (B.foldl subtracted (A.foldl g [])) := by
      unfold total
      exact (hperm.map Prod.snd).sum_eq
    have h2 := total_fold_le subtracted 0 subtracted_total B (A.foldl g [])
    have h3 := total_fold_le g 1 htotal A []
    simp only [total, List.map_nil, List.sum_nil] at h1 h2 h3 ⊢
    omega
  refine ⟨expand (iteration (B.foldl subtracted (A.foldl g []))), ?_, fun t => ?_⟩
  · rw [produce_congr (Except.next_with count iteration) Except.get_output _ _
      { input_left := { regs := regs₁, rest := [] },
        input_right := { regs := regs₂, rest := [] },
        ht := B.foldl subtracted (A.foldl g []), seen_input := true,
        current_output_it := iteration (B.foldl subtracted (A.foldl g [])),
        output_regs := List.replicate width (Register.int 0) }
      (by simp [Except.next_with, Except.open, Source.scan, Source.get_output, hleft, hright])]
    exact except_stream count iteration _ _ _ width _ hwidth _ _ (by simp) hfuel
  · rw [count_expand _ t ((hperm.map Prod.fst).nodup_iff.2 hnd), counter_perm _ _ hperm hnd,
      counter_subtracted]

/-- C21: for inputs `A` and `B` (the tuples of `A` have the width of the
schema) and whatever order the iterator visits the hash table in, `Except`
produces every tuple that occurs in `A` and does not occur in `B` exactly
once and no other tuple, whatever the multiplicities in `A`; `|A| + 1` calls of
`next()` suffice. -/
theorem except_left_only_tuples_once (A B : List Tuple) (width : Nat)
    (iteration : List (Tuple × Nat) → List (Tuple × Nat))
    (hiter : ∀ ht, (iteration ht).Perm ht) (hA : ∀ t ∈ A, t.length = width) :
    ∃ out, produce (Except.next iteration) Except.get_output (A.length + 1)
        (Except.open (Source.scan width A) (Source.scan width B)) = some out ∧
      ∀ t, out.count t = if t ∈ A ∧ t ∉ B then 1 else 0 := by
  obtain ⟨out, hout, hcount⟩ := except_produce Intersect.count (fun ht t => ht_set ht t 1)
    (fun _ _ => rfl) (fun ht t h => nodup_keys_set ht t 1 h)
    (fun ht t k h => keys_set_subset ht t k 1 h)
    (fun ht t => by
      show total (ht_set ht t 1) ≤ total ht + 1
      have := total_set ht t 1
      omega) iteration hiter A B width hA
  refine ⟨out, hout, fun t => ?_⟩
  rw [hcount t, counter_fold_intersect]
  by_cases h1 : t ∈ A
  · by_cases h2 : t ∈ B
    · have := List.count_pos_iff.2 h2
      simp only [h1, h2, not_true_eq_false, and_false, if_true, if_false]
      omega
    · simp [h1, h2, List.count_eq_zero_of_not_mem h2]
  · simp [h1, counter, ht_find]

/-- C21 (witness): a tuple three times on the left that the right input
removes, and one that it does not. -/
theorem except_left_only_tuples_once_witness :
    ∃ out, produce (Except.next id) Except.get_output 6
        (Except.open
          (Source.scan 1 [[Register.int 1], [Register.int 1], [Register.int 1],
            [Register.int 2], [Register.int 2]])
          (Source.scan 1 [[Register.int 1], [Register.int 3]])) = some out ∧
      ∀ t, out.count t =
        if t ∈ [[Register.int 1], [Register.int 1], [Register.int 1], [Register.int 2],
              [Register.int 2]] ∧
          t ∉ [[Register.int 1], [Register.int 3]] then 1 else 0 :=
  except_left_only_tuples_once
    [[Register.int 1], [Register.int 1], [Register.int 1], [Register.int 2], [Register.int 2]]
    [[Register.int 1], [Register.int 3]] 1 id (fun _ => List.Perm.refl _) (by decide)

/-- C22: for inputs `A` and `B` (the tuples of `A` have the width of the
schema), every tuple `t` and whatever order the iterator visits the hash table
in, `ExceptAll` produces `t` exactly `max(0, A[t] - B[t])` times (the
subtraction of natural numbers stops at zero); `|A| + 1` calls of `next()`
suffice. -/
theorem except_all_difference_of_multiplicities (A B : List Tuple) (width : Nat)
    (iteration : List (Tuple × Nat) → List (Tuple × Nat))
    (hiter : ∀ ht, (iteration ht).Perm ht) (hA : ∀ t ∈ A, t.length = width) :
    ∃ out, produce (ExceptAll.next iteration) Except.get_output (A.length + 1)
        (Except.open (Source.scan width A) (Source.scan width B)) = some out ∧
      ∀ t, out.count t = A.count t - B.count t ∧
        (out.count t : Int) = max 0 ((A.count t : Int) - (B.count t : Int)) := by
  obtain ⟨out, hout, hcount⟩ := except_produce IntersectAll.count
    (fun ht t => ht_set ht t ((ht_find ht t).getD 0 + 1))
    (fun _ _ => rfl) (fun ht t h => nodup_keys_set ht t _ h)
    (fun ht t k h => keys_set_subset ht t k _ h)
    (fun ht t => by
      show total (ht_set ht t ((ht_find ht t).getD 0 + 1)) ≤ total ht + 1
      have := total_set ht t ((ht_find ht t).getD 0 + 1)
      unfold counter at this
      omega) iteration hiter A B width hA
  refine ⟨out, hout, fun t => ?_⟩
  have h := hcount t
  rw [counter_fold_intersect_all] at h
  have h0 : counter [] t = 0 := rfl
  rw [h0, Nat.zero_add] at h
  refine ⟨h, ?_⟩
  rw [h]
  omega

/-- C22 (witness): a tuple three times on the left and once on the right, and
a tuple more often on the right than on the left. -/
theorem except_all_difference_of_multiplicities_witness :
    ∃ out, produce (ExceptAll.next id) Except.get_output 6
        (Except.open
          (Source.scan 1 [[Register.int 1], [Register.int 1], [Register.int 1],
            [Register.int 2], [Register.int 3]])
          (Source.scan 1 [[Register.int 1], [Register.int 3], [Register.int 3]])) = some out ∧
      ∀ t, out.count t =
          [[Register.int 1], [Register.int 1], [Register.int 1], [Register.int 2],
            [Register.int 3]].count t
          - [[Register.int 1], [Register.int 3], [Register.int 3]].count t ∧
        (out.count t : Int) = max 0
          (([[Register.int 1], [Register.int 1], [Register.int 1], [Register.int 2],
            [Register.int 3]].count t : Int)
          - ([[Register.int 1], [Register.int 3], [Register.int 3]].count t : Int)) :=
  except_all_difference_of_multiplicities
    [[Register.int 1], [Register.int 1], [Register.int 1], [Register.int 2], [Register.int 3]]
    [[Register.int 1], [Register.int 3], [Register.int 3]] 1 id (fun _ => List.Perm.refl _)
    (by decide)

/-! ### `close()` and a second `open()` -/

/-- C23 (evaluation): a second run after `close()` and `open()` does not
produce the tuples of the first run.  `UnionAll` over the inputs `[(1)]` and
`[(2)]` produces `[(1), (2)]` in the first run and `[(2)]` in the second one
(`close()` does not reset `seen_input`).  `Sort` over `[(1)]` produces `[(1)]`
in the first run, and the first `next()` of the second run has no result: it
reads `sorted[1]` of the cleared vector (`next_output_offset` is not reset).
`HashAggregation` over `[(1)]` grouped by attribute 0 produces `[(1)]`, and
the first `next()` of the second run increments the invalidated iterator.
`Projection` with the indices `[0]` returns the tuple `(1)` in the first run
and the empty tuple in the second one (`close()` clears the indices). -/
theorem second_run_differs_after_close :
    produce UnionAll.next UnionAll.get_output 3
        (UnionAll.open (Source.scan 1 [[Register.int 1]]) (Source.scan 1 [[Register.int 2]]))
      = some [[Register.int 1], [Register.int 2]] ∧
    (exhaust UnionAll.next 3
        (UnionAll.open (Source.scan 1 [[Register.int 1]])
          (Source.scan 1 [[Register.int 2]]))).map
      (fun u => produce UnionAll.next UnionAll.get_output 3
        ((UnionAll.close u).reopen [[Register.int 1]] [[Register.int 2]]))
      = some (some [[Register.int 2]]) ∧
    produce SortOperator.next SortOperator.get_output 2
        (SortOperator.open (Source.scan 1 [[Register.int 1]]) [])
      = some [[Register.int 1]] ∧
    (exhaust SortOperator.next 2
        (SortOperator.open (Source.scan 1 [[Register.int 1]]) [])).map
      (fun s => SortOperator.next ((SortOperator.close s).reopen [[Register.int 1]]))
      = some none ∧
    produce (HashAggregation.next id) HashAggregation.get_output 2
        (HashAggregation.open (Source.scan 1 [[Register.int 1]]) [0] [])
      = some [[Register.int 1]] ∧
    (exhaust (HashAggregation.next id) 2
        (HashAggregation.open (Source.scan 1 [[Register.int 1]]) [0] [])).map
      (fun a => HashAggregation.next id
        ((HashAggregation.close a).reopen [[Register.int 1]]))
      = some none ∧
    (Projection.next { input := Source.scan 1 [[Register.int 1]],
                       attr_indexes := [0] }).1.get_output = some [Register.int 1] ∧
    (Projection.next (Projection.open (Projection.close
        (Projection.next (Projection.next
          { input := Source.scan 1 [[Register.int 1]], attr_indexes := [0] }).1).1)
        [[Register.int 1]])).2 = true ∧
    (Projection.next (Projection.open (Projection.close
        (Projection.next (Projection.next
          { input := Source.scan 1 [[Register.int 1]], attr_indexes := [0] }).1).1)
        [[Register.int 1]])).1.get_output = some [] := by
  refine ⟨by decide, by decide, by decide, by decide, by decide, by decide, by decide,
    by decide, by decide⟩

end Operators
